import Mathlib

/-!
# Coin-day accounting of the lino account manager

A shallow embedding of `x/account/manager.go`: the pending coin-day queue, its
recompute (`updateTXFromPendingCoinDayQueue`), deposits, the two withdrawal
policies and `GetCoinDay`, over an explicit key-value account storage.

Conventions of the embedding
* `types.Coin` wraps an arbitrary-precision integer: `Coin = Int`
  (`Plus`, `Minus` are `+`, `-`; `Minus` may go negative, as in the source).
* block time is `ctx.BlockHeader().Time.Unix()`, an `int64`: `Int`; Go's `/` on
  integers truncates toward zero: `Int.tdiv`.
* `sdk.Dec` is a fixed-point decimal of the cosmos-sdk. A value is embedded as the
  rational it denotes; `Add`/`Sub` are exact, `Mul` and `Quo` round their exact
  result. The two roundings are the fields of `DecRound` (a rounding leaves integers
  alone); `exactDec` is decimal arithmetic without rounding.
* a Go function receiving `*AccountBank`/`*PendingCoinDayQueue` and mutating them
  returns the mutated records.
* a Go method on the manager that reads and writes the store returns the
  `sdk.Error` (`none` for `nil`) together with the store after the call.
-/

namespace Lino

/-! ## Basic types -/

abbrev AccountKey := String

abbrev Coin := Int

abbrev Dec := ℚ

/-- The rounding that `sdk.Dec.Mul` and `sdk.Dec.Quo` apply to their exact result. -/
structure DecRound where
  mulRound : ℚ → ℚ
  quoRound : ℚ → ℚ
  /-- an integer is representable, so rounding leaves it alone -/
  mulRound_int : ∀ n : ℤ, mulRound n = n
  quoRound_int : ∀ n : ℤ, quoRound n = n

/-- Decimal arithmetic without rounding (decimals as exact rationals). -/
def exactDec : DecRound :=
  { mulRound := id, quoRound := id, mulRound_int := fun _ => rfl, quoRound_int := fun _ => rfl }

/-- `sdk.Dec.Mul`. -/
def Dec.Mul (dr : DecRound) (a b : Dec) : Dec := dr.mulRound (a * b)

/-- `sdk.Dec.Quo`. -/
def Dec.Quo (dr : DecRound) (a b : Dec) : Dec := dr.quoRound (a / b)

/-- `sdk.NewDec`: the decimal of an `int64`. -/
def NewDec (n : Int) : Dec := (n : ℚ)

/-- `Coin.ToDec`. -/
def Coin.ToDec (c : Coin) : Dec := (c : ℚ)

/-- Modelled from the spec: `types.NewDecFromRat` of types/coin.go, whose body is missing:
the decimal `num / denom` used for every weight ratio, one `Quo` of two `NewDec`. -/
def NewDecFromRat (dr : DecRound) (num denom : Int) : Dec :=
  Dec.Quo dr (NewDec num) (NewDec denom)

/-- Round to the nearest integer, a tie to the even neighbour (`sdk.Dec.RoundInt`). -/
def roundHalfEven (q : ℚ) : Int :=
  if q - ⌊q⌋ < 1 / 2 then ⌊q⌋
  else if 1 / 2 < q - ⌊q⌋ then ⌊q⌋ + 1
  else if ⌊q⌋ % 2 = 0 then ⌊q⌋ else ⌊q⌋ + 1

/-- Modelled from the spec: `types.DecToCoin` of types/coin.go, whose body is missing:
the single rounding of a decimal weight to a coin amount, to the nearest integer. -/
def DecToCoin (d : Dec) : Coin := roundHalfEven d

/-- The constant `types.CoinDayRecordIntervalSec`. -/
def CoinDayRecordIntervalSec : Int := 1200

/-- The expression `t / CoinDayRecordIntervalSec * CoinDayRecordIntervalSec` on `int64`. -/
def timeSlot (t : Int) : Int :=
  Int.tdiv t CoinDayRecordIntervalSec * CoinDayRecordIntervalSec

/-! ## Records of the account model -/

structure PendingCoinDay where
  StartTime : Int
  EndTime : Int
  Coin : Coin
deriving DecidableEq, Repr

structure PendingCoinDayQueue where
  LastUpdatedAt : Int := 0
  TotalCoinDay : Dec := 0
  TotalCoin : Coin := 0
  PendingCoinDays : List PendingCoinDay := []
deriving DecidableEq, Repr

structure FrozenMoney where
  Amount : Coin
  StartAt : Int
  Times : Int
  Interval : Int
deriving DecidableEq, Repr

structure AccountBank where
  Saving : Coin := 0
  CoinDay : Coin := 0
  FrozenMoneyList : List FrozenMoney := []
deriving DecidableEq, Repr

structure AccountInfo where
  Username : AccountKey
  CreatedAt : Int
  ResetKey : Nat
  TransactionKey : Nat
  AppKey : Nat
deriving DecidableEq, Repr

structure AccountMeta where
  Sequence : Nat := 0
  LastActivityAt : Int := 0
  TransactionCapacity : Coin := 0
  JSONMeta : String := ""
  LastReportOrUpvoteAt : Int := 0
  LastPostAt : Int := 0
deriving DecidableEq, Repr

structure Reward where
  TotalIncome : Coin := 0
  OriginalIncome : Coin := 0
deriving DecidableEq, Repr

/-- The parameters read through `paramHolder`. -/
structure Params where
  SecondsToRecoverCoinDay : Int
  MinimumBalance : Coin
  FirstDepositFullCoinDayLimit : Coin
  SecondsToRecoverBandwidth : Int
  CapacityUsagePerTransaction : Coin
  VirtualCoin : Coin
deriving DecidableEq, Repr

inductive Error where
  | ErrAccountNotFound (username : AccountKey)
  | ErrAccountAlreadyExists (username : AccountKey)
  | ErrAccountSavingCoinNotEnough
  | ErrAccountBankNotFound
  | ErrPendingCoinDayQueueNotFound
  | ErrAccountMetaNotFound
  | ErrAccountTPSCapacityNotEnough (username : AccountKey)
  | ErrAddSavingCoinWithFullCoinDay
  | ErrAddSavingCoin
  | ErrGetResetKey (username : AccountKey)
  | ErrGetTransactionKey (username : AccountKey)
  | ErrGetAppKey (username : AccountKey)
  | ErrUnsupportGrantLevel
  | ErrGrantPubKeyNotFound
  | ErrCheckResetKey
  | ErrCheckTransactionKey
  | ErrCheckGrantAppKey
  | ErrPreAuthAmountInsufficient (grantTo : AccountKey) (remaining requested : Coin)
  | ErrCheckAuthenticatePubKeyOwner (me : AccountKey)
deriving DecidableEq, Repr

/-! ## Account storage -/

/-- Modelled from the spec: the key-value ledger store (`model.AccountStorage`), one
record of each kind per account key; a `Get` of an absent record is an error, a `Set`
overwrites. -/
structure AccountStorage where
  info : AccountKey → Option AccountInfo
  bank : AccountKey → Option AccountBank
  queue : AccountKey → Option PendingCoinDayQueue
  accMeta : AccountKey → Option AccountMeta
  reward : AccountKey → Option Reward

def AccountStorage.empty : AccountStorage :=
  { info := fun _ => none, bank := fun _ => none, queue := fun _ => none,
    accMeta := fun _ => none, reward := fun _ => none }

def AccountStorage.DoesAccountExist (s : AccountStorage) (username : AccountKey) : Bool :=
  (s.info username).isSome

def AccountStorage.GetBankFromAccountKey (s : AccountStorage) (username : AccountKey) :
    Except Error AccountBank :=
  match s.bank username with
  | some b => .ok b
  | none => .error .ErrAccountBankNotFound

def AccountStorage.GetPendingCoinDayQueue (s : AccountStorage) (username : AccountKey) :
    Except Error PendingCoinDayQueue :=
  match s.queue username with
  | some q => .ok q
  | none => .error .ErrPendingCoinDayQueueNotFound

def AccountStorage.GetMeta (s : AccountStorage) (username : AccountKey) :
    Except Error AccountMeta :=
  match s.accMeta username with
  | some m => .ok m
  | none => .error .ErrAccountMetaNotFound

def AccountStorage.SetBankFromAccountKey (s : AccountStorage) (username : AccountKey)
    (b : AccountBank) : AccountStorage :=
  { s with bank := fun u => if u = username then some b else s.bank u }

def AccountStorage.SetPendingCoinDayQueue (s : AccountStorage) (username : AccountKey)
    (q : PendingCoinDayQueue) : AccountStorage :=
  { s with queue := fun u => if u = username then some q else s.queue u }

def AccountStorage.SetInfo (s : AccountStorage) (username : AccountKey)
    (i : AccountInfo) : AccountStorage :=
  { s with info := fun u => if u = username then some i else s.info u }

def AccountStorage.SetMeta (s : AccountStorage) (username : AccountKey)
    (m : AccountMeta) : AccountStorage :=
  { s with accMeta := fun u => if u = username then some m else s.accMeta u }

def AccountStorage.SetReward (s : AccountStorage) (username : AccountKey)
    (r : Reward) : AccountStorage :=
  { s with reward := fun u => if u = username then some r else s.reward u }

/-! ## The recompute: `updateTXFromPendingCoinDayQueue` -/

/-- The loop of `updateTXFromPendingCoinDayQueue` that removes expired entries from
the head of the queue. The first argument is `pendingCoinDayQueue.PendingCoinDays`;
the result carries the remaining entries in the queue record. -/
def removeExpired (dr : DecRound) (p : Params) (currentTimeSlot : Int) :
    List PendingCoinDay → AccountBank → PendingCoinDayQueue →
      AccountBank × PendingCoinDayQueue
  | [], bank, q => (bank, { q with PendingCoinDays := [] })
  | pendingCoinDay :: rest, bank, q =>
    if pendingCoinDay.EndTime ≤ currentTimeSlot then
      let coinDayRatioOfThisTransaction :=
        NewDecFromRat dr (q.LastUpdatedAt - pendingCoinDay.StartTime) p.SecondsToRecoverCoinDay
      removeExpired dr p currentTimeSlot rest
        { bank with CoinDay := bank.CoinDay + pendingCoinDay.Coin }
        { q with
          TotalCoinDay := q.TotalCoinDay -
            Dec.Mul dr coinDayRatioOfThisTransaction (Coin.ToDec pendingCoinDay.Coin)
          TotalCoin := q.TotalCoin - pendingCoinDay.Coin
          PendingCoinDays := rest }
    else (bank, { q with PendingCoinDays := pendingCoinDay :: rest })

/-- The function `updateTXFromPendingCoinDayQueue` at block time `now`. -/
def updateTXFromPendingCoinDayQueue (dr : DecRound) (p : Params) (now : Int)
    (bank : AccountBank) (pendingCoinDayQueue : PendingCoinDayQueue) :
    AccountBank × PendingCoinDayQueue :=
  let currentTimeSlot := timeSlot now
  let (bank, q) :=
    removeExpired dr p currentTimeSlot pendingCoinDayQueue.PendingCoinDays bank
      pendingCoinDayQueue
  let q :=
    if q.PendingCoinDays.length = 0 then
      { q with TotalCoin := 0, TotalCoinDay := 0 }
    else
      { q with
        TotalCoinDay := q.TotalCoinDay +
          Dec.Quo dr
            (Dec.Mul dr (Coin.ToDec q.TotalCoin) (NewDec (currentTimeSlot - q.LastUpdatedAt)))
            (NewDec p.SecondsToRecoverCoinDay) }
  (bank, { q with LastUpdatedAt := currentTimeSlot })

/-! ## Reading the coin day and depositing -/

/-- The method `GetCoinDay`: the error (if any), the returned coin and the store. -/
def GetCoinDay (dr : DecRound) (p : Params) (now : Int) (s : AccountStorage)
    (username : AccountKey) : Option Error × Coin × AccountStorage :=
  match s.GetBankFromAccountKey username with
  | .error e => (some e, 0, s)
  | .ok bank =>
    match s.GetPendingCoinDayQueue username with
    | .error e => (some e, 0, s)
    | .ok pendingCoinDayQueue =>
      let (bank, pendingCoinDayQueue) :=
        updateTXFromPendingCoinDayQueue dr p now bank pendingCoinDayQueue
      let s := s.SetPendingCoinDayQueue username pendingCoinDayQueue
      let s := s.SetBankFromAccountKey username bank
      let coinDay := bank.CoinDay
      let coinDayInQueue := DecToCoin pendingCoinDayQueue.TotalCoinDay
      (none, coinDay + coinDayInQueue, s)

/-- The tail merge of `addPendingCoinDayToQueue`, on the recomputed queue. -/
def pushPendingCoinDay (q : PendingCoinDayQueue) (pendingCoinDay : PendingCoinDay) :
    PendingCoinDayQueue :=
  match q.PendingCoinDays.getLast? with
  | some last =>
    if last.StartTime = pendingCoinDay.StartTime then
      { q with
        PendingCoinDays := q.PendingCoinDays.dropLast ++
          [{ last with Coin := last.Coin + pendingCoinDay.Coin }]
        TotalCoin := q.TotalCoin + pendingCoinDay.Coin }
    else
      { q with
        PendingCoinDays := q.PendingCoinDays ++ [pendingCoinDay]
        TotalCoin := q.TotalCoin + pendingCoinDay.Coin }
  | none =>
    { q with
      PendingCoinDays := q.PendingCoinDays ++ [pendingCoinDay]
      TotalCoin := q.TotalCoin + pendingCoinDay.Coin }

/-- The method `addPendingCoinDayToQueue`: the error, the bank record mutated through the
pointer, and the store. -/
def addPendingCoinDayToQueue (dr : DecRound) (p : Params) (now : Int) (s : AccountStorage)
    (username : AccountKey) (bank : AccountBank) (pendingCoinDay : PendingCoinDay) :
    Option Error × AccountBank × AccountStorage :=
  match s.GetPendingCoinDayQueue username with
  | .error e => (some e, bank, s)
  | .ok pendingCoinDayQueue =>
    let (bank, pendingCoinDayQueue) :=
      updateTXFromPendingCoinDayQueue dr p now bank pendingCoinDayQueue
    (none, bank,
      s.SetPendingCoinDayQueue username (pushPendingCoinDay pendingCoinDayQueue pendingCoinDay))

/-- The method `AddSavingCoin`. -/
def AddSavingCoin (dr : DecRound) (p : Params) (now : Int) (s : AccountStorage)
    (username : AccountKey) (coin : Coin) : Option Error × AccountStorage :=
  if ¬ s.DoesAccountExist username then (some (.ErrAccountNotFound username), s)
  else if coin = 0 then (none, s)
  else
    match s.GetBankFromAccountKey username with
    | .error e => (some e, s)
    | .ok bank =>
      let bank := { bank with Saving := bank.Saving + coin }
      let startTime := timeSlot now
      let pendingCoinDay : PendingCoinDay :=
        { StartTime := startTime
          EndTime := startTime + p.SecondsToRecoverCoinDay
          Coin := coin }
      match addPendingCoinDayToQueue dr p now s username bank pendingCoinDay with
      | (some e, _, s) => (some e, s)
      | (none, bank, s) => (none, s.SetBankFromAccountKey username bank)

/-- The method `AddSavingCoinWithFullCoinDay`. -/
def AddSavingCoinWithFullCoinDay (s : AccountStorage) (username : AccountKey)
    (coin : Coin) : Option Error × AccountStorage :=
  if ¬ s.DoesAccountExist username then (some (.ErrAccountNotFound username), s)
  else if coin = 0 then (none, s)
  else
    match s.GetBankFromAccountKey username with
    | .error e => (some e, s)
    | .ok bank =>
      let bank := { bank with Saving := bank.Saving + coin, CoinDay := bank.CoinDay + coin }
      (none, s.SetBankFromAccountKey username bank)

/-! ## Withdrawals -/

/-- The loop of `MinusSavingCoin`, which consumes `coin` from the tail of the queue.
The first argument is `PendingCoinDays` in reverse order, so that its head is the entry at
index `lengthOfQueue-1`; the result is the coin left to withdraw and the queue. -/
def minusFromTail (dr : DecRound) (p : Params) :
    List PendingCoinDay → Coin → PendingCoinDayQueue → Coin × PendingCoinDayQueue
  | [], coin, q => (coin, { q with PendingCoinDays := [] })
  | pendingCoinDay :: rest, coin, q =>
    let recoverRatio :=
      NewDecFromRat dr (q.LastUpdatedAt - pendingCoinDay.StartTime) p.SecondsToRecoverCoinDay
    if coin ≥ pendingCoinDay.Coin then
      minusFromTail dr p rest (coin - pendingCoinDay.Coin)
        { q with
          TotalCoinDay := q.TotalCoinDay -
            Dec.Mul dr recoverRatio (Coin.ToDec pendingCoinDay.Coin)
          TotalCoin := q.TotalCoin - pendingCoinDay.Coin
          PendingCoinDays := rest.reverse }
    else
      (0,
        { q with
          TotalCoinDay := q.TotalCoinDay - Dec.Mul dr recoverRatio (Coin.ToDec coin)
          TotalCoin := q.TotalCoin - coin
          PendingCoinDays :=
            ({ pendingCoinDay with Coin := pendingCoinDay.Coin - coin } :: rest).reverse })

/-- The method `MinusSavingCoin` (withdrawal policy A). -/
def MinusSavingCoin (dr : DecRound) (p : Params) (now : Int) (s : AccountStorage)
    (username : AccountKey) (coin : Coin) : Option Error × AccountStorage :=
  match s.GetBankFromAccountKey username with
  | .error e => (some e, s)
  | .ok accountBank =>
    let remain := accountBank.Saving - coin
    if ¬ (remain ≥ p.MinimumBalance) then (some .ErrAccountSavingCoinNotEnough, s)
    else if coin = 0 then (none, s)
    else
      let accountBank := { accountBank with Saving := accountBank.Saving - coin }
      match s.GetPendingCoinDayQueue username with
      | .error e => (some e, s)
      | .ok pendingCoinDayQueue =>
        let (accountBank, pendingCoinDayQueue) :=
          updateTXFromPendingCoinDayQueue dr p now accountBank pendingCoinDayQueue
        let (coin, pendingCoinDayQueue) :=
          minusFromTail dr p pendingCoinDayQueue.PendingCoinDays.reverse coin
            pendingCoinDayQueue
        let accountBank :=
          if 0 < coin then { accountBank with CoinDay := accountBank.Saving }
          else accountBank
        let s := s.SetPendingCoinDayQueue username pendingCoinDayQueue
        (none, s.SetBankFromAccountKey username accountBank)

/-- The loop of `MinusSavingCoinWithFullCoinDay`, which consumes `coin` from the head of
the queue. The first argument is `PendingCoinDays`. -/
def minusFromHead (dr : DecRound) (p : Params) :
    List PendingCoinDay → Coin → PendingCoinDayQueue → Coin × PendingCoinDayQueue
  | [], coin, q => (coin, { q with PendingCoinDays := [] })
  | pendingCoinDay :: rest, coin, q =>
    let recoverRatio :=
      NewDecFromRat dr (q.LastUpdatedAt - pendingCoinDay.StartTime) p.SecondsToRecoverCoinDay
    if coin ≥ pendingCoinDay.Coin then
      minusFromHead dr p rest (coin - pendingCoinDay.Coin)
        { q with
          TotalCoinDay := q.TotalCoinDay -
            Dec.Mul dr recoverRatio (Coin.ToDec pendingCoinDay.Coin)
          TotalCoin := q.TotalCoin - pendingCoinDay.Coin
          PendingCoinDays := rest }
    else
      (0,
        { q with
          TotalCoinDay := q.TotalCoinDay - Dec.Mul dr recoverRatio (Coin.ToDec coin)
          TotalCoin := q.TotalCoin - coin
          PendingCoinDays := { pendingCoinDay with Coin := pendingCoinDay.Coin - coin } :: rest })

/-- The method `MinusSavingCoinWithFullCoinDay` (withdrawal policy B): the error, the
returned coin (`coinDayLost`) and the store. -/
def MinusSavingCoinWithFullCoinDay (dr : DecRound) (p : Params) (now : Int)
    (s : AccountStorage) (username : AccountKey) (coin : Coin) :
    Option Error × Coin × AccountStorage :=
  if coin = 0 then (none, 0, s)
  else
    match s.GetBankFromAccountKey username with
    | .error e => (some e, 0, s)
    | .ok accountBank =>
      let remain := accountBank.Saving - coin
      if ¬ (remain ≥ p.MinimumBalance) then (some .ErrAccountSavingCoinNotEnough, 0, s)
      else
        let accountBank := { accountBank with Saving := remain }
        match s.GetPendingCoinDayQueue username with
        | .error e => (some e, 0, s)
        | .ok pendingCoinDayQueue =>
          let (accountBank, pendingCoinDayQueue) :=
            updateTXFromPendingCoinDayQueue dr p now accountBank pendingCoinDayQueue
          if accountBank.CoinDay ≥ coin then
            let coinDayLost := coin
            let accountBank := { accountBank with CoinDay := accountBank.CoinDay - coin }
            let s := s.SetPendingCoinDayQueue username pendingCoinDayQueue
            (none, coinDayLost, s.SetBankFromAccountKey username accountBank)
          else
            let coin := coin - accountBank.CoinDay
            let coinDayLost := accountBank.CoinDay
            let accountBank := { accountBank with CoinDay := 0 }
            let (_, pendingCoinDayQueue) :=
              minusFromHead dr p pendingCoinDayQueue.PendingCoinDays coin pendingCoinDayQueue
            let s := s.SetPendingCoinDayQueue username pendingCoinDayQueue
            (none, coinDayLost, s.SetBankFromAccountKey username accountBank)

/-! ## Opening an account -/

/-- The method `CreateAccount` (the referrer only labels the transfer). -/
def CreateAccount (dr : DecRound) (p : Params) (now : Int) (s : AccountStorage)
    (username : AccountKey) (resetKey transactionKey appKey : Nat) (registerDeposit : Coin) :
    Option Error × AccountStorage :=
  if s.DoesAccountExist username then (some (.ErrAccountAlreadyExists username), s)
  else
    let depositWithFullCoinDay :=
      if registerDeposit > p.FirstDepositFullCoinDayLimit then p.FirstDepositFullCoinDayLimit
      else registerDeposit
    let s := s.SetPendingCoinDayQueue username {}
    let s := s.SetBankFromAccountKey username {}
    let s := s.SetInfo username
      { Username := username, CreatedAt := now, ResetKey := resetKey,
        TransactionKey := transactionKey, AppKey := appKey }
    let s := s.SetMeta username
      { LastActivityAt := now, LastReportOrUpvoteAt := now,
        TransactionCapacity := depositWithFullCoinDay }
    let s := s.SetReward username {}
    match AddSavingCoinWithFullCoinDay s username depositWithFullCoinDay with
    | (some _, s) => (some .ErrAddSavingCoinWithFullCoinDay, s)
    | (none, s) =>
      match AddSavingCoin dr p now s username (registerDeposit - depositWithFullCoinDay) with
      | (some _, s) => (some .ErrAddSavingCoin, s)
      | (none, s) => (none, s)

/-! ## Sample configuration and evaluation checks -/

/-- A configuration with a seven-day recovery window. -/
def sampleParams : Params :=
  { SecondsToRecoverCoinDay := 604800, MinimumBalance := 0,
    FirstDepositFullCoinDayLimit := 1, SecondsToRecoverBandwidth := 604800,
    CapacityUsagePerTransaction := 1, VirtualCoin := 1 }

/-! ## Quantities the statements speak about -/

/-- Sum of the `Coin` of a list of pending entries. -/
def coinSum (l : List PendingCoinDay) : Coin := (l.map (fun e => e.Coin)).sum

/-- The weight that the loops subtract for a list of entries removed in full, as computed
with the queue's `LastUpdatedAt = lu`. -/
def removedWeight (dr : DecRound) (p : Params) (lu : Int) (l : List PendingCoinDay) : Dec :=
  (l.map (fun e =>
    Dec.Mul dr (NewDecFromRat dr (lu - e.StartTime) p.SecondsToRecoverCoinDay)
      (Coin.ToDec e.Coin))).sum

/-- The entries at the head of the list that are expired at `slot`. -/
def expiredPart (slot : Int) (l : List PendingCoinDay) : List PendingCoinDay :=
  l.takeWhile (fun e => decide (e.EndTime ≤ slot))

/-- The entries left once the expired head is removed. -/
def pendingPart (slot : Int) (l : List PendingCoinDay) : List PendingCoinDay :=
  l.dropWhile (fun e => decide (e.EndTime ≤ slot))

/-- The exact weighted sum `Σ ((lu - StartTime_i) / SecondsToRecoverCoinDay) * Coin_i`. -/
def weightedSum (p : Params) (lu : Int) (l : List PendingCoinDay) : ℚ :=
  (l.map (fun e =>
    ((lu - e.StartTime : Int) : ℚ) / (p.SecondsToRecoverCoinDay : ℚ) * (e.Coin : ℚ))).sum

/-- The entry that `AddSavingCoin` builds for a deposit of `coin` at block time `now`. -/
def newPendingCoinDay (p : Params) (now : Int) (coin : Coin) : PendingCoinDay :=
  { StartTime := timeSlot now
    EndTime := timeSlot now + p.SecondsToRecoverCoinDay
    Coin := coin }

/-- An entry of a queue last updated at `lu` is well formed: it ends one recovery window
after its start, its amount is positive, it does not start after `lu` and it is not yet
matured at `lu`. -/
def EntryOK (p : Params) (lu : Int) (e : PendingCoinDay) : Prop :=
  e.EndTime = e.StartTime + p.SecondsToRecoverCoinDay ∧ 0 < e.Coin ∧
    e.StartTime ≤ lu ∧ lu < e.EndTime

/-- The invariants of the pending deposit queue in the data model: every entry is well
formed, entries are strictly ascending in `StartTime`, and `TotalCoin` caches the sum of
the amounts. -/
structure QueueWF (p : Params) (q : PendingCoinDayQueue) : Prop where
  entryOK : ∀ e ∈ q.PendingCoinDays, EntryOK p q.LastUpdatedAt e
  sorted : q.PendingCoinDays.Pairwise (fun a b => a.StartTime < b.StartTime)
  totalCoin : q.TotalCoin = coinSum q.PendingCoinDays

/-- The invariant of one account at block time `t`: a well-formed queue last updated no
later than the bucket of `t` (when it has entries), and the principal equation
`bank.Saving = bank.CoinDay + TotalCoin`. -/
structure AccountInv (p : Params) (t : Int) (b : AccountBank) (q : PendingCoinDayQueue) :
    Prop where
  wf : QueueWF p q
  principal : b.Saving = b.CoinDay + q.TotalCoin
  time : q.PendingCoinDays ≠ [] → q.LastUpdatedAt ≤ timeSlot t

/-- A store holding one account, `alice`, with a single pending deposit of 10 made at
time 0 under `sampleParams`. -/
def sampleStore : AccountStorage :=
  { info := fun u =>
      if u = "alice" then
        some { Username := "alice", CreatedAt := 0, ResetKey := 1, TransactionKey := 2,
               AppKey := 3 }
      else none
    bank := fun u => if u = "alice" then some { Saving := 10, CoinDay := 0 } else none
    queue := fun u =>
      if u = "alice" then
        some { LastUpdatedAt := 0, TotalCoinDay := 0, TotalCoin := 10,
               PendingCoinDays := [{ StartTime := 0, EndTime := 604800, Coin := 10 }] }
      else none
    accMeta := fun u => if u = "alice" then some {} else none
    reward := fun u => if u = "alice" then some {} else none }

/-- The bank record of `alice` in `sampleStore`. -/
def sampleBank : AccountBank := { Saving := 10, CoinDay := 0 }

/-- The pending queue of `alice` in `sampleStore`. -/
def sampleQueue : PendingCoinDayQueue :=
  { LastUpdatedAt := 0, TotalCoinDay := 0, TotalCoin := 10,
    PendingCoinDays := [{ StartTime := 0, EndTime := 604800, Coin := 10 }] }

/-- A store holding one account, `bob`, just opened: empty bank record and empty queue. -/
def freshStore : AccountStorage :=
  { info := fun u =>
      if u = "bob" then
        some { Username := "bob", CreatedAt := 0, ResetKey := 1, TransactionKey := 2,
               AppKey := 3 }
      else none
    bank := fun u => if u = "bob" then some {} else none
    queue := fun u => if u = "bob" then some {} else none
    accMeta := fun u => if u = "bob" then some {} else none
    reward := fun u => if u = "bob" then some {} else none }

/-- The weighted-sum equation of the queue:
`TotalCoinDay = Σ ((LastUpdatedAt - StartTime_i) / SecondsToRecoverCoinDay) * Coin_i`. -/
def WeightedSumInv (p : Params) (q : PendingCoinDayQueue) : Prop :=
  q.TotalCoinDay = weightedSum p q.LastUpdatedAt q.PendingCoinDays

/-- A deposit or a policy A withdrawal, with the block time at which it is executed. -/
inductive SavingOp where
  | deposit (now : Int) (coin : Coin)
  | withdraw (now : Int) (coin : Coin)
deriving DecidableEq, Repr

/-- The amount of an operation. -/
def SavingOp.coin : SavingOp → Coin
  | .deposit _ c => c
  | .withdraw _ c => c

/-- The change of principal an operation asks for: `+coin` for a deposit, `-coin` for a
withdrawal. -/
def SavingOp.net : SavingOp → Coin
  | .deposit _ c => c
  | .withdraw _ c => -c

/-- Run one operation on the account `username`: `AddSavingCoin` or `MinusSavingCoin`. -/
def applySavingOp (dr : DecRound) (p : Params) (s : AccountStorage) (username : AccountKey) :
    SavingOp → Option Error × AccountStorage
  | .deposit now c => AddSavingCoin dr p now s username c
  | .withdraw now c => MinusSavingCoin dr p now s username c

/-- Run a sequence of operations in order; `none` as soon as one of them returns an
error. -/
def runSavingOps (dr : DecRound) (p : Params) (username : AccountKey) :
    AccountStorage → List SavingOp → Option AccountStorage
  | s, [] => some s
  | s, op :: rest =>
    match applySavingOp dr p s username op with
    | (none, s2) => runSavingOps dr p username s2 rest
    | (some _, _) => none

/-- Net principal asked for by a sequence: deposits minus withdrawals. -/
def netDeposited (ops : List SavingOp) : Coin := (ops.map SavingOp.net).sum

/-- A list of entries of a queue last updated at `lu` is well formed: every entry is, and
the entries are strictly ascending in `StartTime`. -/
def EntriesOK (p : Params) (lu : Int) (l : List PendingCoinDay) : Prop :=
  (∀ e ∈ l, EntryOK p lu e) ∧ l.Pairwise (fun a b => a.StartTime < b.StartTime)

/-- The invariant carried by one account through every operation: `AccountInv`, and, when
decimals are exact, the weighted-sum equation. -/
def AccountCore (dr : DecRound) (p : Params) (t : Int) (b : AccountBank)
    (q : PendingCoinDayQueue) : Prop :=
  AccountInv p t b q ∧ (dr = exactDec → WeightedSumInv p q)

/-- The invariant of the whole store at block time `t`: every bank record comes with a
queue record, and the two satisfy the account invariant. -/
def StoreCore (dr : DecRound) (p : Params) (t : Int) (s : AccountStorage) : Prop :=
  ∀ u b, s.bank u = some b → ∃ q, s.queue u = some q ∧ AccountCore dr p t b q

/-- The account states reachable at block time `t`: from the empty store, by successful
calls of `CreateAccount`, `AddSavingCoin`, `AddSavingCoinWithFullCoinDay`,
`MinusSavingCoin`, `MinusSavingCoinWithFullCoinDay` and `GetCoinDay` with non-negative
amounts, at non-decreasing block times. -/
inductive Reachable (dr : DecRound) (p : Params) : Int → AccountStorage → Prop
  | genesis (t : Int) : Reachable dr p t AccountStorage.empty
  | createAccount {t : Int} {s : AccountStorage} (t2 : Int) (u : AccountKey)
      (resetKey transactionKey appKey : Nat) (registerDeposit : Coin) (s2 : AccountStorage) :
      Reachable dr p t s → t ≤ t2 → 0 ≤ registerDeposit →
      CreateAccount dr p t2 s u resetKey transactionKey appKey registerDeposit = (none, s2) →
      Reachable dr p t2 s2
  | addSavingCoin {t : Int} {s : AccountStorage} (t2 : Int) (u : AccountKey) (c : Coin)
      (s2 : AccountStorage) :
      Reachable dr p t s → t ≤ t2 → 0 ≤ c →
      AddSavingCoin dr p t2 s u c = (none, s2) → Reachable dr p t2 s2
  | addSavingCoinWithFullCoinDay {t : Int} {s : AccountStorage} (t2 : Int) (u : AccountKey)
      (c : Coin) (s2 : AccountStorage) :
      Reachable dr p t s → t ≤ t2 → 0 ≤ c →
      AddSavingCoinWithFullCoinDay s u c = (none, s2) → Reachable dr p t2 s2
  | minusSavingCoin {t : Int} {s : AccountStorage} (t2 : Int) (u : AccountKey) (c : Coin)
      (s2 : AccountStorage) :
      Reachable dr p t s → t ≤ t2 → 0 ≤ c →
      MinusSavingCoin dr p t2 s u c = (none, s2) → Reachable dr p t2 s2
  | minusSavingCoinWithFullCoinDay {t : Int} {s : AccountStorage} (t2 : Int) (u : AccountKey)
      (c coinDayLost : Coin) (s2 : AccountStorage) :
      Reachable dr p t s → t ≤ t2 → 0 ≤ c →
      MinusSavingCoinWithFullCoinDay dr p t2 s u c = (none, coinDayLost, s2) →
      Reachable dr p t2 s2
  | getCoinDay {t : Int} {s : AccountStorage} (t2 : Int) (u : AccountKey) (coinDay : Coin)
      (s2 : AccountStorage) :
      Reachable dr p t s → t ≤ t2 →
      GetCoinDay dr p t2 s u = (none, coinDay, s2) → Reachable dr p t2 s2

/-- Run a sequence of deposits `(block time, amount)` on the account `username`, each with
`AddSavingCoin`, in order. -/
def runDeposits (dr : DecRound) (p : Params) (username : AccountKey) :
    AccountStorage → List (Int × Coin) → AccountStorage
  | s, [] => s
  | s, d :: rest => runDeposits dr p username (AddSavingCoin dr p d.1 s username d.2).2 rest

/-- The full-history definition of the maturity at block time `now`, as an exact rational:
the sum over all deposits of `amount_i * min(1, (bucket(now) - bucket(t_i)) /
SecondsToRecoverCoinDay)`. -/
def naiveCoinDay (p : Params) (now : Int) (ds : List (Int × Coin)) : ℚ :=
  (ds.map (fun d =>
    (d.2 : ℚ) *
      min 1 (((timeSlot now - timeSlot d.1 : Int) : ℚ) / (p.SecondsToRecoverCoinDay : ℚ)))).sum

/-- The part of the full-history sum that is fully matured at `now`: the amounts of the
deposits whose bucket lies at least one recovery window before the bucket of `now`. -/
def naiveMatured (p : Params) (now : Int) (ds : List (Int × Coin)) : Coin :=
  (ds.map (fun d =>
    if p.SecondsToRecoverCoinDay ≤ timeSlot now - timeSlot d.1 then d.2 else 0)).sum

/-- Sum over a deposit history of `amount * φ (slot - bucket(time))`, for a weight `φ` of
the elapsed time. -/
def histSum (φ : Int → ℚ) (slot : Int) (ds : List (Int × Coin)) : ℚ :=
  (ds.map (fun d => (d.2 : ℚ) * φ (slot - timeSlot d.1))).sum

/-- The same sum read off an account state: the matured coin day at full weight plus the
pending entries at weight `φ (slot - StartTime)`. -/
def stateSum (φ : Int → ℚ) (slot : Int) (coinDay : Coin) (l : List PendingCoinDay) : ℚ :=
  (coinDay : ℚ) + (l.map (fun e => (e.Coin : ℚ) * φ (slot - e.StartTime))).sum

/-- The linear weight of the elapsed time, capped at 1. -/
def linearWeight (p : Params) (elapsed : Int) : ℚ :=
  min 1 ((elapsed : ℚ) / (p.SecondsToRecoverCoinDay : ℚ))

/-- The weight that counts only fully matured time. -/
def maturedWeight (p : Params) (elapsed : Int) : ℚ :=
  if p.SecondsToRecoverCoinDay ≤ elapsed then 1 else 0

/-- The queue invariant along a run of deposits: no entry at all, or a well-formed queue
satisfying the weighted-sum equation and last updated no later than the bucket of `t`. -/
def QueueCore (p : Params) (t : Int) (q : PendingCoinDayQueue) : Prop :=
  q.PendingCoinDays = [] ∨
    (QueueWF p q ∧ WeightedSumInv p q ∧ q.LastUpdatedAt ≤ timeSlot t)

/-! ## Bandwidth capacity -/

/-- The method `CheckUserTPSCapacity`: the error and the store. The bandwidth parameters
`SecondsToRecoverBandwidth`, `CapacityUsagePerTransaction` and `VirtualCoin` are read from
`p`; the call of `GetCoinDay` writes the recomputed bank record and queue, and the meta
record is written only on the path that reaches `SetMeta`. -/
def CheckUserTPSCapacity (dr : DecRound) (p : Params) (now : Int) (s : AccountStorage)
    (me : AccountKey) (tpsCapacityRatio : Dec) : Option Error × AccountStorage :=
  match s.GetMeta me with
  | .error e => (some e, s)
  | .ok accountMeta =>
    match GetCoinDay dr p now s me with
    | (some e, _, s) => (some e, s)
    | (none, coinDay, s) =>
      let coinDay := coinDay + p.VirtualCoin
      let accountMeta :=
        if accountMeta.TransactionCapacity ≥ coinDay then
          { accountMeta with TransactionCapacity := coinDay }
        else
          let incrementRatio :=
            NewDecFromRat dr (now - accountMeta.LastActivityAt) p.SecondsToRecoverBandwidth
          let incrementRatio := if incrementRatio > 1 then 1 else incrementRatio
          let capacityTillCoinDay := coinDay - accountMeta.TransactionCapacity
          let increaseCapacity :=
            DecToCoin (Dec.Mul dr (Coin.ToDec capacityTillCoinDay) incrementRatio)
          { accountMeta with
            TransactionCapacity := accountMeta.TransactionCapacity + increaseCapacity }
      let currentTxCost :=
        DecToCoin (Dec.Mul dr (Coin.ToDec p.CapacityUsagePerTransaction) tpsCapacityRatio)
      if currentTxCost > accountMeta.TransactionCapacity then
        (some (.ErrAccountTPSCapacityNotEnough me), s)
      else
        let accountMeta :=
          { accountMeta with
            TransactionCapacity := accountMeta.TransactionCapacity - currentTxCost }
        let accountMeta := { accountMeta with LastActivityAt := now }
        (none, s.SetMeta me accountMeta)

/-- The value of `accountMeta.TransactionCapacity` after the capacity update of
`CheckUserTPSCapacity`, as a function of the stored meta record and of `coinDay`
(the coin-day with `VirtualCoin` added). -/
def recoveredCapacity (dr : DecRound) (p : Params) (now : Int) (accountMeta : AccountMeta)
    (coinDay : Coin) : Coin :=
  if accountMeta.TransactionCapacity ≥ coinDay then coinDay
  else
    accountMeta.TransactionCapacity +
      DecToCoin (Dec.Mul dr (Coin.ToDec (coinDay - accountMeta.TransactionCapacity))
        (if NewDecFromRat dr (now - accountMeta.LastActivityAt)
            p.SecondsToRecoverBandwidth > 1 then 1
         else NewDecFromRat dr (now - accountMeta.LastActivityAt)
            p.SecondsToRecoverBandwidth))

/-- The value of `currentTxCost` in `CheckUserTPSCapacity`. -/
def currentTxCost (dr : DecRound) (p : Params) (tpsCapacityRatio : Dec) : Coin :=
  DecToCoin (Dec.Mul dr (Coin.ToDec p.CapacityUsagePerTransaction) tpsCapacityRatio)

/-- The recovered capacity in the words of the specification, over exact rationals:
`maxCapacity` when the stored capacity has reached it, and otherwise the stored capacity
plus `DecToCoin ((maxCapacity - capacity) * min 1 (elapsed / window))`. -/
def specRecoveredCapacity (maxCapacity capacity : Coin) (elapsed window : Int) : Coin :=
  if capacity ≥ maxCapacity then maxCapacity
  else
    capacity +
      DecToCoin (((maxCapacity - capacity : Int) : ℚ) * min 1 ((elapsed : ℚ) / (window : ℚ)))

/-- Rounding that preserves order, as every rounding to a fixed precision does. -/
def DecRound.Mono (dr : DecRound) : Prop :=
  Monotone dr.mulRound ∧ Monotone dr.quoRound

/-! ## The tie-break state -/

/-- The account `bob` of `freshStore` after a deposit of 10 at time 0 and a deposit of 10
half a recovery window later, under `sampleParams`: two pending entries of equal `Coin`,
the older one half accrued. -/
def tieBreakStore : AccountStorage :=
  { freshStore with
    bank := fun u => if u = "bob" then some { Saving := 20, CoinDay := 0 } else none
    queue := fun u =>
      if u = "bob" then
        some { LastUpdatedAt := 302400, TotalCoinDay := 5, TotalCoin := 20,
               PendingCoinDays :=
                 [{ StartTime := 0, EndTime := 604800, Coin := 10 },
                  { StartTime := 302400, EndTime := 907200, Coin := 10 }] }
      else none }

/-- The entries left by a withdrawal from the newest end of `recomputed`: a prefix, whose
last entry may have a reduced, still positive, `Coin`. -/
def NewestFirst (recomputed final : List PendingCoinDay) : Prop :=
  ∃ kept removed : List PendingCoinDay, recomputed = kept ++ removed ∧
    (final = kept ∨
      ∃ (front : List PendingCoinDay) (e : PendingCoinDay) (c : Coin),
        kept = front ++ [e] ∧ 0 ≤ c ∧ c < e.Coin ∧
        final = front ++ [{ e with Coin := e.Coin - c }])

/-- The entries left by a withdrawal from the oldest end of `recomputed`: a suffix, whose
first entry may have a reduced, still positive, `Coin`. -/
def OldestFirst (recomputed final : List PendingCoinDay) : Prop :=
  ∃ removed kept : List PendingCoinDay, recomputed = removed ++ kept ∧
    (final = kept ∨
      ∃ (e : PendingCoinDay) (rest : List PendingCoinDay) (c : Coin),
        kept = e :: rest ∧ 0 ≤ c ∧ c < e.Coin ∧
        final = { e with Coin := e.Coin - c } :: rest)

/-- The bank record of `bob` in `tieBreakStore`. -/
def tieBreakBank : AccountBank := { Saving := 20, CoinDay := 0 }

/-- The pending queue of `bob` in `tieBreakStore`. -/
def tieBreakQueue : PendingCoinDayQueue :=
  { LastUpdatedAt := 302400, TotalCoinDay := 5, TotalCoin := 20,
    PendingCoinDays :=
      [{ StartTime := 0, EndTime := 604800, Coin := 10 },
       { StartTime := 302400, EndTime := 907200, Coin := 10 }] }

/-- The recovered capacity in the words of the specification, in the decimal arithmetic
of the code: as `specRecoveredCapacity`, with `Mul` and `NewDecFromRat` for the product
and the quotient. -/
def specRecoveredCapacityDec (dr : DecRound) (maxCapacity capacity : Coin)
    (elapsed window : Int) : Coin :=
  if capacity ≥ maxCapacity then maxCapacity
  else
    capacity +
      DecToCoin (Dec.Mul dr (Coin.ToDec (maxCapacity - capacity))
        (min 1 (NewDecFromRat dr elapsed window)))

/-- The bucket of a timestamp in the words of the specification:
`floor (t / interval) * interval`. -/
def bucketFloor (t : Int) : Int :=
  ⌊(t : ℚ) / (CoinDayRecordIntervalSec : ℚ)⌋ * CoinDayRecordIntervalSec

/-- The pending queue of `alice` in `sampleStore` once recomputed half a recovery window
after the deposit. -/
def sampleQueueHalf : PendingCoinDayQueue :=
  { LastUpdatedAt := 302400, TotalCoinDay := 5, TotalCoin := 10,
    PendingCoinDays := [{ StartTime := 0, EndTime := 604800, Coin := 10 }] }

/-! ## Repeated admission checks -/

/-- The store after `n` consecutive calls of `CheckUserTPSCapacity` at block time `now`,
each made on the store the previous one returned. -/
def checkTPSTimes (dr : DecRound) (p : Params) (now : Int) (u : AccountKey) (r : Dec) :
    Nat → AccountStorage → AccountStorage
  | 0, s => s
  | n + 1, s => (CheckUserTPSCapacity dr p now (checkTPSTimes dr p now u r n s) u r).2

/-- The configuration `sampleParams` with a cost of 10 per transaction. -/
def tpsParams : Params := { sampleParams with CapacityUsagePerTransaction := 10 }

/-- A store holding one account, `carol`, with 99 matured coins, no pending entry and a
stored capacity of 100; with `VirtualCoin = 1` its `maxCapacity` is 100. -/
def tpsStore : AccountStorage :=
  { info := fun u =>
      if u = "carol" then
        some { Username := "carol", CreatedAt := 0, ResetKey := 1, TransactionKey := 2,
               AppKey := 3 }
      else none
    bank := fun u => if u = "carol" then some { Saving := 99, CoinDay := 99 } else none
    queue := fun u => if u = "carol" then some {} else none
    accMeta := fun u =>
      if u = "carol" then some { TransactionCapacity := 100 } else none
    reward := fun u => if u = "carol" then some {} else none }

/-- The order invariant of the pending queue: entries strictly ascending in `StartTime`,
every `Coin` positive, and no entry starting after `LastUpdatedAt`. -/
def QueueOrder (q : PendingCoinDayQueue) : Prop :=
  q.PendingCoinDays.Pairwise (fun a b => a.StartTime < b.StartTime) ∧
  (∀ e ∈ q.PendingCoinDays, 0 < e.Coin) ∧
  (∀ e ∈ q.PendingCoinDays, e.StartTime ≤ q.LastUpdatedAt)

/-- The removal weight in the words of the specification:
`(LastUpdatedAt - StartTime) / SecondsToRecoverCoinDay * Coin`, clamped to `[0, Coin]`. -/
def clampedWeight (p : Params) (lu : Int) (e : PendingCoinDay) : ℚ :=
  max 0 (min (e.Coin : ℚ)
    (((lu - e.StartTime : Int) : ℚ) / (p.SecondsToRecoverCoinDay : ℚ) * (e.Coin : ℚ)))

/-- A queue last updated two recovery windows after the start of its head entry, which
is followed by an entry that starts at `LastUpdatedAt`. -/
def staleQueue : PendingCoinDayQueue :=
  { LastUpdatedAt := 1209600, TotalCoinDay := 7, TotalCoin := 15,
    PendingCoinDays :=
      [{ StartTime := 0, EndTime := 604800, Coin := 10 },
       { StartTime := 1209600, EndTime := 1814400, Coin := 5 }] }

/-! ## The loops, one iteration at a time -/

/-- The outcome of one iteration of a `for` loop: the loop goes on from a new state
(`next`), or it is left in a final state (`done`), its condition being false or its body
reaching `break`. -/
inductive LoopStep (σ : Type) where
  | next : σ → LoopStep σ
  | done : σ → LoopStep σ

/-- Run a loop for at most `fuel` iterations: the final state with the number of
iterations made, the one that leaves the loop included, or `none` when the fuel runs
out. -/
def runLoop {σ : Type} (step : σ → LoopStep σ) : Nat → σ → Option (σ × Nat)
  | 0, _ => none
  | fuel + 1, st =>
    match step st with
    | .done st2 => some (st2, 1)
    | .next st2 => (runLoop step fuel st2).map (fun r => (r.1, r.2 + 1))

/-- One iteration of the loop of `updateTXFromPendingCoinDayQueue` on the bank record
and the queue. -/
def maturationStep (dr : DecRound) (p : Params) (currentTimeSlot : Int) :
    AccountBank × PendingCoinDayQueue → LoopStep (AccountBank × PendingCoinDayQueue)
  | (bank, q) =>
    match q.PendingCoinDays with
    | [] => .done (bank, q)
    | pendingCoinDay :: rest =>
      if pendingCoinDay.EndTime ≤ currentTimeSlot then
        let coinDayRatioOfThisTransaction :=
          NewDecFromRat dr (q.LastUpdatedAt - pendingCoinDay.StartTime)
            p.SecondsToRecoverCoinDay
        .next
          ({ bank with CoinDay := bank.CoinDay + pendingCoinDay.Coin },
           { q with
             TotalCoinDay := q.TotalCoinDay -
               Dec.Mul dr coinDayRatioOfThisTransaction (Coin.ToDec pendingCoinDay.Coin)
             TotalCoin := q.TotalCoin - pendingCoinDay.Coin
             PendingCoinDays := rest })
      else .done (bank, q)

/-- One iteration of the loop of `MinusSavingCoin` on the coin left to withdraw and the
queue: the entry at index `lengthOfQueue-1` is removed, or cut and the loop left. -/
def tailStep (dr : DecRound) (p : Params) :
    Coin × PendingCoinDayQueue → LoopStep (Coin × PendingCoinDayQueue)
  | (coin, q) =>
    match q.PendingCoinDays.getLast? with
    | none => .done (coin, q)
    | some pendingCoinDay =>
      let recoverRatio :=
        NewDecFromRat dr (q.LastUpdatedAt - pendingCoinDay.StartTime)
          p.SecondsToRecoverCoinDay
      if coin ≥ pendingCoinDay.Coin then
        .next
          (coin - pendingCoinDay.Coin,
           { q with
             TotalCoinDay := q.TotalCoinDay -
               Dec.Mul dr recoverRatio (Coin.ToDec pendingCoinDay.Coin)
             TotalCoin := q.TotalCoin - pendingCoinDay.Coin
             PendingCoinDays := q.PendingCoinDays.dropLast })
      else
        .done
          (0,
           { q with
             TotalCoinDay := q.TotalCoinDay - Dec.Mul dr recoverRatio (Coin.ToDec coin)
             TotalCoin := q.TotalCoin - coin
             PendingCoinDays := q.PendingCoinDays.dropLast ++
               [{ pendingCoinDay with Coin := pendingCoinDay.Coin - coin }] })

/-- One iteration of the loop of `MinusSavingCoinWithFullCoinDay` on the coin left to
withdraw and the queue: the entry at index 0 is removed, or cut and the loop left. -/
def headStep (dr : DecRound) (p : Params) :
    Coin × PendingCoinDayQueue → LoopStep (Coin × PendingCoinDayQueue)
  | (coin, q) =>
    match q.PendingCoinDays with
    | [] => .done (coin, q)
    | pendingCoinDay :: rest =>
      let recoverRatio :=
        NewDecFromRat dr (q.LastUpdatedAt - pendingCoinDay.StartTime)
          p.SecondsToRecoverCoinDay
      if coin ≥ pendingCoinDay.Coin then
        .next
          (coin - pendingCoinDay.Coin,
           { q with
             TotalCoinDay := q.TotalCoinDay -
               Dec.Mul dr recoverRatio (Coin.ToDec pendingCoinDay.Coin)
             TotalCoin := q.TotalCoin - pendingCoinDay.Coin
             PendingCoinDays := rest })
      else
        .done
          (0,
           { q with
             TotalCoinDay := q.TotalCoinDay - Dec.Mul dr recoverRatio (Coin.ToDec coin)
             TotalCoin := q.TotalCoin - coin
             PendingCoinDays :=
               { pendingCoinDay with Coin := pendingCoinDay.Coin - coin } :: rest })

/-! ## The event buffer of the global manager -/

/-- Modelled from the spec: an event (`types.Event`), an interface whose implementations
are not in the sources at hand; only its identity matters here. -/
abbrev Event := Nat

/-- Modelled from the spec: the list of events stored under one time
(`types.TimeEventList`). -/
structure TimeEventList where
  Events : List Event := []
  deriving DecidableEq, Repr

/-- Modelled from the spec: the error of registering an event in the past
(`ErrRegisterExpiredEvent`). -/
inductive GlobalError where
  | ErrRegisterExpiredEvent (unixTime : Int)
  deriving DecidableEq, Repr

/-- Modelled from the spec: the events buffered for one time (`model.EventCache`). -/
structure EventCache where
  UnixTime : Int
  EventList : List Event
  deriving DecidableEq, Repr

/-- Modelled from the spec: the part of `model.GlobalStorage` that keeps the time event
lists, a key-value store read with `GetTimeEventList` (no list and no error for a key that
is absent) and written with `SetTimeEventList`. -/
structure GlobalStorage where
  timeEventList : Int → Option TimeEventList := fun _ => none

/-- Modelled from the spec: `GetTimeEventList`. -/
def GlobalStorage.GetTimeEventList (st : GlobalStorage) (unixTime : Int) :
    Except GlobalError (Option TimeEventList) :=
  .ok (st.timeEventList unixTime)

/-- Modelled from the spec: `SetTimeEventList`. -/
def GlobalStorage.SetTimeEventList (st : GlobalStorage) (unixTime : Int)
    (lst : TimeEventList) : Except GlobalError GlobalStorage :=
  .ok { st with
        timeEventList := fun t => if t = unixTime then some lst else st.timeEventList t }

/-- The struct `GlobalManager`: the storage and the buffer `deliverTxEventCacheList`. -/
structure GlobalManager where
  storage : GlobalStorage
  deliverTxEventCacheList : List EventCache

/-- The `range` loop of `registerEventAtTime`: the event is appended to the first buffer
entry of the same time; `none` when the loop ends without finding one. -/
def appendToEventCache (unixTime : Int) (event : Event) :
    List EventCache → Option (List EventCache)
  | [] => none
  | eventCache :: rest =>
    if unixTime = eventCache.UnixTime then
      some ({ eventCache with EventList := eventCache.EventList ++ [event] } :: rest)
    else (appendToEventCache unixTime event rest).map (fun l => eventCache :: l)

/-- The method `registerEventAtTime`; `blockTime` is `ctx.BlockHeader().Time.Unix()` and
`isCheckTx` is `ctx.IsCheckTx()`. -/
def registerEventAtTime (isCheckTx : Bool) (blockTime : Int) (gm : GlobalManager)
    (unixTime : Int) (event : Event) : Option GlobalError × GlobalManager :=
  if unixTime < blockTime then (some (.ErrRegisterExpiredEvent unixTime), gm)
  else if isCheckTx then (none, gm)
  else
    match appendToEventCache unixTime event gm.deliverTxEventCacheList with
    | some l => (none, { gm with deliverTxEventCacheList := l })
    | none =>
      (none,
       { gm with
         deliverTxEventCacheList :=
           gm.deliverTxEventCacheList ++ [{ UnixTime := unixTime, EventList := [event] }] })

/-- The `range` loop of `CommitEventCache` over the buffer, on the storage. -/
def commitEventCacheLoop :
    List EventCache → GlobalStorage → Option GlobalError × GlobalStorage
  | [], st => (none, st)
  | eventCache :: rest, st =>
    match st.GetTimeEventList eventCache.UnixTime with
    | .error err => (some err, st)
    | .ok found =>
      let eventList : TimeEventList :=
        match found with
        | none => { Events := [] }
        | some l => l
      let eventList := { eventList with Events := eventList.Events ++ eventCache.EventList }
      match st.SetTimeEventList eventCache.UnixTime eventList with
      | .error err => (some err, st)
      | .ok st2 => commitEventCacheLoop rest st2

/-- The method `CommitEventCache`. -/
def CommitEventCache (gm : GlobalManager) : Option GlobalError × GlobalManager :=
  match commitEventCacheLoop gm.deliverTxEventCacheList gm.storage with
  | (some err, st) => (some err, { gm with storage := st })
  | (none, st) => (none, { storage := st, deliverTxEventCacheList := [] })

/-- The method `ClearEventCache`. -/
def ClearEventCache (gm : GlobalManager) : Option GlobalError × GlobalManager :=
  (none, { gm with deliverTxEventCacheList := [] })

/-- A call of `registerEventAtTime`: the block time of the context, the time asked for
and the event. -/
structure Registration where
  blockTime : Int
  unixTime : Int
  event : Event
  deriving DecidableEq, Repr

/-- A run of calls of `registerEventAtTime`, each on the manager the one before left. -/
def registerAll (isCheckTx : Bool) : List Registration → GlobalManager → GlobalManager
  | [], gm => gm
  | r :: rest, gm =>
    registerAll isCheckTx rest (registerEventAtTime isCheckTx r.blockTime gm r.unixTime r.event).2

/-- The events of the buffer entries of time `t`, in buffer order. -/
def bufferedAt (t : Int) : List EventCache → List Event
  | [] => []
  | eventCache :: rest =>
    (if eventCache.UnixTime = t then eventCache.EventList else []) ++ bufferedAt t rest

/-- The events of the calls that ask for time `t` and are not in the past of their block
time, in the order of the calls. -/
def acceptedAt (t : Int) : List Registration → List Event
  | [] => []
  | r :: rest =>
    (if r.blockTime ≤ r.unixTime ∧ r.unixTime = t then [r.event] else []) ++ acceptedAt t rest

/-- The events stored under time `t`, none when no list is stored. -/
def storedEvents (st : GlobalStorage) (t : Int) : List Event :=
  match st.timeEventList t with
  | none => []
  | some l => l.Events

/-- A storage with the events 1 and 2 under time 100. -/
def sampleGlobalStorage : GlobalStorage :=
  { timeEventList := fun t => if t = 100 then some { Events := [1, 2] } else none }

/-- Deliver-time calls at block time 50: events 7 and 9 for time 100, event 8 for time
200, and event 5 for the past time 40. -/
def sampleRegistrations : List Registration :=
  [ { blockTime := 50, unixTime := 100, event := 7 },
    { blockTime := 50, unixTime := 200, event := 8 },
    { blockTime := 50, unixTime := 40, event := 5 },
    { blockTime := 50, unixTime := 100, event := 9 } ]

/-! ## The rounding of the cosmos-sdk decimal -/

/-- The integer part of a rational, rounded toward zero (`big.Int.Quo`). -/
def truncRat (x : ℚ) : Int := if 0 ≤ x then ⌊x⌋ else ⌈x⌉

/-- The rounding of `sdk.Dec` with `precision` fractional digits: `Mul` rounds the exact
product to the nearest multiple of `10^-precision`, a tie to the even one
(`chopPrecisionAndRound`); `Quo` truncates the exact quotient to `2 * precision` digits
and then rounds it in the same way. -/
def sdkDec (precision : Nat) : DecRound :=
  { mulRound := fun x => (roundHalfEven (x * 10 ^ precision) : ℚ) / 10 ^ precision
    quoRound := fun x =>
      (roundHalfEven ((truncRat (x * 10 ^ (2 * precision)) : ℚ) / 10 ^ precision) : ℚ) /
        10 ^ precision
    mulRound_int := by
      intro n
      show (roundHalfEven ((n : ℚ) * 10 ^ precision) : ℚ) / 10 ^ precision = n
      have h : (n : ℚ) * 10 ^ precision = ((n * 10 ^ precision : Int) : ℚ) := by push_cast; rfl
      rw [h]
      have hr : ∀ m : Int, roundHalfEven (m : ℚ) = m := fun m => by simp [roundHalfEven]
      rw [hr]
      push_cast
      field_simp
    quoRound_int := by
      intro n
      show (roundHalfEven ((truncRat ((n : ℚ) * 10 ^ (2 * precision)) : ℚ) /
        10 ^ precision) : ℚ) / 10 ^ precision = n
      have h : (n : ℚ) * 10 ^ (2 * precision) = ((n * 10 ^ (2 * precision) : Int) : ℚ) := by
        push_cast; rfl
      have ht : truncRat ((n * 10 ^ (2 * precision) : Int) : ℚ) = n * 10 ^ (2 * precision) := by
        unfold truncRat
        split
        · exact Int.floor_intCast _
        · exact Int.ceil_intCast _
      have h2 : ((n * 10 ^ (2 * precision) : Int) : ℚ) / 10 ^ precision =
          ((n * 10 ^ precision : Int) : ℚ) := by
        push_cast
        rw [two_mul, pow_add]
        field_simp
        ring
      rw [h, ht, h2]
      have hr : ∀ m : Int, roundHalfEven (m : ℚ) = m := fun m => by simp [roundHalfEven]
      rw [hr]
      push_cast
      field_simp }

/-- The store after opening `bob` with a register deposit of 3 at time 0 and withdrawing 2
with `MinusSavingCoin` at time 4800, under `sampleParams`. -/
def residueStore (dr : DecRound) : AccountStorage :=
  (MinusSavingCoin dr sampleParams 4800
    (CreateAccount dr sampleParams 0 AccountStorage.empty "bob" 1 2 3 3).2 "bob" 2).2

/-! ## Granted permissions -/

/-- The type `types.Permission` and its constants. -/
inductive Permission where
  | UnknownPermission
  | AppPermission
  | TransactionPermission
  | ResetPermission
  | GrantAppPermission
  | PreAuthorizationPermission
  | AppAndPreAuthorizationPermission
  | AppOrAffiliatedPermission
deriving DecidableEq, Repr

/-- The struct `model.GrantPermission`, with the fields that `AuthorizePermission` fills. -/
structure GrantPermission where
  GrantTo : AccountKey
  Permission : Permission
  CreatedAt : Int
  ExpiresAt : Int
  Amount : Coin
deriving DecidableEq, Repr

/-- Modelled from the spec: the grant table of `model.AccountStorage`, kept apart from the
other records: for every granting account the grantees that have a list of grants, in the
key order in which the store iterates over them, each with its list. -/
structure GrantStorage where
  grants : AccountKey → List (AccountKey × List GrantPermission)

/-- Modelled from the spec: `GetGrantPermissions`, the list stored for `(me, grantTo)`, or
`ErrGrantPubKeyNotFound`. -/
def GrantStorage.GetGrantPermissions (g : GrantStorage) (me grantTo : AccountKey) :
    Except Error (List GrantPermission) :=
  match (g.grants me).lookup grantTo with
  | some l => .ok l
  | none => .error .ErrGrantPubKeyNotFound

/-- The lists of all grantees, one after the other. -/
def allGrants : List (AccountKey × List GrantPermission) → List GrantPermission
  | [] => []
  | e :: rest => e.2 ++ allGrants rest

/-- Modelled from the spec: `GetAllGrantPermissions`, every grant that `me` has given, in
the order of the store. -/
def GrantStorage.GetAllGrantPermissions (g : GrantStorage) (me : AccountKey) :
    Except Error (List GrantPermission) :=
  .ok (allGrants (g.grants me))

/-- A new key enters the table at its place in key order. -/
def insertGrantee (grantTo : AccountKey) (l : List GrantPermission) :
    List (AccountKey × List GrantPermission) → List (AccountKey × List GrantPermission)
  | [] => [(grantTo, l)]
  | e :: rest =>
    if grantTo < e.1 then (grantTo, l) :: e :: rest else e :: insertGrantee grantTo l rest

/-- Modelled from the spec: `SetGrantPermissions`, which overwrites the list stored for
`(me, grantTo)` or stores a new one. -/
def GrantStorage.SetGrantPermissions (g : GrantStorage) (me grantTo : AccountKey)
    (l : List GrantPermission) : GrantStorage :=
  { grants := fun m =>
      if m = me then
        if ((g.grants me).lookup grantTo).isSome then
          (g.grants me).map (fun e => if e.1 = grantTo then (grantTo, l) else e)
        else insertGrantee grantTo l (g.grants me)
      else g.grants m }

/-- The method `GetResetKey`. -/
def GetResetKey (s : AccountStorage) (username : AccountKey) : Except Error Nat :=
  match s.info username with
  | some accountInfo => .ok accountInfo.ResetKey
  | none => .error (.ErrGetResetKey username)

/-- The method `GetTransactionKey`. -/
def GetTransactionKey (s : AccountStorage) (username : AccountKey) : Except Error Nat :=
  match s.info username with
  | some accountInfo => .ok accountInfo.TransactionKey
  | none => .error (.ErrGetTransactionKey username)

/-- The method `GetAppKey`. -/
def GetAppKey (s : AccountStorage) (username : AccountKey) : Except Error Nat :=
  match s.info username with
  | some accountInfo => .ok accountInfo.AppKey
  | none => .error (.ErrGetAppKey username)

/-- An `int64` after an operation that may wrap around. -/
def int64Wrap (x : Int) : Int := (x + 2 ^ 63) % 2 ^ 64 - 2 ^ 63

/-- The expression `ctx.BlockHeader().Time.Add(time.Duration(validityPeriod) *
time.Second).Unix()` for a block time of `now` seconds and `nsec` nanoseconds: the
duration is an `int64` count of nanoseconds. -/
def expiresAtUnix (now nsec validityPeriod : Int) : Int :=
  (now * 10 ^ 9 + nsec + int64Wrap (validityPeriod * 10 ^ 9)) / 10 ^ 9

/-- The `range` loop of `AuthorizePermission`: the first grant of the same permission is
replaced; `none` when there is no such grant. -/
def replaceGrant (newGrantPubKey : GrantPermission) :
    List GrantPermission → Option (List GrantPermission)
  | [] => none
  | pubkey :: rest =>
    if pubkey.Permission = newGrantPubKey.Permission then some (newGrantPubKey :: rest)
    else (replaceGrant newGrantPubKey rest).map (fun l => pubkey :: l)

/-- The method `AuthorizePermission` at a block time of `now` seconds and `nsec`
nanoseconds: the error and the grant table. -/
def AuthorizePermission (now nsec : Int) (s : AccountStorage) (g : GrantStorage)
    (me grantTo : AccountKey) (validityPeriod : Int) (grantLevel : Permission)
    (amount : Coin) : Option Error × GrantStorage :=
  if ¬ s.DoesAccountExist grantTo then (some (.ErrAccountNotFound grantTo), g)
  else if grantLevel ≠ .PreAuthorizationPermission ∧ grantLevel ≠ .AppPermission then
    (some .ErrUnsupportGrantLevel, g)
  else
    let newGrantPubKey : GrantPermission :=
      { GrantTo := grantTo
        Permission := grantLevel
        CreatedAt := now
        ExpiresAt := expiresAtUnix now nsec validityPeriod
        Amount := amount }
    match g.GetGrantPermissions me grantTo with
    | .error err =>
      if err = .ErrGrantPubKeyNotFound then
        (none, g.SetGrantPermissions me grantTo [newGrantPubKey])
      else (some err, g)
    | .ok pubkeys =>
      match replaceGrant newGrantPubKey pubkeys with
      | some l => (none, g.SetGrantPermissions me grantTo l)
      | none => (none, g.SetGrantPermissions me grantTo (pubkeys ++ [newGrantPubKey]))

/-- The `range` loop of `CheckSigningPubKeyOwner` over the grants of `me`: the returned
account key and error, and the grant table. -/
def checkGrantPubKeys (now nsec : Int) (s : AccountStorage) (g : GrantStorage)
    (me : AccountKey) (signKey : Nat) (permission : Permission) (amount : Coin) :
    List GrantPermission → (AccountKey × Option Error) × GrantStorage
  | [] => (("", some (.ErrCheckAuthenticatePubKeyOwner me)), g)
  | pubKey :: rest =>
    if pubKey.ExpiresAt < now then
      checkGrantPubKeys now nsec s g me signKey permission amount rest
    else if permission ≠ pubKey.Permission then
      checkGrantPubKeys now nsec s g me signKey permission amount rest
    else if permission = .PreAuthorizationPermission then
      match GetTransactionKey s pubKey.GrantTo with
      | .error err => (("", some err), g)
      | .ok txKey =>
        if ¬ signKey = txKey then
          checkGrantPubKeys now nsec s g me signKey permission amount rest
        else if amount > pubKey.Amount then
          (("", some (.ErrPreAuthAmountInsufficient pubKey.GrantTo pubKey.Amount amount)), g)
        else
          match AuthorizePermission now nsec s g me pubKey.GrantTo (pubKey.ExpiresAt - now)
              pubKey.Permission (pubKey.Amount - amount) with
          | (some _, g2) => (("", none), g2)
          | (none, g2) => ((pubKey.GrantTo, none), g2)
    else if permission = .AppPermission then
      match GetAppKey s pubKey.GrantTo with
      | .error err => (("", some err), g)
      | .ok appKey =>
        if ¬ signKey = appKey then
          checkGrantPubKeys now nsec s g me signKey permission amount rest
        else ((pubKey.GrantTo, none), g)
    else checkGrantPubKeys now nsec s g me signKey permission amount rest

/-- The method `CheckSigningPubKeyOwner` at a block time of `now` seconds and `nsec`
nanoseconds: the returned account key and error, and the grant table. -/
def CheckSigningPubKeyOwner (now nsec : Int) (s : AccountStorage) (g : GrantStorage)
    (me : AccountKey) (signKey : Nat) (permission : Permission) (amount : Coin) :
    (AccountKey × Option Error) × GrantStorage :=
  if ¬ s.DoesAccountExist me then (("", some (.ErrAccountNotFound me)), g)
  else if permission = .ResetPermission then
    match GetResetKey s me with
    | .error err => (("", some err), g)
    | .ok pubKey =>
      if pubKey = signKey then ((me, none), g) else (("", some .ErrCheckResetKey), g)
  else
    match GetTransactionKey s me with
    | .error err => (("", some err), g)
    | .ok pubKey =>
      if pubKey = signKey then ((me, none), g)
      else if permission = .TransactionPermission then
        (("", some .ErrCheckTransactionKey), g)
      else
        let ownAppKey : Except Error Bool :=
          if permission = .AppPermission ∨ permission = .GrantAppPermission then
            match GetAppKey s me with
            | .error err => .error err
            | .ok appKey => .ok (appKey = signKey)
          else .ok false
        match ownAppKey with
        | .error err => (("", some err), g)
        | .ok true => ((me, none), g)
        | .ok false =>
          if permission = .GrantAppPermission then (("", some .ErrCheckGrantAppKey), g)
          else
            match g.GetAllGrantPermissions me with
            | .error err => (("", some err), g)
            | .ok grantPubKeys =>
              checkGrantPubKeys now nsec s g me signKey permission amount grantPubKeys

/-- A grant that the loop of `CheckSigningPubKeyOwner` passes over when the permission
asked for is `PreAuthorizationPermission`: it is expired, or of another permission, or
its grantee has another transaction key than the signing key. -/
def PassedOver (now : Int) (s : AccountStorage) (signKey : Nat) (x : GrantPermission) :
    Prop :=
  x.ExpiresAt < now ∨ x.Permission ≠ .PreAuthorizationPermission ∨
    ∃ k, GetTransactionKey s x.GrantTo = .ok k ∧ k ≠ signKey

/-- A call of `CheckSigningPubKeyOwner`: the block time in seconds and nanoseconds, and
the amount. -/
structure SignedCall where
  now : Int
  nsec : Int
  amount : Coin
deriving DecidableEq, Repr

/-- A run of calls of `CheckSigningPubKeyOwner` for `PreAuthorizationPermission`, each on
the grant table the one before left: the table after the last call when every call
returns `signer` without error, `none` otherwise. -/
def checkAll (s : AccountStorage) (me : AccountKey) (signKey : Nat) (signer : AccountKey) :
    List SignedCall → GrantStorage → Option GrantStorage
  | [], g => some g
  | c :: rest, g =>
    if (CheckSigningPubKeyOwner c.now c.nsec s g me signKey .PreAuthorizationPermission
        c.amount).1 = (signer, none) then
      checkAll s me signKey signer rest
        (CheckSigningPubKeyOwner c.now c.nsec s g me signKey .PreAuthorizationPermission
          c.amount).2
    else none

/-- Two accounts, `user1` and `user3`, with their keys. -/
def grantSampleStore : AccountStorage :=
  { info := fun u =>
      if u = "user1" then
        some { Username := "user1", CreatedAt := 0, ResetKey := 11, TransactionKey := 12,
               AppKey := 13 }
      else if u = "user3" then
        some { Username := "user3", CreatedAt := 0, ResetKey := 31, TransactionKey := 32,
               AppKey := 33 }
      else none
    bank := fun _ => none, queue := fun _ => none, accMeta := fun _ => none,
    reward := fun _ => none }

/-- The grant table with no grant. -/
def GrantStorage.empty : GrantStorage := { grants := fun _ => [] }

/-- The table after `user1` has granted `user3` the pre-authorization of 100 coins for
3600 seconds, at time 0. -/
def preAuthGranted : GrantStorage :=
  (AuthorizePermission 0 0 grantSampleStore GrantStorage.empty "user1" "user3" 3600
    .PreAuthorizationPermission 100).2

/-- The table after `user1` has granted `user3` the app permission for 3600 seconds, at
time 0. -/
def appGranted : GrantStorage :=
  (AuthorizePermission 0 0 grantSampleStore GrantStorage.empty "user1" "user3" 3600
    .AppPermission 0).2

/-- A configuration whose recovery window is not a whole number of buckets. -/
def oddWindowParams : Params := { sampleParams with SecondsToRecoverCoinDay := 604801 }

/-- The store after opening `bob` with a register deposit of `9 * 10^20 + 3` at time 0 and
withdrawing `9 * 10^20` with `MinusSavingCoin` at time 42000, under `sampleParams`. -/
def driftStore (dr : DecRound) : AccountStorage :=
  (MinusSavingCoin dr sampleParams 42000
    (CreateAccount dr sampleParams 0 AccountStorage.empty "bob" 1 2 3
      900000000000000000003).2 "bob" 900000000000000000000).2

/-! # Theorems -/

/-! ## Closed form of the recompute -/

theorem removeExpired_eq (dr : DecRound) (p : Params) (slot : Int) (l : List PendingCoinDay)
    (bank : AccountBank) (q : PendingCoinDayQueue) :
    removeExpired dr p slot l bank q =
      ({ bank with CoinDay := bank.CoinDay + coinSum (expiredPart slot l) },
       { q with
         TotalCoinDay := q.TotalCoinDay - removedWeight dr p q.LastUpdatedAt (expiredPart slot l)
         TotalCoin := q.TotalCoin - coinSum (expiredPart slot l)
         PendingCoinDays := pendingPart slot l }) := by
  induction l generalizing bank q with
  | nil => simp [removeExpired, expiredPart, pendingPart, coinSum, removedWeight]
  | cons e rest ih =>
    by_cases h : e.EndTime ≤ slot
    · simp only [removeExpired, h, if_true, ih]
      simp [expiredPart, pendingPart, coinSum, removedWeight, List.takeWhile, List.dropWhile, h]
      refine ⟨?_, ?_, ?_⟩ <;> ring
    · simp [removeExpired, expiredPart, pendingPart, coinSum, removedWeight,
        List.takeWhile, List.dropWhile, h]

theorem updateTX_fst (dr : DecRound) (p : Params) (now : Int) (bank : AccountBank)
    (q : PendingCoinDayQueue) :
    (updateTXFromPendingCoinDayQueue dr p now bank q).1 =
      { bank with
        CoinDay := bank.CoinDay + coinSum (expiredPart (timeSlot now) q.PendingCoinDays) } := by
  simp [updateTXFromPendingCoinDayQueue, removeExpired_eq]

theorem updateTX_entries (dr : DecRound) (p : Params) (now : Int) (bank : AccountBank)
    (q : PendingCoinDayQueue) :
    (updateTXFromPendingCoinDayQueue dr p now bank q).2.PendingCoinDays =
      pendingPart (timeSlot now) q.PendingCoinDays := by
  simp only [updateTXFromPendingCoinDayQueue, removeExpired_eq]
  split <;> rfl

theorem updateTX_lastUpdatedAt (dr : DecRound) (p : Params) (now : Int) (bank : AccountBank)
    (q : PendingCoinDayQueue) :
    (updateTXFromPendingCoinDayQueue dr p now bank q).2.LastUpdatedAt = timeSlot now := by
  simp [updateTXFromPendingCoinDayQueue]

theorem updateTX_totalCoin (dr : DecRound) (p : Params) (now : Int) (bank : AccountBank)
    (q : PendingCoinDayQueue) :
    (updateTXFromPendingCoinDayQueue dr p now bank q).2.TotalCoin =
      if pendingPart (timeSlot now) q.PendingCoinDays = [] then 0
      else q.TotalCoin - coinSum (expiredPart (timeSlot now) q.PendingCoinDays) := by
  simp only [updateTXFromPendingCoinDayQueue, removeExpired_eq]
  by_cases h : pendingPart (timeSlot now) q.PendingCoinDays = [] <;> simp [h]

theorem updateTX_totalCoinDay (dr : DecRound) (p : Params) (now : Int) (bank : AccountBank)
    (q : PendingCoinDayQueue) :
    (updateTXFromPendingCoinDayQueue dr p now bank q).2.TotalCoinDay =
      if pendingPart (timeSlot now) q.PendingCoinDays = [] then 0
      else q.TotalCoinDay
          - removedWeight dr p q.LastUpdatedAt (expiredPart (timeSlot now) q.PendingCoinDays)
          + Dec.Quo dr
              (Dec.Mul dr
                (Coin.ToDec
                  (q.TotalCoin - coinSum (expiredPart (timeSlot now) q.PendingCoinDays)))
                (NewDec (timeSlot now - q.LastUpdatedAt)))
              (NewDec p.SecondsToRecoverCoinDay) := by
  simp only [updateTXFromPendingCoinDayQueue, removeExpired_eq]
  by_cases h : pendingPart (timeSlot now) q.PendingCoinDays = [] <;> simp [h]

/-- The queue produced by the recompute does not depend on the bank record. -/
theorem updateTX_snd_bank (dr : DecRound) (p : Params) (now : Int) (bank bank2 : AccountBank)
    (q : PendingCoinDayQueue) :
    (updateTXFromPendingCoinDayQueue dr p now bank q).2 =
      (updateTXFromPendingCoinDayQueue dr p now bank2 q).2 := by
  simp [updateTXFromPendingCoinDayQueue, removeExpired_eq]

/-! ## The store after each operation -/

theorem GetCoinDay_eq (dr : DecRound) (p : Params) (now : Int) (s : AccountStorage)
    (u : AccountKey) (b : AccountBank) (q : PendingCoinDayQueue)
    (hb : s.bank u = some b) (hq : s.queue u = some q) :
    GetCoinDay dr p now s u =
      (none,
        (updateTXFromPendingCoinDayQueue dr p now b q).1.CoinDay +
          DecToCoin (updateTXFromPendingCoinDayQueue dr p now b q).2.TotalCoinDay,
        (s.SetPendingCoinDayQueue u (updateTXFromPendingCoinDayQueue dr p now b q).2
          ).SetBankFromAccountKey u (updateTXFromPendingCoinDayQueue dr p now b q).1) := by
  simp [GetCoinDay, AccountStorage.GetBankFromAccountKey,
    AccountStorage.GetPendingCoinDayQueue, hb, hq]

theorem AddSavingCoin_eq (dr : DecRound) (p : Params) (now : Int) (s : AccountStorage)
    (u : AccountKey) (c : Coin) (b : AccountBank) (q : PendingCoinDayQueue)
    (hex : s.DoesAccountExist u = true) (hb : s.bank u = some b) (hq : s.queue u = some q)
    (hc : c ≠ 0) :
    AddSavingCoin dr p now s u c =
      (none,
        (s.SetPendingCoinDayQueue u
          (pushPendingCoinDay (updateTXFromPendingCoinDayQueue dr p now b q).2
            (newPendingCoinDay p now c))).SetBankFromAccountKey u
          { b with
            Saving := b.Saving + c
            CoinDay := b.CoinDay + coinSum (expiredPart (timeSlot now) q.PendingCoinDays) }) := by
  simp only [AddSavingCoin, hex, hc, addPendingCoinDayToQueue,
    AccountStorage.GetBankFromAccountKey, AccountStorage.GetPendingCoinDayQueue, hb, hq,
    newPendingCoinDay]
  simp only [updateTX_fst,
    updateTX_snd_bank dr p now { b with Saving := b.Saving + c } b q]
  simp

theorem get_set_bank (s : AccountStorage) (u : AccountKey) (b : AccountBank) :
    (s.SetBankFromAccountKey u b).bank u = some b := by
  simp [AccountStorage.SetBankFromAccountKey]

theorem get_set_queue (s : AccountStorage) (u : AccountKey) (q : PendingCoinDayQueue) :
    (s.SetPendingCoinDayQueue u q).queue u = some q := by
  simp [AccountStorage.SetPendingCoinDayQueue]

/-! ## Reading the coin day -/

/-- C6: `GetCoinDay` recomputes the queue at the block time, stores the recomputed bank and
queue records (leaving every other record of the store as it was) and returns
`bank.CoinDay + DecToCoin(queue.TotalCoinDay)` of the recomputed state. -/
theorem GetCoinDay_recompute_persist_return (dr : DecRound) (p : Params) (now : Int)
    (s : AccountStorage) (u : AccountKey) (b : AccountBank) (q : PendingCoinDayQueue)
    (hb : s.bank u = some b) (hq : s.queue u = some q) :
    ∃ s2 : AccountStorage,
      GetCoinDay dr p now s u =
        (none,
          (updateTXFromPendingCoinDayQueue dr p now b q).1.CoinDay +
            DecToCoin (updateTXFromPendingCoinDayQueue dr p now b q).2.TotalCoinDay,
          s2) ∧
      s2.bank u = some (updateTXFromPendingCoinDayQueue dr p now b q).1 ∧
      s2.queue u = some (updateTXFromPendingCoinDayQueue dr p now b q).2 ∧
      (∀ v, v ≠ u → s2.bank v = s.bank v ∧ s2.queue v = s.queue v) ∧
      s2.info = s.info ∧ s2.accMeta = s.accMeta ∧ s2.reward = s.reward := by
  refine ⟨_, GetCoinDay_eq dr p now s u b q hb hq, ?_, ?_, ?_, rfl, rfl, rfl⟩
  · simp [AccountStorage.SetBankFromAccountKey]
  · simp [AccountStorage.SetBankFromAccountKey, AccountStorage.SetPendingCoinDayQueue]
  · intro v hv
    simp [AccountStorage.SetBankFromAccountKey, AccountStorage.SetPendingCoinDayQueue, hv]

theorem updateTX_sample_half :
    updateTXFromPendingCoinDayQueue exactDec sampleParams 302400 sampleBank sampleQueue =
      ({ Saving := 10, CoinDay := 0 },
       { LastUpdatedAt := 302400, TotalCoinDay := 5, TotalCoin := 10,
         PendingCoinDays := [{ StartTime := 0, EndTime := 604800, Coin := 10 }] }) := by
  have hs : timeSlot 302400 = 302400 := by decide
  simp [updateTXFromPendingCoinDayQueue, removeExpired_eq, hs, sampleQueue, sampleBank,
    sampleParams, expiredPart, pendingPart, coinSum, removedWeight, List.takeWhile,
    List.dropWhile, Dec.Quo, Dec.Mul, exactDec, NewDec, Coin.ToDec]
  norm_num

theorem GetCoinDay_recompute_persist_return_witness :
    (sampleStore.bank "alice" = some sampleBank ∧
      sampleStore.queue "alice" = some sampleQueue) ∧
    ∃ s2 : AccountStorage,
      GetCoinDay exactDec sampleParams 302400 sampleStore "alice" = (none, 5, s2) ∧
      s2.bank "alice" = some { Saving := 10, CoinDay := 0 } ∧
      s2.queue "alice" =
        some { LastUpdatedAt := 302400, TotalCoinDay := 5, TotalCoin := 10,
               PendingCoinDays := [{ StartTime := 0, EndTime := 604800, Coin := 10 }] } := by
  refine ⟨⟨rfl, rfl⟩, ?_⟩
  obtain ⟨s2, h1, h2, h3, -⟩ :=
    GetCoinDay_recompute_persist_return exactDec sampleParams 302400 sampleStore "alice"
      sampleBank sampleQueue rfl rfl
  rw [updateTX_sample_half] at h1 h2 h3
  refine ⟨s2, ?_, h2, h3⟩
  rw [h1]
  simp [DecToCoin, roundHalfEven]

/-! ## Deposits -/

theorem pushPendingCoinDay_nil (q : PendingCoinDayQueue) (e : PendingCoinDay)
    (h : q.PendingCoinDays = []) :
    pushPendingCoinDay q e =
      { q with PendingCoinDays := [e], TotalCoin := q.TotalCoin + e.Coin } := by
  simp [pushPendingCoinDay, h]

theorem pushPendingCoinDay_merge (q : PendingCoinDayQueue) (e last : PendingCoinDay)
    (front : List PendingCoinDay) (h : q.PendingCoinDays = front ++ [last])
    (hs : last.StartTime = e.StartTime) :
    pushPendingCoinDay q e =
      { q with
        PendingCoinDays := front ++ [{ last with Coin := last.Coin + e.Coin }]
        TotalCoin := q.TotalCoin + e.Coin } := by
  simp [pushPendingCoinDay, h, hs]

theorem pushPendingCoinDay_append (q : PendingCoinDayQueue) (e last : PendingCoinDay)
    (front : List PendingCoinDay) (h : q.PendingCoinDays = front ++ [last])
    (hs : last.StartTime ≠ e.StartTime) :
    pushPendingCoinDay q e =
      { q with
        PendingCoinDays := q.PendingCoinDays ++ [e]
        TotalCoin := q.TotalCoin + e.Coin } := by
  simp [pushPendingCoinDay, h, hs]

theorem pushPendingCoinDay_fields (q : PendingCoinDayQueue) (e : PendingCoinDay) :
    (pushPendingCoinDay q e).TotalCoin = q.TotalCoin + e.Coin ∧
    (pushPendingCoinDay q e).TotalCoinDay = q.TotalCoinDay ∧
    (pushPendingCoinDay q e).LastUpdatedAt = q.LastUpdatedAt := by
  unfold pushPendingCoinDay
  split
  · split <;> simp
  · simp

theorem coinSum_append (l1 l2 : List PendingCoinDay) :
    coinSum (l1 ++ l2) = coinSum l1 + coinSum l2 := by
  simp [coinSum]

theorem pendingPart_subset (slot : Int) (l : List PendingCoinDay) :
    ∀ e ∈ pendingPart slot l, e ∈ l := by
  intro e he
  exact (List.dropWhile_sublist _).subset he

theorem expired_append_pending (slot : Int) (l : List PendingCoinDay) :
    expiredPart slot l ++ pendingPart slot l = l := by
  simp [expiredPart, pendingPart, List.takeWhile_append_dropWhile]

/-- C9: a deposit of `c > 0` into an existing account succeeds, raises `bank.Saving` by
exactly `c`, and leaves the queue equal to the recomputed queue with `c` added at the
bucket of the block time: `TotalCoin` (and the sum of the entries) is the recomputed one
plus `c`, the tail entry starts at the bucket and ends one recovery window later, the
entries before the tail are those of the recompute, and `TotalCoinDay`, `LastUpdatedAt`
and `bank.CoinDay` are those the recompute produced. -/
theorem AddSavingCoin_postcondition (dr : DecRound) (p : Params) (now : Int)
    (s : AccountStorage) (u : AccountKey) (c : Coin) (b : AccountBank)
    (q : PendingCoinDayQueue)
    (hex : s.DoesAccountExist u = true) (hb : s.bank u = some b) (hq : s.queue u = some q)
    (hend : ∀ e ∈ q.PendingCoinDays, e.EndTime = e.StartTime + p.SecondsToRecoverCoinDay)
    (hc : 0 < c) :
    ∃ (s2 : AccountStorage) (b2 : AccountBank) (q2 : PendingCoinDayQueue)
      (front : List PendingCoinDay) (last : PendingCoinDay),
      AddSavingCoin dr p now s u c = (none, s2) ∧
      s2.bank u = some b2 ∧ s2.queue u = some q2 ∧
      b2.Saving = b.Saving + c ∧
      b2.CoinDay = (updateTXFromPendingCoinDayQueue dr p now b q).1.CoinDay ∧
      q2.TotalCoin = (updateTXFromPendingCoinDayQueue dr p now b q).2.TotalCoin + c ∧
      q2.TotalCoinDay = (updateTXFromPendingCoinDayQueue dr p now b q).2.TotalCoinDay ∧
      q2.LastUpdatedAt = (updateTXFromPendingCoinDayQueue dr p now b q).2.LastUpdatedAt ∧
      coinSum q2.PendingCoinDays =
        coinSum (updateTXFromPendingCoinDayQueue dr p now b q).2.PendingCoinDays + c ∧
      q2.PendingCoinDays = front ++ [last] ∧
      last.StartTime = timeSlot now ∧
      last.EndTime = last.StartTime + p.SecondsToRecoverCoinDay ∧
      ((front = (updateTXFromPendingCoinDayQueue dr p now b q).2.PendingCoinDays ∧
          last.Coin = c) ∨
        ∃ old : PendingCoinDay,
          (updateTXFromPendingCoinDayQueue dr p now b q).2.PendingCoinDays = front ++ [old] ∧
          old.StartTime = timeSlot now ∧ old.EndTime = last.EndTime ∧
          last.Coin = old.Coin + c) := by
  have hne : c ≠ 0 := ne_of_gt hc
  have hpf := pushPendingCoinDay_fields (updateTXFromPendingCoinDayQueue dr p now b q).2
    (newPendingCoinDay p now c)
  rcases List.eq_nil_or_concat (updateTXFromPendingCoinDayQueue dr p now b q).2.PendingCoinDays
    with hnil | ⟨front, old, hcat⟩
  · refine ⟨_, _, _, (updateTXFromPendingCoinDayQueue dr p now b q).2.PendingCoinDays,
      newPendingCoinDay p now c,
      AddSavingCoin_eq dr p now s u c b q hex hb hq hne, get_set_bank _ _ _, ?_, rfl, ?_,
      hpf.1, hpf.2.1, hpf.2.2, ?_, ?_, rfl, rfl, Or.inl ⟨rfl, rfl⟩⟩
    · simp [AccountStorage.SetBankFromAccountKey, AccountStorage.SetPendingCoinDayQueue]
    · simp [updateTX_fst]
    · rw [pushPendingCoinDay_nil _ _ hnil, hnil]
      simp [coinSum, newPendingCoinDay]
    · rw [pushPendingCoinDay_nil _ _ hnil, hnil]
      simp
  · rw [List.concat_eq_append] at hcat
    by_cases hst : old.StartTime = timeSlot now
    · have hmem : old ∈ q.PendingCoinDays := by
        apply pendingPart_subset (timeSlot now)
        rw [← updateTX_entries dr p now b q, hcat]
        simp
      refine ⟨_, _, _, front, { old with Coin := old.Coin + c },
        AddSavingCoin_eq dr p now s u c b q hex hb hq hne, get_set_bank _ _ _, ?_, rfl, ?_,
        hpf.1, hpf.2.1, hpf.2.2, ?_, ?_, hst, ?_, Or.inr ⟨old, hcat, hst, rfl, rfl⟩⟩
      · simp [AccountStorage.SetBankFromAccountKey, AccountStorage.SetPendingCoinDayQueue]
      · simp [updateTX_fst]
      · rw [pushPendingCoinDay_merge _ _ old front hcat (by simpa [newPendingCoinDay] using hst),
          hcat]
        simp [coinSum, newPendingCoinDay]
        ring
      · rw [pushPendingCoinDay_merge _ _ old front hcat (by simpa [newPendingCoinDay] using hst)]
        simp [newPendingCoinDay]
      · simpa using hend old hmem
    · refine ⟨_, _, _, (updateTXFromPendingCoinDayQueue dr p now b q).2.PendingCoinDays,
        newPendingCoinDay p now c,
        AddSavingCoin_eq dr p now s u c b q hex hb hq hne, get_set_bank _ _ _, ?_, rfl, ?_,
        hpf.1, hpf.2.1, hpf.2.2, ?_, ?_, rfl, rfl, Or.inl ⟨rfl, rfl⟩⟩
      · simp [AccountStorage.SetBankFromAccountKey, AccountStorage.SetPendingCoinDayQueue]
      · simp [updateTX_fst]
      · rw [pushPendingCoinDay_append _ _ old front hcat
          (by simpa [newPendingCoinDay] using hst)]
        simp [coinSum, newPendingCoinDay]
      · rw [pushPendingCoinDay_append _ _ old front hcat
          (by simpa [newPendingCoinDay] using hst)]

theorem AddSavingCoin_postcondition_witness :
    (sampleStore.DoesAccountExist "alice" = true ∧
      sampleStore.bank "alice" = some sampleBank ∧
      sampleStore.queue "alice" = some sampleQueue ∧
      (∀ e ∈ sampleQueue.PendingCoinDays,
        e.EndTime = e.StartTime + sampleParams.SecondsToRecoverCoinDay) ∧
      (0 : Coin) < 7) ∧
    ∃ (s2 : AccountStorage) (b2 : AccountBank) (q2 : PendingCoinDayQueue),
      AddSavingCoin exactDec sampleParams 302400 sampleStore "alice" 7 = (none, s2) ∧
      s2.bank "alice" = some b2 ∧ s2.queue "alice" = some q2 ∧
      b2.Saving = 17 ∧ b2.CoinDay = 0 ∧ q2.TotalCoin = 17 ∧ q2.TotalCoinDay = 5 ∧
      q2.LastUpdatedAt = 302400 ∧ coinSum q2.PendingCoinDays = 17 := by
  have hend : ∀ e ∈ sampleQueue.PendingCoinDays,
      e.EndTime = e.StartTime + sampleParams.SecondsToRecoverCoinDay := by
    simp [sampleQueue, sampleParams]
  refine ⟨⟨rfl, rfl, rfl, hend, by decide⟩, ?_⟩
  obtain ⟨s2, b2, q2, front, last, h1, h2, h3, h4, h5, h6, h7, h8, h9, -⟩ :=
    AddSavingCoin_postcondition exactDec sampleParams 302400 sampleStore "alice" 7
      sampleBank sampleQueue rfl rfl rfl hend (by decide)
  rw [updateTX_sample_half] at h5 h6 h7 h8 h9
  refine ⟨s2, b2, q2, h1, h2, h3, ?_, h5, ?_, h7, h8, ?_⟩
  · rw [h4]; rfl
  · rw [h6]; rfl
  · rw [h9]; rfl

theorem get_set_queue_bank (s : AccountStorage) (u : AccountKey) (b : AccountBank)
    (q : PendingCoinDayQueue) :
    ((s.SetPendingCoinDayQueue u q).SetBankFromAccountKey u b).queue u = some q := by
  simp [AccountStorage.SetBankFromAccountKey, AccountStorage.SetPendingCoinDayQueue]

theorem doesAccountExist_set (s : AccountStorage) (u v : AccountKey) (b : AccountBank)
    (q : PendingCoinDayQueue) :
    ((s.SetPendingCoinDayQueue u q).SetBankFromAccountKey u b).DoesAccountExist v =
      s.DoesAccountExist v := rfl

theorem expiredPart_eq_nil_of_pending (slot : Int) (l : List PendingCoinDay)
    (h : ∀ e ∈ l, slot < e.EndTime) : expiredPart slot l = [] := by
  cases l with
  | nil => rfl
  | cons e rest =>
    have := h e (by simp)
    simp [expiredPart, List.takeWhile, not_le.mpr this]

theorem pendingPart_eq_self_of_pending (slot : Int) (l : List PendingCoinDay)
    (h : ∀ e ∈ l, slot < e.EndTime) : pendingPart slot l = l := by
  have h1 := expired_append_pending slot l
  rw [expiredPart_eq_nil_of_pending slot l h] at h1
  simpa using h1

/-- C10: on an account whose queue has no entry, a deposit of `a` followed by a deposit of
`c` at a block time of the same 1200-second bucket leaves exactly one pending entry, of
amount `a + c`; and in general a deposit whose bucket is the `StartTime` of the tail entry
of a queue (none of whose entries starts after or is matured at `LastUpdatedAt`) is merged
into that tail entry, so that the queue keeps its length. -/
theorem AddSavingCoin_bucket_merge (dr : DecRound) (p : Params) (s : AccountStorage)
    (u : AccountKey) (b : AccountBank) (q : PendingCoinDayQueue)
    (hw : 0 < p.SecondsToRecoverCoinDay)
    (hex : s.DoesAccountExist u = true) (hb : s.bank u = some b) (hq : s.queue u = some q) :
    (q.PendingCoinDays = [] →
      ∀ (a c : Coin) (t t2 : Int), 0 < a → 0 < c → timeSlot t = timeSlot t2 →
        ∃ (s1 s2 : AccountStorage) (q2 : PendingCoinDayQueue),
          AddSavingCoin dr p t s u a = (none, s1) ∧
          AddSavingCoin dr p t2 s1 u c = (none, s2) ∧
          s2.queue u = some q2 ∧
          q2.PendingCoinDays =
            [{ StartTime := timeSlot t, EndTime := timeSlot t + p.SecondsToRecoverCoinDay,
               Coin := a + c }]) ∧
    (∀ (front : List PendingCoinDay) (last : PendingCoinDay) (c : Coin) (now : Int),
      q.PendingCoinDays = front ++ [last] → last.StartTime = timeSlot now →
      (∀ e ∈ q.PendingCoinDays, e.StartTime ≤ q.LastUpdatedAt) →
      (∀ e ∈ q.PendingCoinDays, q.LastUpdatedAt < e.EndTime) → 0 < c →
        ∃ (s2 : AccountStorage) (q2 : PendingCoinDayQueue),
          AddSavingCoin dr p now s u c = (none, s2) ∧
          s2.queue u = some q2 ∧
          q2.PendingCoinDays = front ++ [{ last with Coin := last.Coin + c }] ∧
          q2.PendingCoinDays.length = q.PendingCoinDays.length) := by
  constructor
  · intro hnil a c t t2 ha hc hslot
    have h1 := AddSavingCoin_eq dr p t s u a b q hex hb hq (ne_of_gt ha)
    have hu1 : (updateTXFromPendingCoinDayQueue dr p t b q).2.PendingCoinDays = [] := by
      rw [updateTX_entries, hnil]; rfl
    generalize hq1 : pushPendingCoinDay (updateTXFromPendingCoinDayQueue dr p t b q).2
      (newPendingCoinDay p t a) = q1 at h1
    generalize ({ b with
        Saving := b.Saving + a
        CoinDay := b.CoinDay + coinSum (expiredPart (timeSlot t) q.PendingCoinDays) } :
          AccountBank) = b1 at h1
    have hq1e : q1.PendingCoinDays = [newPendingCoinDay p t a] := by
      rw [← hq1, pushPendingCoinDay_nil _ _ hu1]
    have h2 := AddSavingCoin_eq dr p t2
      ((s.SetPendingCoinDayQueue u q1).SetBankFromAccountKey u b1) u c b1 q1
      (by rw [doesAccountExist_set]; exact hex) (get_set_bank _ _ _)
      (by simp [AccountStorage.SetBankFromAccountKey, AccountStorage.SetPendingCoinDayQueue])
      (ne_of_gt hc)
    refine ⟨_, _, pushPendingCoinDay (updateTXFromPendingCoinDayQueue dr p t2 b1 q1).2
      (newPendingCoinDay p t2 c), h1, h2, ?_, ?_⟩
    · simp [AccountStorage.SetBankFromAccountKey, AccountStorage.SetPendingCoinDayQueue]
    · have hp : ∀ e ∈ q1.PendingCoinDays, timeSlot t2 < e.EndTime := by
        intro e he
        rw [hq1e] at he
        simp only [List.mem_singleton] at he
        subst he
        simp only [newPendingCoinDay, ← hslot]
        omega
      rw [pushPendingCoinDay_merge _ _ (newPendingCoinDay p t a) []
        (by rw [updateTX_entries, pendingPart_eq_self_of_pending _ _ hp, hq1e]; rfl)
        (by simp [newPendingCoinDay, hslot])]
      simp [newPendingCoinDay]
  · intro front last c now hcat hst hstart hpend hc
    have h1 := AddSavingCoin_eq dr p now s u c b q hex hb hq (ne_of_gt hc)
    have hlu : timeSlot now ≤ q.LastUpdatedAt := by
      rw [← hst]; exact hstart last (by simp [hcat])
    have hp : ∀ e ∈ q.PendingCoinDays, timeSlot now < e.EndTime :=
      fun e he => lt_of_le_of_lt hlu (hpend e he)
    have hent : (updateTXFromPendingCoinDayQueue dr p now b q).2.PendingCoinDays =
        front ++ [last] := by
      rw [updateTX_entries, pendingPart_eq_self_of_pending _ _ hp, hcat]
    rw [pushPendingCoinDay_merge _ _ last front hent (by simp [newPendingCoinDay, hst])] at h1
    refine ⟨_, _, h1, get_set_queue_bank _ _ _ _, ?_, ?_⟩
    · simp [newPendingCoinDay]
    · simp [hcat]

theorem AddSavingCoin_bucket_merge_witness :
    (0 < sampleParams.SecondsToRecoverCoinDay ∧
      freshStore.DoesAccountExist "bob" = true ∧ freshStore.bank "bob" = some {} ∧
      freshStore.queue "bob" = some {} ∧
      sampleStore.DoesAccountExist "alice" = true ∧
      sampleStore.bank "alice" = some sampleBank ∧
      sampleStore.queue "alice" = some sampleQueue) ∧
    (∃ (s1 s2 : AccountStorage) (q2 : PendingCoinDayQueue),
      AddSavingCoin exactDec sampleParams 0 freshStore "bob" 5 = (none, s1) ∧
      AddSavingCoin exactDec sampleParams 1199 s1 "bob" 7 = (none, s2) ∧
      s2.queue "bob" = some q2 ∧
      q2.PendingCoinDays = [{ StartTime := 0, EndTime := 604800, Coin := 12 }]) ∧
    (∃ (s2 : AccountStorage) (q2 : PendingCoinDayQueue),
      AddSavingCoin exactDec sampleParams 100 sampleStore "alice" 7 = (none, s2) ∧
      s2.queue "alice" = some q2 ∧
      q2.PendingCoinDays = [{ StartTime := 0, EndTime := 604800, Coin := 17 }] ∧
      q2.PendingCoinDays.length = 1) := by
  have hw : 0 < sampleParams.SecondsToRecoverCoinDay := by decide
  refine ⟨⟨hw, rfl, rfl, rfl, rfl, rfl, rfl⟩, ?_, ?_⟩
  · exact (AddSavingCoin_bucket_merge exactDec sampleParams freshStore "bob" {} {} hw
      rfl rfl rfl).1 rfl 5 7 0 1199 (by decide) (by decide) (by decide)
  · exact (AddSavingCoin_bucket_merge exactDec sampleParams sampleStore "alice" sampleBank
      sampleQueue hw rfl rfl rfl).2 [] { StartTime := 0, EndTime := 604800, Coin := 10 } 7 100
      rfl (by decide) (by simp [sampleQueue]) (by simp [sampleQueue]) (by decide)

/-! ## Time buckets -/

theorem timeSlot_of_nonneg (t : Int) (h : 0 ≤ t) : timeSlot t = t / 1200 * 1200 := by
  simp [timeSlot, CoinDayRecordIntervalSec, Int.tdiv_eq_ediv h]

theorem timeSlot_mono (a b : Int) (h : a ≤ b) : timeSlot a ≤ timeSlot b := by
  have key : Int.tdiv a 1200 ≤ Int.tdiv b 1200 := by
    rcases le_or_lt 0 a with ha | ha
    · rw [Int.tdiv_eq_ediv ha (by norm_num), Int.tdiv_eq_ediv (le_trans ha h) (by norm_num)]
      omega
    · rcases le_or_lt 0 b with hb | hb
      · have h1 : Int.tdiv a 1200 ≤ 0 := by
          have := Int.tdiv_eq_ediv (a := -a) (b := 1200) (by omega) (by norm_num)
          rw [Int.neg_tdiv] at this
          omega
        have h2 := Int.tdiv_nonneg hb (show (0:Int) ≤ 1200 by norm_num)
        omega
      · have e1 := Int.tdiv_eq_ediv (a := -a) (b := 1200) (by omega) (by norm_num)
        have e2 := Int.tdiv_eq_ediv (a := -b) (b := 1200) (by omega) (by norm_num)
        rw [Int.neg_tdiv] at e1 e2
        omega
  simp only [timeSlot, CoinDayRecordIntervalSec]
  omega

/-! ## Sums over entries -/

theorem coinSum_nil : coinSum [] = 0 := rfl

theorem coinSum_cons (e : PendingCoinDay) (l : List PendingCoinDay) :
    coinSum (e :: l) = e.Coin + coinSum l := by
  simp [coinSum]

theorem weightedSum_nil (p : Params) (lu : Int) : weightedSum p lu [] = 0 := rfl

theorem weightedSum_cons (p : Params) (lu : Int) (e : PendingCoinDay)
    (l : List PendingCoinDay) :
    weightedSum p lu (e :: l) =
      ((lu - e.StartTime : Int) : ℚ) / (p.SecondsToRecoverCoinDay : ℚ) * (e.Coin : ℚ) +
        weightedSum p lu l := by
  simp [weightedSum]

theorem weightedSum_append (p : Params) (lu : Int) (l1 l2 : List PendingCoinDay) :
    weightedSum p lu (l1 ++ l2) = weightedSum p lu l1 + weightedSum p lu l2 := by
  simp [weightedSum]

/-- Linearity in time: moving `LastUpdatedAt` from `lu` to `slot` adds
`coinSum * (slot - lu) / SecondsToRecoverCoinDay` to the weighted sum. -/
theorem weightedSum_shift (p : Params) (lu slot : Int) (l : List PendingCoinDay) :
    weightedSum p slot l =
      weightedSum p lu l +
        (coinSum l : ℚ) * ((slot - lu : Int) : ℚ) / (p.SecondsToRecoverCoinDay : ℚ) := by
  induction l with
  | nil => simp [weightedSum, coinSum]
  | cons e rest ih =>
    rw [weightedSum_cons, weightedSum_cons, coinSum_cons, ih]
    push_cast
    ring

theorem removedWeight_exact (p : Params) (lu : Int) (l : List PendingCoinDay) :
    removedWeight exactDec p lu l = weightedSum p lu l := by
  simp [removedWeight, weightedSum, Dec.Mul, Dec.Quo, NewDecFromRat, NewDec, Coin.ToDec,
    exactDec]

/-! ## The recompute keeps the weighted sum and the cached total -/

theorem updateTX_totalCoin_eq_coinSum (dr : DecRound) (p : Params) (now : Int)
    (bank : AccountBank) (q : PendingCoinDayQueue)
    (htc : q.TotalCoin = coinSum q.PendingCoinDays) :
    (updateTXFromPendingCoinDayQueue dr p now bank q).2.TotalCoin =
      coinSum (updateTXFromPendingCoinDayQueue dr p now bank q).2.PendingCoinDays := by
  rw [updateTX_totalCoin, updateTX_entries]
  by_cases h : pendingPart (timeSlot now) q.PendingCoinDays = []
  · simp [h, coinSum]
  · simp only [h, if_false]
    have := congrArg coinSum (expired_append_pending (timeSlot now) q.PendingCoinDays)
    rw [coinSum_append] at this
    linarith

theorem updateTX_weightedSum (p : Params) (now : Int) (bank : AccountBank)
    (q : PendingCoinDayQueue)
    (htc : q.TotalCoin = coinSum q.PendingCoinDays)
    (hws : q.TotalCoinDay = weightedSum p q.LastUpdatedAt q.PendingCoinDays) :
    (updateTXFromPendingCoinDayQueue exactDec p now bank q).2.TotalCoinDay =
      weightedSum p (updateTXFromPendingCoinDayQueue exactDec p now bank q).2.LastUpdatedAt
        (updateTXFromPendingCoinDayQueue exactDec p now bank q).2.PendingCoinDays := by
  rw [updateTX_totalCoinDay, updateTX_entries, updateTX_lastUpdatedAt]
  by_cases h : pendingPart (timeSlot now) q.PendingCoinDays = []
  · simp [h, weightedSum]
  · simp only [h, if_false]
    have h1 := congrArg coinSum (expired_append_pending (timeSlot now) q.PendingCoinDays)
    have h2 := congrArg (weightedSum p q.LastUpdatedAt)
      (expired_append_pending (timeSlot now) q.PendingCoinDays)
    rw [coinSum_append] at h1
    rw [weightedSum_append] at h2
    rw [weightedSum_shift p q.LastUpdatedAt (timeSlot now), removedWeight_exact, hws, ← h2,
      htc, ← h1]
    simp [Dec.Mul, Dec.Quo, NewDec, Coin.ToDec, exactDec]

/-! ## The withdrawal loops -/

theorem minusFromTail_eq_head_aux (dr : DecRound) (p : Params) (l : List PendingCoinDay)
    (coin : Coin) (q1 q2 : PendingCoinDayQueue)
    (h1 : q1.LastUpdatedAt = q2.LastUpdatedAt) (h2 : q1.TotalCoinDay = q2.TotalCoinDay)
    (h3 : q1.TotalCoin = q2.TotalCoin) :
    minusFromTail dr p l coin q1 =
      ((minusFromHead dr p l coin q2).1,
       { (minusFromHead dr p l coin q2).2 with
         PendingCoinDays := (minusFromHead dr p l coin q2).2.PendingCoinDays.reverse }) := by
  induction l generalizing coin q1 q2 with
  | nil => simp [minusFromTail, minusFromHead, h1, h2, h3]
  | cons e rest ih =>
    by_cases h : coin ≥ e.Coin
    · simp only [minusFromTail, minusFromHead, h, if_true]
      apply ih
      · exact h1
      · simp only [h1, h2]
      · simp only [h3]
    · simp [minusFromTail, minusFromHead, h, h1, h2, h3]

/-- The tail loop is the head loop run on the reversed list. -/
theorem minusFromTail_eq_head (dr : DecRound) (p : Params) (l : List PendingCoinDay)
    (coin : Coin) (q : PendingCoinDayQueue) :
    minusFromTail dr p l coin q =
      ((minusFromHead dr p l coin q).1,
       { (minusFromHead dr p l coin q).2 with
         PendingCoinDays := (minusFromHead dr p l coin q).2.PendingCoinDays.reverse }) :=
  minusFromTail_eq_head_aux dr p l coin q q rfl rfl rfl

theorem minusFromHead_lastUpdatedAt (dr : DecRound) (p : Params) (l : List PendingCoinDay)
    (coin : Coin) (q : PendingCoinDayQueue) :
    (minusFromHead dr p l coin q).2.LastUpdatedAt = q.LastUpdatedAt := by
  induction l generalizing coin q with
  | nil => simp [minusFromHead]
  | cons e rest ih =>
    by_cases h : coin ≥ e.Coin
    · simp only [minusFromHead, h, if_true]
      rw [ih]
    · simp [minusFromHead, h]

/-- What the loop takes out of the queue is `coin` minus the coin left over. -/
theorem minusFromHead_totals (dr : DecRound) (p : Params) (l : List PendingCoinDay)
    (coin : Coin) (q : PendingCoinDayQueue) :
    coinSum (minusFromHead dr p l coin q).2.PendingCoinDays =
        coinSum l - (coin - (minusFromHead dr p l coin q).1) ∧
    (minusFromHead dr p l coin q).2.TotalCoin =
        q.TotalCoin - (coin - (minusFromHead dr p l coin q).1) := by
  induction l generalizing coin q with
  | nil => simp [minusFromHead, coinSum]
  | cons e rest ih =>
    by_cases h : coin ≥ e.Coin
    · simp only [minusFromHead, h, if_true]
      obtain ⟨h1, h2⟩ := ih (coin - e.Coin)
        { q with
          TotalCoinDay := q.TotalCoinDay -
            Dec.Mul dr (NewDecFromRat dr (q.LastUpdatedAt - e.StartTime)
              p.SecondsToRecoverCoinDay) (Coin.ToDec e.Coin)
          TotalCoin := q.TotalCoin - e.Coin
          PendingCoinDays := rest }
      rw [h1, h2, coinSum_cons]
      constructor <;> ring
    · simp only [minusFromHead, h, if_false, coinSum_cons]
      constructor <;> ring

theorem minusFromHead_leftover (dr : DecRound) (p : Params) (l : List PendingCoinDay)
    (coin : Coin) (q : PendingCoinDayQueue) :
    (0 < (minusFromHead dr p l coin q).1 →
      (minusFromHead dr p l coin q).2.PendingCoinDays = []) ∧
    (0 ≤ coin → 0 ≤ (minusFromHead dr p l coin q).1) := by
  induction l generalizing coin q with
  | nil => simp [minusFromHead]
  | cons e rest ih =>
    by_cases h : coin ≥ e.Coin
    · simp only [minusFromHead, h, if_true]
      obtain ⟨h1, h2⟩ := ih (coin - e.Coin)
        { q with
          TotalCoinDay := q.TotalCoinDay -
            Dec.Mul dr (NewDecFromRat dr (q.LastUpdatedAt - e.StartTime)
              p.SecondsToRecoverCoinDay) (Coin.ToDec e.Coin)
          TotalCoin := q.TotalCoin - e.Coin
          PendingCoinDays := rest }
      exact ⟨h1, fun _ => h2 (by linarith)⟩
    · simp [minusFromHead, h]

/-- The entries the head loop leaves: a suffix of the list, whose first entry may have a
reduced, still positive, `Coin`. -/
theorem minusFromHead_entries (dr : DecRound) (p : Params) (l : List PendingCoinDay)
    (coin : Coin) (q : PendingCoinDayQueue) :
    ∃ taken rest : List PendingCoinDay, l = taken ++ rest ∧
      ((minusFromHead dr p l coin q).2.PendingCoinDays = rest ∨
        ∃ (e : PendingCoinDay) (rest2 : List PendingCoinDay) (c : Coin),
          rest = e :: rest2 ∧ c < e.Coin ∧
          (minusFromHead dr p l coin q).2.PendingCoinDays =
            { e with Coin := e.Coin - c } :: rest2) := by
  induction l generalizing coin q with
  | nil => exact ⟨[], [], rfl, Or.inl (by simp [minusFromHead])⟩
  | cons e rest ih =>
    by_cases h : coin ≥ e.Coin
    · simp only [minusFromHead, h, if_true]
      obtain ⟨taken, rest1, h1, h2⟩ := ih (coin - e.Coin)
        { q with
          TotalCoinDay := q.TotalCoinDay -
            Dec.Mul dr (NewDecFromRat dr (q.LastUpdatedAt - e.StartTime)
              p.SecondsToRecoverCoinDay) (Coin.ToDec e.Coin)
          TotalCoin := q.TotalCoin - e.Coin
          PendingCoinDays := rest }
      exact ⟨e :: taken, rest1, by rw [h1]; rfl, h2⟩
    · refine ⟨[], e :: rest, rfl, Or.inr ⟨e, rest, coin, rfl, lt_of_not_ge h, ?_⟩⟩
      simp [minusFromHead, h]

theorem minusFromHead_weightedSum (p : Params) (l : List PendingCoinDay)
    (coin : Coin) (q : PendingCoinDayQueue)
    (hws : q.TotalCoinDay = weightedSum p q.LastUpdatedAt l) :
    (minusFromHead exactDec p l coin q).2.TotalCoinDay =
      weightedSum p q.LastUpdatedAt (minusFromHead exactDec p l coin q).2.PendingCoinDays := by
  induction l generalizing coin q with
  | nil => simpa [minusFromHead] using hws
  | cons e rest ih =>
    by_cases h : coin ≥ e.Coin
    · simp only [minusFromHead, h, if_true]
      rw [ih]
      simp only [hws, weightedSum_cons]
      simp [Dec.Mul, Dec.Quo, NewDecFromRat, NewDec, Coin.ToDec, exactDec]
    · simp only [minusFromHead, h, if_false, hws, weightedSum_cons]
      simp [Dec.Mul, Dec.Quo, NewDecFromRat, NewDec, Coin.ToDec, exactDec]
      ring

theorem coinSum_reverse (l : List PendingCoinDay) : coinSum l.reverse = coinSum l := by
  simp [coinSum, List.sum_reverse]

theorem weightedSum_reverse (p : Params) (lu : Int) (l : List PendingCoinDay) :
    weightedSum p lu l.reverse = weightedSum p lu l := by
  simp [weightedSum, List.sum_reverse]

/-! ## The store after a withdrawal -/

theorem MinusSavingCoin_eq (dr : DecRound) (p : Params) (now : Int) (s : AccountStorage)
    (u : AccountKey) (c : Coin) (b : AccountBank) (q : PendingCoinDayQueue)
    (hb : s.bank u = some b) (hq : s.queue u = some q)
    (hge : p.MinimumBalance ≤ b.Saving - c) (hc : c ≠ 0) :
    MinusSavingCoin dr p now s u c =
      (none,
        (s.SetPendingCoinDayQueue u
          (minusFromTail dr p
            (updateTXFromPendingCoinDayQueue dr p now b q).2.PendingCoinDays.reverse c
            (updateTXFromPendingCoinDayQueue dr p now b q).2).2).SetBankFromAccountKey u
          (if 0 < (minusFromTail dr p
              (updateTXFromPendingCoinDayQueue dr p now b q).2.PendingCoinDays.reverse c
              (updateTXFromPendingCoinDayQueue dr p now b q).2).1 then
            { b with Saving := b.Saving - c, CoinDay := b.Saving - c }
          else
            { b with
              Saving := b.Saving - c
              CoinDay := b.CoinDay +
                coinSum (expiredPart (timeSlot now) q.PendingCoinDays) })) := by
  simp only [MinusSavingCoin, AccountStorage.GetBankFromAccountKey,
    AccountStorage.GetPendingCoinDayQueue, hb, hq, hc, ge_iff_le, hge, not_true_eq_false,
    if_false]
  simp only [updateTX_fst,
    updateTX_snd_bank dr p now { b with Saving := b.Saving - c } b q]

theorem MinusSavingCoin_queue_cases (dr : DecRound) (p : Params) (now : Int)
    (s : AccountStorage) (u : AccountKey) (c : Coin) (b0 : AccountBank)
    (q : PendingCoinDayQueue) (hq : s.queue u = some q) :
    (MinusSavingCoin dr p now s u c).2.queue u = some q ∨
    (MinusSavingCoin dr p now s u c).2.queue u =
      some (minusFromTail dr p
        (updateTXFromPendingCoinDayQueue dr p now b0 q).2.PendingCoinDays.reverse c
        (updateTXFromPendingCoinDayQueue dr p now b0 q).2).2 := by
  cases hb : s.bank u with
  | none =>
    left
    simp [MinusSavingCoin, AccountStorage.GetBankFromAccountKey, hb, hq]
  | some b =>
    by_cases hge : p.MinimumBalance ≤ b.Saving - c
    · by_cases hc : c = 0
      · left
        simp [MinusSavingCoin, AccountStorage.GetBankFromAccountKey, hb, hq, hc]
        split <;> exact hq
      · right
        rw [MinusSavingCoin_eq dr p now s u c b q hb hq hge hc,
          updateTX_snd_bank dr p now b b0 q]
        exact get_set_queue_bank _ _ _ _
    · left
      simp [MinusSavingCoin, AccountStorage.GetBankFromAccountKey, hb, hq, hge]

theorem MinusSavingCoinWithFullCoinDay_eq (dr : DecRound) (p : Params) (now : Int)
    (s : AccountStorage) (u : AccountKey) (c : Coin) (b : AccountBank)
    (q : PendingCoinDayQueue)
    (hb : s.bank u = some b) (hq : s.queue u = some q)
    (hge : p.MinimumBalance ≤ b.Saving - c) (hc : c ≠ 0) :
    MinusSavingCoinWithFullCoinDay dr p now s u c =
      if b.CoinDay + coinSum (expiredPart (timeSlot now) q.PendingCoinDays) ≥ c then
        (none, c,
          (s.SetPendingCoinDayQueue u
            (updateTXFromPendingCoinDayQueue dr p now b q).2).SetBankFromAccountKey u
            { b with
              Saving := b.Saving - c
              CoinDay := b.CoinDay +
                coinSum (expiredPart (timeSlot now) q.PendingCoinDays) - c })
      else
        (none, b.CoinDay + coinSum (expiredPart (timeSlot now) q.PendingCoinDays),
          (s.SetPendingCoinDayQueue u
            (minusFromHead dr p
              (updateTXFromPendingCoinDayQueue dr p now b q).2.PendingCoinDays
              (c - (b.CoinDay + coinSum (expiredPart (timeSlot now) q.PendingCoinDays)))
              (updateTXFromPendingCoinDayQueue dr p now b q).2).2).SetBankFromAccountKey u
            { b with Saving := b.Saving - c, CoinDay := 0 }) := by
  simp only [MinusSavingCoinWithFullCoinDay, AccountStorage.GetBankFromAccountKey,
    AccountStorage.GetPendingCoinDayQueue, hb, hq, hc, ge_iff_le, hge, not_true_eq_false,
    if_false]
  simp only [updateTX_fst,
    updateTX_snd_bank dr p now { b with Saving := b.Saving - c } b q]

theorem MinusSavingCoinWithFullCoinDay_queue_cases (dr : DecRound) (p : Params) (now : Int)
    (s : AccountStorage) (u : AccountKey) (c : Coin) (b0 : AccountBank)
    (q : PendingCoinDayQueue) (hq : s.queue u = some q) :
    (MinusSavingCoinWithFullCoinDay dr p now s u c).2.2.queue u = some q ∨
    (MinusSavingCoinWithFullCoinDay dr p now s u c).2.2.queue u =
      some (updateTXFromPendingCoinDayQueue dr p now b0 q).2 ∨
    ∃ c2 : Coin, (MinusSavingCoinWithFullCoinDay dr p now s u c).2.2.queue u =
      some (minusFromHead dr p
        (updateTXFromPendingCoinDayQueue dr p now b0 q).2.PendingCoinDays c2
        (updateTXFromPendingCoinDayQueue dr p now b0 q).2).2 := by
  by_cases hc : c = 0
  · left
    simp [MinusSavingCoinWithFullCoinDay, hc, hq]
  cases hb : s.bank u with
  | none =>
    left
    simp [MinusSavingCoinWithFullCoinDay, AccountStorage.GetBankFromAccountKey, hb, hq, hc]
  | some b =>
    by_cases hge : p.MinimumBalance ≤ b.Saving - c
    · right
      rw [MinusSavingCoinWithFullCoinDay_eq dr p now s u c b q hb hq hge hc,
        updateTX_snd_bank dr p now b b0 q]
      split
      · left
        exact get_set_queue_bank _ _ _ _
      · right
        exact ⟨_, get_set_queue_bank _ _ _ _⟩
    · left
      simp [MinusSavingCoinWithFullCoinDay, AccountStorage.GetBankFromAccountKey, hb, hq, hge,
        hc]

theorem AddSavingCoin_queue_cases (dr : DecRound) (p : Params) (now : Int)
    (s : AccountStorage) (u : AccountKey) (c : Coin) (b0 : AccountBank)
    (q : PendingCoinDayQueue) (hq : s.queue u = some q) :
    (AddSavingCoin dr p now s u c).2.queue u = some q ∨
    (AddSavingCoin dr p now s u c).2.queue u =
      some (pushPendingCoinDay (updateTXFromPendingCoinDayQueue dr p now b0 q).2
        (newPendingCoinDay p now c)) := by
  by_cases hex : s.DoesAccountExist u = true
  · by_cases hc : c = 0
    · left
      simp [AddSavingCoin, hex, hc, hq]
    · cases hb : s.bank u with
      | none =>
        left
        simp [AddSavingCoin, AccountStorage.GetBankFromAccountKey, hex, hc, hb, hq]
      | some b =>
        right
        rw [AddSavingCoin_eq dr p now s u c b q hex hb hq hc,
          updateTX_snd_bank dr p now b b0 q]
        exact get_set_queue_bank _ _ _ _
  · left
    simp [AddSavingCoin, hex, hq]

theorem pushPendingCoinDay_weightedSum (p : Params) (q : PendingCoinDayQueue)
    (e : PendingCoinDay) (hs : e.StartTime = q.LastUpdatedAt) (h : WeightedSumInv p q) :
    WeightedSumInv p (pushPendingCoinDay q e) := by
  unfold WeightedSumInv at *
  rcases List.eq_nil_or_concat q.PendingCoinDays with hnil | ⟨front, last, hcat⟩
  · rw [pushPendingCoinDay_nil _ _ hnil]
    simp [h, hnil, weightedSum, hs]
  · rw [List.concat_eq_append] at hcat
    by_cases hst : last.StartTime = e.StartTime
    · rw [pushPendingCoinDay_merge _ _ last front hcat hst]
      simp [h, hcat, weightedSum, hst, hs]
    · rw [pushPendingCoinDay_append _ _ last front hcat hst]
      simp [h, weightedSum, hs]

/-- C2: with decimals as exact rationals, a queue whose `TotalCoinDay` is the weighted sum
`Σ ((LastUpdatedAt - StartTime_i) / SecondsToRecoverCoinDay) * Coin_i` (and whose `TotalCoin`
is the sum of its entries, as in the data model) still satisfies that equation after the
recompute, after a deposit, after a policy A withdrawal and after a policy B withdrawal,
at any block time. -/
theorem weightedSum_invariant (p : Params) (now : Int) (s : AccountStorage) (u : AccountKey)
    (q : PendingCoinDayQueue) (_hw : 0 < p.SecondsToRecoverCoinDay)
    (hq : s.queue u = some q) (htc : q.TotalCoin = coinSum q.PendingCoinDays)
    (hws : WeightedSumInv p q) :
    (∀ b : AccountBank,
      WeightedSumInv p (updateTXFromPendingCoinDayQueue exactDec p now b q).2) ∧
    (∀ (c : Coin) (q2 : PendingCoinDayQueue),
      (AddSavingCoin exactDec p now s u c).2.queue u = some q2 → WeightedSumInv p q2) ∧
    (∀ (c : Coin) (q2 : PendingCoinDayQueue),
      (MinusSavingCoin exactDec p now s u c).2.queue u = some q2 → WeightedSumInv p q2) ∧
    (∀ (c : Coin) (q2 : PendingCoinDayQueue),
      (MinusSavingCoinWithFullCoinDay exactDec p now s u c).2.2.queue u = some q2 →
        WeightedSumInv p q2) := by
  have hu : ∀ b : AccountBank,
      WeightedSumInv p (updateTXFromPendingCoinDayQueue exactDec p now b q).2 :=
    fun b => updateTX_weightedSum p now b q htc hws
  refine ⟨hu, ?_, ?_, ?_⟩
  · intro c q2 h2
    rcases AddSavingCoin_queue_cases exactDec p now s u c {} q hq with h | h
    · rw [h] at h2
      cases h2
      exact hws
    · rw [h] at h2
      cases h2
      exact pushPendingCoinDay_weightedSum p _ _
        (by simp [newPendingCoinDay, updateTX_lastUpdatedAt]) (hu {})
  · intro c q2 h2
    rcases MinusSavingCoin_queue_cases exactDec p now s u c {} q hq with h | h
    · rw [h] at h2
      cases h2
      exact hws
    · rw [h] at h2
      cases h2
      unfold WeightedSumInv
      rw [minusFromTail_eq_head]
      simp only
      rw [minusFromHead_lastUpdatedAt, weightedSum_reverse]
      apply minusFromHead_weightedSum
      rw [weightedSum_reverse]
      exact hu {}
  · intro c q2 h2
    rcases MinusSavingCoinWithFullCoinDay_queue_cases exactDec p now s u c {} q hq with
      h | h | ⟨c2, h⟩
    · rw [h] at h2
      cases h2
      exact hws
    · rw [h] at h2
      cases h2
      exact hu {}
    · rw [h] at h2
      cases h2
      unfold WeightedSumInv
      rw [minusFromHead_lastUpdatedAt]
      exact minusFromHead_weightedSum p _ _ _ (hu {})

theorem weightedSum_invariant_witness :
    (0 < sampleParams.SecondsToRecoverCoinDay ∧
      sampleStore.queue "alice" = some sampleQueue ∧
      sampleQueue.TotalCoin = coinSum sampleQueue.PendingCoinDays ∧
      WeightedSumInv sampleParams sampleQueue) ∧
    WeightedSumInv sampleParams
      (updateTXFromPendingCoinDayQueue exactDec sampleParams 302400 sampleBank sampleQueue).2 ∧
    (∀ q2 : PendingCoinDayQueue,
      (AddSavingCoin exactDec sampleParams 302400 sampleStore "alice" 7).2.queue "alice" =
        some q2 → WeightedSumInv sampleParams q2) ∧
    (∀ q2 : PendingCoinDayQueue,
      (MinusSavingCoin exactDec sampleParams 302400 sampleStore "alice" 4).2.queue "alice" =
        some q2 → WeightedSumInv sampleParams q2) ∧
    (∀ q2 : PendingCoinDayQueue,
      (MinusSavingCoinWithFullCoinDay exactDec sampleParams 302400 sampleStore "alice"
        4).2.2.queue "alice" = some q2 → WeightedSumInv sampleParams q2) := by
  have hw : 0 < sampleParams.SecondsToRecoverCoinDay := by decide
  have htc : sampleQueue.TotalCoin = coinSum sampleQueue.PendingCoinDays := by
    simp [sampleQueue, coinSum]
  have hws : WeightedSumInv sampleParams sampleQueue := by
    simp [WeightedSumInv, sampleQueue, weightedSum]
  have h := weightedSum_invariant sampleParams 302400 sampleStore "alice" sampleQueue hw rfl
    htc hws
  exact ⟨⟨hw, rfl, htc, hws⟩, h.1 sampleBank, h.2.1 7, h.2.2.1 4, h.2.2.2 4⟩

/-- C3: for a queue whose `TotalCoin` is the sum `P` of its entries and none of whose
entries is matured at the bucket of `t2`, recomputing at `t1` and then at `t2 ≥ t1` raises
`TotalCoinDay` by exactly `P * (bucket t2 - bucket t1) / SecondsToRecoverCoinDay`, computed
by one `Mul` and one `Quo` of the decimal arithmetic; with exact decimals this is the
rational `P * (bucket t2 - bucket t1) / SecondsToRecoverCoinDay`. -/
theorem rate_invariant (dr : DecRound) (p : Params) (t1 t2 : Int) (b : AccountBank)
    (q : PendingCoinDayQueue) (_hw : 0 < p.SecondsToRecoverCoinDay)
    (htc : q.TotalCoin = coinSum q.PendingCoinDays) (h12 : t1 ≤ t2)
    (hno : ∀ e ∈ q.PendingCoinDays, timeSlot t2 < e.EndTime) :
    ((updateTXFromPendingCoinDayQueue dr p t2
        (updateTXFromPendingCoinDayQueue dr p t1 b q).1
        (updateTXFromPendingCoinDayQueue dr p t1 b q).2).2.TotalCoinDay -
      (updateTXFromPendingCoinDayQueue dr p t1 b q).2.TotalCoinDay =
        Dec.Quo dr
          (Dec.Mul dr (Coin.ToDec q.TotalCoin) (NewDec (timeSlot t2 - timeSlot t1)))
          (NewDec p.SecondsToRecoverCoinDay)) ∧
    ((updateTXFromPendingCoinDayQueue exactDec p t2
        (updateTXFromPendingCoinDayQueue exactDec p t1 b q).1
        (updateTXFromPendingCoinDayQueue exactDec p t1 b q).2).2.TotalCoinDay -
      (updateTXFromPendingCoinDayQueue exactDec p t1 b q).2.TotalCoinDay =
        (q.TotalCoin : ℚ) * ((timeSlot t2 - timeSlot t1 : Int) : ℚ) /
          (p.SecondsToRecoverCoinDay : ℚ)) := by
  have hno1 : ∀ e ∈ q.PendingCoinDays, timeSlot t1 < e.EndTime :=
    fun e he => lt_of_le_of_lt (timeSlot_mono t1 t2 h12) (hno e he)
  have key : ∀ dr : DecRound,
      (updateTXFromPendingCoinDayQueue dr p t2
        (updateTXFromPendingCoinDayQueue dr p t1 b q).1
        (updateTXFromPendingCoinDayQueue dr p t1 b q).2).2.TotalCoinDay -
      (updateTXFromPendingCoinDayQueue dr p t1 b q).2.TotalCoinDay =
        Dec.Quo dr
          (Dec.Mul dr (Coin.ToDec q.TotalCoin) (NewDec (timeSlot t2 - timeSlot t1)))
          (NewDec p.SecondsToRecoverCoinDay) := by
    intro dr
    have he1 : (updateTXFromPendingCoinDayQueue dr p t1 b q).2.PendingCoinDays =
        q.PendingCoinDays := by
      rw [updateTX_entries, pendingPart_eq_self_of_pending _ _ hno1]
    rw [updateTX_totalCoinDay dr p t2, he1, pendingPart_eq_self_of_pending _ _ hno,
      expiredPart_eq_nil_of_pending _ _ hno, updateTX_lastUpdatedAt, updateTX_totalCoin,
      pendingPart_eq_self_of_pending _ _ hno1, expiredPart_eq_nil_of_pending _ _ hno1]
    by_cases hnil : q.PendingCoinDays = []
    · have h0 : q.TotalCoin = 0 := by rw [htc, hnil]; rfl
      have hm := dr.mulRound_int 0
      have hq := dr.quoRound_int 0
      simp only [Int.cast_zero] at hm hq
      simp [hnil, updateTX_totalCoinDay, pendingPart, h0, Dec.Quo, Dec.Mul, Coin.ToDec, hm, hq]
    · simp [hnil, coinSum, removedWeight]
  refine ⟨key dr, ?_⟩
  rw [key exactDec]
  simp [Dec.Quo, Dec.Mul, Coin.ToDec, NewDec, exactDec]

theorem rate_invariant_witness :
    (0 < sampleParams.SecondsToRecoverCoinDay ∧
      sampleQueue.TotalCoin = coinSum sampleQueue.PendingCoinDays ∧
      (302400 : Int) ≤ 303600 ∧
      ∀ e ∈ sampleQueue.PendingCoinDays, timeSlot 303600 < e.EndTime) ∧
    (updateTXFromPendingCoinDayQueue exactDec sampleParams 303600
        (updateTXFromPendingCoinDayQueue exactDec sampleParams 302400 sampleBank sampleQueue).1
        (updateTXFromPendingCoinDayQueue exactDec sampleParams 302400 sampleBank
          sampleQueue).2).2.TotalCoinDay -
      (updateTXFromPendingCoinDayQueue exactDec sampleParams 302400 sampleBank
        sampleQueue).2.TotalCoinDay = 10 * 1200 / 604800 := by
  have hw : 0 < sampleParams.SecondsToRecoverCoinDay := by decide
  have htc : sampleQueue.TotalCoin = coinSum sampleQueue.PendingCoinDays := by
    simp [sampleQueue, coinSum]
  have e2 : timeSlot 303600 = 303600 := by decide
  have e1 : timeSlot 302400 = 302400 := by decide
  have hno : ∀ e ∈ sampleQueue.PendingCoinDays, timeSlot 303600 < e.EndTime := by
    simp [sampleQueue, e2]
  have h := (rate_invariant exactDec sampleParams 302400 303600 sampleBank sampleQueue hw htc
    (by decide) hno).2
  refine ⟨⟨hw, htc, by decide, hno⟩, ?_⟩
  rw [h, e1, e2]
  norm_num [sampleQueue, sampleParams]

/-! ## Conservation of principal -/

theorem pushPendingCoinDay_coinSum (q : PendingCoinDayQueue) (e : PendingCoinDay) :
    coinSum (pushPendingCoinDay q e).PendingCoinDays = coinSum q.PendingCoinDays + e.Coin := by
  rcases List.eq_nil_or_concat q.PendingCoinDays with hnil | ⟨front, last, hcat⟩
  · rw [pushPendingCoinDay_nil _ _ hnil, hnil]
    simp [coinSum]
  · rw [List.concat_eq_append] at hcat
    by_cases hst : last.StartTime = e.StartTime
    · rw [pushPendingCoinDay_merge _ _ last front hcat hst, hcat]
      simp [coinSum]
      ring
    · rw [pushPendingCoinDay_append _ _ last front hcat hst]
      simp [coinSum]

theorem updateTX_principal (dr : DecRound) (p : Params) (now : Int) (b : AccountBank)
    (q : PendingCoinDayQueue) (htc : q.TotalCoin = coinSum q.PendingCoinDays) :
    (updateTXFromPendingCoinDayQueue dr p now b q).1.CoinDay +
      (updateTXFromPendingCoinDayQueue dr p now b q).2.TotalCoin = b.CoinDay + q.TotalCoin := by
  rw [updateTX_totalCoin_eq_coinSum dr p now b q htc, updateTX_entries, updateTX_fst, htc]
  have := congrArg coinSum (expired_append_pending (timeSlot now) q.PendingCoinDays)
  rw [coinSum_append] at this
  simp only
  linarith

/-- One deposit keeps the principal equation and adds the deposited coin. -/
theorem AddSavingCoin_principal (dr : DecRound) (p : Params) (now : Int) (s s2 : AccountStorage)
    (u : AccountKey) (c : Coin) (b : AccountBank) (q : PendingCoinDayQueue)
    (hex : s.DoesAccountExist u = true) (hb : s.bank u = some b) (hq : s.queue u = some q)
    (hprin : b.Saving = b.CoinDay + q.TotalCoin)
    (htc : q.TotalCoin = coinSum q.PendingCoinDays)
    (hrun : AddSavingCoin dr p now s u c = (none, s2)) :
    ∃ (b2 : AccountBank) (q2 : PendingCoinDayQueue),
      s2.DoesAccountExist u = true ∧ s2.bank u = some b2 ∧ s2.queue u = some q2 ∧
      b2.Saving = b2.CoinDay + q2.TotalCoin ∧ q2.TotalCoin = coinSum q2.PendingCoinDays ∧
      b2.Saving = b.Saving + c := by
  by_cases hc : c = 0
  · have : s2 = s := by
      simp [AddSavingCoin, hex, hc] at hrun
      exact hrun.symm
    subst this
    exact ⟨b, q, hex, hb, hq, hprin, htc, by simp [hc]⟩
  · rw [AddSavingCoin_eq dr p now s u c b q hex hb hq hc] at hrun
    have hs2 := (Prod.mk.inj hrun).2
    subst hs2
    have h1 := updateTX_principal dr p now b q htc
    have h2 := updateTX_totalCoin_eq_coinSum dr p now b q htc
    have h3 := pushPendingCoinDay_fields (updateTXFromPendingCoinDayQueue dr p now b q).2
      (newPendingCoinDay p now c)
    have h4 := pushPendingCoinDay_coinSum (updateTXFromPendingCoinDayQueue dr p now b q).2
      (newPendingCoinDay p now c)
    rw [updateTX_fst] at h1
    simp only [newPendingCoinDay] at h3 h4
    refine ⟨_, _, by rw [doesAccountExist_set]; exact hex, get_set_bank _ _ _,
      get_set_queue_bank _ _ _ _, ?_, ?_, rfl⟩
    · simp only [newPendingCoinDay]
      rw [h3.1]
      simp only at h1
      linarith
    · simp only [newPendingCoinDay]
      rw [h3.1, h4, h2]

/-- One successful policy A withdrawal of a non-negative coin keeps the principal equation
and removes the withdrawn coin. -/
theorem MinusSavingCoin_principal (dr : DecRound) (p : Params) (now : Int)
    (s s2 : AccountStorage) (u : AccountKey) (c : Coin) (b : AccountBank)
    (q : PendingCoinDayQueue)
    (hex : s.DoesAccountExist u = true) (hb : s.bank u = some b) (hq : s.queue u = some q)
    (hprin : b.Saving = b.CoinDay + q.TotalCoin)
    (htc : q.TotalCoin = coinSum q.PendingCoinDays) (hc0 : 0 ≤ c)
    (hrun : MinusSavingCoin dr p now s u c = (none, s2)) :
    ∃ (b2 : AccountBank) (q2 : PendingCoinDayQueue),
      s2.DoesAccountExist u = true ∧ s2.bank u = some b2 ∧ s2.queue u = some q2 ∧
      b2.Saving = b2.CoinDay + q2.TotalCoin ∧ q2.TotalCoin = coinSum q2.PendingCoinDays ∧
      b2.Saving = b.Saving - c := by
  by_cases hge : p.MinimumBalance ≤ b.Saving - c
  · by_cases hc : c = 0
    · have : s2 = s := by
        simp [MinusSavingCoin, AccountStorage.GetBankFromAccountKey, hb, hc] at hrun
        split at hrun
        · simp at hrun
        · exact (Prod.mk.inj hrun).2.symm
      subst this
      exact ⟨b, q, hex, hb, hq, hprin, htc, by simp [hc]⟩
    · rw [MinusSavingCoin_eq dr p now s u c b q hb hq hge hc] at hrun
      have hs2 := (Prod.mk.inj hrun).2
      subst hs2
      have h1 := updateTX_principal dr p now b q htc
      have h2 := updateTX_totalCoin_eq_coinSum dr p now b q htc
      rw [updateTX_fst] at h1
      simp only at h1
      rw [minusFromTail_eq_head]
      simp only
      have ht := minusFromHead_totals dr p
        (updateTXFromPendingCoinDayQueue dr p now b q).2.PendingCoinDays.reverse c
        (updateTXFromPendingCoinDayQueue dr p now b q).2
      have hl := minusFromHead_leftover dr p
        (updateTXFromPendingCoinDayQueue dr p now b q).2.PendingCoinDays.reverse c
        (updateTXFromPendingCoinDayQueue dr p now b q).2
      rw [coinSum_reverse] at ht
      refine ⟨_, _, by rw [doesAccountExist_set]; exact hex, get_set_bank _ _ _,
        get_set_queue_bank _ _ _ _, ?_, ?_, ?_⟩
      · split
        · rename_i hpos
          have hnil := hl.1 hpos
          have hz : coinSum (minusFromHead dr p
              (updateTXFromPendingCoinDayQueue dr p now b q).2.PendingCoinDays.reverse c
              (updateTXFromPendingCoinDayQueue dr p now b q).2).2.PendingCoinDays = 0 := by
            rw [hnil]; rfl
          simp only
          linarith [ht.1, ht.2]
        · rename_i hpos
          have h0 := hl.2 hc0
          simp only
          linarith [ht.1, ht.2]
      · simp only [coinSum_reverse]
        linarith [ht.1, ht.2]
      · split <;> rfl
  · exfalso
    simp [MinusSavingCoin, AccountStorage.GetBankFromAccountKey, hb, hge] at hrun

/-- C7: starting from an account whose principal equation holds
(`bank.Saving = bank.CoinDay + TotalCoin`, `TotalCoin` being the sum of the entries), after
any sequence of deposits and successful policy A withdrawals of non-negative amounts, at any
block times (entries may or may not mature on the way), `TotalCoin + bank.CoinDay` equals
its initial value plus the deposited amounts minus the withdrawn amounts, and it still
equals `bank.Saving`. -/
theorem principal_conservation (dr : DecRound) (p : Params) (u : AccountKey)
    (ops : List SavingOp) (s s2 : AccountStorage) (b : AccountBank) (q : PendingCoinDayQueue)
    (hex : s.DoesAccountExist u = true) (hb : s.bank u = some b) (hq : s.queue u = some q)
    (hprin : b.Saving = b.CoinDay + q.TotalCoin)
    (htc : q.TotalCoin = coinSum q.PendingCoinDays)
    (hpos : ∀ op ∈ ops, 0 ≤ op.coin)
    (hrun : runSavingOps dr p u s ops = some s2) :
    ∃ (b2 : AccountBank) (q2 : PendingCoinDayQueue),
      s2.bank u = some b2 ∧ s2.queue u = some q2 ∧
      q2.TotalCoin + b2.CoinDay = q.TotalCoin + b.CoinDay + netDeposited ops ∧
      q2.TotalCoin + b2.CoinDay = b2.Saving ∧
      q2.TotalCoin = coinSum q2.PendingCoinDays := by
  induction ops generalizing s b q with
  | nil =>
    simp only [runSavingOps, Option.some.injEq] at hrun
    subst hrun
    exact ⟨b, q, hb, hq, by simp [netDeposited], by linarith, htc⟩
  | cons op rest ih =>
    simp only [runSavingOps] at hrun
    have hop : 0 ≤ op.coin := hpos op (by simp)
    have hrest : ∀ o ∈ rest, 0 ≤ o.coin := fun o ho => hpos o (by simp [ho])
    cases hstep : applySavingOp dr p s u op with
    | mk err s1 =>
      rw [hstep] at hrun
      cases err with
      | some e => simp at hrun
      | none =>
        simp only at hrun
        have hone : ∃ (b1 : AccountBank) (q1 : PendingCoinDayQueue),
            s1.DoesAccountExist u = true ∧ s1.bank u = some b1 ∧ s1.queue u = some q1 ∧
            b1.Saving = b1.CoinDay + q1.TotalCoin ∧
            q1.TotalCoin = coinSum q1.PendingCoinDays ∧
            b1.Saving = b.Saving + op.net := by
          cases op with
          | deposit now c =>
            exact AddSavingCoin_principal dr p now s s1 u c b q hex hb hq hprin htc hstep
          | withdraw now c =>
            obtain ⟨b1, q1, h1, h2, h3, h4, h5, h6⟩ :=
              MinusSavingCoin_principal dr p now s s1 u c b q hex hb hq hprin htc hop hstep
            exact ⟨b1, q1, h1, h2, h3, h4, h5, by simp only [SavingOp.net]; linarith⟩
        obtain ⟨b1, q1, hex1, hb1, hq1, hprin1, htc1, hsav1⟩ := hone
        obtain ⟨b2, q2, g1, g2, g3, g4, g5⟩ := ih s1 b1 q1 hex1 hb1 hq1 hprin1 htc1 hrest hrun
        refine ⟨b2, q2, g1, g2, ?_, g4, g5⟩
        simp only [netDeposited, List.map_cons, List.sum_cons] at g3 ⊢
        linarith

theorem principal_conservation_witness :
    ∃ (s2 : AccountStorage),
      (sampleStore.DoesAccountExist "alice" = true ∧
        sampleStore.bank "alice" = some sampleBank ∧
        sampleStore.queue "alice" = some sampleQueue ∧
        sampleBank.Saving = sampleBank.CoinDay + sampleQueue.TotalCoin ∧
        sampleQueue.TotalCoin = coinSum sampleQueue.PendingCoinDays ∧
        (∀ op ∈ [SavingOp.deposit 302400 7, SavingOp.withdraw 302400 4], 0 ≤ op.coin) ∧
        runSavingOps exactDec sampleParams "alice" sampleStore
          [SavingOp.deposit 302400 7, SavingOp.withdraw 302400 4] = some s2) ∧
      ∃ (b2 : AccountBank) (q2 : PendingCoinDayQueue),
        s2.bank "alice" = some b2 ∧ s2.queue "alice" = some q2 ∧
        q2.TotalCoin + b2.CoinDay = 13 ∧ b2.Saving = 13 := by
  have htc : sampleQueue.TotalCoin = coinSum sampleQueue.PendingCoinDays := by
    simp [sampleQueue, coinSum]
  have hpos : ∀ op ∈ [SavingOp.deposit 302400 7, SavingOp.withdraw 302400 4], 0 ≤ op.coin := by
    intro op hop
    simp only [List.mem_cons, List.mem_singleton, List.not_mem_nil, or_false] at hop
    rcases hop with h | h <;> subst h <;> simp [SavingOp.coin]
  have e1 := AddSavingCoin_eq exactDec sampleParams 302400 sampleStore "alice" 7 sampleBank
    sampleQueue rfl rfl rfl (by decide)
  have e2 := MinusSavingCoin_eq exactDec sampleParams 302400 _ "alice" 4 _ _
    (get_set_bank (sampleStore.SetPendingCoinDayQueue "alice"
      (pushPendingCoinDay
        (updateTXFromPendingCoinDayQueue exactDec sampleParams 302400 sampleBank sampleQueue).2
        (newPendingCoinDay sampleParams 302400 7))) "alice"
      { sampleBank with
        Saving := sampleBank.Saving + 7
        CoinDay := sampleBank.CoinDay +
          coinSum (expiredPart (timeSlot 302400) sampleQueue.PendingCoinDays) })
    (get_set_queue_bank _ _ _ _)
    (by simp [sampleParams, sampleBank]) (by decide)
  cases hrun : runSavingOps exactDec sampleParams "alice" sampleStore
      [SavingOp.deposit 302400 7, SavingOp.withdraw 302400 4] with
  | none =>
    exfalso
    simp only [runSavingOps, applySavingOp, e1, e2] at hrun
    simp at hrun
  | some s2 =>
  refine ⟨s2, ⟨rfl, rfl, rfl, rfl, htc, hpos, rfl⟩, ?_⟩
  obtain ⟨b2, q2, g1, g2, g3, g4, -⟩ :=
    principal_conservation exactDec sampleParams "alice" _ sampleStore s2 sampleBank sampleQueue
      rfl rfl rfl rfl htc hpos hrun
  refine ⟨b2, q2, g1, g2, ?_, ?_⟩
  · rw [g3]; rfl
  · rw [← g4, g3]; rfl

/-! ## Well-formed entry lists -/

theorem QueueWF.entries {p : Params} {q : PendingCoinDayQueue} (h : QueueWF p q) :
    EntriesOK p q.LastUpdatedAt q.PendingCoinDays := ⟨h.entryOK, h.sorted⟩

theorem EntriesOK_nil (p : Params) (lu : Int) : EntriesOK p lu [] :=
  ⟨by simp, List.Pairwise.nil⟩

theorem EntriesOK_sublist {p : Params} {lu : Int} {l1 l2 : List PendingCoinDay}
    (hs : l2.Sublist l1) (h : EntriesOK p lu l1) : EntriesOK p lu l2 :=
  ⟨fun e he => h.1 e (hs.subset he), h.2.sublist hs⟩

theorem EntriesOK_setCoin {p : Params} {lu : Int} {l1 l2 : List PendingCoinDay}
    {e : PendingCoinDay} {c : Coin} (h : EntriesOK p lu (l1 ++ e :: l2)) (hc : 0 < c) :
    EntriesOK p lu (l1 ++ { e with Coin := c } :: l2) := by
  constructor
  · intro x hx
    simp only [List.mem_append, List.mem_cons] at hx
    rcases hx with hx | hx | hx
    · exact h.1 x (by simp [hx])
    · subst hx
      have := h.1 e (by simp)
      exact ⟨this.1, hc, this.2.2.1, this.2.2.2⟩
    · exact h.1 x (by simp [hx])
  · have key : ∀ l : List PendingCoinDay,
        l.Pairwise (fun a b => a.StartTime < b.StartTime) ↔
          (l.map (fun a => a.StartTime)).Pairwise (fun x y => x < y) :=
      fun l => List.pairwise_map.symm
    have h2 := (key _).mp h.2
    apply (key _).mpr
    simpa using h2

theorem EntriesOK_advance {p : Params} {lu lu2 : Int} {l : List PendingCoinDay}
    (h : EntriesOK p lu l) (hle : l ≠ [] → lu ≤ lu2) (hp : ∀ e ∈ l, lu2 < e.EndTime) :
    EntriesOK p lu2 l := by
  refine ⟨fun e he => ?_, h.2⟩
  have := h.1 e he
  have hne : l ≠ [] := List.ne_nil_of_mem he
  exact ⟨this.1, this.2.1, le_trans this.2.2.1 (hle hne), hp e he⟩

/-- In a well-formed list the recompute removes every matured entry: what it leaves is not
matured at the slot. -/
theorem pendingPart_all_pending (p : Params) (slot : Int) (l : List PendingCoinDay)
    (hend : ∀ e ∈ l, e.EndTime = e.StartTime + p.SecondsToRecoverCoinDay)
    (hsorted : l.Pairwise (fun a b => a.StartTime < b.StartTime)) :
    ∀ e ∈ pendingPart slot l, slot < e.EndTime := by
  induction l with
  | nil => simp [pendingPart]
  | cons a rest ih =>
    have hrest := ih (fun e he => hend e (by simp [he])) (List.Pairwise.of_cons hsorted)
    by_cases h : a.EndTime ≤ slot
    · have : pendingPart slot (a :: rest) = pendingPart slot rest := by
        simp [pendingPart, List.dropWhile, h]
      rw [this]
      exact hrest
    · have : pendingPart slot (a :: rest) = a :: rest := by
        simp [pendingPart, List.dropWhile, h]
      rw [this]
      intro e he
      simp only [List.mem_cons] at he
      rcases he with he | he
      · subst he
        exact lt_of_not_ge h
      · have h1 := List.rel_of_pairwise_cons hsorted he
        have h2 := hend e (by simp [he])
        have h3 := hend a (by simp)
        have h4 := lt_of_not_ge h
        omega

theorem pendingPart_sublist (slot : Int) (l : List PendingCoinDay) :
    (pendingPart slot l).Sublist l :=
  List.dropWhile_sublist _

theorem updateTX_wf (dr : DecRound) (p : Params) (now : Int) (b : AccountBank)
    (q : PendingCoinDayQueue) (h : QueueWF p q)
    (ht : q.PendingCoinDays ≠ [] → q.LastUpdatedAt ≤ timeSlot now) :
    QueueWF p (updateTXFromPendingCoinDayQueue dr p now b q).2 := by
  have hsub := pendingPart_sublist (timeSlot now) q.PendingCoinDays
  have h1 := EntriesOK_sublist hsub h.entries
  have h2 : EntriesOK p (timeSlot now) (pendingPart (timeSlot now) q.PendingCoinDays) := by
    apply EntriesOK_advance h1
    · intro hne
      apply ht
      intro hnil
      rw [hnil] at hne
      exact hne rfl
    · exact pendingPart_all_pending p _ _ (fun e he => (h.entryOK e he).1) h.sorted
  refine ⟨?_, ?_, updateTX_totalCoin_eq_coinSum dr p now b q h.totalCoin⟩
  · rw [updateTX_entries, updateTX_lastUpdatedAt]
    exact h2.1
  · rw [updateTX_entries]
    exact h2.2

theorem pairwise_append_singleton_lt (front : List PendingCoinDay) (last : PendingCoinDay)
    (h : (front ++ [last]).Pairwise (fun a b => a.StartTime < b.StartTime)) :
    ∀ e ∈ front, e.StartTime < last.StartTime := by
  intro e he
  rw [List.pairwise_append] at h
  exact h.2.2 e he last (by simp)

theorem pushPendingCoinDay_wf (p : Params) (now : Int) (c : Coin) (q : PendingCoinDayQueue)
    (hw : 0 < p.SecondsToRecoverCoinDay) (h : QueueWF p q)
    (hlu : q.LastUpdatedAt = timeSlot now) (hc : 0 < c) :
    QueueWF p (pushPendingCoinDay q (newPendingCoinDay p now c)) := by
  have hnew : EntryOK p q.LastUpdatedAt (newPendingCoinDay p now c) := by
    refine ⟨rfl, hc, ?_, ?_⟩
    · simp [newPendingCoinDay, hlu]
    · rw [hlu]
      show timeSlot now < timeSlot now + p.SecondsToRecoverCoinDay
      linarith
  have hf := pushPendingCoinDay_fields q (newPendingCoinDay p now c)
  have hcs := pushPendingCoinDay_coinSum q (newPendingCoinDay p now c)
  have htot : (pushPendingCoinDay q (newPendingCoinDay p now c)).TotalCoin =
      coinSum (pushPendingCoinDay q (newPendingCoinDay p now c)).PendingCoinDays := by
    rw [hf.1, hcs, h.totalCoin]
  rcases List.eq_nil_or_concat q.PendingCoinDays with hnil | ⟨front, last, hcat⟩
  · refine ⟨?_, ?_, htot⟩
    · rw [hf.2.2, pushPendingCoinDay_nil _ _ hnil]
      intro e he
      simp only [List.mem_singleton] at he
      subst he
      exact hnew
    · rw [pushPendingCoinDay_nil _ _ hnil]
      simp
  · rw [List.concat_eq_append] at hcat
    have hent := h.entries
    rw [hcat] at hent
    have hlast := hent.1 last (by simp)
    by_cases hst : last.StartTime = (newPendingCoinDay p now c).StartTime
    · have hpos : 0 < last.Coin + c := by
        have := hlast.2.1
        linarith
      have := EntriesOK_setCoin (c := last.Coin + c) hent hpos
      refine ⟨?_, ?_, htot⟩
      · rw [hf.2.2, pushPendingCoinDay_merge _ _ last front hcat hst]
        exact this.1
      · rw [pushPendingCoinDay_merge _ _ last front hcat hst]
        exact this.2
    · have hlt : last.StartTime < (newPendingCoinDay p now c).StartTime := by
        have h1 := hlast.2.2.1
        have h2 : (newPendingCoinDay p now c).StartTime = q.LastUpdatedAt := by
          simp [newPendingCoinDay, hlu]
        rw [h2] at hst ⊢
        omega
      have hall : ∀ e ∈ front ++ [last],
          e.StartTime < (newPendingCoinDay p now c).StartTime := by
        intro e he
        simp only [List.mem_append, List.mem_singleton] at he
        rcases he with he | he
        · exact lt_trans (pairwise_append_singleton_lt front last hent.2 e he) hlt
        · subst he
          exact hlt
      refine ⟨?_, ?_, htot⟩
      · rw [hf.2.2, pushPendingCoinDay_append _ _ last front hcat hst, hcat]
        intro e he
        simp only [List.mem_append, List.mem_singleton] at he
        rcases he with he | he
        · exact hent.1 e (by simpa using he)
        · subst he
          exact hnew
      · rw [pushPendingCoinDay_append _ _ last front hcat hst, hcat, List.pairwise_append]
        refine ⟨hent.2, by simp, ?_⟩
        intro a ha b hb
        simp only [List.mem_singleton] at hb
        subst hb
        exact hall a ha

theorem minusFromHead_wf (dr : DecRound) (p : Params) (l : List PendingCoinDay) (coin : Coin)
    (q : PendingCoinDayQueue) (h : EntriesOK p q.LastUpdatedAt l)
    (htc : q.TotalCoin = coinSum l) :
    QueueWF p (minusFromHead dr p l coin q).2 := by
  have ht := minusFromHead_totals dr p l coin q
  have htot : (minusFromHead dr p l coin q).2.TotalCoin =
      coinSum (minusFromHead dr p l coin q).2.PendingCoinDays := by
    rw [ht.1, ht.2, htc]
  obtain ⟨taken, rest, hl, hcase⟩ := minusFromHead_entries dr p l coin q
  have hrest : EntriesOK p q.LastUpdatedAt rest :=
    EntriesOK_sublist (by rw [hl]; exact List.sublist_append_right taken rest) h
  rcases hcase with hc | ⟨e, rest2, c, hr, hlt, hc⟩
  · refine ⟨?_, ?_, htot⟩
    · rw [hc, minusFromHead_lastUpdatedAt]
      exact hrest.1
    · rw [hc]
      exact hrest.2
  · rw [hr] at hrest
    have := @EntriesOK_setCoin p _ [] rest2 e (e.Coin - c) hrest (by linarith)
    refine ⟨?_, ?_, htot⟩
    · rw [hc, minusFromHead_lastUpdatedAt]
      exact this.1
    · rw [hc]
      exact this.2

theorem minusFromTail_wf (dr : DecRound) (p : Params) (coin : Coin)
    (q : PendingCoinDayQueue) (h : QueueWF p q) :
    QueueWF p (minusFromTail dr p q.PendingCoinDays.reverse coin q).2 := by
  rw [minusFromTail_eq_head]
  have ht := minusFromHead_totals dr p q.PendingCoinDays.reverse coin q
  rw [coinSum_reverse] at ht
  have htot : (minusFromHead dr p q.PendingCoinDays.reverse coin q).2.TotalCoin =
      coinSum (minusFromHead dr p q.PendingCoinDays.reverse coin q).2.PendingCoinDays.reverse := by
    rw [coinSum_reverse, ht.1, ht.2, h.totalCoin]
  obtain ⟨taken, rest, hl, hcase⟩ :=
    minusFromHead_entries dr p q.PendingCoinDays.reverse coin q
  have hl2 : q.PendingCoinDays = rest.reverse ++ taken.reverse := by
    have := congrArg List.reverse hl
    simpa using this
  have hrest : EntriesOK p q.LastUpdatedAt rest.reverse :=
    EntriesOK_sublist (by rw [hl2]; exact List.sublist_append_left _ _) h.entries
  rcases hcase with hc | ⟨e, rest2, c, hr, hlt, hc⟩
  · refine ⟨?_, ?_, htot⟩
    · show ∀ x ∈ (minusFromHead dr p q.PendingCoinDays.reverse coin q).2.PendingCoinDays.reverse,
        EntryOK p (minusFromHead dr p q.PendingCoinDays.reverse coin q).2.LastUpdatedAt x
      rw [hc, minusFromHead_lastUpdatedAt]
      exact hrest.1
    · show List.Pairwise _
        (minusFromHead dr p q.PendingCoinDays.reverse coin q).2.PendingCoinDays.reverse
      rw [hc]
      exact hrest.2
  · rw [hr] at hrest
    simp only [List.reverse_cons] at hrest
    have := @EntriesOK_setCoin p _ rest2.reverse [] e (e.Coin - c) hrest (by linarith)
    refine ⟨?_, ?_, htot⟩
    · show ∀ x ∈ (minusFromHead dr p q.PendingCoinDays.reverse coin q).2.PendingCoinDays.reverse,
        EntryOK p (minusFromHead dr p q.PendingCoinDays.reverse coin q).2.LastUpdatedAt x
      rw [hc, minusFromHead_lastUpdatedAt]
      simpa using this.1
    · show List.Pairwise _
        (minusFromHead dr p q.PendingCoinDays.reverse coin q).2.PendingCoinDays.reverse
      rw [hc]
      simpa using this.2

/-! ## The account invariant through each operation -/

theorem AccountCore_mono {dr : DecRound} {p : Params} {t t2 : Int} {b : AccountBank}
    {q : PendingCoinDayQueue} (h : AccountCore dr p t b q) (ht : t ≤ t2) :
    AccountCore dr p t2 b q :=
  ⟨⟨h.1.wf, h.1.principal, fun hne => le_trans (h.1.time hne) (timeSlot_mono t t2 ht)⟩, h.2⟩

theorem AccountCore_update {dr : DecRound} {p : Params} {t t2 : Int} {b : AccountBank}
    {q : PendingCoinDayQueue} (h : AccountCore dr p t b q) (ht : t ≤ t2) :
    AccountCore dr p t2 (updateTXFromPendingCoinDayQueue dr p t2 b q).1
      (updateTXFromPendingCoinDayQueue dr p t2 b q).2 := by
  have h2 := (AccountCore_mono h ht).1
  refine ⟨⟨updateTX_wf dr p t2 b q h2.wf h2.time, ?_, ?_⟩, ?_⟩
  · have := updateTX_principal dr p t2 b q h2.wf.totalCoin
    rw [updateTX_fst] at this ⊢
    simp only at this ⊢
    linarith [h2.principal]
  · intro _
    rw [updateTX_lastUpdatedAt]
  · intro hdr
    subst hdr
    exact updateTX_weightedSum p t2 b q h2.wf.totalCoin (h.2 rfl)

theorem AccountCore_bank {dr : DecRound} {p : Params} {t : Int} {b b2 : AccountBank}
    {q : PendingCoinDayQueue} (h : AccountCore dr p t b q)
    (hb : b2.Saving - b2.CoinDay = b.Saving - b.CoinDay) : AccountCore dr p t b2 q :=
  ⟨⟨h.1.wf, by linarith [h.1.principal], h.1.time⟩, h.2⟩

theorem AccountCore_deposit {dr : DecRound} {p : Params} {t t2 : Int} {b : AccountBank}
    {q : PendingCoinDayQueue} (c : Coin) (h : AccountCore dr p t b q) (ht : t ≤ t2)
    (hw : 0 < p.SecondsToRecoverCoinDay) (hc : 0 < c) :
    AccountCore dr p t2
      { b with
        Saving := b.Saving + c
        CoinDay := b.CoinDay + coinSum (expiredPart (timeSlot t2) q.PendingCoinDays) }
      (pushPendingCoinDay (updateTXFromPendingCoinDayQueue dr p t2 b q).2
        (newPendingCoinDay p t2 c)) := by
  have hu := AccountCore_update h ht
  have hf := pushPendingCoinDay_fields (updateTXFromPendingCoinDayQueue dr p t2 b q).2
    (newPendingCoinDay p t2 c)
  refine ⟨⟨pushPendingCoinDay_wf p t2 c _ hw hu.1.wf (updateTX_lastUpdatedAt dr p t2 b q) hc,
    ?_, ?_⟩, ?_⟩
  · have := hu.1.principal
    rw [updateTX_fst] at this
    simp only at this ⊢
    rw [hf.1]
    simp only [newPendingCoinDay]
    linarith
  · intro _
    rw [hf.2.2, updateTX_lastUpdatedAt]
  · intro hdr
    exact pushPendingCoinDay_weightedSum p _ _
      (by simp [newPendingCoinDay, updateTX_lastUpdatedAt]) (hu.2 hdr)

theorem AccountCore_minusTail {dr : DecRound} {p : Params} {t t2 : Int} {b : AccountBank}
    {q : PendingCoinDayQueue} (c : Coin) (h : AccountCore dr p t b q) (ht : t ≤ t2)
    (hc : 0 ≤ c) :
    AccountCore dr p t2
      (if 0 < (minusFromTail dr p
          (updateTXFromPendingCoinDayQueue dr p t2 b q).2.PendingCoinDays.reverse c
          (updateTXFromPendingCoinDayQueue dr p t2 b q).2).1 then
        { b with Saving := b.Saving - c, CoinDay := b.Saving - c }
      else
        { b with
          Saving := b.Saving - c
          CoinDay := b.CoinDay + coinSum (expiredPart (timeSlot t2) q.PendingCoinDays) })
      (minusFromTail dr p
        (updateTXFromPendingCoinDayQueue dr p t2 b q).2.PendingCoinDays.reverse c
        (updateTXFromPendingCoinDayQueue dr p t2 b q).2).2 := by
  have hu := AccountCore_update h ht
  have hwf := minusFromTail_wf dr p c _ hu.1.wf
  have hprin := hu.1.principal
  rw [updateTX_fst] at hprin
  simp only at hprin
  have htc := hu.1.wf.totalCoin
  rw [minusFromTail_eq_head] at hwf ⊢
  simp only at hwf ⊢
  have htot := minusFromHead_totals dr p
    (updateTXFromPendingCoinDayQueue dr p t2 b q).2.PendingCoinDays.reverse c
    (updateTXFromPendingCoinDayQueue dr p t2 b q).2
  have hl := minusFromHead_leftover dr p
    (updateTXFromPendingCoinDayQueue dr p t2 b q).2.PendingCoinDays.reverse c
    (updateTXFromPendingCoinDayQueue dr p t2 b q).2
  rw [coinSum_reverse] at htot
  refine ⟨⟨hwf, ?_, ?_⟩, ?_⟩
  · split
    · rename_i hpos
      have hnil := hl.1 hpos
      have hz : coinSum (minusFromHead dr p
          (updateTXFromPendingCoinDayQueue dr p t2 b q).2.PendingCoinDays.reverse c
          (updateTXFromPendingCoinDayQueue dr p t2 b q).2).2.PendingCoinDays = 0 := by
        rw [hnil]; rfl
      simp only
      linarith [htot.1, htot.2]
    · rename_i hpos
      have h0 := hl.2 hc
      simp only
      linarith [htot.1, htot.2]
  · intro _
    show (minusFromHead dr p _ c _).2.LastUpdatedAt ≤ timeSlot t2
    rw [minusFromHead_lastUpdatedAt, updateTX_lastUpdatedAt]
  · intro hdr
    subst hdr
    unfold WeightedSumInv
    simp only
    rw [minusFromHead_lastUpdatedAt, weightedSum_reverse]
    apply minusFromHead_weightedSum
    rw [weightedSum_reverse]
    exact hu.2 rfl

theorem AccountCore_minusHead {dr : DecRound} {p : Params} {t t2 : Int} {b : AccountBank}
    {q : PendingCoinDayQueue} (c : Coin) (h : AccountCore dr p t b q) (ht : t ≤ t2)
    (hle : c ≤ b.Saving) :
    AccountCore dr p t2
      (if b.CoinDay + coinSum (expiredPart (timeSlot t2) q.PendingCoinDays) ≥ c then
        { b with
          Saving := b.Saving - c
          CoinDay := b.CoinDay + coinSum (expiredPart (timeSlot t2) q.PendingCoinDays) - c }
      else { b with Saving := b.Saving - c, CoinDay := 0 })
      (if b.CoinDay + coinSum (expiredPart (timeSlot t2) q.PendingCoinDays) ≥ c then
        (updateTXFromPendingCoinDayQueue dr p t2 b q).2
      else
        (minusFromHead dr p (updateTXFromPendingCoinDayQueue dr p t2 b q).2.PendingCoinDays
          (c - (b.CoinDay + coinSum (expiredPart (timeSlot t2) q.PendingCoinDays)))
          (updateTXFromPendingCoinDayQueue dr p t2 b q).2).2) := by
  have hu := AccountCore_update h ht
  have hprin := hu.1.principal
  rw [updateTX_fst] at hprin
  simp only at hprin
  have htc := hu.1.wf.totalCoin
  by_cases hge : b.CoinDay + coinSum (expiredPart (timeSlot t2) q.PendingCoinDays) ≥ c
  · simp only [hge, if_true]
    exact ⟨⟨hu.1.wf, by simp only; linarith, hu.1.time⟩, hu.2⟩
  · simp only [hge, if_false]
    have hwf := minusFromHead_wf dr p _
      (c - (b.CoinDay + coinSum (expiredPart (timeSlot t2) q.PendingCoinDays)))
      _ hu.1.wf.entries htc
    have htot := minusFromHead_totals dr p
      (updateTXFromPendingCoinDayQueue dr p t2 b q).2.PendingCoinDays
      (c - (b.CoinDay + coinSum (expiredPart (timeSlot t2) q.PendingCoinDays)))
      (updateTXFromPendingCoinDayQueue dr p t2 b q).2
    have hl := minusFromHead_leftover dr p
      (updateTXFromPendingCoinDayQueue dr p t2 b q).2.PendingCoinDays
      (c - (b.CoinDay + coinSum (expiredPart (timeSlot t2) q.PendingCoinDays)))
      (updateTXFromPendingCoinDayQueue dr p t2 b q).2
    have hc2 : 0 ≤ c - (b.CoinDay + coinSum (expiredPart (timeSlot t2) q.PendingCoinDays)) := by
      linarith [lt_of_not_ge hge]
    have hzero : (minusFromHead dr p
        (updateTXFromPendingCoinDayQueue dr p t2 b q).2.PendingCoinDays
        (c - (b.CoinDay + coinSum (expiredPart (timeSlot t2) q.PendingCoinDays)))
        (updateTXFromPendingCoinDayQueue dr p t2 b q).2).1 = 0 := by
      by_contra hne
      have hpos : 0 < (minusFromHead dr p
          (updateTXFromPendingCoinDayQueue dr p t2 b q).2.PendingCoinDays
          (c - (b.CoinDay + coinSum (expiredPart (timeSlot t2) q.PendingCoinDays)))
          (updateTXFromPendingCoinDayQueue dr p t2 b q).2).1 :=
        lt_of_le_of_ne (hl.2 hc2) (Ne.symm hne)
      have hnil := hl.1 hpos
      have hz : coinSum (minusFromHead dr p
          (updateTXFromPendingCoinDayQueue dr p t2 b q).2.PendingCoinDays
          (c - (b.CoinDay + coinSum (expiredPart (timeSlot t2) q.PendingCoinDays)))
          (updateTXFromPendingCoinDayQueue dr p t2 b q).2).2.PendingCoinDays = 0 := by
        rw [hnil]; rfl
      linarith [htot.1]
    refine ⟨⟨hwf, ?_, ?_⟩, ?_⟩
    · simp only
      linarith [htot.2]
    · intro _
      rw [minusFromHead_lastUpdatedAt, updateTX_lastUpdatedAt]
    · intro hdr
      subst hdr
      unfold WeightedSumInv
      rw [minusFromHead_lastUpdatedAt]
      exact minusFromHead_weightedSum p _ _ _ (hu.2 rfl)

/-! ## The store invariant through each operation -/

theorem StoreCore_mono {dr : DecRound} {p : Params} {t t2 : Int} {s : AccountStorage}
    (h : StoreCore dr p t s) (ht : t ≤ t2) : StoreCore dr p t2 s := by
  intro u b hb
  obtain ⟨q, hq, hc⟩ := h u b hb
  exact ⟨q, hq, AccountCore_mono hc ht⟩

theorem StoreCore_set {dr : DecRound} {p : Params} {t t2 : Int} {s : AccountStorage}
    (h : StoreCore dr p t s) (ht : t ≤ t2) (u : AccountKey) (b2 : AccountBank)
    (q2 : PendingCoinDayQueue) (hc : AccountCore dr p t2 b2 q2) :
    StoreCore dr p t2 ((s.SetPendingCoinDayQueue u q2).SetBankFromAccountKey u b2) := by
  intro v bv hv
  by_cases hvu : v = u
  · subst hvu
    rw [get_set_bank] at hv
    cases hv
    exact ⟨q2, get_set_queue_bank _ _ _ _, hc⟩
  · have hb : s.bank v = some bv := by
      simpa [AccountStorage.SetBankFromAccountKey, AccountStorage.SetPendingCoinDayQueue, hvu]
        using hv
    obtain ⟨q, hq, hcq⟩ := h v bv hb
    refine ⟨q, ?_, AccountCore_mono hcq ht⟩
    simpa [AccountStorage.SetBankFromAccountKey, AccountStorage.SetPendingCoinDayQueue, hvu]
      using hq

theorem nonneg_set {s : AccountStorage} (h : ∀ u b, s.bank u = some b → 0 ≤ b.Saving)
    (u : AccountKey) (b2 : AccountBank) (q2 : PendingCoinDayQueue) (hb2 : 0 ≤ b2.Saving) :
    ∀ v b, ((s.SetPendingCoinDayQueue u q2).SetBankFromAccountKey u b2).bank v = some b →
      0 ≤ b.Saving := by
  intro v bv hv
  by_cases hvu : v = u
  · subst hvu
    rw [get_set_bank] at hv
    cases hv
    exact hb2
  · exact h v bv (by
      simpa [AccountStorage.SetBankFromAccountKey, AccountStorage.SetPendingCoinDayQueue, hvu]
        using hv)

/-- A successful deposit keeps the store invariant. -/
theorem AddSavingCoin_step {dr : DecRound} {p : Params} {t t2 : Int} {s s2 : AccountStorage}
    (u : AccountKey) (c : Coin) (hw : 0 < p.SecondsToRecoverCoinDay)
    (h : StoreCore dr p t s) (ht : t ≤ t2) (hc : 0 ≤ c)
    (hrun : AddSavingCoin dr p t2 s u c = (none, s2)) :
    StoreCore dr p t2 s2 ∧
    ((∀ v b, s.bank v = some b → 0 ≤ b.Saving) → ∀ v b, s2.bank v = some b → 0 ≤ b.Saving) := by
  by_cases hex : s.DoesAccountExist u = true
  · by_cases hc0 : c = 0
    · have : s2 = s := by
        simp [AddSavingCoin, hex, hc0] at hrun
        exact hrun.symm
      subst this
      exact ⟨StoreCore_mono h ht, fun hn => hn⟩
    · cases hb : s.bank u with
      | none =>
        simp [AddSavingCoin, AccountStorage.GetBankFromAccountKey, hex, hc0, hb] at hrun
      | some b =>
        obtain ⟨q, hq, hcore⟩ := h u b hb
        rw [AddSavingCoin_eq dr p t2 s u c b q hex hb hq hc0] at hrun
        have hs2 := (Prod.mk.inj hrun).2
        subst hs2
        have hpos : 0 < c := lt_of_le_of_ne hc (Ne.symm hc0)
        refine ⟨StoreCore_set h ht u _ _ (AccountCore_deposit c hcore ht hw hpos), ?_⟩
        intro hn
        apply nonneg_set hn
        have := hn u b hb
        simp only
        linarith
  · simp [AddSavingCoin, hex] at hrun

/-- A successful deposit with full coin day keeps the core invariant, whatever the sign of
the amount. -/
theorem AddSavingCoinWithFullCoinDay_step {dr : DecRound} {p : Params} {t t2 : Int}
    {s s2 : AccountStorage} (u : AccountKey) (c : Coin)
    (h : StoreCore dr p t s) (ht : t ≤ t2)
    (hrun : AddSavingCoinWithFullCoinDay s u c = (none, s2)) :
    StoreCore dr p t2 s2 ∧
    (0 ≤ c → (∀ v b, s.bank v = some b → 0 ≤ b.Saving) →
      ∀ v b, s2.bank v = some b → 0 ≤ b.Saving) := by
  by_cases hex : s.DoesAccountExist u = true
  · by_cases hc0 : c = 0
    · have : s2 = s := by
        simp [AddSavingCoinWithFullCoinDay, hex, hc0] at hrun
        exact hrun.symm
      subst this
      exact ⟨StoreCore_mono h ht, fun _ hn => hn⟩
    · cases hb : s.bank u with
      | none =>
        simp [AddSavingCoinWithFullCoinDay, AccountStorage.GetBankFromAccountKey, hex, hc0,
          hb] at hrun
      | some b =>
        obtain ⟨q, hq, hcore⟩ := h u b hb
        simp only [AddSavingCoinWithFullCoinDay, hex, hc0,
          AccountStorage.GetBankFromAccountKey, hb, not_true_eq_false, if_false] at hrun
        have hs2 := (Prod.mk.inj hrun).2
        subst hs2
        have hsame : s.SetBankFromAccountKey u
            { b with Saving := b.Saving + c, CoinDay := b.CoinDay + c } =
            (s.SetPendingCoinDayQueue u q).SetBankFromAccountKey u
              { b with Saving := b.Saving + c, CoinDay := b.CoinDay + c } := by
          have hqq : (fun v => if v = u then some q else s.queue v) = s.queue := by
            funext v
            by_cases hv : v = u
            · subst hv; simp [hq]
            · simp [hv]
          simp [AccountStorage.SetBankFromAccountKey, AccountStorage.SetPendingCoinDayQueue,
            hqq]
        rw [hsame]
        refine ⟨StoreCore_set h ht u _ _
          (AccountCore_bank (AccountCore_mono hcore ht) (by simp)), ?_⟩
        intro hc hn
        apply nonneg_set hn
        have := hn u b hb
        simp only
        linarith
  · simp [AddSavingCoinWithFullCoinDay, hex] at hrun

/-- A successful policy A withdrawal keeps the store invariant. -/
theorem MinusSavingCoin_step {dr : DecRound} {p : Params} {t t2 : Int} {s s2 : AccountStorage}
    (u : AccountKey) (c : Coin) (hmin : 0 ≤ p.MinimumBalance)
    (h : StoreCore dr p t s) (ht : t ≤ t2) (hc : 0 ≤ c)
    (hrun : MinusSavingCoin dr p t2 s u c = (none, s2)) :
    StoreCore dr p t2 s2 ∧
    ((∀ v b, s.bank v = some b → 0 ≤ b.Saving) → ∀ v b, s2.bank v = some b → 0 ≤ b.Saving) := by
  cases hb : s.bank u with
  | none => simp [MinusSavingCoin, AccountStorage.GetBankFromAccountKey, hb] at hrun
  | some b =>
    by_cases hge : p.MinimumBalance ≤ b.Saving - c
    · by_cases hc0 : c = 0
      · have : s2 = s := by
          simp [MinusSavingCoin, AccountStorage.GetBankFromAccountKey, hb, hc0] at hrun
          split at hrun
          · simp at hrun
          · exact (Prod.mk.inj hrun).2.symm
        subst this
        exact ⟨StoreCore_mono h ht, fun hn => hn⟩
      · obtain ⟨q, hq, hcore⟩ := h u b hb
        rw [MinusSavingCoin_eq dr p t2 s u c b q hb hq hge hc0] at hrun
        have hs2 := (Prod.mk.inj hrun).2
        subst hs2
        refine ⟨StoreCore_set h ht u _ _ (AccountCore_minusTail c hcore ht hc), ?_⟩
        intro hn
        apply nonneg_set hn
        split <;> simp only <;> linarith
    · simp [MinusSavingCoin, AccountStorage.GetBankFromAccountKey, hb, hge] at hrun

/-- A successful policy B withdrawal keeps the store invariant. -/
theorem MinusSavingCoinWithFullCoinDay_step {dr : DecRound} {p : Params} {t t2 : Int}
    {s s2 : AccountStorage} (u : AccountKey) (c lost : Coin) (hmin : 0 ≤ p.MinimumBalance)
    (h : StoreCore dr p t s) (ht : t ≤ t2)
    (hrun : MinusSavingCoinWithFullCoinDay dr p t2 s u c = (none, lost, s2)) :
    StoreCore dr p t2 s2 ∧
    ((∀ v b, s.bank v = some b → 0 ≤ b.Saving) → ∀ v b, s2.bank v = some b → 0 ≤ b.Saving) := by
  by_cases hc0 : c = 0
  · have : s2 = s := by
      simp [MinusSavingCoinWithFullCoinDay, hc0] at hrun
      exact hrun.2.symm
    subst this
    exact ⟨StoreCore_mono h ht, fun hn => hn⟩
  cases hb : s.bank u with
  | none =>
    simp [MinusSavingCoinWithFullCoinDay, AccountStorage.GetBankFromAccountKey, hb, hc0] at hrun
  | some b =>
    by_cases hge : p.MinimumBalance ≤ b.Saving - c
    · obtain ⟨q, hq, hcore⟩ := h u b hb
      rw [MinusSavingCoinWithFullCoinDay_eq dr p t2 s u c b q hb hq hge hc0] at hrun
      have hcore2 := AccountCore_minusHead c hcore ht (by linarith)
      by_cases hcd : b.CoinDay + coinSum (expiredPart (timeSlot t2) q.PendingCoinDays) ≥ c
      · simp only [hcd, if_true] at hrun hcore2
        have hs2 := (Prod.mk.inj (Prod.mk.inj hrun).2).2
        subst hs2
        refine ⟨StoreCore_set h ht u _ _ hcore2, ?_⟩
        intro hn
        apply nonneg_set hn
        simp only
        linarith
      · simp only [hcd, if_false] at hrun hcore2
        have hs2 := (Prod.mk.inj (Prod.mk.inj hrun).2).2
        subst hs2
        refine ⟨StoreCore_set h ht u _ _ hcore2, ?_⟩
        intro hn
        apply nonneg_set hn
        simp only
        linarith
    · simp [MinusSavingCoinWithFullCoinDay, AccountStorage.GetBankFromAccountKey, hb, hge,
        hc0] at hrun

/-- A successful `GetCoinDay` keeps the store invariant. -/
theorem GetCoinDay_step {dr : DecRound} {p : Params} {t t2 : Int} {s s2 : AccountStorage}
    (u : AccountKey) (r : Coin) (h : StoreCore dr p t s) (ht : t ≤ t2)
    (hrun : GetCoinDay dr p t2 s u = (none, r, s2)) :
    StoreCore dr p t2 s2 ∧
    ((∀ v b, s.bank v = some b → 0 ≤ b.Saving) → ∀ v b, s2.bank v = some b → 0 ≤ b.Saving) := by
  cases hb : s.bank u with
  | none => simp [GetCoinDay, AccountStorage.GetBankFromAccountKey, hb] at hrun
  | some b =>
    obtain ⟨q, hq, hcore⟩ := h u b hb
    rw [GetCoinDay_eq dr p t2 s u b q hb hq] at hrun
    have hs2 := (Prod.mk.inj (Prod.mk.inj hrun).2).2
    subst hs2
    refine ⟨StoreCore_set h ht u _ _ (AccountCore_update hcore ht), ?_⟩
    intro hn
    apply nonneg_set hn
    rw [updateTX_fst]
    exact hn u b hb

theorem AddSavingCoinWithFullCoinDay_bank {s s2 : AccountStorage} (u : AccountKey) (c : Coin)
    (b : AccountBank) (hb : s.bank u = some b)
    (hrun : AddSavingCoinWithFullCoinDay s u c = (none, s2)) :
    (∃ b2, s2.bank u = some b2 ∧ b2.Saving = b.Saving + c ∧ b2.CoinDay = b.CoinDay + c) ∧
    (∀ v, v ≠ u → s2.bank v = s.bank v) ∧ s2.queue = s.queue ∧ s2.info = s.info := by
  by_cases hex : s.DoesAccountExist u = true
  · by_cases hc0 : c = 0
    · have : s2 = s := by
        simp [AddSavingCoinWithFullCoinDay, hex, hc0] at hrun
        exact hrun.symm
      subst this
      exact ⟨⟨b, hb, by simp [hc0], by simp [hc0]⟩, fun _ _ => rfl, rfl, rfl⟩
    · simp only [AddSavingCoinWithFullCoinDay, hex, hc0,
        AccountStorage.GetBankFromAccountKey, hb, not_true_eq_false, if_false] at hrun
      have hs2 := (Prod.mk.inj hrun).2
      subst hs2
      refine ⟨⟨_, get_set_bank _ _ _, rfl, rfl⟩, ?_, rfl, rfl⟩
      intro v hv
      simp [AccountStorage.SetBankFromAccountKey, hv]
  · simp [AddSavingCoinWithFullCoinDay, hex] at hrun

theorem AddSavingCoin_bank {dr : DecRound} {p : Params} {now : Int} {s s2 : AccountStorage}
    (u : AccountKey) (c : Coin) (b : AccountBank) (q : PendingCoinDayQueue)
    (hb : s.bank u = some b) (hq : s.queue u = some q)
    (hrun : AddSavingCoin dr p now s u c = (none, s2)) :
    (∃ b2, s2.bank u = some b2 ∧ b2.Saving = b.Saving + c) ∧
    (∀ v, v ≠ u → s2.bank v = s.bank v) := by
  by_cases hex : s.DoesAccountExist u = true
  · by_cases hc0 : c = 0
    · have : s2 = s := by
        simp [AddSavingCoin, hex, hc0] at hrun
        exact hrun.symm
      subst this
      exact ⟨⟨b, hb, by simp [hc0]⟩, fun _ _ => rfl⟩
    · rw [AddSavingCoin_eq dr p now s u c b q hex hb hq hc0] at hrun
      have hs2 := (Prod.mk.inj hrun).2
      subst hs2
      refine ⟨⟨_, get_set_bank _ _ _, rfl⟩, ?_⟩
      intro v hv
      simp [AccountStorage.SetBankFromAccountKey, AccountStorage.SetPendingCoinDayQueue, hv]
  · simp [AddSavingCoin, hex] at hrun

theorem AccountCore_fresh (dr : DecRound) (p : Params) (t : Int) :
    AccountCore dr p t {} {} := by
  refine ⟨⟨⟨by simp, List.Pairwise.nil, rfl⟩, rfl, by simp⟩, ?_⟩
  intro _
  simp [WeightedSumInv, weightedSum]

/-- A successful `CreateAccount` with a non-negative register deposit keeps the store
invariant. -/
theorem CreateAccount_step {dr : DecRound} {p : Params} {t t2 : Int} {s s2 : AccountStorage}
    (u : AccountKey) (k1 k2 k3 : Nat) (deposit : Coin) (hw : 0 < p.SecondsToRecoverCoinDay)
    (h : StoreCore dr p t s) (ht : t ≤ t2) (hd : 0 ≤ deposit)
    (hrun : CreateAccount dr p t2 s u k1 k2 k3 deposit = (none, s2)) :
    StoreCore dr p t2 s2 ∧
    ((∀ v b, s.bank v = some b → 0 ≤ b.Saving) → ∀ v b, s2.bank v = some b → 0 ≤ b.Saving) := by
  by_cases hex : s.DoesAccountExist u = true
  · simp [CreateAccount, hex] at hrun
  · simp only [CreateAccount, hex, Bool.false_eq_true, if_false] at hrun
    generalize hfull : (if deposit > p.FirstDepositFullCoinDayLimit then
      p.FirstDepositFullCoinDayLimit else deposit) = full at hrun
    have hrest : 0 ≤ deposit - full := by
      rw [← hfull]
      split
      · rename_i hgt
        linarith
      · simp
    generalize hs1 : ((((s.SetPendingCoinDayQueue u {}).SetBankFromAccountKey u {}).SetInfo u
        { Username := u, CreatedAt := t2, ResetKey := k1, TransactionKey := k2,
          AppKey := k3 }).SetMeta u
        { LastActivityAt := t2, LastReportOrUpvoteAt := t2,
          TransactionCapacity := full }).SetReward u {} = s1 at hrun
    have hbank1 : s1.bank = ((s.SetPendingCoinDayQueue u {}).SetBankFromAccountKey u {}).bank := by
      rw [← hs1]; rfl
    have hqueue1 : s1.queue =
        ((s.SetPendingCoinDayQueue u {}).SetBankFromAccountKey u {}).queue := by
      rw [← hs1]; rfl
    have hcore1 : StoreCore dr p t2 s1 := by
      have := StoreCore_set h ht u {} {} (AccountCore_fresh dr p t2)
      intro v b hv
      rw [hbank1] at hv
      rw [hqueue1]
      exact this v b hv
    have hb1 : s1.bank u = some {} := by
      rw [hbank1]; exact get_set_bank _ _ _
    have hother1 : ∀ v, v ≠ u → s1.bank v = s.bank v := by
      intro v hv
      rw [hbank1]
      simp [AccountStorage.SetBankFromAccountKey, AccountStorage.SetPendingCoinDayQueue, hv]
    cases hA : AddSavingCoinWithFullCoinDay s1 u full with
    | mk eA sA =>
      rw [hA] at hrun
      cases eA with
      | some e => simp at hrun
      | none =>
        simp only at hrun
        cases hB : AddSavingCoin dr p t2 sA u (deposit - full) with
        | mk eB sB =>
          rw [hB] at hrun
          cases eB with
          | some e => simp at hrun
          | none =>
            simp only at hrun
            have hs2 := (Prod.mk.inj hrun).2
            subst hs2
            have hcoreA := (AddSavingCoinWithFullCoinDay_step u full hcore1 (le_refl t2) hA).1
            have hcoreB := (AddSavingCoin_step u (deposit - full) hw hcoreA (le_refl t2)
              hrest hB).1
            refine ⟨hcoreB, ?_⟩
            intro hn v bv hv
            obtain ⟨⟨bA, hbA, hsA, -⟩, hoA, hqA, -⟩ :=
              AddSavingCoinWithFullCoinDay_bank u full {} hb1 hA
            obtain ⟨qA, hqA2, -⟩ := hcoreA u bA hbA
            obtain ⟨⟨bB, hbB, hsB⟩, hoB⟩ :=
              AddSavingCoin_bank u (deposit - full) bA qA hbA hqA2 hB
            by_cases hvu : v = u
            · subst hvu
              rw [hbB] at hv
              cases hv
              rw [hsB, hsA]
              show (0 : Coin) ≤ 0 + full + (deposit - full)
              linarith
            · rw [hoB v hvu, hoA v hvu, hother1 v hvu] at hv
              exact hn v bv hv

/-- Every reachable store satisfies the store invariant and has non-negative balances. -/
theorem Reachable_invariant {dr : DecRound} {p : Params} {t : Int} {s : AccountStorage}
    (hw : 0 < p.SecondsToRecoverCoinDay) (hmin : 0 ≤ p.MinimumBalance)
    (hr : Reachable dr p t s) :
    StoreCore dr p t s ∧ (∀ v b, s.bank v = some b → 0 ≤ b.Saving) := by
  induction hr with
  | genesis t =>
    constructor
    · intro u b hb
      simp [AccountStorage.empty] at hb
    · intro u b hb
      simp [AccountStorage.empty] at hb
  | createAccount t2 u k1 k2 k3 d s2 _ ht hd hrun ih =>
    have := CreateAccount_step u k1 k2 k3 d hw ih.1 ht hd hrun
    exact ⟨this.1, this.2 ih.2⟩
  | addSavingCoin t2 u c s2 _ ht hc hrun ih =>
    have := AddSavingCoin_step u c hw ih.1 ht hc hrun
    exact ⟨this.1, this.2 ih.2⟩
  | addSavingCoinWithFullCoinDay t2 u c s2 _ ht hc hrun ih =>
    have := @AddSavingCoinWithFullCoinDay_step dr p _ _ _ _ u c ih.1 ht hrun
    exact ⟨this.1, this.2 hc ih.2⟩
  | minusSavingCoin t2 u c s2 _ ht hc hrun ih =>
    have := MinusSavingCoin_step u c hmin ih.1 ht hc hrun
    exact ⟨this.1, this.2 ih.2⟩
  | minusSavingCoinWithFullCoinDay t2 u c lost s2 _ ht _ hrun ih =>
    have := MinusSavingCoinWithFullCoinDay_step u c lost hmin ih.1 ht hrun
    exact ⟨this.1, this.2 ih.2⟩
  | getCoinDay t2 u r s2 _ ht hrun ih =>
    have := GetCoinDay_step u r ih.1 ht hrun
    exact ⟨this.1, this.2 ih.2⟩

/-! ## Rounding to a coin -/

theorem roundHalfEven_intCast (n : Int) : roundHalfEven (n : ℚ) = n := by
  simp [roundHalfEven]

theorem roundHalfEven_bounds (x : ℚ) :
    (roundHalfEven x : ℚ) - 1 / 2 ≤ x ∧ x ≤ (roundHalfEven x : ℚ) + 1 / 2 := by
  have h1 := Int.floor_le x
  have h2 := Int.lt_floor_add_one x
  unfold roundHalfEven
  split
  · constructor <;> linarith
  · split
    · push_cast
      constructor <;> linarith
    · split
      · constructor <;> linarith
      · push_cast
        constructor <;> linarith

/-- The rounding never goes above an integer upper bound. -/
theorem roundHalfEven_le_of_le (x : ℚ) (n : Int) (h : x ≤ n) : roundHalfEven x ≤ n := by
  have hb := roundHalfEven_bounds x
  by_contra hlt
  push_neg at hlt
  have h1 : (n : ℚ) + 1 ≤ (roundHalfEven x : ℚ) := by exact_mod_cast hlt
  have hx : x = (n : ℚ) := by linarith [hb.1]
  have := roundHalfEven_intCast n
  rw [← hx] at this
  rw [this] at hlt
  exact lt_irrefl _ hlt

/-- The rounding never goes below an integer lower bound. -/
theorem roundHalfEven_ge_of_ge (x : ℚ) (n : Int) (h : (n : ℚ) ≤ x) : n ≤ roundHalfEven x := by
  have hb := roundHalfEven_bounds x
  by_contra hlt
  push_neg at hlt
  have h1 : (roundHalfEven x : ℚ) + 1 ≤ (n : ℚ) := by exact_mod_cast hlt
  have hx : x = (n : ℚ) := by linarith [hb.2]
  have := roundHalfEven_intCast n
  rw [← hx] at this
  rw [this] at hlt
  exact lt_irrefl _ hlt

/-- In a well-formed list no entry weighs more than its amount, nor less than zero. -/
theorem weightedSum_bounds (p : Params) (lu : Int) (l : List PendingCoinDay)
    (hw : 0 < p.SecondsToRecoverCoinDay) (h : ∀ e ∈ l, EntryOK p lu e) :
    0 ≤ weightedSum p lu l ∧ weightedSum p lu l ≤ (coinSum l : ℚ) := by
  induction l with
  | nil => simp [weightedSum, coinSum]
  | cons e rest ih =>
    obtain ⟨ih1, ih2⟩ := ih (fun x hx => h x (by simp [hx]))
    obtain ⟨he1, he2, he3, he4⟩ := h e (by simp)
    rw [weightedSum_cons, coinSum_cons]
    have hwq : (0 : ℚ) < (p.SecondsToRecoverCoinDay : ℚ) := by exact_mod_cast hw
    have hc : (0 : ℚ) < (e.Coin : ℚ) := by exact_mod_cast he2
    have hr0 : (0 : ℚ) ≤ ((lu - e.StartTime : Int) : ℚ) / (p.SecondsToRecoverCoinDay : ℚ) := by
      apply div_nonneg _ hwq.le
      have : (0 : Int) ≤ lu - e.StartTime := by omega
      exact_mod_cast this
    have hr1 : ((lu - e.StartTime : Int) : ℚ) / (p.SecondsToRecoverCoinDay : ℚ) ≤ 1 := by
      rw [div_le_one hwq]
      have : lu - e.StartTime ≤ p.SecondsToRecoverCoinDay := by omega
      exact_mod_cast this
    rw [Int.cast_add]
    constructor
    · have := mul_nonneg hr0 hc.le
      linarith
    · have := mul_le_mul_of_nonneg_right hr1 hc.le
      linarith

/-! ## Weight never exceeds principal -/

theorem AccountCore_coinDay_le {dr : DecRound} {p : Params} {t : Int} {b : AccountBank}
    {q : PendingCoinDayQueue} (h : AccountCore dr p t b q) : b.CoinDay ≤ b.Saving := by
  have hpos : ∀ l : List PendingCoinDay, (∀ e ∈ l, 0 < e.Coin) → 0 ≤ coinSum l := by
    intro l
    induction l with
    | nil => intro _; simp [coinSum]
    | cons e rest ih =>
      intro hl
      rw [coinSum_cons]
      have := hl e (by simp)
      have := ih (fun x hx => hl x (by simp [hx]))
      linarith
  have := hpos q.PendingCoinDays (fun e he => (h.1.wf.entryOK e he).2.1)
  have h2 := h.1.principal
  have h3 := h.1.wf.totalCoin
  linarith

theorem AccountCore_getCoinDay_le {p : Params} {t t2 : Int} {b : AccountBank}
    {q : PendingCoinDayQueue} (hw : 0 < p.SecondsToRecoverCoinDay)
    (h : AccountCore exactDec p t b q) (ht : t ≤ t2) :
    (updateTXFromPendingCoinDayQueue exactDec p t2 b q).1.CoinDay +
      DecToCoin (updateTXFromPendingCoinDayQueue exactDec p t2 b q).2.TotalCoinDay ≤
        b.Saving := by
  have hu := AccountCore_update h ht
  have hws := hu.2 rfl
  have hb := weightedSum_bounds p _ _ hw hu.1.wf.entryOK
  have hle : (updateTXFromPendingCoinDayQueue exactDec p t2 b q).2.TotalCoinDay ≤
      (((updateTXFromPendingCoinDayQueue exactDec p t2 b q).2.TotalCoin : Int) : ℚ) := by
    rw [hws, hu.1.wf.totalCoin]
    exact hb.2
  have hr := roundHalfEven_le_of_le _ _ hle
  have hprin := hu.1.principal
  have hsav : (updateTXFromPendingCoinDayQueue exactDec p t2 b q).1.Saving = b.Saving := by
    rw [updateTX_fst]
  unfold DecToCoin
  linarith

/-- C8, amended: in every account state reachable from the empty store through
`CreateAccount`, `AddSavingCoin`, `AddSavingCoinWithFullCoinDay`, `MinusSavingCoin`,
`MinusSavingCoinWithFullCoinDay` and `GetCoinDay` (non-negative amounts, non-negative
`MinimumBalance`, non-decreasing block time, positive recovery window), `bank.Saving` is
non-negative and `bank.CoinDay` is at most `bank.Saving`, whatever the decimal rounding;
and with exact decimals the coin returned by `GetCoinDay` at any later block time is at most
`bank.Saving`. -/
theorem weight_never_exceeds_principal (dr : DecRound) (p : Params) (t : Int)
    (s : AccountStorage) (u : AccountKey) (b : AccountBank)
    (hw : 0 < p.SecondsToRecoverCoinDay) (hmin : 0 ≤ p.MinimumBalance)
    (hr : Reachable dr p t s) (hb : s.bank u = some b) :
    0 ≤ b.Saving ∧ b.CoinDay ≤ b.Saving ∧
    (dr = exactDec → ∀ t2 : Int, t ≤ t2 → (GetCoinDay dr p t2 s u).2.1 ≤ b.Saving) := by
  obtain ⟨hcore, hnn⟩ := Reachable_invariant hw hmin hr
  obtain ⟨q, hq, hc⟩ := hcore u b hb
  refine ⟨hnn u b hb, AccountCore_coinDay_le hc, ?_⟩
  intro hdr t2 ht
  subst hdr
  rw [GetCoinDay_eq exactDec p t2 s u b q hb hq]
  exact AccountCore_getCoinDay_le hw hc ht

theorem CreateAccount_sample :
    ∃ (s2 : AccountStorage) (b : AccountBank),
      CreateAccount exactDec sampleParams 0 AccountStorage.empty "bob" 1 2 3 11 = (none, s2) ∧
      s2.bank "bob" = some b := by
  simp [CreateAccount, AccountStorage.empty, AccountStorage.DoesAccountExist, sampleParams,
    AddSavingCoinWithFullCoinDay, AddSavingCoin, addPendingCoinDayToQueue,
    AccountStorage.SetBankFromAccountKey, AccountStorage.SetPendingCoinDayQueue,
    AccountStorage.SetInfo, AccountStorage.SetMeta, AccountStorage.SetReward,
    AccountStorage.GetBankFromAccountKey, AccountStorage.GetPendingCoinDayQueue]

theorem weight_never_exceeds_principal_witness :
    ∃ (s : AccountStorage) (b : AccountBank),
      (0 < sampleParams.SecondsToRecoverCoinDay ∧ 0 ≤ sampleParams.MinimumBalance ∧
        Reachable exactDec sampleParams 0 s ∧ s.bank "bob" = some b) ∧
      0 ≤ b.Saving ∧ b.CoinDay ≤ b.Saving ∧
      (exactDec = exactDec → ∀ t2 : Int, 0 ≤ t2 →
        (GetCoinDay exactDec sampleParams t2 s "bob").2.1 ≤ b.Saving) := by
  obtain ⟨s2, b, h1, h2⟩ := CreateAccount_sample
  have hw : 0 < sampleParams.SecondsToRecoverCoinDay := by decide
  have hmin : 0 ≤ sampleParams.MinimumBalance := by decide
  have hr : Reachable exactDec sampleParams 0 s2 :=
    Reachable.createAccount 0 "bob" 1 2 3 11 s2 (Reachable.genesis 0) le_rfl (by decide) h1
  exact ⟨s2, b, ⟨hw, hmin, hr, h2⟩,
    weight_never_exceeds_principal exactDec sampleParams 0 s2 "bob" b hw hmin hr h2⟩

/-! ## Monotonicity of the coin day in time -/

/-- Rounding is monotone, also across an integer shift: a strictly smaller value never
rounds above. -/
theorem roundHalfEven_le_add (x y : ℚ) (k : Int) (h : x < y + k) :
    roundHalfEven x ≤ roundHalfEven y + k := by
  have hx := roundHalfEven_bounds x
  have hy := roundHalfEven_bounds y
  by_contra hlt
  push_neg at hlt
  have h1 : (roundHalfEven y : ℚ) + k + 1 ≤ (roundHalfEven x : ℚ) := by exact_mod_cast hlt
  linarith [hx.1, hy.2]

theorem roundHalfEven_mono (x y : ℚ) (h : x ≤ y) : roundHalfEven x ≤ roundHalfEven y := by
  rcases eq_or_lt_of_le h with heq | hlt
  · rw [heq]
  · have := roundHalfEven_le_add x y 0 (by simpa using hlt)
    simpa using this

theorem pendingPart_pendingPart (slot1 slot2 : Int) (h : slot1 ≤ slot2)
    (l : List PendingCoinDay) :
    pendingPart slot2 (pendingPart slot1 l) = pendingPart slot2 l := by
  induction l with
  | nil => rfl
  | cons a rest ih =>
    by_cases h1 : a.EndTime ≤ slot1
    · have h2 : a.EndTime ≤ slot2 := le_trans h1 h
      have e1 : pendingPart slot1 (a :: rest) = pendingPart slot1 rest := by
        simp [pendingPart, List.dropWhile, h1]
      have e2 : pendingPart slot2 (a :: rest) = pendingPart slot2 rest := by
        simp [pendingPart, List.dropWhile, h2]
      rw [e1, e2, ih]
    · have e1 : pendingPart slot1 (a :: rest) = a :: rest := by
        simp [pendingPart, List.dropWhile, h1]
      rw [e1]

theorem coinSum_nonneg_of_ok (p : Params) (lu : Int) (l : List PendingCoinDay)
    (h : ∀ e ∈ l, EntryOK p lu e) : 0 ≤ coinSum l := by
  induction l with
  | nil => simp [coinSum]
  | cons e rest ih =>
    rw [coinSum_cons]
    have := (h e (by simp)).2.1
    have := ih (fun x hx => h x (by simp [hx]))
    linarith

/-- A non-empty well-formed list weighs strictly less than its amount. -/
theorem weightedSum_lt_coinSum (p : Params) (lu : Int) (l : List PendingCoinDay)
    (hw : 0 < p.SecondsToRecoverCoinDay) (h : ∀ e ∈ l, EntryOK p lu e) (hne : l ≠ []) :
    weightedSum p lu l < (coinSum l : ℚ) := by
  cases l with
  | nil => exact absurd rfl hne
  | cons e rest =>
    have hrest := (weightedSum_bounds p lu rest hw (fun x hx => h x (by simp [hx]))).2
    obtain ⟨he1, he2, he3, he4⟩ := h e (by simp)
    rw [weightedSum_cons, coinSum_cons, Int.cast_add]
    have hwq : (0 : ℚ) < (p.SecondsToRecoverCoinDay : ℚ) := by exact_mod_cast hw
    have hc : (0 : ℚ) < (e.Coin : ℚ) := by exact_mod_cast he2
    have hr1 : ((lu - e.StartTime : Int) : ℚ) / (p.SecondsToRecoverCoinDay : ℚ) < 1 := by
      rw [div_lt_one hwq]
      have : lu - e.StartTime < p.SecondsToRecoverCoinDay := by omega
      exact_mod_cast this
    have := mul_lt_mul_of_pos_right hr1 hc
    linarith

/-- The value `GetCoinDay` computes from a fixed well-formed account state is
non-decreasing in the block time. -/
theorem coinDay_mono_record (p : Params) (now1 now2 : Int) (b : AccountBank)
    (q : PendingCoinDayQueue) (hw : 0 < p.SecondsToRecoverCoinDay) (hwf : QueueWF p q)
    (hws : WeightedSumInv p q) (hlu : q.LastUpdatedAt ≤ timeSlot now1) (h12 : now1 ≤ now2) :
    (updateTXFromPendingCoinDayQueue exactDec p now1 b q).1.CoinDay +
        DecToCoin (updateTXFromPendingCoinDayQueue exactDec p now1 b q).2.TotalCoinDay ≤
      (updateTXFromPendingCoinDayQueue exactDec p now2 b q).1.CoinDay +
        DecToCoin (updateTXFromPendingCoinDayQueue exactDec p now2 b q).2.TotalCoinDay := by
  have hs12 := timeSlot_mono now1 now2 h12
  have hwf1 := updateTX_wf exactDec p now1 b q hwf (fun _ => hlu)
  have hwf2 := updateTX_wf exactDec p now2 b q hwf (fun _ => le_trans hlu hs12)
  have hT1 := updateTX_weightedSum p now1 b q hwf.totalCoin hws
  have hT2 := updateTX_weightedSum p now2 b q hwf.totalCoin hws
  rw [updateTX_entries, updateTX_lastUpdatedAt] at hT1 hT2
  have hok1 : ∀ e ∈ pendingPart (timeSlot now1) q.PendingCoinDays,
      EntryOK p (timeSlot now1) e := by
    have := hwf1.entryOK
    rwa [updateTX_entries, updateTX_lastUpdatedAt] at this
  have hok2 : ∀ e ∈ pendingPart (timeSlot now2) q.PendingCoinDays,
      EntryOK p (timeSlot now2) e := by
    have := hwf2.entryOK
    rwa [updateTX_entries, updateTX_lastUpdatedAt] at this
  -- the entries maturing between the two slots
  have hsplit := expired_append_pending (timeSlot now2)
    (pendingPart (timeSlot now1) q.PendingCoinDays)
  rw [pendingPart_pendingPart _ _ hs12] at hsplit
  have hl1 := congrArg coinSum (expired_append_pending (timeSlot now1) q.PendingCoinDays)
  have hl2 := congrArg coinSum (expired_append_pending (timeSlot now2) q.PendingCoinDays)
  have hl3 := congrArg coinSum hsplit
  rw [coinSum_append] at hl1 hl2 hl3
  have hw3 := congrArg (weightedSum p (timeSlot now1)) hsplit
  rw [weightedSum_append] at hw3
  have hokD : ∀ e ∈ expiredPart (timeSlot now2)
      (pendingPart (timeSlot now1) q.PendingCoinDays), EntryOK p (timeSlot now1) e := by
    intro e he
    apply hok1
    rw [← hsplit]
    simp [he]
  have hokP : ∀ e ∈ pendingPart (timeSlot now2) q.PendingCoinDays,
      EntryOK p (timeSlot now1) e := by
    intro e he
    apply hok1
    rw [← hsplit]
    simp [he]
  have hshift := weightedSum_shift p (timeSlot now1) (timeSlot now2)
    (pendingPart (timeSlot now2) q.PendingCoinDays)
  have hgain : (0 : ℚ) ≤
      (coinSum (pendingPart (timeSlot now2) q.PendingCoinDays) : ℚ) *
        ((timeSlot now2 - timeSlot now1 : Int) : ℚ) / (p.SecondsToRecoverCoinDay : ℚ) := by
    apply div_nonneg
    · apply mul_nonneg
      · exact_mod_cast coinSum_nonneg_of_ok p _ _ hokP
      · have : (0 : Int) ≤ timeSlot now2 - timeSlot now1 := by omega
        exact_mod_cast this
    · exact_mod_cast hw.le
  rw [updateTX_fst, updateTX_fst]
  simp only
  unfold DecToCoin
  rw [hT1, hT2]
  by_cases hD : expiredPart (timeSlot now2)
      (pendingPart (timeSlot now1) q.PendingCoinDays) = []
  · rw [hD] at hl3 hw3
    simp only [coinSum_nil, weightedSum_nil, zero_add] at hl3 hw3
    have hmono := roundHalfEven_mono
      (weightedSum p (timeSlot now1) (pendingPart (timeSlot now1) q.PendingCoinDays))
      (weightedSum p (timeSlot now2) (pendingPart (timeSlot now2) q.PendingCoinDays))
      (by rw [← hw3, hshift]; linarith)
    linarith
  · have hlt := weightedSum_lt_coinSum p (timeSlot now1) _ hw hokD hD
    have hstep := roundHalfEven_le_add
      (weightedSum p (timeSlot now1) (pendingPart (timeSlot now1) q.PendingCoinDays))
      (weightedSum p (timeSlot now2) (pendingPart (timeSlot now2) q.PendingCoinDays))
      (coinSum (expiredPart (timeSlot now2) (pendingPart (timeSlot now1) q.PendingCoinDays)))
      (by rw [← hw3, hshift]; linarith)
    linarith

/-- A recompute in the bucket the queue was last updated at changes neither the matured
coin day nor `TotalCoinDay`. -/
theorem updateTX_same_slot (dr : DecRound) (p : Params) (now : Int) (b : AccountBank)
    (q : PendingCoinDayQueue) (hlu : q.LastUpdatedAt = timeSlot now)
    (hpend : ∀ e ∈ q.PendingCoinDays, timeSlot now < e.EndTime)
    (hz : q.PendingCoinDays = [] → q.TotalCoinDay = 0) :
    (updateTXFromPendingCoinDayQueue dr p now b q).1.CoinDay = b.CoinDay ∧
    (updateTXFromPendingCoinDayQueue dr p now b q).2.TotalCoinDay = q.TotalCoinDay := by
  have hm := dr.mulRound_int 0
  have hq := dr.quoRound_int 0
  simp only [Int.cast_zero] at hm hq
  rw [updateTX_fst, updateTX_totalCoinDay, expiredPart_eq_nil_of_pending _ _ hpend,
    pendingPart_eq_self_of_pending _ _ hpend]
  constructor
  · simp [coinSum]
  · by_cases hnil : q.PendingCoinDays = []
    · simp [hnil, hz hnil]
    · simp [hnil, hlu, removedWeight, Dec.Quo, Dec.Mul, NewDec, hm, hq]

/-- C5, amended: with exact decimals and a positive recovery window, for a fixed account
state (no deposit or withdrawal in between) whose queue is well formed (`QueueWF`: every
entry has `EndTime = StartTime + SecondsToRecoverCoinDay`, `Coin > 0` and
`StartTime ≤ LastUpdatedAt < EndTime`, the `StartTime`s are strictly ascending, `TotalCoin`
is the sum of the `Coin`), whose `TotalCoinDay` is the exact weighted sum and whose
`LastUpdatedAt` is a bucket boundary, and for block times `now1 ≤ now2` not earlier than
`LastUpdatedAt`, the coin returned by `GetCoinDay` at `now1` is at most the one returned
at `now2`, whether the two calls read the same stored state or the second call follows
the first; entries may mature between the two times. -/
theorem GetCoinDay_monotone (p : Params) (now1 now2 : Int) (s : AccountStorage)
    (u : AccountKey) (b : AccountBank) (q : PendingCoinDayQueue)
    (hw : 0 < p.SecondsToRecoverCoinDay)
    (hb : s.bank u = some b) (hq : s.queue u = some q)
    (hwf : QueueWF p q) (hws : WeightedSumInv p q)
    (hal : timeSlot q.LastUpdatedAt = q.LastUpdatedAt)
    (h1 : q.LastUpdatedAt ≤ now1) (h12 : now1 ≤ now2) :
    (GetCoinDay exactDec p now1 s u).2.1 ≤ (GetCoinDay exactDec p now2 s u).2.1 ∧
    (GetCoinDay exactDec p now1 s u).2.1 ≤
      (GetCoinDay exactDec p now2 (GetCoinDay exactDec p now1 s u).2.2 u).2.1 := by
  have hlu : q.LastUpdatedAt ≤ timeSlot now1 := by
    rw [← hal]
    exact timeSlot_mono _ _ h1
  rw [GetCoinDay_eq exactDec p now1 s u b q hb hq, GetCoinDay_eq exactDec p now2 s u b q hb hq]
  refine ⟨coinDay_mono_record p now1 now2 b q hw hwf hws hlu h12, ?_⟩
  simp only
  rw [GetCoinDay_eq exactDec p now2 _ u _ _ (get_set_bank _ _ _) (get_set_queue_bank _ _ _ _)]
  simp only
  have hwf1 := updateTX_wf exactDec p now1 b q hwf (fun _ => hlu)
  have hws1 : WeightedSumInv p (updateTXFromPendingCoinDayQueue exactDec p now1 b q).2 :=
    updateTX_weightedSum p now1 b q hwf.totalCoin hws
  have hlu1 := updateTX_lastUpdatedAt exactDec p now1 b q
  have hmono := coinDay_mono_record p now1 now2
    (updateTXFromPendingCoinDayQueue exactDec p now1 b q).1
    (updateTXFromPendingCoinDayQueue exactDec p now1 b q).2 hw hwf1 hws1 (le_of_eq hlu1) h12
  have hsame := updateTX_same_slot exactDec p now1
    (updateTXFromPendingCoinDayQueue exactDec p now1 b q).1
    (updateTXFromPendingCoinDayQueue exactDec p now1 b q).2 hlu1
    (fun e he => by
      have := (hwf1.entryOK e he).2.2.2
      rwa [hlu1] at this)
    (fun hnil => by
      rw [updateTX_entries] at hnil
      rw [updateTX_totalCoinDay]
      simp [hnil])
  rw [hsame.1, hsame.2] at hmono
  exact hmono

theorem GetCoinDay_monotone_witness :
    (0 < sampleParams.SecondsToRecoverCoinDay ∧
      sampleStore.bank "alice" = some sampleBank ∧
      sampleStore.queue "alice" = some sampleQueue ∧
      QueueWF sampleParams sampleQueue ∧ WeightedSumInv sampleParams sampleQueue ∧
      timeSlot sampleQueue.LastUpdatedAt = sampleQueue.LastUpdatedAt ∧
      sampleQueue.LastUpdatedAt ≤ 302400 ∧ (302400 : Int) ≤ 604800) ∧
    (GetCoinDay exactDec sampleParams 302400 sampleStore "alice").2.1 ≤
      (GetCoinDay exactDec sampleParams 604800 sampleStore "alice").2.1 ∧
    (GetCoinDay exactDec sampleParams 302400 sampleStore "alice").2.1 ≤
      (GetCoinDay exactDec sampleParams 604800
        (GetCoinDay exactDec sampleParams 302400 sampleStore "alice").2.2 "alice").2.1 := by
  have hw : 0 < sampleParams.SecondsToRecoverCoinDay := by decide
  have hwf : QueueWF sampleParams sampleQueue := by
    refine ⟨?_, ?_, ?_⟩
    · intro e he
      simp only [sampleQueue, List.mem_singleton] at he
      subst he
      simp [EntryOK, sampleQueue, sampleParams]
    · simp [sampleQueue]
    · simp [sampleQueue, coinSum]
  have hws : WeightedSumInv sampleParams sampleQueue := by
    simp [WeightedSumInv, sampleQueue, weightedSum]
  have hal : timeSlot sampleQueue.LastUpdatedAt = sampleQueue.LastUpdatedAt := by decide
  have h1 : sampleQueue.LastUpdatedAt ≤ 302400 := by decide
  exact ⟨⟨hw, rfl, rfl, hwf, hws, hal, h1, by decide⟩,
    GetCoinDay_monotone sampleParams 302400 604800 sampleStore "alice" sampleBank sampleQueue
      hw rfl rfl hwf hws hal h1 (by decide)⟩

/-! ## The incremental maturity against the full history -/

theorem stateSum_append (φ : Int → ℚ) (slot : Int) (cd : Coin) (l1 l2 : List PendingCoinDay) :
    stateSum φ slot cd (l1 ++ l2) =
      stateSum φ slot cd l1 + (l2.map (fun e => (e.Coin : ℚ) * φ (slot - e.StartTime))).sum := by
  simp [stateSum]
  ring

theorem mem_expiredPart_endTime (slot : Int) (l : List PendingCoinDay) :
    ∀ e ∈ expiredPart slot l, e.EndTime ≤ slot := by
  intro e he
  have := List.mem_takeWhile_imp he
  simpa using this

theorem expiredPart_sum_full (φ : Int → ℚ) (p : Params) (slotT slot : Int)
    (l : List PendingCoinDay) (hφ : ∀ x, p.SecondsToRecoverCoinDay ≤ x → φ x = 1)
    (hend : ∀ e ∈ l, e.EndTime = e.StartTime + p.SecondsToRecoverCoinDay)
    (hs : slotT ≤ slot) :
    ((expiredPart slotT l).map (fun e => (e.Coin : ℚ) * φ (slot - e.StartTime))).sum =
      (coinSum (expiredPart slotT l) : ℚ) := by
  have hexp := mem_expiredPart_endTime slotT l
  have hsub : ∀ e ∈ expiredPart slotT l, e ∈ l :=
    fun e he => (List.takeWhile_sublist _).subset he
  generalize expiredPart slotT l = ex at hexp hsub
  induction ex with
  | nil => simp [coinSum]
  | cons e rest ih =>
    have h1 := hexp e (by simp)
    have h2 := hend e (hsub e (by simp))
    have h3 : φ (slot - e.StartTime) = 1 := hφ _ (by omega)
    rw [List.map_cons, List.sum_cons, coinSum_cons, Int.cast_add, h3,
      ih (fun x hx => hexp x (by simp [hx])) (fun x hx => hsub x (by simp [hx]))]
    ring

/-- The recompute moves matured entries into the matured coin day without changing the
sum, at every slot from the recompute's slot on. -/
theorem stateSum_update (φ : Int → ℚ) (p : Params) (slotT slot : Int) (cd : Coin)
    (l : List PendingCoinDay) (hφ : ∀ x, p.SecondsToRecoverCoinDay ≤ x → φ x = 1)
    (hend : ∀ e ∈ l, e.EndTime = e.StartTime + p.SecondsToRecoverCoinDay)
    (hs : slotT ≤ slot) :
    stateSum φ slot (cd + coinSum (expiredPart slotT l)) (pendingPart slotT l) =
      stateSum φ slot cd l := by
  have h := expiredPart_sum_full φ p slotT slot l hφ hend hs
  have hl := expired_append_pending slotT l
  have : stateSum φ slot cd l =
      stateSum φ slot cd (expiredPart slotT l ++ pendingPart slotT l) := by rw [hl]
  rw [this]
  simp only [stateSum, List.map_append, List.sum_append, h, Int.cast_add]
  ring

/-- A deposit adds its amount at the weight of its own bucket. -/
theorem stateSum_push (φ : Int → ℚ) (slot : Int) (cd : Coin) (q : PendingCoinDayQueue)
    (e : PendingCoinDay) :
    stateSum φ slot cd (pushPendingCoinDay q e).PendingCoinDays =
      stateSum φ slot cd q.PendingCoinDays + (e.Coin : ℚ) * φ (slot - e.StartTime) := by
  rcases List.eq_nil_or_concat q.PendingCoinDays with hnil | ⟨front, last, hcat⟩
  · rw [pushPendingCoinDay_nil _ _ hnil, hnil]
    simp [stateSum]
  · rw [List.concat_eq_append] at hcat
    by_cases hst : last.StartTime = e.StartTime
    · rw [pushPendingCoinDay_merge _ _ last front hcat hst, hcat]
      simp [stateSum, hst]
      ring
    · rw [pushPendingCoinDay_append _ _ last front hcat hst]
      simp [stateSum]
      ring

/-- After a recompute the queue is well formed and satisfies the weighted-sum equation,
from a queue without entries as well as from a well-formed one. -/
theorem QueueCore_update (p : Params) (t now : Int) (b : AccountBank)
    (q : PendingCoinDayQueue) (h : QueueCore p t q) (ht : t ≤ now) :
    QueueWF p (updateTXFromPendingCoinDayQueue exactDec p now b q).2 ∧
    WeightedSumInv p (updateTXFromPendingCoinDayQueue exactDec p now b q).2 := by
  rcases h with hnil | ⟨hwf, hws, hlu⟩
  · have he : (updateTXFromPendingCoinDayQueue exactDec p now b q).2.PendingCoinDays = [] := by
      rw [updateTX_entries, hnil]; rfl
    have htc : (updateTXFromPendingCoinDayQueue exactDec p now b q).2.TotalCoin = 0 := by
      rw [updateTX_totalCoin, hnil]; simp [pendingPart]
    have htcd : (updateTXFromPendingCoinDayQueue exactDec p now b q).2.TotalCoinDay = 0 := by
      rw [updateTX_totalCoinDay, hnil]; simp [pendingPart]
    refine ⟨⟨?_, ?_, ?_⟩, ?_⟩
    · rw [he]; simp
    · rw [he]; exact List.Pairwise.nil
    · rw [he, htc]; rfl
    · unfold WeightedSumInv
      rw [he, htcd]; rfl
  · exact ⟨updateTX_wf exactDec p now b q hwf
        (fun _ => le_trans hlu (timeSlot_mono t now ht)),
      updateTX_weightedSum p now b q hwf.totalCoin hws⟩

theorem QueueCore_endTime {p : Params} {t : Int} {q : PendingCoinDayQueue}
    (h : QueueCore p t q) :
    ∀ e ∈ q.PendingCoinDays, e.EndTime = e.StartTime + p.SecondsToRecoverCoinDay := by
  intro e he
  rcases h with hnil | ⟨hwf, -, -⟩
  · rw [hnil] at he
    simp at he
  · exact (hwf.entryOK e he).1

/-- Along a run of positive deposits at non-decreasing block times, the sum read off the
account state at the bucket of a later time `now` grows by the history sum of the
deposits. -/
theorem runDeposits_stateSum (φ : Int → ℚ) (p : Params) (u : AccountKey) (now : Int)
    (hw : 0 < p.SecondsToRecoverCoinDay)
    (hφ : ∀ x, p.SecondsToRecoverCoinDay ≤ x → φ x = 1) :
    ∀ (ds : List (Int × Coin)) (s : AccountStorage) (b : AccountBank)
      (q : PendingCoinDayQueue) (t : Int),
      s.DoesAccountExist u = true → s.bank u = some b → s.queue u = some q →
      QueueCore p t q → t ≤ now →
      (∀ d ∈ ds, t ≤ d.1 ∧ d.1 ≤ now ∧ 0 < d.2) →
      (ds.map Prod.fst).Pairwise (fun x y => x ≤ y) →
      ∃ (b2 : AccountBank) (q2 : PendingCoinDayQueue) (t2 : Int),
        t2 ≤ now ∧
        (runDeposits exactDec p u s ds).bank u = some b2 ∧
        (runDeposits exactDec p u s ds).queue u = some q2 ∧
        QueueCore p t2 q2 ∧
        stateSum φ (timeSlot now) b2.CoinDay q2.PendingCoinDays =
          stateSum φ (timeSlot now) b.CoinDay q.PendingCoinDays +
            histSum φ (timeSlot now) ds := by
  intro ds
  induction ds with
  | nil =>
    intro s b q t _ hb hq hcore ht _ _
    exact ⟨b, q, t, ht, hb, hq, hcore, by simp [histSum]⟩
  | cons d rest ih =>
    intro s b q t hex hb hq hcore ht hds hsorted
    obtain ⟨htd, hdn, hpos⟩ := hds d (by simp)
    have hstep := AddSavingCoin_eq exactDec p d.1 s u d.2 b q hex hb hq (ne_of_gt hpos)
    have hu := QueueCore_update p t d.1 b q hcore htd
    have hlu := updateTX_lastUpdatedAt exactDec p d.1 b q
    have hf := pushPendingCoinDay_fields (updateTXFromPendingCoinDayQueue exactDec p d.1 b q).2
      (newPendingCoinDay p d.1 d.2)
    have hcore1 : QueueCore p d.1
        (pushPendingCoinDay (updateTXFromPendingCoinDayQueue exactDec p d.1 b q).2
          (newPendingCoinDay p d.1 d.2)) := by
      right
      refine ⟨pushPendingCoinDay_wf p d.1 d.2 _ hw hu.1 hlu hpos,
        pushPendingCoinDay_weightedSum p _ _ (by simp [newPendingCoinDay, hlu]) hu.2, ?_⟩
      rw [hf.2.2, hlu]
    have hrest : ∀ d2 ∈ rest, d.1 ≤ d2.1 ∧ d2.1 ≤ now ∧ 0 < d2.2 := by
      intro d2 hd2
      have h1 := hds d2 (by simp [hd2])
      simp only [List.map_cons, List.pairwise_cons] at hsorted
      exact ⟨hsorted.1 d2.1 (List.mem_map_of_mem _ hd2), h1.2.1, h1.2.2⟩
    have hsorted2 : (rest.map Prod.fst).Pairwise (fun x y => x ≤ y) := by
      simp only [List.map_cons, List.pairwise_cons] at hsorted
      exact hsorted.2
    obtain ⟨b2, q2, t2, ht2, g1, g2, g3, g4⟩ :=
      ih ((s.SetPendingCoinDayQueue u
          (pushPendingCoinDay (updateTXFromPendingCoinDayQueue exactDec p d.1 b q).2
            (newPendingCoinDay p d.1 d.2))).SetBankFromAccountKey u
          { b with
            Saving := b.Saving + d.2
            CoinDay := b.CoinDay + coinSum (expiredPart (timeSlot d.1) q.PendingCoinDays) })
        _ _ d.1 (by rw [doesAccountExist_set]; exact hex) (get_set_bank _ _ _)
        (get_set_queue_bank _ _ _ _) hcore1 hdn hrest hsorted2
    refine ⟨b2, q2, t2, ht2, ?_, ?_, g3, ?_⟩
    · simp only [runDeposits, hstep]
      exact g1
    · simp only [runDeposits, hstep]
      exact g2
    · rw [g4, stateSum_push, updateTX_entries,
        stateSum_update φ p (timeSlot d.1) (timeSlot now) b.CoinDay q.PendingCoinDays hφ
          (QueueCore_endTime hcore) (timeSlot_mono _ _ hdn)]
      simp only [histSum, List.map_cons, List.sum_cons, newPendingCoinDay]
      ring

theorem linearWeight_full (p : Params) (hw : 0 < p.SecondsToRecoverCoinDay) :
    ∀ x, p.SecondsToRecoverCoinDay ≤ x → linearWeight p x = 1 := by
  intro x hx
  have hwq : (0 : ℚ) < (p.SecondsToRecoverCoinDay : ℚ) := by exact_mod_cast hw
  have : (1 : ℚ) ≤ (x : ℚ) / (p.SecondsToRecoverCoinDay : ℚ) := by
    rw [le_div_iff₀ hwq]
    have : (p.SecondsToRecoverCoinDay : ℚ) ≤ (x : ℚ) := by exact_mod_cast hx
    linarith
  simp [linearWeight, this]

theorem maturedWeight_full (p : Params) :
    ∀ x, p.SecondsToRecoverCoinDay ≤ x → maturedWeight p x = 1 := by
  intro x hx
  simp [maturedWeight, hx]

theorem pendingSum_linear (p : Params) (slot : Int) (l : List PendingCoinDay)
    (hw : 0 < p.SecondsToRecoverCoinDay) (h : ∀ e ∈ l, EntryOK p slot e) :
    (l.map (fun e => (e.Coin : ℚ) * linearWeight p (slot - e.StartTime))).sum =
      weightedSum p slot l := by
  induction l with
  | nil => simp [weightedSum]
  | cons e rest ih =>
    obtain ⟨he1, he2, he3, he4⟩ := h e (by simp)
    have hwq : (0 : ℚ) < (p.SecondsToRecoverCoinDay : ℚ) := by exact_mod_cast hw
    have hr1 : ((slot - e.StartTime : Int) : ℚ) / (p.SecondsToRecoverCoinDay : ℚ) ≤ 1 := by
      rw [div_le_one hwq]
      have : slot - e.StartTime ≤ p.SecondsToRecoverCoinDay := by omega
      exact_mod_cast this
    rw [List.map_cons, List.sum_cons, weightedSum_cons, ih (fun x hx => h x (by simp [hx]))]
    simp only [linearWeight, min_eq_right hr1]
    ring

theorem pendingSum_matured (p : Params) (slot : Int) (l : List PendingCoinDay)
    (h : ∀ e ∈ l, EntryOK p slot e) :
    (l.map (fun e => (e.Coin : ℚ) * maturedWeight p (slot - e.StartTime))).sum = 0 := by
  induction l with
  | nil => simp
  | cons e rest ih =>
    obtain ⟨he1, he2, he3, he4⟩ := h e (by simp)
    have : ¬ p.SecondsToRecoverCoinDay ≤ slot - e.StartTime := by omega
    rw [List.map_cons, List.sum_cons, ih (fun x hx => h x (by simp [hx]))]
    simp [maturedWeight, this]

theorem histSum_linear (p : Params) (now : Int) (ds : List (Int × Coin)) :
    histSum (linearWeight p) (timeSlot now) ds = naiveCoinDay p now ds := rfl

theorem histSum_matured (p : Params) (now : Int) (ds : List (Int × Coin)) :
    histSum (maturedWeight p) (timeSlot now) ds = (naiveMatured p now ds : ℚ) := by
  induction ds with
  | nil => simp [histSum, naiveMatured]
  | cons d rest ih =>
    simp only [histSum, naiveMatured, List.map_cons, List.sum_cons, Int.cast_add] at ih ⊢
    rw [ih]
    by_cases h : p.SecondsToRecoverCoinDay ≤ timeSlot now - timeSlot d.1
    · simp [maturedWeight, h]
    · simp [maturedWeight, h]

/-- What a recompute at `now` holds, against the sums read off the state before it. -/
theorem updateTX_stateSum (p : Params) (t now : Int) (b : AccountBank)
    (q : PendingCoinDayQueue) (hw : 0 < p.SecondsToRecoverCoinDay)
    (h : QueueCore p t q) (ht : t ≤ now) :
    ((updateTXFromPendingCoinDayQueue exactDec p now b q).1.CoinDay : ℚ) +
        (updateTXFromPendingCoinDayQueue exactDec p now b q).2.TotalCoinDay =
      stateSum (linearWeight p) (timeSlot now) b.CoinDay q.PendingCoinDays ∧
    ((updateTXFromPendingCoinDayQueue exactDec p now b q).1.CoinDay : ℚ) =
      stateSum (maturedWeight p) (timeSlot now) b.CoinDay q.PendingCoinDays := by
  have hu := QueueCore_update p t now b q h ht
  have hend := QueueCore_endTime h
  have hok : ∀ e ∈ pendingPart (timeSlot now) q.PendingCoinDays,
      EntryOK p (timeSlot now) e := by
    have := hu.1.entryOK
    rwa [updateTX_entries, updateTX_lastUpdatedAt] at this
  have hws := hu.2
  unfold WeightedSumInv at hws
  rw [updateTX_entries, updateTX_lastUpdatedAt] at hws
  have h1 := stateSum_update (linearWeight p) p (timeSlot now) (timeSlot now) b.CoinDay
    q.PendingCoinDays (linearWeight_full p hw) hend le_rfl
  have h2 := stateSum_update (maturedWeight p) p (timeSlot now) (timeSlot now) b.CoinDay
    q.PendingCoinDays (maturedWeight_full p) hend le_rfl
  rw [← h1, ← h2, updateTX_fst, hws]
  simp only [stateSum, pendingSum_linear p _ _ hw hok, pendingSum_matured p _ _ hok]
  simp

/-- An integer part plus the rounding of the rest: the same as rounding the rest of the
whole, and within 1/2 of the whole. -/
theorem DecToCoin_parts (M : Coin) (T N : ℚ) (h : (M : ℚ) + T = N) :
    M + DecToCoin T = M + DecToCoin (N - (M : ℚ)) ∧
    |((M + DecToCoin T : Int) : ℚ) - N| ≤ 1 / 2 := by
  constructor
  · congr 2
    rw [← h]
    ring
  · have hb := roundHalfEven_bounds T
    rw [← h, abs_le]
    unfold DecToCoin
    push_cast
    constructor <;> linarith [hb.1, hb.2]

/-- The refinement of the full-history sum by the incremental state, shared by the
statements on deposit histories. -/
theorem GetCoinDay_naive_core (p : Params) (u : AccountKey) (now : Int) (s : AccountStorage)
    (b : AccountBank) (q : PendingCoinDayQueue) (ds : List (Int × Coin))
    (hw : 0 < p.SecondsToRecoverCoinDay)
    (hex : s.DoesAccountExist u = true) (hb : s.bank u = some b) (hq : s.queue u = some q)
    (hempty : q.PendingCoinDays = []) (hcd : b.CoinDay = 0)
    (hpos : ∀ d ∈ ds, 0 < d.2)
    (hsorted : (ds.map Prod.fst).Pairwise (fun x y => x ≤ y))
    (hnow : ∀ d ∈ ds, d.1 ≤ now) :
    ∃ (b2 : AccountBank) (q2 : PendingCoinDayQueue) (s2 : AccountStorage),
      GetCoinDay exactDec p now (runDeposits exactDec p u s ds) u =
        (none, b2.CoinDay + DecToCoin q2.TotalCoinDay, s2) ∧
      s2.bank u = some b2 ∧ s2.queue u = some q2 ∧
      (b2.CoinDay : ℚ) + q2.TotalCoinDay = naiveCoinDay p now ds ∧
      b2.CoinDay = naiveMatured p now ds := by
  -- a block time not later than every deposit and than `now`
  have ht0 : ∃ t0 : Int, t0 ≤ now ∧ ∀ d ∈ ds, t0 ≤ d.1 ∧ d.1 ≤ now ∧ 0 < d.2 := by
    cases ds with
    | nil => exact ⟨now, le_rfl, by simp⟩
    | cons d rest =>
      refine ⟨d.1, hnow d (by simp), ?_⟩
      intro d2 hd2
      refine ⟨?_, hnow d2 hd2, hpos d2 hd2⟩
      simp only [List.mem_cons] at hd2
      rcases hd2 with h | h
      · rw [h]
      · simp only [List.map_cons, List.pairwise_cons] at hsorted
        exact hsorted.1 d2.1 (List.mem_map_of_mem _ h)
  obtain ⟨t0, ht0n, hds⟩ := ht0
  have hcore : QueueCore p t0 q := Or.inl hempty
  obtain ⟨b1, q1, t1, ht1, g1, g2, g3, g4⟩ :=
    runDeposits_stateSum (linearWeight p) p u now hw (linearWeight_full p hw) ds s b q t0
      hex hb hq hcore ht0n hds hsorted
  obtain ⟨b1', q1', t1', -, g1', g2', -, g4'⟩ :=
    runDeposits_stateSum (maturedWeight p) p u now hw (maturedWeight_full p) ds s b q t0
      hex hb hq hcore ht0n hds hsorted
  rw [g1] at g1'
  rw [g2] at g2'
  cases g1'
  cases g2'
  have hfin := updateTX_stateSum p t1 now b1 q1 hw g3 ht1
  have hsum : ((updateTXFromPendingCoinDayQueue exactDec p now b1 q1).1.CoinDay : ℚ) +
      (updateTXFromPendingCoinDayQueue exactDec p now b1 q1).2.TotalCoinDay =
        naiveCoinDay p now ds := by
    rw [hfin.1, g4, histSum_linear]
    simp [stateSum, hempty, hcd]
  have hmat : (updateTXFromPendingCoinDayQueue exactDec p now b1 q1).1.CoinDay =
      naiveMatured p now ds := by
    have : ((updateTXFromPendingCoinDayQueue exactDec p now b1 q1).1.CoinDay : ℚ) =
        (naiveMatured p now ds : ℚ) := by
      rw [hfin.2, g4', histSum_matured]
      simp [stateSum, hempty, hcd]
    exact_mod_cast this
  exact ⟨_, _, _, GetCoinDay_eq exactDec p now _ u b1 q1 g1 g2, get_set_bank _ _ _,
    get_set_queue_bank _ _ _ _, hsum, hmat⟩

/-- C1, amended: after any sequence of positive deposits made with `AddSavingCoin` at
non-decreasing block times on an existing account with no pending entry and
`bank.CoinDay = 0`, with a positive recovery window, at every block time `now` not earlier
than the deposits and with exact decimals, the state recomputed by `GetCoinDay` holds
exactly the full-history sum
`S = Σ amount_i * min(1, (bucket(now) - bucket(t_i)) / SecondsToRecoverCoinDay)`:
`bank.CoinDay` is the sum `M` of the fully matured deposits and `bank.CoinDay +
TotalCoinDay = S`. The coin returned is `M + DecToCoin (S - M)`: only the pending part is
rounded, so the result is within 1/2 of `S`, and need not be `DecToCoin S`. -/
theorem GetCoinDay_eq_naive (p : Params) (u : AccountKey) (now : Int) (s : AccountStorage)
    (b : AccountBank) (q : PendingCoinDayQueue) (ds : List (Int × Coin))
    (hw : 0 < p.SecondsToRecoverCoinDay)
    (hex : s.DoesAccountExist u = true) (hb : s.bank u = some b) (hq : s.queue u = some q)
    (hempty : q.PendingCoinDays = []) (hcd : b.CoinDay = 0)
    (hpos : ∀ d ∈ ds, 0 < d.2)
    (hsorted : (ds.map Prod.fst).Pairwise (fun x y => x ≤ y))
    (hnow : ∀ d ∈ ds, d.1 ≤ now) :
    ∃ (b2 : AccountBank) (q2 : PendingCoinDayQueue) (s2 : AccountStorage),
      GetCoinDay exactDec p now (runDeposits exactDec p u s ds) u =
        (none, b2.CoinDay + DecToCoin q2.TotalCoinDay, s2) ∧
      s2.bank u = some b2 ∧ s2.queue u = some q2 ∧
      (b2.CoinDay : ℚ) + q2.TotalCoinDay = naiveCoinDay p now ds ∧
      b2.CoinDay = naiveMatured p now ds ∧
      b2.CoinDay + DecToCoin q2.TotalCoinDay =
        naiveMatured p now ds +
          DecToCoin (naiveCoinDay p now ds - (naiveMatured p now ds : ℚ)) ∧
      |((b2.CoinDay + DecToCoin q2.TotalCoinDay : Int) : ℚ) - naiveCoinDay p now ds| ≤
        1 / 2 := by
  obtain ⟨b2, q2, s2, h1, h2, h3, hsum, hmat⟩ :=
    GetCoinDay_naive_core p u now s b q ds hw hex hb hq hempty hcd hpos hsorted hnow
  have hparts := DecToCoin_parts b2.CoinDay q2.TotalCoinDay (naiveCoinDay p now ds) hsum
  refine ⟨b2, q2, s2, h1, h2, h3, hsum, hmat, ?_, hparts.2⟩
  have := hparts.1
  rw [hmat] at this ⊢
  exact this

theorem GetCoinDay_eq_naive_witness :
    (0 < sampleParams.SecondsToRecoverCoinDay ∧
      freshStore.DoesAccountExist "bob" = true ∧ freshStore.bank "bob" = some {} ∧
      freshStore.queue "bob" = some {} ∧
      ({} : PendingCoinDayQueue).PendingCoinDays = [] ∧ ({} : AccountBank).CoinDay = 0 ∧
      (∀ d ∈ [((0 : Int), (10 : Coin)), (302400, 7)], 0 < d.2) ∧
      ([((0 : Int), (10 : Coin)), (302400, 7)].map Prod.fst).Pairwise (fun x y => x ≤ y) ∧
      (∀ d ∈ [((0 : Int), (10 : Coin)), (302400, 7)], d.1 ≤ 604800)) ∧
    ∃ (b2 : AccountBank) (q2 : PendingCoinDayQueue) (s2 : AccountStorage),
      GetCoinDay exactDec sampleParams 604800
          (runDeposits exactDec sampleParams "bob" freshStore [(0, 10), (302400, 7)]) "bob" =
        (none, b2.CoinDay + DecToCoin q2.TotalCoinDay, s2) ∧
      (b2.CoinDay : ℚ) + q2.TotalCoinDay = 27 / 2 ∧ b2.CoinDay = 10 := by
  have hw : 0 < sampleParams.SecondsToRecoverCoinDay := by decide
  have hpos : ∀ d ∈ [((0 : Int), (10 : Coin)), (302400, 7)], 0 < d.2 := by
    intro d hd
    simp only [List.mem_cons, List.mem_singleton, List.not_mem_nil, or_false] at hd
    rcases hd with h | h <;> subst h <;> decide
  have hsorted : ([((0 : Int), (10 : Coin)), (302400, 7)].map Prod.fst).Pairwise
      (fun x y => x ≤ y) := by
    simp
  have hnow : ∀ d ∈ [((0 : Int), (10 : Coin)), (302400, 7)], d.1 ≤ 604800 := by
    intro d hd
    simp only [List.mem_cons, List.mem_singleton, List.not_mem_nil, or_false] at hd
    rcases hd with h | h <;> subst h <;> decide
  refine ⟨⟨hw, rfl, rfl, rfl, rfl, rfl, hpos, hsorted, hnow⟩, ?_⟩
  obtain ⟨b2, q2, s2, h1, -, -, h4, h5, -, -⟩ :=
    GetCoinDay_eq_naive sampleParams "bob" 604800 freshStore {} {} [(0, 10), (302400, 7)]
      hw rfl rfl rfl rfl rfl hpos hsorted hnow
  have e0 : timeSlot 0 = 0 := by decide
  have e1 : timeSlot 302400 = 302400 := by decide
  have e2 : timeSlot 604800 = 604800 := by decide
  refine ⟨b2, q2, s2, h1, ?_, ?_⟩
  · rw [h4]
    simp only [naiveCoinDay, List.map_cons, List.map_nil, List.sum_cons, List.sum_nil, e0, e1,
      e2, sampleParams]
    norm_num
  · rw [h5]
    simp only [naiveMatured, List.map_cons, List.map_nil, List.sum_cons, List.sum_nil, e0, e1,
      e2, sampleParams]
    norm_num

/-! ## Linear accrual of a single deposit -/

theorem timeSlot_add_window (t0 w : Int) (ht0 : 0 ≤ t0) (hw : 0 < w) (hdiv : 1200 ∣ w) :
    timeSlot (t0 + w) = timeSlot t0 + w ∧
    timeSlot (t0 + w / 2) - timeSlot t0 ≤ w / 2 + 600 ∧
    w / 2 - 600 ≤ timeSlot (t0 + w / 2) - timeSlot t0 ∧
    (2400 ∣ w → timeSlot (t0 + w / 2) - timeSlot t0 = w / 2) := by
  obtain ⟨k, hk⟩ := hdiv
  subst hk
  rw [timeSlot_of_nonneg _ ht0, timeSlot_of_nonneg (t0 + 1200 * k) (by omega),
    timeSlot_of_nonneg (t0 + 1200 * k / 2) (by omega)]
  refine ⟨by omega, by omega, by omega, ?_⟩
  intro h2
  obtain ⟨j, hj⟩ := h2
  omega

/-- The account state after a single deposit on an account without pending entries: one
entry, and at every later block time `GetCoinDay` returns the matured amount plus the
rounded weight of that entry. -/
theorem single_deposit_at_window (dr : DecRound) (p : Params) (u : AccountKey) (t0 now : Int)
    (A : Coin) (s : AccountStorage) (b : AccountBank) (q : PendingCoinDayQueue)
    (hex : s.DoesAccountExist u = true) (hb : s.bank u = some b) (hq : s.queue u = some q)
    (hempty : q.PendingCoinDays = []) (hcd : b.CoinDay = 0) (hA : 0 < A)
    (hmat : timeSlot t0 + p.SecondsToRecoverCoinDay ≤ timeSlot now) :
    (GetCoinDay dr p now (AddSavingCoin dr p t0 s u A).2 u).2.1 = A := by
  rw [AddSavingCoin_eq dr p t0 s u A b q hex hb hq (ne_of_gt hA)]
  simp only
  rw [GetCoinDay_eq dr p now _ u _ _ (get_set_bank _ _ _) (get_set_queue_bank _ _ _ _)]
  simp only
  have hu1 : (updateTXFromPendingCoinDayQueue dr p t0 b q).2.PendingCoinDays = [] := by
    rw [updateTX_entries, hempty]; rfl
  have hent : (pushPendingCoinDay (updateTXFromPendingCoinDayQueue dr p t0 b q).2
      (newPendingCoinDay p t0 A)).PendingCoinDays = [newPendingCoinDay p t0 A] := by
    rw [pushPendingCoinDay_nil _ _ hu1]
  have hexp : expiredPart (timeSlot now) [newPendingCoinDay p t0 A] =
      [newPendingCoinDay p t0 A] := by
    simp [expiredPart, List.takeWhile, newPendingCoinDay, hmat]
  have hpen : pendingPart (timeSlot now) [newPendingCoinDay p t0 A] = [] := by
    simp [pendingPart, List.dropWhile, newPendingCoinDay, hmat]
  rw [updateTX_fst, updateTX_totalCoinDay, hent, hexp, hpen]
  simp [hempty, expiredPart, coinSum, newPendingCoinDay, hcd, DecToCoin, roundHalfEven]

/-- C4, amended: on an existing account with no pending entry and `bank.CoinDay = 0`,
whose only funds are then a single pending deposit of `A > 0` made with `AddSavingCoin` at
`t0 ≥ 0`, with a recovery window that is a positive whole number of 1200-second buckets,
`GetCoinDay` at `t0 + window` returns `A`, for every rounding; and with exact decimals
`GetCoinDay` at `t0 + window/2` returns `A/2` up to the bucketing of the two times and the
rounding to a coin: within `600 * A / window + 1/2` of `A/2`, and exactly
`DecToCoin (A/2)` when the half window is itself a whole number of buckets. -/
theorem linear_accrual (dr : DecRound) (p : Params) (u : AccountKey) (t0 : Int) (A : Coin)
    (s : AccountStorage) (b : AccountBank) (q : PendingCoinDayQueue)
    (hw : 0 < p.SecondsToRecoverCoinDay) (hdiv : 1200 ∣ p.SecondsToRecoverCoinDay)
    (ht0 : 0 ≤ t0)
    (hex : s.DoesAccountExist u = true) (hb : s.bank u = some b) (hq : s.queue u = some q)
    (hempty : q.PendingCoinDays = []) (hcd : b.CoinDay = 0) (hA : 0 < A) :
    (GetCoinDay dr p (t0 + p.SecondsToRecoverCoinDay) (AddSavingCoin dr p t0 s u A).2 u).2.1 =
      A ∧
    |((GetCoinDay exactDec p (t0 + p.SecondsToRecoverCoinDay / 2)
        (AddSavingCoin exactDec p t0 s u A).2 u).2.1 : ℚ) - (A : ℚ) / 2| ≤
      600 * (A : ℚ) / (p.SecondsToRecoverCoinDay : ℚ) + 1 / 2 ∧
    (2400 ∣ p.SecondsToRecoverCoinDay →
      (GetCoinDay exactDec p (t0 + p.SecondsToRecoverCoinDay / 2)
        (AddSavingCoin exactDec p t0 s u A).2 u).2.1 = DecToCoin ((A : ℚ) / 2)) := by
  obtain ⟨hs1, hs2, hs3, hs4⟩ := timeSlot_add_window t0 p.SecondsToRecoverCoinDay ht0 hw hdiv
  have hwq : (0 : ℚ) < (p.SecondsToRecoverCoinDay : ℚ) := by exact_mod_cast hw
  have hAq : (0 : ℚ) < (A : ℚ) := by exact_mod_cast hA
  have hhalf : (0 : Int) ≤ p.SecondsToRecoverCoinDay / 2 := by omega
  have hw1200 : (1200 : Int) ≤ p.SecondsToRecoverCoinDay := by
    obtain ⟨k, hk⟩ := hdiv
    omega
  have hhalfq : ((p.SecondsToRecoverCoinDay / 2 : Int) : ℚ) =
      (p.SecondsToRecoverCoinDay : ℚ) / 2 := by
    obtain ⟨k, hk⟩ := hdiv
    have : p.SecondsToRecoverCoinDay / 2 = 600 * k := by omega
    rw [this, hk]
    push_cast
    ring
  obtain ⟨b2, q2, s2, g1, -, -, g4, g5⟩ :=
    GetCoinDay_naive_core p u (t0 + p.SecondsToRecoverCoinDay / 2) s b q [(t0, A)] hw hex hb hq
      hempty hcd (by simpa using hA) (by simp) (by simpa using hhalf)
  have hparts := DecToCoin_parts b2.CoinDay q2.TotalCoinDay _ g4
  have g7 := hparts.2
  have g6 : b2.CoinDay + DecToCoin q2.TotalCoinDay =
      naiveMatured p (t0 + p.SecondsToRecoverCoinDay / 2) [(t0, A)] +
        DecToCoin (naiveCoinDay p (t0 + p.SecondsToRecoverCoinDay / 2) [(t0, A)] -
          (naiveMatured p (t0 + p.SecondsToRecoverCoinDay / 2) [(t0, A)] : ℚ)) := by
    have := hparts.1
    rw [g5] at this ⊢
    exact this
  simp only [runDeposits] at g1
  have hnaive : naiveCoinDay p (t0 + p.SecondsToRecoverCoinDay / 2) [(t0, A)] =
      (A : ℚ) * min 1 (((timeSlot (t0 + p.SecondsToRecoverCoinDay / 2) - timeSlot t0 : Int) : ℚ) /
        (p.SecondsToRecoverCoinDay : ℚ)) := by
    simp [naiveCoinDay]
  refine ⟨single_deposit_at_window dr p u t0 _ A s b q hex hb hq hempty hcd hA
    (le_of_eq hs1.symm), ?_, ?_⟩
  · rw [g1]
    simp only
    -- the bucketed elapsed time is within 600 seconds of half the window
    have hup : ((timeSlot (t0 + p.SecondsToRecoverCoinDay / 2) - timeSlot t0 : Int) : ℚ) ≤
        (p.SecondsToRecoverCoinDay : ℚ) / 2 + 600 := by
      rw [← hhalfq]
      exact_mod_cast hs2
    have hlo : (p.SecondsToRecoverCoinDay : ℚ) / 2 - 600 ≤
        ((timeSlot (t0 + p.SecondsToRecoverCoinDay / 2) - timeSlot t0 : Int) : ℚ) := by
      rw [← hhalfq]
      exact_mod_cast hs3
    have hw12 : (1200 : ℚ) ≤ (p.SecondsToRecoverCoinDay : ℚ) := by exact_mod_cast hw1200
    generalize ((timeSlot (t0 + p.SecondsToRecoverCoinDay / 2) - timeSlot t0 : Int) : ℚ) = d
      at hup hlo hnaive
    have hr_up : min 1 (d / (p.SecondsToRecoverCoinDay : ℚ)) ≤
        1 / 2 + 600 / (p.SecondsToRecoverCoinDay : ℚ) := by
      apply le_trans (min_le_right _ _)
      have h1 := (div_le_div_iff_of_pos_right hwq).mpr hup
      have e : ((p.SecondsToRecoverCoinDay : ℚ) / 2 + 600) / (p.SecondsToRecoverCoinDay : ℚ) =
          1 / 2 + 600 / (p.SecondsToRecoverCoinDay : ℚ) := by
        field_simp
      rw [e] at h1
      exact h1
    have hr_lo : 1 / 2 - 600 / (p.SecondsToRecoverCoinDay : ℚ) ≤
        min 1 (d / (p.SecondsToRecoverCoinDay : ℚ)) := by
      apply le_min
      · have : 0 ≤ 600 / (p.SecondsToRecoverCoinDay : ℚ) := by positivity
        linarith
      · have h1 := (div_le_div_iff_of_pos_right hwq).mpr hlo
        have e : ((p.SecondsToRecoverCoinDay : ℚ) / 2 - 600) / (p.SecondsToRecoverCoinDay : ℚ) =
            1 / 2 - 600 / (p.SecondsToRecoverCoinDay : ℚ) := by
          field_simp
        rw [e] at h1
        exact h1
    have hN_up := mul_le_mul_of_nonneg_left hr_up hAq.le
    have hN_lo := mul_le_mul_of_nonneg_left hr_lo hAq.le
    rw [← hnaive] at hN_up hN_lo
    have h7 := abs_le.mp g7
    rw [abs_le]
    have e1 : (A : ℚ) * (1 / 2 + 600 / (p.SecondsToRecoverCoinDay : ℚ)) =
        (A : ℚ) / 2 + 600 * (A : ℚ) / (p.SecondsToRecoverCoinDay : ℚ) := by ring
    have e2 : (A : ℚ) * (1 / 2 - 600 / (p.SecondsToRecoverCoinDay : ℚ)) =
        (A : ℚ) / 2 - 600 * (A : ℚ) / (p.SecondsToRecoverCoinDay : ℚ) := by ring
    rw [e1] at hN_up
    rw [e2] at hN_lo
    constructor <;> linarith [h7.1, h7.2]
  · intro h2400
    rw [g1]
    simp only
    have hd := hs4 h2400
    have hlt : ¬ p.SecondsToRecoverCoinDay ≤
        timeSlot (t0 + p.SecondsToRecoverCoinDay / 2) - timeSlot t0 := by
      rw [hd]; omega
    have hM : naiveMatured p (t0 + p.SecondsToRecoverCoinDay / 2) [(t0, A)] = 0 := by
      simp [naiveMatured, hlt]
    have hN : naiveCoinDay p (t0 + p.SecondsToRecoverCoinDay / 2) [(t0, A)] = (A : ℚ) / 2 := by
      rw [hnaive, hd, hhalfq]
      have : (p.SecondsToRecoverCoinDay : ℚ) / 2 / (p.SecondsToRecoverCoinDay : ℚ) = 1 / 2 := by
        field_simp
        ring
      rw [this]
      norm_num
      ring
    rw [g6, hM, hN]
    simp

theorem linear_accrual_witness :
    (0 < sampleParams.SecondsToRecoverCoinDay ∧ 1200 ∣ sampleParams.SecondsToRecoverCoinDay ∧
      (0 : Int) ≤ 100 ∧
      freshStore.DoesAccountExist "bob" = true ∧ freshStore.bank "bob" = some {} ∧
      freshStore.queue "bob" = some {} ∧
      ({} : PendingCoinDayQueue).PendingCoinDays = [] ∧ ({} : AccountBank).CoinDay = 0 ∧
      (0 : Coin) < 10) ∧
    (GetCoinDay exactDec sampleParams (100 + sampleParams.SecondsToRecoverCoinDay)
      (AddSavingCoin exactDec sampleParams 100 freshStore "bob" 10).2 "bob").2.1 = 10 ∧
    (GetCoinDay exactDec sampleParams (100 + sampleParams.SecondsToRecoverCoinDay / 2)
      (AddSavingCoin exactDec sampleParams 100 freshStore "bob" 10).2 "bob").2.1 = 5 := by
  have hw : 0 < sampleParams.SecondsToRecoverCoinDay := by decide
  have hdiv : 1200 ∣ sampleParams.SecondsToRecoverCoinDay := by decide
  have h2400 : 2400 ∣ sampleParams.SecondsToRecoverCoinDay := by decide
  have h := linear_accrual exactDec sampleParams "bob" 100 10 freshStore {} {} hw hdiv
    (by decide) rfl rfl rfl rfl rfl (by decide)
  refine ⟨⟨hw, hdiv, by decide, rfl, rfl, rfl, rfl, rfl, by decide⟩, h.1, ?_⟩
  rw [h.2.2 h2400]
  have : ((10 : Coin) : ℚ) / 2 = ((5 : Int) : ℚ) := by norm_num
  rw [this]
  exact roundHalfEven_intCast 5

/-! ## Withdrawals: the balance check -/

/-- C11: on an account with a bank record and for a positive amount, `MinusSavingCoin` and
`MinusSavingCoinWithFullCoinDay` return `ErrAccountSavingCoinNotEnough` exactly when
`Saving - amount < MinimumBalance`, and then they return the store they were given: the
stored bank record and queue are not written, not even recomputed. -/
theorem insufficient_balance_rejected (dr : DecRound) (p : Params) (now : Int)
    (s : AccountStorage) (u : AccountKey) (c : Coin) (b : AccountBank)
    (hb : s.bank u = some b) (hc : 0 < c) :
    ((MinusSavingCoin dr p now s u c).1 = some Error.ErrAccountSavingCoinNotEnough ↔
      b.Saving - c < p.MinimumBalance) ∧
    ((MinusSavingCoinWithFullCoinDay dr p now s u c).1 =
        some Error.ErrAccountSavingCoinNotEnough ↔
      b.Saving - c < p.MinimumBalance) ∧
    (b.Saving - c < p.MinimumBalance →
      (MinusSavingCoin dr p now s u c).2 = s ∧
      (MinusSavingCoinWithFullCoinDay dr p now s u c).2.2 = s) := by
  have hc0 : c ≠ 0 := ne_of_gt hc
  by_cases hlt : b.Saving - c < p.MinimumBalance
  · have hnge : ¬ (p.MinimumBalance ≤ b.Saving - c) := not_le.mpr hlt
    refine ⟨⟨fun _ => hlt, fun _ => ?_⟩, ⟨fun _ => hlt, fun _ => ?_⟩, fun _ => ⟨?_, ?_⟩⟩ <;>
      simp [MinusSavingCoin, MinusSavingCoinWithFullCoinDay,
        AccountStorage.GetBankFromAccountKey, hb, hnge, hc0]
  · have hge : p.MinimumBalance ≤ b.Saving - c := not_lt.mp hlt
    refine ⟨⟨fun h => ?_, fun h => absurd h hlt⟩, ⟨fun h => ?_, fun h => absurd h hlt⟩,
      fun h => absurd h hlt⟩
    · exfalso
      cases hq : s.queue u with
      | none =>
        simp [MinusSavingCoin, AccountStorage.GetBankFromAccountKey,
          AccountStorage.GetPendingCoinDayQueue, hb, hq, hge, hc0] at h
      | some q =>
        rw [MinusSavingCoin_eq dr p now s u c b q hb hq hge hc0] at h
        simp at h
    · exfalso
      cases hq : s.queue u with
      | none =>
        simp [MinusSavingCoinWithFullCoinDay, AccountStorage.GetBankFromAccountKey,
          AccountStorage.GetPendingCoinDayQueue, hb, hq, hge, hc0] at h
      | some q =>
        rw [MinusSavingCoinWithFullCoinDay_eq dr p now s u c b q hb hq hge hc0] at h
        split at h <;> simp at h

theorem insufficient_balance_rejected_witness :
    (sampleStore.bank "alice" = some sampleBank ∧ (0 : Coin) < 11) ∧
    MinusSavingCoin exactDec sampleParams 302400 sampleStore "alice" 11 =
      (some Error.ErrAccountSavingCoinNotEnough, sampleStore) ∧
    MinusSavingCoinWithFullCoinDay exactDec sampleParams 302400 sampleStore "alice" 11 =
      (some Error.ErrAccountSavingCoinNotEnough, 0, sampleStore) := by
  have h := insufficient_balance_rejected exactDec sampleParams 302400 sampleStore "alice" 11
    sampleBank rfl (by decide)
  have hlt : sampleBank.Saving - 11 < sampleParams.MinimumBalance := by decide
  obtain ⟨h1, h2, h3⟩ := h
  refine ⟨⟨rfl, by decide⟩, ?_, ?_⟩
  · exact Prod.ext (h1.mpr hlt) (h3 hlt).1
  · refine Prod.ext (h2.mpr hlt) (Prod.ext ?_ (h3 hlt).2)
    simp [MinusSavingCoinWithFullCoinDay, AccountStorage.GetBankFromAccountKey, sampleStore,
      sampleParams]

/-! ## Withdrawals: the matured weight covers the amount -/

theorem updateTX_sample_full :
    updateTXFromPendingCoinDayQueue exactDec sampleParams 604800 sampleBank sampleQueue =
      ({ Saving := 10, CoinDay := 10 },
       { LastUpdatedAt := 604800, TotalCoinDay := 0, TotalCoin := 0,
         PendingCoinDays := [] }) := by
  have hs : timeSlot 604800 = 604800 := by decide
  simp [updateTXFromPendingCoinDayQueue, removeExpired_eq, hs, sampleQueue, sampleBank,
    sampleParams, expiredPart, pendingPart, coinSum, removedWeight, List.takeWhile,
    List.dropWhile, Dec.Quo, Dec.Mul, exactDec, NewDec, Coin.ToDec]

/-- C14: for an amount `c > 0` that passes the balance check and that the recomputed
`CoinDay` covers, `MinusSavingCoinWithFullCoinDay` returns `c`, and stores the bank record
with `Saving - c` and the recomputed `CoinDay` minus `c`, and the queue exactly as the
recompute produced it; no other record is written. -/
theorem MinusSavingCoinWithFullCoinDay_matured (dr : DecRound) (p : Params) (now : Int)
    (s : AccountStorage) (u : AccountKey) (c : Coin) (b : AccountBank)
    (q : PendingCoinDayQueue)
    (hb : s.bank u = some b) (hq : s.queue u = some q) (hc : 0 < c)
    (hge : p.MinimumBalance ≤ b.Saving - c)
    (hcd : c ≤ (updateTXFromPendingCoinDayQueue dr p now b q).1.CoinDay) :
    ∃ s2 : AccountStorage,
      MinusSavingCoinWithFullCoinDay dr p now s u c = (none, c, s2) ∧
      s2.bank u =
        some { b with
          Saving := b.Saving - c
          CoinDay := (updateTXFromPendingCoinDayQueue dr p now b q).1.CoinDay - c } ∧
      s2.queue u = some (updateTXFromPendingCoinDayQueue dr p now b q).2 ∧
      (∀ v, v ≠ u → s2.bank v = s.bank v ∧ s2.queue v = s.queue v) ∧
      s2.accMeta = s.accMeta ∧ s2.info = s.info ∧ s2.reward = s.reward := by
  rw [updateTX_fst] at hcd
  simp only at hcd
  rw [MinusSavingCoinWithFullCoinDay_eq dr p now s u c b q hb hq hge (ne_of_gt hc),
    if_pos hcd]
  refine ⟨_, rfl, ?_, ?_, ?_, rfl, rfl, rfl⟩
  · rw [get_set_bank, updateTX_fst]
  · exact get_set_queue_bank _ _ _ _
  · intro v hv
    simp [AccountStorage.SetBankFromAccountKey, AccountStorage.SetPendingCoinDayQueue, hv]

theorem MinusSavingCoinWithFullCoinDay_matured_witness :
    (sampleStore.bank "alice" = some sampleBank ∧
      sampleStore.queue "alice" = some sampleQueue ∧ (0 : Coin) < 4 ∧
      sampleParams.MinimumBalance ≤ sampleBank.Saving - 4 ∧
      (4 : Coin) ≤
        (updateTXFromPendingCoinDayQueue exactDec sampleParams 604800 sampleBank
          sampleQueue).1.CoinDay) ∧
    ∃ s2 : AccountStorage,
      MinusSavingCoinWithFullCoinDay exactDec sampleParams 604800 sampleStore "alice" 4 =
        (none, 4, s2) ∧
      s2.bank "alice" = some { Saving := 6, CoinDay := 6 } ∧
      s2.queue "alice" =
        some { LastUpdatedAt := 604800, TotalCoinDay := 0, TotalCoin := 0,
               PendingCoinDays := [] } := by
  have hcd : (4 : Coin) ≤
      (updateTXFromPendingCoinDayQueue exactDec sampleParams 604800 sampleBank
        sampleQueue).1.CoinDay := by
    rw [updateTX_sample_full]; decide
  refine ⟨⟨rfl, rfl, by decide, by decide, hcd⟩, ?_⟩
  obtain ⟨s2, h1, h2, h3, -⟩ :=
    MinusSavingCoinWithFullCoinDay_matured exactDec sampleParams 604800 sampleStore "alice" 4
      sampleBank sampleQueue rfl rfl (by decide) (by decide) hcd
  rw [updateTX_sample_full] at h2 h3
  exact ⟨s2, h1, by rw [h2]; rfl, h3⟩

/-! ## Withdrawals: what the loops remove -/

theorem minusFromHead_oldestFirst (dr : DecRound) (p : Params) (l : List PendingCoinDay)
    (coin : Coin) (q : PendingCoinDayQueue) (hc : 0 ≤ coin) :
    OldestFirst l (minusFromHead dr p l coin q).2.PendingCoinDays := by
  induction l generalizing coin q with
  | nil => exact ⟨[], [], rfl, Or.inl (by simp [minusFromHead])⟩
  | cons e rest ih =>
    by_cases h : coin ≥ e.Coin
    · simp only [minusFromHead, h, if_true]
      obtain ⟨removed, kept, h1, h2⟩ := ih (coin - e.Coin)
        { q with
          TotalCoinDay := q.TotalCoinDay -
            Dec.Mul dr (NewDecFromRat dr (q.LastUpdatedAt - e.StartTime)
              p.SecondsToRecoverCoinDay) (Coin.ToDec e.Coin)
          TotalCoin := q.TotalCoin - e.Coin
          PendingCoinDays := rest } (by linarith)
      exact ⟨e :: removed, kept, by rw [h1]; rfl, h2⟩
    · refine ⟨[], e :: rest, rfl, Or.inr ⟨e, rest, coin, rfl, hc, lt_of_not_ge h, ?_⟩⟩
      simp [minusFromHead, h]

theorem NewestFirst_of_reverse (l final : List PendingCoinDay)
    (h : OldestFirst l.reverse final) : NewestFirst l final.reverse := by
  obtain ⟨removed, kept, h1, h2⟩ := h
  have hl : l = kept.reverse ++ removed.reverse := by
    have := congrArg List.reverse h1
    simpa using this
  refine ⟨kept.reverse, removed.reverse, hl, ?_⟩
  rcases h2 with h2 | ⟨e, rest, c, h3, h4, h5, h6⟩
  · exact Or.inl (by rw [h2])
  · refine Or.inr ⟨rest.reverse, e, c, ?_, h4, h5, ?_⟩
    · rw [h3]; simp
    · rw [h6]; simp

/-- On entries of non-negative `Coin` the head loop consumes `min coin (sum of the
entries)`: the coin it returns is what the entries could not cover. -/
theorem minusFromHead_removed (dr : DecRound) (p : Params) (l : List PendingCoinDay)
    (coin : Coin) (q : PendingCoinDayQueue) (hc : 0 ≤ coin)
    (hnn : ∀ e ∈ l, 0 ≤ e.Coin) :
    coin - (minusFromHead dr p l coin q).1 = min coin (coinSum l) := by
  induction l generalizing coin q with
  | nil => simp [minusFromHead, coinSum, hc]
  | cons e rest ih =>
    have hrest : 0 ≤ coinSum rest := by
      unfold coinSum
      apply List.sum_nonneg
      intro x hx
      obtain ⟨y, hy, rfl⟩ := List.mem_map.mp hx
      exact hnn y (List.mem_cons_of_mem _ hy)
    by_cases h : coin ≥ e.Coin
    · simp only [minusFromHead, h, if_true]
      have := ih (coin - e.Coin)
        { q with
          TotalCoinDay := q.TotalCoinDay -
            Dec.Mul dr (NewDecFromRat dr (q.LastUpdatedAt - e.StartTime)
              p.SecondsToRecoverCoinDay) (Coin.ToDec e.Coin)
          TotalCoin := q.TotalCoin - e.Coin
          PendingCoinDays := rest } (by linarith)
        (fun x hx => hnn x (List.mem_cons_of_mem _ hx))
      rw [coinSum_cons]
      rcases le_total (coin - e.Coin) (coinSum rest) with h1 | h1
      · rw [min_eq_left h1] at this
        rw [min_eq_left (by linarith)]
        linarith
      · rw [min_eq_right h1] at this
        rw [min_eq_right (by linarith)]
        linarith
    · simp only [minusFromHead, h, if_false, coinSum_cons]
      have hlt : coin < e.Coin := lt_of_not_ge h
      rw [min_eq_left (by linarith)]
      ring

theorem MinusSavingCoin_ok_balance (dr : DecRound) (p : Params) (now : Int)
    (s : AccountStorage) (u : AccountKey) (c : Coin) (b : AccountBank)
    (hb : s.bank u = some b) (hok : (MinusSavingCoin dr p now s u c).1 = none) :
    p.MinimumBalance ≤ b.Saving - c := by
  by_contra hge
  simp [MinusSavingCoin, AccountStorage.GetBankFromAccountKey, hb, hge] at hok

theorem MinusSavingCoinWithFullCoinDay_ok_balance (dr : DecRound) (p : Params) (now : Int)
    (s : AccountStorage) (u : AccountKey) (c : Coin) (b : AccountBank)
    (hb : s.bank u = some b) (hc : c ≠ 0)
    (hok : (MinusSavingCoinWithFullCoinDay dr p now s u c).1 = none) :
    p.MinimumBalance ≤ b.Saving - c := by
  by_contra hge
  simp [MinusSavingCoinWithFullCoinDay, AccountStorage.GetBankFromAccountKey, hb, hge, hc]
    at hok

theorem pendingPart_nonneg (slot : Int) (l : List PendingCoinDay)
    (hnn : ∀ e ∈ l, 0 ≤ e.Coin) : ∀ e ∈ pendingPart slot l, 0 ≤ e.Coin :=
  fun e he => hnn e (pendingPart_subset slot l e he)

/-! ## The tie-break state, evaluated -/

/-- The tie-break state is what two deposits of 10, at time 0 and half a window later,
make of the freshly opened account. -/
theorem tieBreakStore_from_deposits :
    ∃ s1 s2 : AccountStorage,
      AddSavingCoin exactDec sampleParams 0 freshStore "bob" 10 = (none, s1) ∧
      AddSavingCoin exactDec sampleParams 302400 s1 "bob" 10 = (none, s2) ∧
      s2.bank "bob" = tieBreakStore.bank "bob" ∧
      s2.queue "bob" = tieBreakStore.queue "bob" := by
  have hs0 : timeSlot 0 = 0 := by decide
  have hs : timeSlot 302400 = 302400 := by decide
  refine ⟨(AddSavingCoin exactDec sampleParams 0 freshStore "bob" 10).2,
    (AddSavingCoin exactDec sampleParams 302400
      (AddSavingCoin exactDec sampleParams 0 freshStore "bob" 10).2 "bob" 10).2, ?_, ?_, ?_, ?_⟩
  all_goals
    simp [AddSavingCoin, AccountStorage.DoesAccountExist,
      AccountStorage.GetBankFromAccountKey, AccountStorage.GetPendingCoinDayQueue,
      AccountStorage.SetBankFromAccountKey, AccountStorage.SetPendingCoinDayQueue,
      addPendingCoinDayToQueue, pushPendingCoinDay,
      freshStore, tieBreakStore, updateTXFromPendingCoinDayQueue, removeExpired, hs0, hs,
      sampleParams, Dec.Quo, Dec.Mul, exactDec, NewDec, Coin.ToDec]
  norm_num

theorem updateTX_tieBreak :
    updateTXFromPendingCoinDayQueue exactDec sampleParams 302401 tieBreakBank tieBreakQueue =
      (tieBreakBank, tieBreakQueue) := by
  have hs : timeSlot 302401 = 302400 := by decide
  simp [updateTXFromPendingCoinDayQueue, removeExpired_eq, hs, tieBreakQueue, tieBreakBank,
    sampleParams, expiredPart, pendingPart, coinSum, removedWeight, List.takeWhile,
    List.dropWhile, Dec.Quo, Dec.Mul, exactDec, NewDec, Coin.ToDec]

/-! ## Withdrawal policy A -/

/-- The queue that a successful `MinusSavingCoin` of a non-zero amount stores: the head
loop run on the reversed recomputed entries, reversed back. -/
theorem MinusSavingCoin_queue (dr : DecRound) (p : Params) (now : Int)
    (s : AccountStorage) (u : AccountKey) (c : Coin) (b : AccountBank)
    (q : PendingCoinDayQueue)
    (hb : s.bank u = some b) (hq : s.queue u = some q)
    (hge : p.MinimumBalance ≤ b.Saving - c) (hc : c ≠ 0) :
    (MinusSavingCoin dr p now s u c).2.queue u =
      some { (minusFromHead dr p
              (updateTXFromPendingCoinDayQueue dr p now b q).2.PendingCoinDays.reverse c
              (updateTXFromPendingCoinDayQueue dr p now b q).2).2 with
             PendingCoinDays := (minusFromHead dr p
              (updateTXFromPendingCoinDayQueue dr p now b q).2.PendingCoinDays.reverse c
              (updateTXFromPendingCoinDayQueue dr p now b q).2).2.PendingCoinDays.reverse } := by
  rw [MinusSavingCoin_eq dr p now s u c b q hb hq hge hc]
  simp only
  rw [get_set_queue_bank, minusFromTail_eq_head]

/-- C12, for a positive amount: a successful `MinusSavingCoin` of `c > 0` leaves a prefix
of the recomputed entry list in which only the last kept entry may have a reduced `Coin`,
and, the entries having non-negative `Coin` and `TotalCoin` being their sum, the `Coin`
removed from the queue is `min c (recomputed TotalCoin)`. -/
theorem MinusSavingCoin_newest_first (dr : DecRound) (p : Params) (now : Int)
    (s : AccountStorage) (u : AccountKey) (c : Coin) (b : AccountBank)
    (q : PendingCoinDayQueue)
    (hb : s.bank u = some b) (hq : s.queue u = some q) (hc : 0 < c)
    (hok : (MinusSavingCoin dr p now s u c).1 = none)
    (hnn : ∀ e ∈ q.PendingCoinDays, 0 ≤ e.Coin)
    (htc : q.TotalCoin = coinSum q.PendingCoinDays) :
    ∃ q2 : PendingCoinDayQueue,
      (MinusSavingCoin dr p now s u c).2.queue u = some q2 ∧
      NewestFirst (updateTXFromPendingCoinDayQueue dr p now b q).2.PendingCoinDays
        q2.PendingCoinDays ∧
      coinSum (updateTXFromPendingCoinDayQueue dr p now b q).2.PendingCoinDays -
          coinSum q2.PendingCoinDays =
        min c (coinSum (updateTXFromPendingCoinDayQueue dr p now b q).2.PendingCoinDays) ∧
      (updateTXFromPendingCoinDayQueue dr p now b q).2.TotalCoin - q2.TotalCoin =
        min c (updateTXFromPendingCoinDayQueue dr p now b q).2.TotalCoin := by
  have hge := MinusSavingCoin_ok_balance dr p now s u c b hb hok
  have hUtc := updateTX_totalCoin_eq_coinSum dr p now b q htc
  have hUnn : ∀ e ∈ (updateTXFromPendingCoinDayQueue dr p now b q).2.PendingCoinDays.reverse,
      0 ≤ e.Coin := by
    intro e he
    rw [List.mem_reverse, updateTX_entries] at he
    exact pendingPart_nonneg _ _ hnn e he
  refine ⟨_, MinusSavingCoin_queue dr p now s u c b q hb hq hge (ne_of_gt hc), ?_, ?_, ?_⟩
  · exact NewestFirst_of_reverse _ _ (minusFromHead_oldestFirst dr p _ c _ (le_of_lt hc))
  · have h1 := (minusFromHead_totals dr p
      (updateTXFromPendingCoinDayQueue dr p now b q).2.PendingCoinDays.reverse c
      (updateTXFromPendingCoinDayQueue dr p now b q).2).1
    have h2 := minusFromHead_removed dr p
      (updateTXFromPendingCoinDayQueue dr p now b q).2.PendingCoinDays.reverse c
      (updateTXFromPendingCoinDayQueue dr p now b q).2 (le_of_lt hc) hUnn
    rw [coinSum_reverse] at h1 h2
    simp only [coinSum_reverse]
    rw [h1, h2]
    ring
  · have h1 := (minusFromHead_totals dr p
      (updateTXFromPendingCoinDayQueue dr p now b q).2.PendingCoinDays.reverse c
      (updateTXFromPendingCoinDayQueue dr p now b q).2).2
    have h2 := minusFromHead_removed dr p
      (updateTXFromPendingCoinDayQueue dr p now b q).2.PendingCoinDays.reverse c
      (updateTXFromPendingCoinDayQueue dr p now b q).2 (le_of_lt hc) hUnn
    rw [coinSum_reverse] at h2
    simp only
    rw [h1, h2, hUtc]
    ring

theorem MinusSavingCoin_tieBreak :
    ∃ s2 : AccountStorage,
      MinusSavingCoin exactDec sampleParams 302401 tieBreakStore "bob" 10 = (none, s2) ∧
      s2.bank "bob" = some { Saving := 10, CoinDay := 0 } ∧
      s2.queue "bob" =
        some { LastUpdatedAt := 302400, TotalCoinDay := 5, TotalCoin := 10,
               PendingCoinDays := [{ StartTime := 0, EndTime := 604800, Coin := 10 }] } := by
  have hb : tieBreakStore.bank "bob" = some tieBreakBank := rfl
  have hq : tieBreakStore.queue "bob" = some tieBreakQueue := rfl
  rw [MinusSavingCoin_eq exactDec sampleParams 302401 tieBreakStore "bob" 10 tieBreakBank
    tieBreakQueue hb hq (by decide) (by decide)]
  refine ⟨_, rfl, ?_, ?_⟩
  · rw [get_set_bank, updateTX_tieBreak]
    simp [minusFromTail, tieBreakQueue, tieBreakBank, expiredPart, List.takeWhile, coinSum]
    decide
  · rw [get_set_queue_bank, updateTX_tieBreak]
    simp [minusFromTail, tieBreakQueue, sampleParams, Dec.Quo, Dec.Mul, exactDec, NewDec,
      NewDecFromRat, Coin.ToDec]

theorem MinusSavingCoin_newest_first_witness :
    (tieBreakStore.bank "bob" = some tieBreakBank ∧
      tieBreakStore.queue "bob" = some tieBreakQueue ∧ (0 : Coin) < 10 ∧
      (MinusSavingCoin exactDec sampleParams 302401 tieBreakStore "bob" 10).1 = none ∧
      (∀ e ∈ tieBreakQueue.PendingCoinDays, 0 ≤ e.Coin) ∧
      tieBreakQueue.TotalCoin = coinSum tieBreakQueue.PendingCoinDays) ∧
    ∃ q2 : PendingCoinDayQueue,
      (MinusSavingCoin exactDec sampleParams 302401 tieBreakStore "bob" 10).2.queue "bob" =
        some q2 ∧
      NewestFirst tieBreakQueue.PendingCoinDays q2.PendingCoinDays ∧
      tieBreakQueue.TotalCoin - q2.TotalCoin = 10 ∧
      q2.PendingCoinDays = [{ StartTime := 0, EndTime := 604800, Coin := 10 }] ∧
      q2.TotalCoinDay = 5 := by
  obtain ⟨s2, hrun, -, hq2⟩ := MinusSavingCoin_tieBreak
  have hok : (MinusSavingCoin exactDec sampleParams 302401 tieBreakStore "bob" 10).1 = none := by
    rw [hrun]
  have hnn : ∀ e ∈ tieBreakQueue.PendingCoinDays, 0 ≤ e.Coin := by
    simp [tieBreakQueue]
  have htc : tieBreakQueue.TotalCoin = coinSum tieBreakQueue.PendingCoinDays := by
    simp [tieBreakQueue, coinSum]
  refine ⟨⟨rfl, rfl, by decide, hok, hnn, htc⟩, ?_⟩
  obtain ⟨q2, h1, h2, -, h4⟩ :=
    MinusSavingCoin_newest_first exactDec sampleParams 302401 tieBreakStore "bob" 10
      tieBreakBank tieBreakQueue rfl rfl (by decide) hok hnn htc
  rw [updateTX_tieBreak] at h2 h4
  rw [hrun] at h1
  simp only at h1
  rw [hq2] at h1
  have hq2eq := Option.some.inj h1
  refine ⟨q2, ?_, h2, ?_, ?_, ?_⟩
  · rw [hrun]; simp only; rw [hq2, hq2eq]
  · rw [h4]; decide
  · rw [← hq2eq]
  · rw [← hq2eq]

/-- The statement of C12 fails for the amount 0: on `sampleStore` at the block time at
which the pending entry matures, `MinusSavingCoin` of 0 succeeds and returns before the
recompute, so the stored entry list keeps the entry that the recompute removes, and it is
not a prefix of the recomputed (empty) list. -/
theorem MinusSavingCoin_zero_keeps_expired :
    sampleStore.bank "alice" = some sampleBank ∧
    sampleStore.queue "alice" = some sampleQueue ∧
    MinusSavingCoin exactDec sampleParams 604800 sampleStore "alice" 0 = (none, sampleStore) ∧
    ¬ NewestFirst
        (updateTXFromPendingCoinDayQueue exactDec sampleParams 604800 sampleBank
          sampleQueue).2.PendingCoinDays
        sampleQueue.PendingCoinDays := by
  refine ⟨rfl, rfl, ?_, ?_⟩
  · simp [MinusSavingCoin, AccountStorage.GetBankFromAccountKey, sampleStore, sampleParams]
  · rw [updateTX_sample_full]
    rintro ⟨kept, removed, h1, h2⟩
    have hk : kept = [] := (List.append_eq_nil.mp h1.symm).1
    rcases h2 with h2 | ⟨front, e, c, h3, -, -, -⟩
    · rw [hk] at h2
      simp [sampleQueue] at h2
    · rw [hk] at h3
      simp at h3

/-- C13, for a positive amount: in a state with `Saving = CoinDay + TotalCoin` (and
`TotalCoin` the sum of the non-negative entry coins), a successful `MinusSavingCoin` of
`c > 0` that exceeds the recomputed `TotalCoin` leaves `CoinDay` equal to the recomputed
`CoinDay` minus the residual `c - TotalCoin`, and one that the recomputed `TotalCoin`
covers leaves `CoinDay` at its recomputed value. -/
theorem MinusSavingCoin_residual (dr : DecRound) (p : Params) (now : Int)
    (s : AccountStorage) (u : AccountKey) (c : Coin) (b : AccountBank)
    (q : PendingCoinDayQueue)
    (hb : s.bank u = some b) (hq : s.queue u = some q) (hc : 0 < c)
    (hok : (MinusSavingCoin dr p now s u c).1 = none)
    (hprin : b.Saving = b.CoinDay + q.TotalCoin)
    (hnn : ∀ e ∈ q.PendingCoinDays, 0 ≤ e.Coin)
    (htc : q.TotalCoin = coinSum q.PendingCoinDays) :
    ∃ b2 : AccountBank,
      (MinusSavingCoin dr p now s u c).2.bank u = some b2 ∧
      b2.Saving = b.Saving - c ∧
      ((updateTXFromPendingCoinDayQueue dr p now b q).2.TotalCoin < c →
        b2.CoinDay = (updateTXFromPendingCoinDayQueue dr p now b q).1.CoinDay -
          (c - (updateTXFromPendingCoinDayQueue dr p now b q).2.TotalCoin)) ∧
      (c ≤ (updateTXFromPendingCoinDayQueue dr p now b q).2.TotalCoin →
        b2.CoinDay = (updateTXFromPendingCoinDayQueue dr p now b q).1.CoinDay) := by
  have hge := MinusSavingCoin_ok_balance dr p now s u c b hb hok
  have hUtc := updateTX_totalCoin_eq_coinSum dr p now b q htc
  have hUnn : ∀ e ∈ (updateTXFromPendingCoinDayQueue dr p now b q).2.PendingCoinDays.reverse,
      0 ≤ e.Coin := by
    intro e he
    rw [List.mem_reverse, updateTX_entries] at he
    exact pendingPart_nonneg _ _ hnn e he
  have hrem := minusFromHead_removed dr p
    (updateTXFromPendingCoinDayQueue dr p now b q).2.PendingCoinDays.reverse c
    (updateTXFromPendingCoinDayQueue dr p now b q).2 (le_of_lt hc) hUnn
  rw [coinSum_reverse, ← hUtc] at hrem
  have hsplit := congrArg coinSum (expired_append_pending (timeSlot now) q.PendingCoinDays)
  rw [coinSum_append] at hsplit
  have hUent : coinSum (pendingPart (timeSlot now) q.PendingCoinDays) =
      (updateTXFromPendingCoinDayQueue dr p now b q).2.TotalCoin := by
    rw [hUtc, updateTX_entries]
  rw [MinusSavingCoin_eq dr p now s u c b q hb hq hge (ne_of_gt hc)]
  simp only
  rw [get_set_bank, minusFromTail_eq_head, updateTX_fst]
  simp only
  by_cases hlt : (updateTXFromPendingCoinDayQueue dr p now b q).2.TotalCoin < c
  · rw [min_eq_right (le_of_lt hlt)] at hrem
    have hpos : 0 < (minusFromHead dr p
        (updateTXFromPendingCoinDayQueue dr p now b q).2.PendingCoinDays.reverse c
        (updateTXFromPendingCoinDayQueue dr p now b q).2).1 := by linarith
    rw [if_pos hpos]
    refine ⟨_, rfl, rfl, fun _ => ?_, fun h => absurd h (not_le.mpr hlt)⟩
    simp only
    linarith
  · have hle := not_lt.mp hlt
    rw [min_eq_left hle] at hrem
    have hzero : ¬ 0 < (minusFromHead dr p
        (updateTXFromPendingCoinDayQueue dr p now b q).2.PendingCoinDays.reverse c
        (updateTXFromPendingCoinDayQueue dr p now b q).2).1 := by linarith
    rw [if_neg hzero]
    exact ⟨_, rfl, rfl, fun h => absurd h hlt, fun _ => rfl⟩

theorem MinusSavingCoin_residual_witness :
    (sampleStore.bank "alice" = some sampleBank ∧
      sampleStore.queue "alice" = some sampleQueue ∧ (0 : Coin) < 4 ∧
      (MinusSavingCoin exactDec sampleParams 604800 sampleStore "alice" 4).1 = none ∧
      sampleBank.Saving = sampleBank.CoinDay + sampleQueue.TotalCoin ∧
      (∀ e ∈ sampleQueue.PendingCoinDays, 0 ≤ e.Coin) ∧
      sampleQueue.TotalCoin = coinSum sampleQueue.PendingCoinDays) ∧
    (updateTXFromPendingCoinDayQueue exactDec sampleParams 604800 sampleBank
      sampleQueue).2.TotalCoin = 0 ∧
    (updateTXFromPendingCoinDayQueue exactDec sampleParams 604800 sampleBank
      sampleQueue).1.CoinDay = 10 ∧
    ∃ b2 : AccountBank,
      (MinusSavingCoin exactDec sampleParams 604800 sampleStore "alice" 4).2.bank "alice" =
        some b2 ∧
      b2.Saving = 6 ∧ b2.CoinDay = 6 := by
  have hok : (MinusSavingCoin exactDec sampleParams 604800 sampleStore "alice" 4).1 = none := by
    rw [MinusSavingCoin_eq exactDec sampleParams 604800 sampleStore "alice" 4 sampleBank
      sampleQueue rfl rfl (by decide) (by decide)]
  have hnn : ∀ e ∈ sampleQueue.PendingCoinDays, 0 ≤ e.Coin := by
    simp [sampleQueue]
  have htc : sampleQueue.TotalCoin = coinSum sampleQueue.PendingCoinDays := by
    simp [sampleQueue, coinSum]
  have hprin : sampleBank.Saving = sampleBank.CoinDay + sampleQueue.TotalCoin := by decide
  refine ⟨⟨rfl, rfl, by decide, hok, hprin, hnn, htc⟩, ?_, ?_, ?_⟩
  · rw [updateTX_sample_full]
  · rw [updateTX_sample_full]
  · obtain ⟨b2, h1, h2, h3, -⟩ :=
      MinusSavingCoin_residual exactDec sampleParams 604800 sampleStore "alice" 4
        sampleBank sampleQueue rfl rfl (by decide) hok hprin hnn htc
    rw [updateTX_sample_full] at h3
    refine ⟨b2, h1, ?_, ?_⟩
    · rw [h2]; decide
    · rw [h3 (by decide)]; decide

/-- The statement of C13 fails for the amount 0: on `sampleStore`, where
`Saving = CoinDay + TotalCoin`, at the block time at which the pending entry matures, the
recomputed `TotalCoin` is 0, so the residual `c - TotalCoin` is 0, and the recomputed
`CoinDay` is 10; `MinusSavingCoin` of 0 succeeds and leaves the stored `CoinDay` at 0. -/
theorem MinusSavingCoin_zero_not_recomputed :
    sampleStore.bank "alice" = some sampleBank ∧
    sampleStore.queue "alice" = some sampleQueue ∧
    sampleBank.Saving = sampleBank.CoinDay + sampleQueue.TotalCoin ∧
    (MinusSavingCoin exactDec sampleParams 604800 sampleStore "alice" 0).1 = none ∧
    (0 : Coin) - (updateTXFromPendingCoinDayQueue exactDec sampleParams 604800 sampleBank
      sampleQueue).2.TotalCoin = 0 ∧
    (updateTXFromPendingCoinDayQueue exactDec sampleParams 604800 sampleBank
      sampleQueue).1.CoinDay = 10 ∧
    (MinusSavingCoin exactDec sampleParams 604800 sampleStore "alice" 0).2.bank "alice" =
      some { Saving := 10, CoinDay := 0 } := by
  have hrun : MinusSavingCoin exactDec sampleParams 604800 sampleStore "alice" 0 =
      (none, sampleStore) := by
    simp [MinusSavingCoin, AccountStorage.GetBankFromAccountKey, sampleStore, sampleParams]
  refine ⟨rfl, rfl, by decide, ?_, ?_, ?_, ?_⟩
  · rw [hrun]
  · rw [updateTX_sample_full]; decide
  · rw [updateTX_sample_full]
  · rw [hrun]; rfl

/-! ## Withdrawal policy B -/

theorem coinSum_nonneg_of_entries (l : List PendingCoinDay) (hnn : ∀ e ∈ l, 0 ≤ e.Coin) :
    0 ≤ coinSum l := by
  unfold coinSum
  apply List.sum_nonneg
  intro x hx
  obtain ⟨y, hy, rfl⟩ := List.mem_map.mp hx
  exact hnn y hy

theorem expiredPart_nonneg (slot : Int) (l : List PendingCoinDay)
    (hnn : ∀ e ∈ l, 0 ≤ e.Coin) : ∀ e ∈ expiredPart slot l, 0 ≤ e.Coin :=
  fun e he => hnn e ((List.takeWhile_sublist _).subset he)

/-- C15: in a state with non-negative `CoinDay` and entry coins, a successful
`MinusSavingCoinWithFullCoinDay` of an amount that exceeds the recomputed `CoinDay` sets
`CoinDay` to 0 and leaves a suffix of the recomputed entry list in which only the first
kept entry may have a reduced `Coin`; `TotalCoin` being the sum of the entries, the `Coin`
removed from the queue is `min (amount - recomputed CoinDay) (recomputed TotalCoin)`. -/
theorem MinusSavingCoinWithFullCoinDay_oldest_first (dr : DecRound) (p : Params) (now : Int)
    (s : AccountStorage) (u : AccountKey) (c : Coin) (b : AccountBank)
    (q : PendingCoinDayQueue)
    (hb : s.bank u = some b) (hq : s.queue u = some q)
    (hok : (MinusSavingCoinWithFullCoinDay dr p now s u c).1 = none)
    (hcd : 0 ≤ b.CoinDay)
    (hnn : ∀ e ∈ q.PendingCoinDays, 0 ≤ e.Coin)
    (htc : q.TotalCoin = coinSum q.PendingCoinDays)
    (hgt : (updateTXFromPendingCoinDayQueue dr p now b q).1.CoinDay < c) :
    ∃ (b2 : AccountBank) (q2 : PendingCoinDayQueue),
      (MinusSavingCoinWithFullCoinDay dr p now s u c).2.2.bank u = some b2 ∧
      (MinusSavingCoinWithFullCoinDay dr p now s u c).2.2.queue u = some q2 ∧
      b2.CoinDay = 0 ∧ b2.Saving = b.Saving - c ∧
      OldestFirst (updateTXFromPendingCoinDayQueue dr p now b q).2.PendingCoinDays
        q2.PendingCoinDays ∧
      coinSum (updateTXFromPendingCoinDayQueue dr p now b q).2.PendingCoinDays -
          coinSum q2.PendingCoinDays =
        min (c - (updateTXFromPendingCoinDayQueue dr p now b q).1.CoinDay)
          (coinSum (updateTXFromPendingCoinDayQueue dr p now b q).2.PendingCoinDays) ∧
      (updateTXFromPendingCoinDayQueue dr p now b q).2.TotalCoin - q2.TotalCoin =
        min (c - (updateTXFromPendingCoinDayQueue dr p now b q).1.CoinDay)
          (updateTXFromPendingCoinDayQueue dr p now b q).2.TotalCoin := by
  have hUtc := updateTX_totalCoin_eq_coinSum dr p now b q htc
  have hUnn : ∀ e ∈ (updateTXFromPendingCoinDayQueue dr p now b q).2.PendingCoinDays,
      0 ≤ e.Coin := by
    intro e he
    rw [updateTX_entries] at he
    exact pendingPart_nonneg _ _ hnn e he
  have hexp := coinSum_nonneg_of_entries _ (expiredPart_nonneg (timeSlot now) _ hnn)
  rw [updateTX_fst] at hgt ⊢
  simp only at hgt ⊢
  have hc : 0 < c := by linarith
  have hge := MinusSavingCoinWithFullCoinDay_ok_balance dr p now s u c b hb (ne_of_gt hc) hok
  have hc2 : 0 ≤ c - (b.CoinDay + coinSum (expiredPart (timeSlot now) q.PendingCoinDays)) := by
    linarith
  rw [MinusSavingCoinWithFullCoinDay_eq dr p now s u c b q hb hq hge (ne_of_gt hc),
    if_neg (not_le.mpr hgt)]
  have h1 := minusFromHead_totals dr p
    (updateTXFromPendingCoinDayQueue dr p now b q).2.PendingCoinDays
    (c - (b.CoinDay + coinSum (expiredPart (timeSlot now) q.PendingCoinDays)))
    (updateTXFromPendingCoinDayQueue dr p now b q).2
  have h2 := minusFromHead_removed dr p
    (updateTXFromPendingCoinDayQueue dr p now b q).2.PendingCoinDays
    (c - (b.CoinDay + coinSum (expiredPart (timeSlot now) q.PendingCoinDays)))
    (updateTXFromPendingCoinDayQueue dr p now b q).2 hc2 hUnn
  refine ⟨_, _, get_set_bank _ _ _, get_set_queue_bank _ _ _ _, rfl, rfl,
    minusFromHead_oldestFirst dr p _ _ _ hc2, ?_, ?_⟩
  · rw [h1.1, ← h2]; ring
  · rw [h1.2, hUtc, ← h2]; ring

theorem MinusSavingCoinWithFullCoinDay_tieBreak :
    (MinusSavingCoinWithFullCoinDay exactDec sampleParams 302401 tieBreakStore "bob" 10).1 =
      none ∧
    (MinusSavingCoinWithFullCoinDay exactDec sampleParams 302401 tieBreakStore "bob" 10).2.1 =
      0 ∧
    (MinusSavingCoinWithFullCoinDay exactDec sampleParams 302401 tieBreakStore
      "bob" 10).2.2.bank "bob" = some { Saving := 10, CoinDay := 0 } ∧
    (MinusSavingCoinWithFullCoinDay exactDec sampleParams 302401 tieBreakStore
      "bob" 10).2.2.queue "bob" =
        some { LastUpdatedAt := 302400, TotalCoinDay := 0, TotalCoin := 10,
               PendingCoinDays :=
                 [{ StartTime := 302400, EndTime := 907200, Coin := 10 }] } := by
  have hb : tieBreakStore.bank "bob" = some tieBreakBank := rfl
  have hq : tieBreakStore.queue "bob" = some tieBreakQueue := rfl
  have hexp : coinSum (expiredPart (timeSlot 302401) tieBreakQueue.PendingCoinDays) = 0 := by
    have hs : timeSlot 302401 = 302400 := by decide
    simp [hs, tieBreakQueue, expiredPart, List.takeWhile, coinSum]
  have hcd : ¬ (tieBreakBank.CoinDay +
      coinSum (expiredPart (timeSlot 302401) tieBreakQueue.PendingCoinDays) ≥ 10) := by
    rw [hexp]; decide
  rw [MinusSavingCoinWithFullCoinDay_eq exactDec sampleParams 302401 tieBreakStore "bob" 10
    tieBreakBank tieBreakQueue hb hq (by decide) (by decide), if_neg hcd, hexp]
  refine ⟨rfl, ?_, ?_, ?_⟩
  · simp [tieBreakBank]
  · rw [get_set_bank]
    simp [tieBreakBank]
  · rw [get_set_queue_bank, updateTX_tieBreak]
    simp [minusFromHead, tieBreakQueue, tieBreakBank, sampleParams, Dec.Quo, Dec.Mul,
      exactDec, NewDec, NewDecFromRat, Coin.ToDec]
    norm_num

theorem MinusSavingCoinWithFullCoinDay_oldest_first_witness :
    (tieBreakStore.bank "bob" = some tieBreakBank ∧
      tieBreakStore.queue "bob" = some tieBreakQueue ∧
      (MinusSavingCoinWithFullCoinDay exactDec sampleParams 302401 tieBreakStore
        "bob" 10).1 = none ∧
      0 ≤ tieBreakBank.CoinDay ∧
      (∀ e ∈ tieBreakQueue.PendingCoinDays, 0 ≤ e.Coin) ∧
      tieBreakQueue.TotalCoin = coinSum tieBreakQueue.PendingCoinDays ∧
      (updateTXFromPendingCoinDayQueue exactDec sampleParams 302401 tieBreakBank
        tieBreakQueue).1.CoinDay < 10) ∧
    ∃ (b2 : AccountBank) (q2 : PendingCoinDayQueue),
      (MinusSavingCoinWithFullCoinDay exactDec sampleParams 302401 tieBreakStore
        "bob" 10).2.2.bank "bob" = some b2 ∧
      (MinusSavingCoinWithFullCoinDay exactDec sampleParams 302401 tieBreakStore
        "bob" 10).2.2.queue "bob" = some q2 ∧
      b2.CoinDay = 0 ∧
      OldestFirst tieBreakQueue.PendingCoinDays q2.PendingCoinDays ∧
      tieBreakQueue.TotalCoin - q2.TotalCoin = 10 ∧
      q2.PendingCoinDays = [{ StartTime := 302400, EndTime := 907200, Coin := 10 }] := by
  obtain ⟨hok, -, -, hq2⟩ := MinusSavingCoinWithFullCoinDay_tieBreak
  have hnn : ∀ e ∈ tieBreakQueue.PendingCoinDays, 0 ≤ e.Coin := by
    simp [tieBreakQueue]
  have htc : tieBreakQueue.TotalCoin = coinSum tieBreakQueue.PendingCoinDays := by
    simp [tieBreakQueue, coinSum]
  have hgt : (updateTXFromPendingCoinDayQueue exactDec sampleParams 302401 tieBreakBank
      tieBreakQueue).1.CoinDay < 10 := by
    rw [updateTX_tieBreak]; decide
  refine ⟨⟨rfl, rfl, hok, by decide, hnn, htc, hgt⟩, ?_⟩
  obtain ⟨b2, q2, h1, h2, h3, -, h5, -, h7⟩ :=
    MinusSavingCoinWithFullCoinDay_oldest_first exactDec sampleParams 302401 tieBreakStore
      "bob" 10 tieBreakBank tieBreakQueue rfl rfl hok (by decide) hnn htc hgt
  rw [updateTX_tieBreak] at h5 h7
  have hq2eq : _ = q2 := Option.some.inj (hq2.symm.trans h2)
  refine ⟨b2, q2, h1, h2, h3, h5, ?_, ?_⟩
  · rw [h7]; decide
  · rw [← hq2eq]

/-- C16, as the code has it: a successful `MinusSavingCoinWithFullCoinDay` of a positive
amount returns the matured amount it consumed, `min amount (recomputed CoinDay)`, which is
the drop of `bank.CoinDay` between the recomputed state and the final state; the weight
that the loop subtracts from `TotalCoinDay` for pending entries is not added to it. -/
theorem MinusSavingCoinWithFullCoinDay_returns_matured (dr : DecRound) (p : Params)
    (now : Int) (s : AccountStorage) (u : AccountKey) (c : Coin) (b : AccountBank)
    (q : PendingCoinDayQueue)
    (hb : s.bank u = some b) (hq : s.queue u = some q) (hc : 0 < c)
    (hok : (MinusSavingCoinWithFullCoinDay dr p now s u c).1 = none) :
    ∃ b2 : AccountBank,
      (MinusSavingCoinWithFullCoinDay dr p now s u c).2.2.bank u = some b2 ∧
      (MinusSavingCoinWithFullCoinDay dr p now s u c).2.1 =
        min c (updateTXFromPendingCoinDayQueue dr p now b q).1.CoinDay ∧
      (MinusSavingCoinWithFullCoinDay dr p now s u c).2.1 =
        (updateTXFromPendingCoinDayQueue dr p now b q).1.CoinDay - b2.CoinDay := by
  have hge := MinusSavingCoinWithFullCoinDay_ok_balance dr p now s u c b hb (ne_of_gt hc) hok
  rw [MinusSavingCoinWithFullCoinDay_eq dr p now s u c b q hb hq hge (ne_of_gt hc),
    updateTX_fst]
  simp only
  by_cases hcd : b.CoinDay + coinSum (expiredPart (timeSlot now) q.PendingCoinDays) ≥ c
  · rw [if_pos hcd]
    refine ⟨_, get_set_bank _ _ _, ?_, ?_⟩
    · simp only
      rw [min_eq_left hcd]
    · simp only
      ring
  · rw [if_neg hcd]
    refine ⟨_, get_set_bank _ _ _, ?_, ?_⟩
    · simp only
      rw [min_eq_right (le_of_lt (lt_of_not_ge hcd))]
    · simp only
      ring

theorem MinusSavingCoinWithFullCoinDay_returns_matured_witness :
    (sampleStore.bank "alice" = some sampleBank ∧
      sampleStore.queue "alice" = some sampleQueue ∧ (0 : Coin) < 4 ∧
      (MinusSavingCoinWithFullCoinDay exactDec sampleParams 604800 sampleStore
        "alice" 4).1 = none) ∧
    ∃ b2 : AccountBank,
      (MinusSavingCoinWithFullCoinDay exactDec sampleParams 604800 sampleStore
        "alice" 4).2.2.bank "alice" = some b2 ∧
      (MinusSavingCoinWithFullCoinDay exactDec sampleParams 604800 sampleStore
        "alice" 4).2.1 = 4 ∧
      b2.CoinDay = 6 := by
  have hok : (MinusSavingCoinWithFullCoinDay exactDec sampleParams 604800 sampleStore
      "alice" 4).1 = none := by
    rw [MinusSavingCoinWithFullCoinDay_eq exactDec sampleParams 604800 sampleStore "alice" 4
      sampleBank sampleQueue rfl rfl (by decide) (by decide)]
    split <;> rfl
  refine ⟨⟨rfl, rfl, by decide, hok⟩, ?_⟩
  obtain ⟨b2, h1, h2, h3⟩ :=
    MinusSavingCoinWithFullCoinDay_returns_matured exactDec sampleParams 604800 sampleStore
      "alice" 4 sampleBank sampleQueue rfl rfl (by decide) hok
  rw [updateTX_sample_full] at h2 h3
  have h4 : (MinusSavingCoinWithFullCoinDay exactDec sampleParams 604800 sampleStore
      "alice" 4).2.1 = 4 := by
    rw [h2]; decide
  refine ⟨b2, h1, h4, ?_⟩
  rw [h4] at h3
  have h5 : (4 : Coin) = 10 - b2.CoinDay := h3
  linarith

/-- The statement of C16 fails on the tie-break state: `MinusSavingCoinWithFullCoinDay`
of 10 at block time 302401 succeeds and returns 0, although `bank.CoinDay + TotalCoinDay`
drops from 5 in the recomputed state to 0 in the final state, the oldest entry having
accrued a weight of 5. -/
theorem coinDayLost_omits_pending_weight :
    tieBreakStore.bank "bob" = some tieBreakBank ∧
    tieBreakStore.queue "bob" = some tieBreakQueue ∧
    (MinusSavingCoinWithFullCoinDay exactDec sampleParams 302401 tieBreakStore "bob" 10).1 =
      none ∧
    (MinusSavingCoinWithFullCoinDay exactDec sampleParams 302401 tieBreakStore "bob" 10).2.1 =
      0 ∧
    ((updateTXFromPendingCoinDayQueue exactDec sampleParams 302401 tieBreakBank
        tieBreakQueue).1.CoinDay : ℚ) +
      (updateTXFromPendingCoinDayQueue exactDec sampleParams 302401 tieBreakBank
        tieBreakQueue).2.TotalCoinDay = 5 ∧
    ∃ (b2 : AccountBank) (q2 : PendingCoinDayQueue),
      (MinusSavingCoinWithFullCoinDay exactDec sampleParams 302401 tieBreakStore
        "bob" 10).2.2.bank "bob" = some b2 ∧
      (MinusSavingCoinWithFullCoinDay exactDec sampleParams 302401 tieBreakStore
        "bob" 10).2.2.queue "bob" = some q2 ∧
      (b2.CoinDay : ℚ) + q2.TotalCoinDay = 0 := by
  obtain ⟨h1, h2, h3, h4⟩ := MinusSavingCoinWithFullCoinDay_tieBreak
  refine ⟨rfl, rfl, h1, h2, ?_, _, _, h3, h4, ?_⟩
  · rw [updateTX_tieBreak]
    simp [tieBreakBank, tieBreakQueue]
  · simp

/-! ## Bandwidth capacity -/

/-- The result of `CheckUserTPSCapacity` on an account holding the three records: the
store is the one `GetCoinDay` leaves, with the meta record written on admission only. -/
theorem CheckUserTPSCapacity_eq (dr : DecRound) (p : Params) (now : Int)
    (s : AccountStorage) (u : AccountKey) (r : Dec) (m : AccountMeta) (b : AccountBank)
    (q : PendingCoinDayQueue)
    (hm : s.accMeta u = some m) (hb : s.bank u = some b) (hq : s.queue u = some q) :
    CheckUserTPSCapacity dr p now s u r =
      if currentTxCost dr p r >
          recoveredCapacity dr p now m ((GetCoinDay dr p now s u).2.1 + p.VirtualCoin) then
        (some (Error.ErrAccountTPSCapacityNotEnough u), (GetCoinDay dr p now s u).2.2)
      else
        (none, (GetCoinDay dr p now s u).2.2.SetMeta u
          { m with
            TransactionCapacity :=
              recoveredCapacity dr p now m ((GetCoinDay dr p now s u).2.1 + p.VirtualCoin) -
                currentTxCost dr p r
            LastActivityAt := now }) := by
  rw [GetCoinDay_eq dr p now s u b q hb hq]
  simp only [CheckUserTPSCapacity, AccountStorage.GetMeta, hm,
    GetCoinDay_eq dr p now s u b q hb hq, recoveredCapacity, currentTxCost]
  by_cases h1 : m.TransactionCapacity ≥
      (updateTXFromPendingCoinDayQueue dr p now b q).1.CoinDay +
        DecToCoin (updateTXFromPendingCoinDayQueue dr p now b q).2.TotalCoinDay +
        p.VirtualCoin
  · simp only [h1, if_true]
  · simp only [h1, if_false]

theorem recoveredCapacity_eq_spec (dr : DecRound) (p : Params) (now : Int) (m : AccountMeta)
    (maxCapacity : Coin) :
    recoveredCapacity dr p now m maxCapacity =
      specRecoveredCapacityDec dr maxCapacity m.TransactionCapacity
        (now - m.LastActivityAt) p.SecondsToRecoverBandwidth := by
  unfold recoveredCapacity specRecoveredCapacityDec
  by_cases h1 : m.TransactionCapacity ≥ maxCapacity
  · simp only [h1, if_true]
  · simp only [h1, if_false]
    by_cases h2 : NewDecFromRat dr (now - m.LastActivityAt) p.SecondsToRecoverBandwidth > 1
    · rw [if_pos h2, min_eq_left (le_of_lt h2)]
    · rw [if_neg h2, min_eq_right (not_lt.mp h2)]

theorem specRecoveredCapacityDec_exact (maxCapacity capacity : Coin) (elapsed window : Int) :
    specRecoveredCapacityDec exactDec maxCapacity capacity elapsed window =
      specRecoveredCapacity maxCapacity capacity elapsed window := by
  simp [specRecoveredCapacityDec, specRecoveredCapacity, Dec.Mul, Dec.Quo, NewDecFromRat,
    NewDec, Coin.ToDec, exactDec]

theorem GetCoinDay_sample_half :
    GetCoinDay exactDec sampleParams 302400 sampleStore "alice" =
      (none, 5,
        (sampleStore.SetPendingCoinDayQueue "alice"
          { LastUpdatedAt := 302400, TotalCoinDay := 5, TotalCoin := 10,
            PendingCoinDays := [{ StartTime := 0, EndTime := 604800, Coin := 10 }] }
          ).SetBankFromAccountKey "alice" { Saving := 10, CoinDay := 0 }) := by
  rw [GetCoinDay_eq exactDec sampleParams 302400 sampleStore "alice" sampleBank sampleQueue
    rfl rfl, updateTX_sample_half]
  simp [DecToCoin, roundHalfEven]

theorem recoveredCapacity_sample_half :
    recoveredCapacity exactDec sampleParams 302400 {} 6 = 3 := by
  have h : roundHalfEven (3 : ℚ) = 3 := by exact_mod_cast roundHalfEven_intCast 3
  simp [recoveredCapacity, sampleParams, Dec.Mul, Dec.Quo, NewDecFromRat, NewDec,
    Coin.ToDec, exactDec, DecToCoin]
  norm_num [h]

theorem currentTxCost_sample (n : Int) : currentTxCost exactDec sampleParams (n : ℚ) = n := by
  simp [currentTxCost, sampleParams, Dec.Mul, Coin.ToDec, exactDec, DecToCoin,
    roundHalfEven_intCast]

/-- C17: on an account holding its records, `CheckUserTPSCapacity` returns
`ErrAccountTPSCapacityNotEnough` exactly when the recovered capacity is strictly below
`currentTxCost = DecToCoin (CapacityUsagePerTransaction * tpsCapacityRatio)`, and it
admits exactly when the cost is at most the recovered capacity, equality included. -/
theorem CheckUserTPSCapacity_admission (dr : DecRound) (p : Params) (now : Int)
    (s : AccountStorage) (u : AccountKey) (r : Dec) (m : AccountMeta) (b : AccountBank)
    (q : PendingCoinDayQueue)
    (hm : s.accMeta u = some m) (hb : s.bank u = some b) (hq : s.queue u = some q) :
    ((CheckUserTPSCapacity dr p now s u r).1 =
        some (Error.ErrAccountTPSCapacityNotEnough u) ↔
      recoveredCapacity dr p now m ((GetCoinDay dr p now s u).2.1 + p.VirtualCoin) <
        currentTxCost dr p r) ∧
    ((CheckUserTPSCapacity dr p now s u r).1 = none ↔
      currentTxCost dr p r ≤
        recoveredCapacity dr p now m ((GetCoinDay dr p now s u).2.1 + p.VirtualCoin)) ∧
    currentTxCost dr p r =
      DecToCoin (Dec.Mul dr (Coin.ToDec p.CapacityUsagePerTransaction) r) := by
  rw [CheckUserTPSCapacity_eq dr p now s u r m b q hm hb hq]
  by_cases h : currentTxCost dr p r >
      recoveredCapacity dr p now m ((GetCoinDay dr p now s u).2.1 + p.VirtualCoin)
  · rw [if_pos h]
    exact ⟨⟨fun _ => h, fun _ => rfl⟩,
      ⟨fun h2 => by simp at h2, fun h2 => absurd h (not_lt.mpr h2)⟩, rfl⟩
  · rw [if_neg h]
    exact ⟨⟨fun h2 => by simp at h2, fun h2 => absurd h2 h⟩,
      ⟨fun _ => not_lt.mp h, fun _ => rfl⟩, rfl⟩

theorem CheckUserTPSCapacity_admission_witness :
    (sampleStore.accMeta "alice" = some {} ∧ sampleStore.bank "alice" = some sampleBank ∧
      sampleStore.queue "alice" = some sampleQueue) ∧
    recoveredCapacity exactDec sampleParams 302400 {}
      ((GetCoinDay exactDec sampleParams 302400 sampleStore "alice").2.1 +
        sampleParams.VirtualCoin) = 3 ∧
    currentTxCost exactDec sampleParams 3 = 3 ∧
    currentTxCost exactDec sampleParams 4 = 4 ∧
    (CheckUserTPSCapacity exactDec sampleParams 302400 sampleStore "alice" 3).1 = none ∧
    (CheckUserTPSCapacity exactDec sampleParams 302400 sampleStore "alice" 4).1 =
      some (Error.ErrAccountTPSCapacityNotEnough "alice") := by
  have hR : recoveredCapacity exactDec sampleParams 302400 {}
      ((GetCoinDay exactDec sampleParams 302400 sampleStore "alice").2.1 +
        sampleParams.VirtualCoin) = 3 := by
    rw [GetCoinDay_sample_half]
    exact recoveredCapacity_sample_half
  have h3 : currentTxCost exactDec sampleParams 3 = 3 := by
    simpa using currentTxCost_sample 3
  have h4 : currentTxCost exactDec sampleParams 4 = 4 := by
    simpa using currentTxCost_sample 4
  obtain ⟨-, ha, -⟩ :=
    CheckUserTPSCapacity_admission exactDec sampleParams 302400 sampleStore "alice" 3 {}
      sampleBank sampleQueue rfl rfl rfl
  obtain ⟨hr, -, -⟩ :=
    CheckUserTPSCapacity_admission exactDec sampleParams 302400 sampleStore "alice" 4 {}
      sampleBank sampleQueue rfl rfl rfl
  refine ⟨⟨rfl, rfl, rfl⟩, hR, h3, h4, ?_, ?_⟩
  · apply ha.mpr
    rw [hR, h3]
  · apply hr.mpr
    rw [hR, h4]
    decide

/-- C18: with `maxCapacity = GetCoinDay(now) + VirtualCoin`, the capacity that
`CheckUserTPSCapacity` compares with the cost, and charges on admission, is `maxCapacity`
when the stored `TransactionCapacity` has reached it, and otherwise `TransactionCapacity +
DecToCoin ((maxCapacity - TransactionCapacity) * min 1 ((now - LastActivityAt) /
SecondsToRecoverBandwidth))`, the product and the quotient being those of the decimal
arithmetic; with exact decimals this is the formula over the rationals. -/
theorem CheckUserTPSCapacity_recovery (dr : DecRound) (p : Params) (now : Int)
    (s : AccountStorage) (u : AccountKey) (r : Dec) (m : AccountMeta) (b : AccountBank)
    (q : PendingCoinDayQueue)
    (hm : s.accMeta u = some m) (hb : s.bank u = some b) (hq : s.queue u = some q) :
    CheckUserTPSCapacity dr p now s u r =
      (if currentTxCost dr p r >
          specRecoveredCapacityDec dr ((GetCoinDay dr p now s u).2.1 + p.VirtualCoin)
            m.TransactionCapacity (now - m.LastActivityAt) p.SecondsToRecoverBandwidth then
        (some (Error.ErrAccountTPSCapacityNotEnough u), (GetCoinDay dr p now s u).2.2)
      else
        (none, (GetCoinDay dr p now s u).2.2.SetMeta u
          { m with
            TransactionCapacity :=
              specRecoveredCapacityDec dr ((GetCoinDay dr p now s u).2.1 + p.VirtualCoin)
                m.TransactionCapacity (now - m.LastActivityAt)
                p.SecondsToRecoverBandwidth - currentTxCost dr p r
            LastActivityAt := now })) ∧
    specRecoveredCapacityDec exactDec
        ((GetCoinDay exactDec p now s u).2.1 + p.VirtualCoin)
        m.TransactionCapacity (now - m.LastActivityAt) p.SecondsToRecoverBandwidth =
      specRecoveredCapacity ((GetCoinDay exactDec p now s u).2.1 + p.VirtualCoin)
        m.TransactionCapacity (now - m.LastActivityAt) p.SecondsToRecoverBandwidth := by
  refine ⟨?_, specRecoveredCapacityDec_exact _ _ _ _⟩
  rw [CheckUserTPSCapacity_eq dr p now s u r m b q hm hb hq, recoveredCapacity_eq_spec]

theorem CheckUserTPSCapacity_recovery_witness :
    (sampleStore.accMeta "alice" = some {} ∧ sampleStore.bank "alice" = some sampleBank ∧
      sampleStore.queue "alice" = some sampleQueue) ∧
    specRecoveredCapacity
      ((GetCoinDay exactDec sampleParams 302400 sampleStore "alice").2.1 +
        sampleParams.VirtualCoin) 0 (302400 - 0) 604800 = 3 ∧
    (CheckUserTPSCapacity exactDec sampleParams 302400 sampleStore "alice" 1).1 = none ∧
    (CheckUserTPSCapacity exactDec sampleParams 302400 sampleStore "alice" 1).2.accMeta
      "alice" = some { TransactionCapacity := 2, LastActivityAt := 302400 } := by
  obtain ⟨h1, h2⟩ :=
    CheckUserTPSCapacity_recovery exactDec sampleParams 302400 sampleStore "alice" 1 {}
      sampleBank sampleQueue rfl rfl rfl
  have hR : specRecoveredCapacityDec exactDec
      ((GetCoinDay exactDec sampleParams 302400 sampleStore "alice").2.1 +
        sampleParams.VirtualCoin)
      ({} : AccountMeta).TransactionCapacity (302400 - ({} : AccountMeta).LastActivityAt)
      sampleParams.SecondsToRecoverBandwidth = 3 := by
    rw [← recoveredCapacity_eq_spec, GetCoinDay_sample_half]
    exact recoveredCapacity_sample_half
  have hc : currentTxCost exactDec sampleParams 1 = 1 := by
    simpa using currentTxCost_sample 1
  rw [hR, hc] at h1
  rw [hR] at h2
  refine ⟨⟨rfl, rfl, rfl⟩, h2.symm, ?_, ?_⟩
  · rw [h1]; rfl
  · rw [h1]
    simp [AccountStorage.SetMeta]

theorem get_set_meta (s : AccountStorage) (u : AccountKey) (m : AccountMeta) :
    (s.SetMeta u m).accMeta u = some m := by
  simp [AccountStorage.SetMeta]

theorem exactDec_mono : exactDec.Mono :=
  ⟨fun _ _ h => h, fun _ _ h => h⟩

/-- The capped ratio of `CheckUserTPSCapacity` is at most 1. -/
theorem incrementRatio_le_one (x : Dec) : (if x > 1 then 1 else x) ≤ 1 := by
  split
  · exact le_refl _
  · rename_i h
    exact not_lt.mp h

theorem recoveredCapacity_le (dr : DecRound) (hmono : dr.Mono) (p : Params) (now : Int)
    (m : AccountMeta) (maxCapacity : Coin) (hlt : m.TransactionCapacity < maxCapacity) :
    recoveredCapacity dr p now m maxCapacity ≤ maxCapacity := by
  unfold recoveredCapacity
  rw [if_neg (not_le.mpr hlt)]
  have hpos : (0 : ℚ) ≤ ((maxCapacity - m.TransactionCapacity : Int) : ℚ) := by
    have : (0 : Int) ≤ maxCapacity - m.TransactionCapacity := by linarith
    exact_mod_cast this
  have hprod : Coin.ToDec (maxCapacity - m.TransactionCapacity) *
      (if NewDecFromRat dr (now - m.LastActivityAt) p.SecondsToRecoverBandwidth > 1 then 1
       else NewDecFromRat dr (now - m.LastActivityAt) p.SecondsToRecoverBandwidth) ≤
      ((maxCapacity - m.TransactionCapacity : Int) : ℚ) := by
    unfold Coin.ToDec
    calc ((maxCapacity - m.TransactionCapacity : Int) : ℚ) * _
        ≤ ((maxCapacity - m.TransactionCapacity : Int) : ℚ) * 1 :=
          mul_le_mul_of_nonneg_left (incrementRatio_le_one _) hpos
      _ = _ := mul_one _
  have hround := hmono.1 hprod
  rw [dr.mulRound_int] at hround
  have := roundHalfEven_le_of_le _ _ hround
  unfold DecToCoin Dec.Mul
  linarith

theorem recoveredCapacity_full (dr : DecRound) (hmono : dr.Mono) (p : Params) (now : Int)
    (m : AccountMeta) (maxCapacity : Coin)
    (hW : 0 < p.SecondsToRecoverBandwidth) (hlt : m.TransactionCapacity < maxCapacity)
    (hel : p.SecondsToRecoverBandwidth ≤ now - m.LastActivityAt) :
    recoveredCapacity dr p now m maxCapacity = maxCapacity := by
  unfold recoveredCapacity
  rw [if_neg (not_le.mpr hlt)]
  have hWq : (0 : ℚ) < (p.SecondsToRecoverBandwidth : ℚ) := by exact_mod_cast hW
  have helq : (p.SecondsToRecoverBandwidth : ℚ) ≤ ((now - m.LastActivityAt : Int) : ℚ) := by
    exact_mod_cast hel
  have hone : (((1 : Int) : ℚ)) ≤
      ((now - m.LastActivityAt : Int) : ℚ) / (p.SecondsToRecoverBandwidth : ℚ) := by
    rw [le_div_iff₀ hWq]
    simpa using helq
  have hq := hmono.2 hone
  rw [dr.quoRound_int] at hq
  have hratio : (if NewDecFromRat dr (now - m.LastActivityAt)
        p.SecondsToRecoverBandwidth > 1 then 1
      else NewDecFromRat dr (now - m.LastActivityAt) p.SecondsToRecoverBandwidth) =
      (1 : Dec) := by
    split
    · rfl
    · rename_i h
      have h2 : NewDecFromRat dr (now - m.LastActivityAt) p.SecondsToRecoverBandwidth ≤ 1 :=
        not_lt.mp h
      have h3 : (1 : ℚ) ≤
          NewDecFromRat dr (now - m.LastActivityAt) p.SecondsToRecoverBandwidth := by
        unfold NewDecFromRat Dec.Quo NewDec
        simpa using hq
      exact le_antisymm h2 h3
  rw [hratio]
  unfold DecToCoin Dec.Mul Coin.ToDec
  rw [mul_one, dr.mulRound_int, roundHalfEven_intCast]
  ring

/-- C19: with an order-preserving decimal rounding and a positive
`SecondsToRecoverBandwidth`, for a stored capacity below
`maxCapacity = GetCoinDay(now) + VirtualCoin` the recovered capacity of
`CheckUserTPSCapacity` is at most `maxCapacity`, and it is `maxCapacity` exactly whenever
`now - LastActivityAt ≥ SecondsToRecoverBandwidth`; an admitting call therefore stores
the capacity `maxCapacity - cost` at most, and exactly that after a full window. -/
theorem recovery_never_overshoots (dr : DecRound) (hmono : dr.Mono) (p : Params) (now : Int)
    (s : AccountStorage) (u : AccountKey) (r : Dec) (m : AccountMeta) (b : AccountBank)
    (q : PendingCoinDayQueue)
    (hm : s.accMeta u = some m) (hb : s.bank u = some b) (hq : s.queue u = some q)
    (hW : 0 < p.SecondsToRecoverBandwidth)
    (hlt : m.TransactionCapacity < (GetCoinDay dr p now s u).2.1 + p.VirtualCoin) :
    recoveredCapacity dr p now m ((GetCoinDay dr p now s u).2.1 + p.VirtualCoin) ≤
      (GetCoinDay dr p now s u).2.1 + p.VirtualCoin ∧
    (p.SecondsToRecoverBandwidth ≤ now - m.LastActivityAt →
      recoveredCapacity dr p now m ((GetCoinDay dr p now s u).2.1 + p.VirtualCoin) =
        (GetCoinDay dr p now s u).2.1 + p.VirtualCoin) ∧
    ((CheckUserTPSCapacity dr p now s u r).1 = none →
      ∃ m2 : AccountMeta,
        (CheckUserTPSCapacity dr p now s u r).2.accMeta u = some m2 ∧
        m2.TransactionCapacity + currentTxCost dr p r ≤
          (GetCoinDay dr p now s u).2.1 + p.VirtualCoin ∧
        (p.SecondsToRecoverBandwidth ≤ now - m.LastActivityAt →
          m2.TransactionCapacity + currentTxCost dr p r =
            (GetCoinDay dr p now s u).2.1 + p.VirtualCoin)) := by
  have h1 := recoveredCapacity_le dr hmono p now m _ hlt
  have h2 := recoveredCapacity_full dr hmono p now m _ hW hlt
  refine ⟨h1, h2, ?_⟩
  intro hok
  rw [CheckUserTPSCapacity_eq dr p now s u r m b q hm hb hq] at hok ⊢
  by_cases h : currentTxCost dr p r >
      recoveredCapacity dr p now m ((GetCoinDay dr p now s u).2.1 + p.VirtualCoin)
  · rw [if_pos h] at hok
    simp at hok
  · rw [if_neg h]
    refine ⟨_, get_set_meta _ _ _, ?_, ?_⟩
    · simp only
      linarith
    · intro hel
      simp only
      rw [h2 hel]
      ring

theorem recovery_never_overshoots_witness :
    (exactDec.Mono ∧ sampleStore.accMeta "alice" = some {} ∧
      sampleStore.bank "alice" = some sampleBank ∧
      sampleStore.queue "alice" = some sampleQueue ∧
      0 < sampleParams.SecondsToRecoverBandwidth ∧
      ({} : AccountMeta).TransactionCapacity <
        (GetCoinDay exactDec sampleParams 302400 sampleStore "alice").2.1 +
          sampleParams.VirtualCoin) ∧
    recoveredCapacity exactDec sampleParams 302400 {} 6 = 3 ∧
    recoveredCapacity exactDec sampleParams 302400 {}
        ((GetCoinDay exactDec sampleParams 302400 sampleStore "alice").2.1 +
          sampleParams.VirtualCoin) ≤ 6 := by
  have hlt : ({} : AccountMeta).TransactionCapacity <
      (GetCoinDay exactDec sampleParams 302400 sampleStore "alice").2.1 +
        sampleParams.VirtualCoin := by
    rw [GetCoinDay_sample_half]; decide
  refine ⟨⟨exactDec_mono, rfl, rfl, rfl, by decide, hlt⟩, recoveredCapacity_sample_half, ?_⟩
  have h := (recovery_never_overshoots exactDec exactDec_mono sampleParams 302400 sampleStore
    "alice" 1 {} sampleBank sampleQueue rfl rfl rfl (by decide) hlt).1
  rw [GetCoinDay_sample_half] at h
  rw [GetCoinDay_sample_half]
  exact h

/-- C20: when `CheckUserTPSCapacity` admits, the meta record it stores has
`TransactionCapacity` equal to the recovered capacity minus the cost and `LastActivityAt`
equal to the block time, and its `Sequence`, `LastPostAt`, `LastReportOrUpvoteAt` and
`JSONMeta` are those of the record read; the meta records of the other accounts, the
account infos and the rewards are not written. -/
theorem admitted_meta_update (dr : DecRound) (p : Params) (now : Int)
    (s : AccountStorage) (u : AccountKey) (r : Dec) (m : AccountMeta) (b : AccountBank)
    (q : PendingCoinDayQueue)
    (hm : s.accMeta u = some m) (hb : s.bank u = some b) (hq : s.queue u = some q)
    (hok : (CheckUserTPSCapacity dr p now s u r).1 = none) :
    ∃ m2 : AccountMeta,
      (CheckUserTPSCapacity dr p now s u r).2.accMeta u = some m2 ∧
      m2.TransactionCapacity =
        recoveredCapacity dr p now m ((GetCoinDay dr p now s u).2.1 + p.VirtualCoin) -
          currentTxCost dr p r ∧
      m2.LastActivityAt = now ∧
      m2.Sequence = m.Sequence ∧ m2.LastPostAt = m.LastPostAt ∧
      m2.LastReportOrUpvoteAt = m.LastReportOrUpvoteAt ∧ m2.JSONMeta = m.JSONMeta ∧
      (∀ v, v ≠ u → (CheckUserTPSCapacity dr p now s u r).2.accMeta v = s.accMeta v) ∧
      (CheckUserTPSCapacity dr p now s u r).2.info = s.info ∧
      (CheckUserTPSCapacity dr p now s u r).2.reward = s.reward := by
  have hg := GetCoinDay_eq dr p now s u b q hb hq
  rw [CheckUserTPSCapacity_eq dr p now s u r m b q hm hb hq] at hok ⊢
  by_cases h : currentTxCost dr p r >
      recoveredCapacity dr p now m ((GetCoinDay dr p now s u).2.1 + p.VirtualCoin)
  · rw [if_pos h] at hok
    simp at hok
  · rw [if_neg h]
    refine ⟨_, get_set_meta _ _ _, rfl, rfl, rfl, rfl, rfl, rfl, ?_, ?_, ?_⟩
    · intro v hv
      simp [AccountStorage.SetMeta, hv, hg, AccountStorage.SetBankFromAccountKey,
        AccountStorage.SetPendingCoinDayQueue]
    · simp [AccountStorage.SetMeta, hg, AccountStorage.SetBankFromAccountKey,
        AccountStorage.SetPendingCoinDayQueue]
    · simp [AccountStorage.SetMeta, hg, AccountStorage.SetBankFromAccountKey,
        AccountStorage.SetPendingCoinDayQueue]

theorem admitted_meta_update_witness :
    (sampleStore.accMeta "alice" = some {} ∧ sampleStore.bank "alice" = some sampleBank ∧
      sampleStore.queue "alice" = some sampleQueue ∧
      (CheckUserTPSCapacity exactDec sampleParams 302400 sampleStore "alice" 1).1 = none) ∧
    ∃ m2 : AccountMeta,
      (CheckUserTPSCapacity exactDec sampleParams 302400 sampleStore "alice" 1).2.accMeta
        "alice" = some m2 ∧
      m2.TransactionCapacity = 2 ∧ m2.LastActivityAt = 302400 ∧ m2.Sequence = 0 ∧
      m2.JSONMeta = "" := by
  have hR : recoveredCapacity exactDec sampleParams 302400 {}
      ((GetCoinDay exactDec sampleParams 302400 sampleStore "alice").2.1 +
        sampleParams.VirtualCoin) = 3 := by
    rw [GetCoinDay_sample_half]
    exact recoveredCapacity_sample_half
  have hc : currentTxCost exactDec sampleParams 1 = 1 := by
    simpa using currentTxCost_sample 1
  have hok : (CheckUserTPSCapacity exactDec sampleParams 302400 sampleStore "alice" 1).1 =
      none := by
    rw [CheckUserTPSCapacity_eq exactDec sampleParams 302400 sampleStore "alice" 1 {}
      sampleBank sampleQueue rfl rfl rfl, hR, hc]
    rfl
  refine ⟨⟨rfl, rfl, rfl, hok⟩, ?_⟩
  obtain ⟨m2, h1, h2, h3, h4, -, -, h7, -⟩ :=
    admitted_meta_update exactDec sampleParams 302400 sampleStore "alice" 1
      {} sampleBank sampleQueue rfl rfl rfl hok
  rw [hR, hc] at h2
  exact ⟨m2, h1, by rw [h2]; decide, h3, h4, h7⟩

/-! ## Deposits: the missing account and the zero amount -/

/-- C27: for a username without an account record, `AddSavingCoin` and
`AddSavingCoinWithFullCoinDay` return `ErrAccountNotFound` for every amount, zero
included, and return the store they were given. -/
theorem deposit_missing_account (dr : DecRound) (p : Params) (now : Int)
    (s : AccountStorage) (u : AccountKey) (c : Coin)
    (hex : s.DoesAccountExist u = false) :
    AddSavingCoin dr p now s u c = (some (Error.ErrAccountNotFound u), s) ∧
    AddSavingCoinWithFullCoinDay s u c = (some (Error.ErrAccountNotFound u), s) := by
  simp [AddSavingCoin, AddSavingCoinWithFullCoinDay, hex]

theorem deposit_missing_account_witness :
    sampleStore.DoesAccountExist "bob" = false ∧
    AddSavingCoin exactDec sampleParams 302400 sampleStore "bob" 0 =
      (some (Error.ErrAccountNotFound "bob"), sampleStore) ∧
    AddSavingCoinWithFullCoinDay sampleStore "bob" 0 =
      (some (Error.ErrAccountNotFound "bob"), sampleStore) ∧
    AddSavingCoin exactDec sampleParams 302400 sampleStore "bob" 5 =
      (some (Error.ErrAccountNotFound "bob"), sampleStore) ∧
    AddSavingCoinWithFullCoinDay sampleStore "bob" 5 =
      (some (Error.ErrAccountNotFound "bob"), sampleStore) :=
  ⟨rfl, (deposit_missing_account exactDec sampleParams 302400 sampleStore "bob" 0 rfl).1,
    (deposit_missing_account exactDec sampleParams 302400 sampleStore "bob" 0 rfl).2,
    (deposit_missing_account exactDec sampleParams 302400 sampleStore "bob" 5 rfl).1,
    (deposit_missing_account exactDec sampleParams 302400 sampleStore "bob" 5 rfl).2⟩

/-- C28: on an existing account and at every block time, `AddSavingCoin` of a zero coin
succeeds and returns the store it was given: the bank record and the pending queue
(entries, `TotalCoin`, `TotalCoinDay`, `LastUpdatedAt`) are those stored before, and no
entry is inserted. -/
theorem zero_deposit_noop (dr : DecRound) (p : Params) (now : Int)
    (s : AccountStorage) (u : AccountKey)
    (hex : s.DoesAccountExist u = true) :
    AddSavingCoin dr p now s u 0 = (none, s) ∧
    (AddSavingCoin dr p now s u 0).2.bank u = s.bank u ∧
    (AddSavingCoin dr p now s u 0).2.queue u = s.queue u := by
  have h : AddSavingCoin dr p now s u 0 = (none, s) := by
    simp [AddSavingCoin, hex]
  rw [h]
  exact ⟨rfl, rfl, rfl⟩

theorem zero_deposit_noop_witness :
    sampleStore.DoesAccountExist "alice" = true ∧
    AddSavingCoin exactDec sampleParams 604800 sampleStore "alice" 0 = (none, sampleStore) ∧
    (AddSavingCoin exactDec sampleParams 604800 sampleStore "alice" 0).2.queue "alice" =
      some sampleQueue :=
  ⟨rfl, (zero_deposit_noop exactDec sampleParams 604800 sampleStore "alice" rfl).1,
    (zero_deposit_noop exactDec sampleParams 604800 sampleStore "alice" rfl).2.2.trans rfl⟩

/-! ## Time bucketing -/

theorem bucketFloor_eq (t : Int) : bucketFloor t = t / 1200 * 1200 := by
  unfold bucketFloor CoinDayRecordIntervalSec
  have h := Rat.floor_intCast_div_natCast t 1200
  have h2 : ⌊(t : ℚ) / ((1200 : Int) : ℚ)⌋ = t / 1200 := by
    simpa using h
  rw [h2]

theorem timeSlot_neg (t : Int) (h : t < 0) : timeSlot t = -((-t) / 1200 * 1200) := by
  have e := Int.tdiv_eq_ediv (a := -t) (b := 1200) (by omega) (by norm_num)
  rw [Int.neg_tdiv] at e
  have e2 : Int.tdiv t 1200 = -((-t) / 1200) := by omega
  simp only [timeSlot, CoinDayRecordIntervalSec, e2]
  ring

/-- C29, as the code has it: the slot `t / 1200 * 1200` of Go's truncating division is a
multiple of the interval and bucketing is idempotent for every `t`; for `t ≥ 0` it is
`floor (t / interval) * interval`, with `slot ≤ t < slot + interval`; for `t < 0` it is
the multiple at or above `t`, with `t ≤ slot < t + interval`. -/
theorem timeSlot_bucketing (t : Int) :
    (1200 ∣ timeSlot t) ∧ timeSlot (timeSlot t) = timeSlot t ∧
    (0 ≤ t → timeSlot t = bucketFloor t ∧ timeSlot t ≤ t ∧ t < timeSlot t + 1200) ∧
    (t < 0 → t ≤ timeSlot t ∧ timeSlot t < t + 1200) := by
  have hdvd : (1200 : Int) ∣ timeSlot t := by
    unfold timeSlot CoinDayRecordIntervalSec
    exact Dvd.intro_left _ rfl
  have hidem : timeSlot (timeSlot t) = timeSlot t := by
    unfold timeSlot CoinDayRecordIntervalSec
    rw [Int.mul_tdiv_cancel _ (by norm_num)]
  refine ⟨hdvd, hidem, ?_, ?_⟩
  · intro h
    rw [bucketFloor_eq, timeSlot_of_nonneg t h]
    refine ⟨rfl, ?_, ?_⟩ <;> omega
  · intro h
    rw [timeSlot_neg t h]
    constructor <;> omega

theorem timeSlot_bucketing_witness :
    (0 : Int) ≤ 3000 ∧ timeSlot 3000 = 2400 ∧ bucketFloor 3000 = 2400 ∧
    timeSlot 3000 ≤ 3000 ∧ (3000 : Int) < timeSlot 3000 + 1200 ∧
    timeSlot (timeSlot 3000) = timeSlot 3000 := by
  obtain ⟨-, h2, h3, -⟩ := timeSlot_bucketing 3000
  obtain ⟨h4, h5, h6⟩ := h3 (by decide)
  have h7 : timeSlot 3000 = 2400 := by decide
  exact ⟨by decide, h7, by rw [← h4, h7], h5, h6, h2⟩

/-- The statement of C29 fails at `t = -1`: the slot is 0, which is above `t`, while
`floor (t / interval) * interval` is `-1200`. -/
theorem timeSlot_not_floor_at_neg_one :
    timeSlot (-1) = 0 ∧ bucketFloor (-1) = -1200 ∧ timeSlot (-1) ≠ bucketFloor (-1) ∧
    ¬ (timeSlot (-1) ≤ -1) := by
  have h1 : timeSlot (-1) = 0 := by decide
  have h2 : bucketFloor (-1) = -1200 := by
    rw [bucketFloor_eq]; decide
  refine ⟨h1, h2, ?_, ?_⟩
  · rw [h1, h2]; decide
  · rw [h1]; decide

/-! ## Recomputing twice -/

theorem expiredPart_pendingPart (slot : Int) (l : List PendingCoinDay) :
    expiredPart slot (pendingPart slot l) = [] := by
  induction l with
  | nil => rfl
  | cons a rest ih =>
    by_cases h : a.EndTime ≤ slot
    · have e : pendingPart slot (a :: rest) = pendingPart slot rest := by
        simp [pendingPart, List.dropWhile, h]
      rw [e, ih]
    · have e : pendingPart slot (a :: rest) = a :: rest := by
        simp [pendingPart, List.dropWhile, h]
      rw [e]
      simp [expiredPart, List.takeWhile, h]

/-- A recompute at the bucket the queue was last updated at, on a queue whose head entry is
not expired and whose totals are zero when it is empty, returns the records it was given. -/
theorem updateTX_noop (dr : DecRound) (p : Params) (now : Int) (b : AccountBank)
    (q : PendingCoinDayQueue) (hlu : q.LastUpdatedAt = timeSlot now)
    (hexp : expiredPart (timeSlot now) q.PendingCoinDays = [])
    (hz : q.PendingCoinDays = [] → q.TotalCoinDay = 0 ∧ q.TotalCoin = 0) :
    updateTXFromPendingCoinDayQueue dr p now b q = (b, q) := by
  have hm := dr.mulRound_int 0
  have hq := dr.quoRound_int 0
  simp only [Int.cast_zero] at hm hq
  have hpend : pendingPart (timeSlot now) q.PendingCoinDays = q.PendingCoinDays := by
    have := expired_append_pending (timeSlot now) q.PendingCoinDays
    rw [hexp] at this
    simpa using this
  obtain ⟨lu, tcd, tc, l⟩ := q
  simp only at hlu hexp hz hpend
  subst hlu
  by_cases hnil : l = []
  · obtain ⟨h1, h2⟩ := hz hnil
    subst hnil
    simp [updateTXFromPendingCoinDayQueue, removeExpired_eq, expiredPart, pendingPart,
      coinSum, removedWeight, h1, h2]
  · have hlen : ¬ l.length = 0 := by
      intro h0
      exact hnil (List.length_eq_zero.mp h0)
    simp [updateTXFromPendingCoinDayQueue, removeExpired_eq, hexp, hpend, coinSum,
      removedWeight, hnil, Dec.Quo, Dec.Mul, NewDec, hm, hq]

/-- C24: for every bank record, queue and block time, a second
`updateTXFromPendingCoinDayQueue` at a block time of the same bucket returns the bank
record and the queue that the first one produced: `CoinDay`, the entries, `TotalCoin`,
`TotalCoinDay` and `LastUpdatedAt` are unchanged, for every decimal rounding. -/
theorem updateTX_idempotent (dr : DecRound) (p : Params) (now now2 : Int) (b : AccountBank)
    (q : PendingCoinDayQueue) (hslot : timeSlot now2 = timeSlot now) :
    updateTXFromPendingCoinDayQueue dr p now2
        (updateTXFromPendingCoinDayQueue dr p now b q).1
        (updateTXFromPendingCoinDayQueue dr p now b q).2 =
      updateTXFromPendingCoinDayQueue dr p now b q := by
  apply updateTX_noop
  · rw [updateTX_lastUpdatedAt, hslot]
  · rw [updateTX_entries, hslot, expiredPart_pendingPart]
  · intro hnil
    rw [updateTX_entries] at hnil
    rw [updateTX_totalCoinDay, updateTX_totalCoin]
    simp [hnil]

theorem updateTX_idempotent_witness :
    timeSlot 302401 = timeSlot 302400 ∧
    updateTXFromPendingCoinDayQueue exactDec sampleParams 302401
        (updateTXFromPendingCoinDayQueue exactDec sampleParams 302400 sampleBank sampleQueue).1
        (updateTXFromPendingCoinDayQueue exactDec sampleParams 302400 sampleBank sampleQueue).2 =
      ({ Saving := 10, CoinDay := 0 },
       { LastUpdatedAt := 302400, TotalCoinDay := 5, TotalCoin := 10,
         PendingCoinDays := [{ StartTime := 0, EndTime := 604800, Coin := 10 }] }) := by
  have hs : timeSlot 302401 = timeSlot 302400 := by decide
  refine ⟨hs, ?_⟩
  rw [updateTX_idempotent exactDec sampleParams 302400 302401 sampleBank sampleQueue hs,
    updateTX_sample_half]

/-! ## Recomputing at an earlier bucket -/

theorem updateTX_sample_back :
    updateTXFromPendingCoinDayQueue exactDec sampleParams 0 sampleBank sampleQueueHalf =
      ({ Saving := 10, CoinDay := 0 },
       { LastUpdatedAt := 0, TotalCoinDay := 0, TotalCoin := 10,
         PendingCoinDays := [{ StartTime := 0, EndTime := 604800, Coin := 10 }] }) := by
  have hs : timeSlot 0 = 0 := by decide
  simp [updateTXFromPendingCoinDayQueue, removeExpired_eq, hs, sampleQueueHalf, sampleBank,
    sampleParams, expiredPart, pendingPart, coinSum, removedWeight, List.takeWhile,
    List.dropWhile, Dec.Quo, Dec.Mul, exactDec, NewDec, Coin.ToDec]
  norm_num

/-- The accrual step of a recompute at which no entry is expired, with exact decimals. -/
theorem updateTX_accrual_exact (p : Params) (now : Int) (b : AccountBank)
    (q : PendingCoinDayQueue)
    (hpend : ∀ e ∈ q.PendingCoinDays, timeSlot now < e.EndTime)
    (hne : q.PendingCoinDays ≠ []) :
    (updateTXFromPendingCoinDayQueue exactDec p now b q).2.TotalCoinDay =
      q.TotalCoinDay +
        (q.TotalCoin : ℚ) * ((timeSlot now - q.LastUpdatedAt : Int) : ℚ) /
          (p.SecondsToRecoverCoinDay : ℚ) ∧
    (updateTXFromPendingCoinDayQueue exactDec p now b q).2.TotalCoin = q.TotalCoin ∧
    (updateTXFromPendingCoinDayQueue exactDec p now b q).2.PendingCoinDays =
      q.PendingCoinDays := by
  have hexp := expiredPart_eq_nil_of_pending _ _ hpend
  have hpp := pendingPart_eq_self_of_pending _ _ hpend
  refine ⟨?_, ?_, ?_⟩
  · rw [updateTX_totalCoinDay, hexp, hpp, if_neg hne]
    simp [removedWeight, coinSum, Dec.Quo, Dec.Mul, NewDec, Coin.ToDec, exactDec]
  · rw [updateTX_totalCoin, hpp, if_neg hne, hexp]
    simp [coinSum]
  · rw [updateTX_entries, hpp]

/-- C25, as the code has it: `updateTXFromPendingCoinDayQueue` at a block time whose bucket
is earlier than `LastUpdatedAt`, on a non-empty queue none of whose entries is expired at
that bucket, sets `LastUpdatedAt` back to that bucket and adds to `TotalCoinDay` the
accrual `TotalCoin * (bucket - LastUpdatedAt) / SecondsToRecoverCoinDay`, which is
negative; with exact decimals a following recompute at any block time at which no entry
is expired yields the `TotalCoinDay` of the recompute made directly at that time, so no
accrual is counted twice. -/
theorem updateTX_earlier_bucket (dr : DecRound) (p : Params) (now : Int) (b : AccountBank)
    (q : PendingCoinDayQueue)
    (hlt : timeSlot now < q.LastUpdatedAt)
    (hpend : ∀ e ∈ q.PendingCoinDays, timeSlot now < e.EndTime)
    (hne : q.PendingCoinDays ≠ []) :
    (updateTXFromPendingCoinDayQueue dr p now b q).2.LastUpdatedAt = timeSlot now ∧
    (updateTXFromPendingCoinDayQueue dr p now b q).2.LastUpdatedAt < q.LastUpdatedAt ∧
    (updateTXFromPendingCoinDayQueue dr p now b q).2.TotalCoinDay =
      q.TotalCoinDay +
        Dec.Quo dr (Dec.Mul dr (Coin.ToDec q.TotalCoin)
          (NewDec (timeSlot now - q.LastUpdatedAt))) (NewDec p.SecondsToRecoverCoinDay) ∧
    (updateTXFromPendingCoinDayQueue exactDec p now b q).2.TotalCoinDay =
      q.TotalCoinDay -
        (q.TotalCoin : ℚ) * ((q.LastUpdatedAt - timeSlot now : Int) : ℚ) /
          (p.SecondsToRecoverCoinDay : ℚ) ∧
    (∀ now2 : Int, (∀ e ∈ q.PendingCoinDays, timeSlot now2 < e.EndTime) →
      (updateTXFromPendingCoinDayQueue exactDec p now2
          (updateTXFromPendingCoinDayQueue exactDec p now b q).1
          (updateTXFromPendingCoinDayQueue exactDec p now b q).2).2.TotalCoinDay =
        (updateTXFromPendingCoinDayQueue exactDec p now2 b q).2.TotalCoinDay) := by
  have hexp := expiredPart_eq_nil_of_pending _ _ hpend
  have hpp := pendingPart_eq_self_of_pending _ _ hpend
  obtain ⟨h1, h2, h3⟩ := updateTX_accrual_exact p now b q hpend hne
  refine ⟨updateTX_lastUpdatedAt dr p now b q, ?_, ?_, ?_, ?_⟩
  · rw [updateTX_lastUpdatedAt]; exact hlt
  · rw [updateTX_totalCoinDay, hexp, hpp, if_neg hne]
    simp [removedWeight, coinSum]
  · rw [h1]
    simp only [Int.cast_sub]
    ring
  · intro now2 hpend2
    obtain ⟨k1, -, -⟩ := updateTX_accrual_exact p now2 b q hpend2 hne
    obtain ⟨k2, -, -⟩ := updateTX_accrual_exact p now2
      (updateTXFromPendingCoinDayQueue exactDec p now b q).1
      (updateTXFromPendingCoinDayQueue exactDec p now b q).2
      (by rw [h3]; exact hpend2) (by rw [h3]; exact hne)
    rw [k1, k2, h1, h2, updateTX_lastUpdatedAt]
    simp only [Int.cast_sub]
    ring

theorem updateTX_earlier_bucket_witness :
    (timeSlot 0 < sampleQueueHalf.LastUpdatedAt ∧
      (∀ e ∈ sampleQueueHalf.PendingCoinDays, timeSlot 0 < e.EndTime) ∧
      sampleQueueHalf.PendingCoinDays ≠ []) ∧
    (updateTXFromPendingCoinDayQueue exactDec sampleParams 0 sampleBank
      sampleQueueHalf).2.LastUpdatedAt = 0 ∧
    (updateTXFromPendingCoinDayQueue exactDec sampleParams 0 sampleBank
      sampleQueueHalf).2.LastUpdatedAt < 302400 := by
  have hlt : timeSlot 0 < sampleQueueHalf.LastUpdatedAt := by decide
  have hpend : ∀ e ∈ sampleQueueHalf.PendingCoinDays, timeSlot 0 < e.EndTime := by
    intro e he
    simp only [sampleQueueHalf, List.mem_singleton] at he
    subst he
    decide
  have hne : sampleQueueHalf.PendingCoinDays ≠ [] := by
    simp [sampleQueueHalf]
  obtain ⟨h1, h2, -⟩ :=
    updateTX_earlier_bucket exactDec sampleParams 0 sampleBank sampleQueueHalf hlt hpend hne
  refine ⟨⟨hlt, hpend, hne⟩, ?_, h2⟩
  rw [h1]
  decide

/-- The statement of C25 fails on the sample queue recomputed at half a window (last
updated at 302400, `TotalCoinDay = 5`): a recompute at block time 0, whose bucket is
earlier, leaves `TotalCoinDay = 0` and `LastUpdatedAt = 0`. -/
theorem updateTX_moves_backwards :
    timeSlot 0 < sampleQueueHalf.LastUpdatedAt ∧
    sampleQueueHalf.TotalCoinDay = 5 ∧
    (updateTXFromPendingCoinDayQueue exactDec sampleParams 0 sampleBank
      sampleQueueHalf).2.TotalCoinDay = 0 ∧
    (updateTXFromPendingCoinDayQueue exactDec sampleParams 0 sampleBank
      sampleQueueHalf).2.LastUpdatedAt = 0 ∧
    (updateTXFromPendingCoinDayQueue exactDec sampleParams 0 sampleBank
      sampleQueueHalf).2.LastUpdatedAt < sampleQueueHalf.LastUpdatedAt := by
  rw [updateTX_sample_back]
  exact ⟨by decide, rfl, rfl, rfl, by decide⟩

/-! ## Bandwidth capacity: denial and bounds -/

/-- C21, as the code has it: when `CheckUserTPSCapacity` rejects, it returns before
`SetMeta`: the stored meta record is the one read, with its `TransactionCapacity` and its
`LastActivityAt`, and the recovered capacity only served the comparison with the cost;
the store returned is the one left by `GetCoinDay`, which holds the recomputed bank record
and queue. -/
theorem CheckUserTPSCapacity_denial (dr : DecRound) (p : Params) (now : Int)
    (s : AccountStorage) (u : AccountKey) (r : Dec) (m : AccountMeta) (b : AccountBank)
    (q : PendingCoinDayQueue)
    (hm : s.accMeta u = some m) (hb : s.bank u = some b) (hq : s.queue u = some q)
    (hrej : (CheckUserTPSCapacity dr p now s u r).1 =
      some (Error.ErrAccountTPSCapacityNotEnough u)) :
    (CheckUserTPSCapacity dr p now s u r).2 = (GetCoinDay dr p now s u).2.2 ∧
    (CheckUserTPSCapacity dr p now s u r).2.accMeta u = some m ∧
    (CheckUserTPSCapacity dr p now s u r).2.accMeta = s.accMeta ∧
    (CheckUserTPSCapacity dr p now s u r).2.bank u =
      some (updateTXFromPendingCoinDayQueue dr p now b q).1 ∧
    (CheckUserTPSCapacity dr p now s u r).2.queue u =
      some (updateTXFromPendingCoinDayQueue dr p now b q).2 := by
  have hg := GetCoinDay_eq dr p now s u b q hb hq
  have hst : (CheckUserTPSCapacity dr p now s u r).2 = (GetCoinDay dr p now s u).2.2 := by
    rw [CheckUserTPSCapacity_eq dr p now s u r m b q hm hb hq] at hrej ⊢
    by_cases h : currentTxCost dr p r >
        recoveredCapacity dr p now m ((GetCoinDay dr p now s u).2.1 + p.VirtualCoin)
    · rw [if_pos h]
    · rw [if_neg h] at hrej
      simp at hrej
  rw [hst, hg]
  refine ⟨rfl, ?_, rfl, get_set_bank _ _ _, get_set_queue_bank _ _ _ _⟩
  simpa [AccountStorage.SetBankFromAccountKey, AccountStorage.SetPendingCoinDayQueue] using hm

theorem CheckUserTPSCapacity_sample_denied :
    (CheckUserTPSCapacity exactDec sampleParams 302400 sampleStore "alice" 4).1 =
      some (Error.ErrAccountTPSCapacityNotEnough "alice") := by
  have hR : recoveredCapacity exactDec sampleParams 302400 {}
      ((GetCoinDay exactDec sampleParams 302400 sampleStore "alice").2.1 +
        sampleParams.VirtualCoin) = 3 := by
    rw [GetCoinDay_sample_half]
    exact recoveredCapacity_sample_half
  have hc : currentTxCost exactDec sampleParams 4 = 4 := by
    simpa using currentTxCost_sample 4
  rw [CheckUserTPSCapacity_eq exactDec sampleParams 302400 sampleStore "alice" 4 {}
    sampleBank sampleQueue rfl rfl rfl, hR, hc]
  rfl

theorem CheckUserTPSCapacity_denial_witness :
    (sampleStore.accMeta "alice" = some {} ∧ sampleStore.bank "alice" = some sampleBank ∧
      sampleStore.queue "alice" = some sampleQueue ∧
      (CheckUserTPSCapacity exactDec sampleParams 302400 sampleStore "alice" 4).1 =
        some (Error.ErrAccountTPSCapacityNotEnough "alice")) ∧
    (CheckUserTPSCapacity exactDec sampleParams 302400 sampleStore "alice" 4).2.accMeta
      "alice" = some {} ∧
    (CheckUserTPSCapacity exactDec sampleParams 302400 sampleStore "alice" 4).2.queue
      "alice" = some sampleQueueHalf := by
  obtain ⟨-, h2, -, -, h5⟩ :=
    CheckUserTPSCapacity_denial exactDec sampleParams 302400 sampleStore "alice" 4 {}
      sampleBank sampleQueue rfl rfl rfl CheckUserTPSCapacity_sample_denied
  rw [updateTX_sample_half] at h5
  exact ⟨⟨rfl, rfl, rfl, CheckUserTPSCapacity_sample_denied⟩, h2, h5⟩

/-- The statement of C21 fails on `sampleStore` at block time 302400 with a cost of 4:
the recovered capacity is 3, the call is rejected, and the stored `TransactionCapacity`
afterwards is the 0 stored before, not 3. -/
theorem denial_does_not_persist_recovery :
    sampleStore.accMeta "alice" = some {} ∧
    recoveredCapacity exactDec sampleParams 302400 {}
      ((GetCoinDay exactDec sampleParams 302400 sampleStore "alice").2.1 +
        sampleParams.VirtualCoin) = 3 ∧
    (CheckUserTPSCapacity exactDec sampleParams 302400 sampleStore "alice" 4).1 =
      some (Error.ErrAccountTPSCapacityNotEnough "alice") ∧
    ∃ m2 : AccountMeta,
      (CheckUserTPSCapacity exactDec sampleParams 302400 sampleStore "alice" 4).2.accMeta
        "alice" = some m2 ∧
      m2.TransactionCapacity = 0 ∧ m2.TransactionCapacity ≠ 3 := by
  have hR : recoveredCapacity exactDec sampleParams 302400 {}
      ((GetCoinDay exactDec sampleParams 302400 sampleStore "alice").2.1 +
        sampleParams.VirtualCoin) = 3 := by
    rw [GetCoinDay_sample_half]
    exact recoveredCapacity_sample_half
  have hc : currentTxCost exactDec sampleParams 4 = 4 := by
    simpa using currentTxCost_sample 4
  refine ⟨rfl, hR, CheckUserTPSCapacity_sample_denied, {}, ?_, rfl, by decide⟩
  rw [CheckUserTPSCapacity_eq exactDec sampleParams 302400 sampleStore "alice" 4 {}
    sampleBank sampleQueue rfl rfl rfl, hR, hc, GetCoinDay_sample_half]
  rfl

theorem currentTxCost_nonneg (dr : DecRound) (hmono : dr.Mono) (p : Params) (r : Dec)
    (hcap : 0 ≤ p.CapacityUsagePerTransaction) (hr : 0 ≤ r) : 0 ≤ currentTxCost dr p r := by
  unfold currentTxCost DecToCoin Dec.Mul Coin.ToDec
  apply roundHalfEven_ge_of_ge
  have h0 : (0 : ℚ) ≤ (p.CapacityUsagePerTransaction : ℚ) * r :=
    mul_nonneg (by exact_mod_cast hcap) hr
  have := hmono.1 h0
  have hz := dr.mulRound_int 0
  simp only [Int.cast_zero] at hz
  rw [hz] at this
  simpa using this

/-- C23: with an order-preserving decimal rounding, a non-negative
`CapacityUsagePerTransaction` and a non-negative `tpsCapacityRatio`, the
`TransactionCapacity` stored by an admitting `CheckUserTPSCapacity` is at least 0 and at
most `GetCoinDay(now) + VirtualCoin`. -/
theorem stored_capacity_bounds (dr : DecRound) (hmono : dr.Mono) (p : Params) (now : Int)
    (s : AccountStorage) (u : AccountKey) (r : Dec) (m : AccountMeta) (b : AccountBank)
    (q : PendingCoinDayQueue)
    (hm : s.accMeta u = some m) (hb : s.bank u = some b) (hq : s.queue u = some q)
    (hcap : 0 ≤ p.CapacityUsagePerTransaction) (hr : 0 ≤ r)
    (hok : (CheckUserTPSCapacity dr p now s u r).1 = none) :
    ∃ m2 : AccountMeta,
      (CheckUserTPSCapacity dr p now s u r).2.accMeta u = some m2 ∧
      0 ≤ m2.TransactionCapacity ∧
      m2.TransactionCapacity ≤ (GetCoinDay dr p now s u).2.1 + p.VirtualCoin := by
  have hcost := currentTxCost_nonneg dr hmono p r hcap hr
  have hR : recoveredCapacity dr p now m ((GetCoinDay dr p now s u).2.1 + p.VirtualCoin) ≤
      (GetCoinDay dr p now s u).2.1 + p.VirtualCoin := by
    by_cases hge : m.TransactionCapacity ≥ (GetCoinDay dr p now s u).2.1 + p.VirtualCoin
    · unfold recoveredCapacity
      rw [if_pos hge]
    · exact recoveredCapacity_le dr hmono p now m _ (lt_of_not_ge hge)
  rw [CheckUserTPSCapacity_eq dr p now s u r m b q hm hb hq] at hok ⊢
  by_cases h : currentTxCost dr p r >
      recoveredCapacity dr p now m ((GetCoinDay dr p now s u).2.1 + p.VirtualCoin)
  · rw [if_pos h] at hok
    simp at hok
  · rw [if_neg h]
    refine ⟨_, get_set_meta _ _ _, ?_, ?_⟩
    · simp only
      linarith [not_lt.mp h]
    · simp only
      linarith

theorem stored_capacity_bounds_witness :
    (exactDec.Mono ∧ sampleStore.accMeta "alice" = some {} ∧
      sampleStore.bank "alice" = some sampleBank ∧
      sampleStore.queue "alice" = some sampleQueue ∧
      0 ≤ sampleParams.CapacityUsagePerTransaction ∧ (0 : Dec) ≤ 1 ∧
      (CheckUserTPSCapacity exactDec sampleParams 302400 sampleStore "alice" 1).1 = none) ∧
    ∃ m2 : AccountMeta,
      (CheckUserTPSCapacity exactDec sampleParams 302400 sampleStore "alice" 1).2.accMeta
        "alice" = some m2 ∧
      0 ≤ m2.TransactionCapacity ∧ m2.TransactionCapacity ≤ 6 := by
  have hR : recoveredCapacity exactDec sampleParams 302400 {}
      ((GetCoinDay exactDec sampleParams 302400 sampleStore "alice").2.1 +
        sampleParams.VirtualCoin) = 3 := by
    rw [GetCoinDay_sample_half]
    exact recoveredCapacity_sample_half
  have hc : currentTxCost exactDec sampleParams 1 = 1 := by
    simpa using currentTxCost_sample 1
  have hok : (CheckUserTPSCapacity exactDec sampleParams 302400 sampleStore "alice" 1).1 =
      none := by
    rw [CheckUserTPSCapacity_eq exactDec sampleParams 302400 sampleStore "alice" 1 {}
      sampleBank sampleQueue rfl rfl rfl, hR, hc]
    rfl
  refine ⟨⟨exactDec_mono, rfl, rfl, rfl, by decide, by norm_num, hok⟩, ?_⟩
  obtain ⟨m2, h1, h2, h3⟩ :=
    stored_capacity_bounds exactDec exactDec_mono sampleParams 302400 sampleStore "alice" 1
      {} sampleBank sampleQueue rfl rfl rfl (by decide) (by norm_num) hok
  rw [GetCoinDay_sample_half] at h3
  exact ⟨m2, h1, h2, h3⟩

/-! ## The admission scenario -/

theorem GetCoinDay_no_pending (dr : DecRound) (p : Params) (now : Int) (s : AccountStorage)
    (u : AccountKey) (b : AccountBank) (q : PendingCoinDayQueue)
    (hb : s.bank u = some b) (hq : s.queue u = some q) (hempty : q.PendingCoinDays = []) :
    (GetCoinDay dr p now s u).2.1 = b.CoinDay ∧
    (GetCoinDay dr p now s u).2.2.accMeta = s.accMeta ∧
    ∃ (b2 : AccountBank) (q2 : PendingCoinDayQueue),
      (GetCoinDay dr p now s u).2.2.bank u = some b2 ∧
      (GetCoinDay dr p now s u).2.2.queue u = some q2 ∧
      q2.PendingCoinDays = [] ∧ b2.CoinDay = b.CoinDay := by
  rw [GetCoinDay_eq dr p now s u b q hb hq]
  refine ⟨?_, rfl, _, _, get_set_bank _ _ _, get_set_queue_bank _ _ _ _, ?_, ?_⟩
  · simp only
    rw [updateTX_fst, updateTX_totalCoinDay, hempty]
    simp [expiredPart, pendingPart, coinSum, DecToCoin, roundHalfEven]
  · rw [updateTX_entries, hempty]
    rfl
  · rw [updateTX_fst, hempty]
    simp [expiredPart, coinSum]

theorem recoveredCapacity_at_rest (dr : DecRound) (p : Params) (now : Int) (m : AccountMeta)
    (maxCapacity : Coin)
    (h : m.TransactionCapacity = maxCapacity ∨
      (m.LastActivityAt = now ∧ m.TransactionCapacity ≤ maxCapacity)) :
    recoveredCapacity dr p now m maxCapacity = m.TransactionCapacity := by
  have hm := dr.mulRound_int 0
  have hq := dr.quoRound_int 0
  simp only [Int.cast_zero] at hm hq
  unfold recoveredCapacity
  by_cases hge : m.TransactionCapacity ≥ maxCapacity
  · rw [if_pos hge]
    rcases h with h | ⟨-, h⟩
    · exact h.symm
    · exact le_antisymm hge h
  · rw [if_neg hge]
    rcases h with h | ⟨h, -⟩
    · exact absurd (le_of_eq h.symm) hge
    · have hr : NewDecFromRat dr (now - m.LastActivityAt) p.SecondsToRecoverBandwidth = 0 := by
        simp [NewDecFromRat, Dec.Quo, NewDec, h, hq]
      rw [hr]
      have hnot : ¬ ((0 : Dec) > 1) := by norm_num
      rw [if_neg hnot]
      unfold DecToCoin Dec.Mul
      rw [mul_zero, hm]
      have h0 := roundHalfEven_intCast 0
      simp only [Int.cast_zero] at h0
      rw [h0]
      ring

theorem recoveredCapacity_after_window (dr : DecRound) (p : Params) (now : Int)
    (m : AccountMeta) (maxCapacity : Coin)
    (hW : 0 < p.SecondsToRecoverBandwidth) (hlt : m.TransactionCapacity < maxCapacity)
    (hel : now - m.LastActivityAt = p.SecondsToRecoverBandwidth) :
    recoveredCapacity dr p now m maxCapacity = maxCapacity := by
  have hq := dr.quoRound_int 1
  simp only [Int.cast_one] at hq
  have hWq : (p.SecondsToRecoverBandwidth : ℚ) ≠ 0 := by
    have : p.SecondsToRecoverBandwidth ≠ 0 := ne_of_gt hW
    exact_mod_cast this
  unfold recoveredCapacity
  rw [if_neg (not_le.mpr hlt)]
  have hr : NewDecFromRat dr (now - m.LastActivityAt) p.SecondsToRecoverBandwidth = 1 := by
    simp [NewDecFromRat, Dec.Quo, NewDec, hel, div_self hWq, hq]
  rw [hr]
  unfold DecToCoin Dec.Mul Coin.ToDec
  simp only [gt_iff_lt, lt_self_iff_false, if_false, mul_one]
  rw [dr.mulRound_int, roundHalfEven_intCast]
  ring

theorem currentTxCost_one (dr : DecRound) (p : Params) :
    currentTxCost dr p 1 = p.CapacityUsagePerTransaction := by
  unfold currentTxCost DecToCoin Dec.Mul Coin.ToDec
  rw [mul_one, dr.mulRound_int, roundHalfEven_intCast]

/-- One call at block time `now` on an account without pending entries whose stored
capacity is at rest: it is admitted when the capacity covers the cost and rejected when it
does not, and the account stays without pending entries. -/
theorem CheckUserTPSCapacity_at_rest (dr : DecRound) (p : Params) (now : Int)
    (s : AccountStorage) (u : AccountKey) (m : AccountMeta) (b : AccountBank)
    (q : PendingCoinDayQueue)
    (hm : s.accMeta u = some m) (hb : s.bank u = some b) (hq : s.queue u = some q)
    (hempty : q.PendingCoinDays = [])
    (h : m.TransactionCapacity = b.CoinDay + p.VirtualCoin ∨
      (m.LastActivityAt = now ∧ m.TransactionCapacity ≤ b.CoinDay + p.VirtualCoin)) :
    ∃ (m2 : AccountMeta) (b2 : AccountBank) (q2 : PendingCoinDayQueue),
      (CheckUserTPSCapacity dr p now s u 1).2.accMeta u = some m2 ∧
      (CheckUserTPSCapacity dr p now s u 1).2.bank u = some b2 ∧
      (CheckUserTPSCapacity dr p now s u 1).2.queue u = some q2 ∧
      q2.PendingCoinDays = [] ∧ b2.CoinDay = b.CoinDay ∧
      (p.CapacityUsagePerTransaction ≤ m.TransactionCapacity →
        (CheckUserTPSCapacity dr p now s u 1).1 = none ∧
        m2.TransactionCapacity = m.TransactionCapacity - p.CapacityUsagePerTransaction ∧
        m2.LastActivityAt = now) ∧
      (m.TransactionCapacity < p.CapacityUsagePerTransaction →
        (CheckUserTPSCapacity dr p now s u 1).1 =
          some (Error.ErrAccountTPSCapacityNotEnough u) ∧ m2 = m) := by
  obtain ⟨hg1, hg2, b2, q2, hg3, hg4, hg5, hg6⟩ :=
    GetCoinDay_no_pending dr p now s u b q hb hq hempty
  have hR := recoveredCapacity_at_rest dr p now m (b.CoinDay + p.VirtualCoin) h
  rw [CheckUserTPSCapacity_eq dr p now s u 1 m b q hm hb hq, hg1, hR, currentTxCost_one]
  by_cases hc : p.CapacityUsagePerTransaction > m.TransactionCapacity
  · rw [if_pos hc]
    refine ⟨m, b2, q2, ?_, hg3, hg4, hg5, hg6, fun h2 => absurd hc (not_lt.mpr h2),
      fun _ => ⟨rfl, rfl⟩⟩
    simp only
    rw [hg2, hm]
  · rw [if_neg hc]
    refine ⟨_, b2, q2, get_set_meta _ _ _, ?_, ?_, hg5, hg6, fun _ => ⟨rfl, rfl, rfl⟩,
      fun h2 => absurd h2 hc⟩
    · simpa [AccountStorage.SetMeta] using hg3
    · simpa [AccountStorage.SetMeta] using hg4

theorem checkTPSTimes_state (dr : DecRound) (p : Params) (t : Int) (s : AccountStorage)
    (u : AccountKey) (m : AccountMeta) (b : AccountBank) (q : PendingCoinDayQueue)
    (hm : s.accMeta u = some m) (hb : s.bank u = some b) (hq : s.queue u = some q)
    (hcost : p.CapacityUsagePerTransaction = 10)
    (hempty : q.PendingCoinDays = []) (hmax : b.CoinDay + p.VirtualCoin = 100)
    (hcap : m.TransactionCapacity = 100) (n : Nat) (hn : n ≤ 10) :
    ∃ (m2 : AccountMeta) (b2 : AccountBank) (q2 : PendingCoinDayQueue),
      (checkTPSTimes dr p t u 1 n s).accMeta u = some m2 ∧
      (checkTPSTimes dr p t u 1 n s).bank u = some b2 ∧
      (checkTPSTimes dr p t u 1 n s).queue u = some q2 ∧
      q2.PendingCoinDays = [] ∧ b2.CoinDay = b.CoinDay ∧
      m2.TransactionCapacity = 100 - 10 * (n : Int) ∧ (n = 0 ∨ m2.LastActivityAt = t) := by
  induction n with
  | zero => exact ⟨m, b, q, hm, hb, hq, hempty, rfl, by simp [hcap], Or.inl rfl⟩
  | succ k ih =>
    obtain ⟨m1, b1, q1, h1, h2, h3, h4, h5, h6, h7⟩ := ih (by omega)
    have hk : (k : Int) ≤ 9 := by omega
    have hrest : m1.TransactionCapacity = b1.CoinDay + p.VirtualCoin ∨
        (m1.LastActivityAt = t ∧ m1.TransactionCapacity ≤ b1.CoinDay + p.VirtualCoin) := by
      rw [h5, hmax, h6]
      rcases h7 with h7 | h7
      · left
        subst h7
        simp
      · right
        have h0 : (0 : Int) ≤ (k : Int) := Int.natCast_nonneg k
        exact ⟨h7, by linarith⟩
    obtain ⟨m2, b2, q2, g1, g2, g3, g4, g5, g6, -⟩ :=
      CheckUserTPSCapacity_at_rest dr p t (checkTPSTimes dr p t u 1 k s) u m1 b1 q1 h1 h2 h3
        h4 hrest
    obtain ⟨-, g7, g8⟩ := g6 (by rw [hcost, h6]; linarith)
    refine ⟨m2, b2, q2, g1, g2, g3, g4, by rw [g5, h5], ?_, Or.inr g8⟩
    rw [g7, h6, hcost]
    push_cast
    ring

/-- C22: on an account without pending entries whose `maxCapacity`
(`CoinDay + VirtualCoin`) and stored capacity are 100, with
`CapacityUsagePerTransaction = 10` and `tpsCapacityRatio = 1`, ten consecutive calls of
`CheckUserTPSCapacity` at one block time are admitted and the eleventh is rejected; a
call `SecondsToRecoverBandwidth` seconds later recovers the capacity to 100, is admitted
and stores 90. -/
theorem admission_scenario (dr : DecRound) (p : Params) (t : Int) (s : AccountStorage)
    (u : AccountKey) (m : AccountMeta) (b : AccountBank) (q : PendingCoinDayQueue)
    (hm : s.accMeta u = some m) (hb : s.bank u = some b) (hq : s.queue u = some q)
    (hW : 0 < p.SecondsToRecoverBandwidth)
    (hcost : p.CapacityUsagePerTransaction = 10)
    (hempty : q.PendingCoinDays = []) (hmax : b.CoinDay + p.VirtualCoin = 100)
    (hcap : m.TransactionCapacity = 100) :
    (∀ n : Nat, n < 10 →
      (CheckUserTPSCapacity dr p t (checkTPSTimes dr p t u 1 n s) u 1).1 = none) ∧
    (CheckUserTPSCapacity dr p t (checkTPSTimes dr p t u 1 10 s) u 1).1 =
      some (Error.ErrAccountTPSCapacityNotEnough u) ∧
    ∃ m11 : AccountMeta,
      (checkTPSTimes dr p t u 1 11 s).accMeta u = some m11 ∧
      m11.TransactionCapacity = 0 ∧
      (GetCoinDay dr p (t + p.SecondsToRecoverBandwidth)
        (checkTPSTimes dr p t u 1 11 s) u).2.1 + p.VirtualCoin = 100 ∧
      recoveredCapacity dr p (t + p.SecondsToRecoverBandwidth) m11 100 = 100 ∧
      (CheckUserTPSCapacity dr p (t + p.SecondsToRecoverBandwidth)
        (checkTPSTimes dr p t u 1 11 s) u 1).1 = none ∧
      ∃ m12 : AccountMeta,
        (CheckUserTPSCapacity dr p (t + p.SecondsToRecoverBandwidth)
          (checkTPSTimes dr p t u 1 11 s) u 1).2.accMeta u = some m12 ∧
        m12.TransactionCapacity = 90 := by
  refine ⟨?_, ?_, ?_⟩
  · intro n hn
    obtain ⟨m1, b1, q1, h1, h2, h3, h4, h5, h6, h7⟩ :=
      checkTPSTimes_state dr p t s u m b q hm hb hq hcost hempty hmax hcap n (by omega)
    have hk : (n : Int) ≤ 9 := by omega
    have h0 : (0 : Int) ≤ (n : Int) := Int.natCast_nonneg n
    have hrest : m1.TransactionCapacity = b1.CoinDay + p.VirtualCoin ∨
        (m1.LastActivityAt = t ∧ m1.TransactionCapacity ≤ b1.CoinDay + p.VirtualCoin) := by
      rw [h5, hmax, h6]
      rcases h7 with h7 | h7
      · left
        subst h7
        simp
      · right
        exact ⟨h7, by linarith⟩
    obtain ⟨m2, b2, q2, -, -, -, -, -, g6, -⟩ :=
      CheckUserTPSCapacity_at_rest dr p t (checkTPSTimes dr p t u 1 n s) u m1 b1 q1 h1 h2 h3
        h4 hrest
    exact (g6 (by rw [hcost, h6]; linarith)).1
  · obtain ⟨m1, b1, q1, h1, h2, h3, h4, h5, h6, h7⟩ :=
      checkTPSTimes_state dr p t s u m b q hm hb hq hcost hempty hmax hcap 10 (le_refl _)
    have hrest : m1.TransactionCapacity = b1.CoinDay + p.VirtualCoin ∨
        (m1.LastActivityAt = t ∧ m1.TransactionCapacity ≤ b1.CoinDay + p.VirtualCoin) := by
      rw [h5, hmax, h6]
      rcases h7 with h7 | h7
      · exact absurd h7 (by decide)
      · right
        exact ⟨h7, by norm_num⟩
    obtain ⟨m2, b2, q2, -, -, -, -, -, -, g7⟩ :=
      CheckUserTPSCapacity_at_rest dr p t (checkTPSTimes dr p t u 1 10 s) u m1 b1 q1 h1 h2 h3
        h4 hrest
    exact (g7 (by rw [hcost, h6]; norm_num)).1
  · obtain ⟨m1, b1, q1, h1, h2, h3, h4, h5, h6, h7⟩ :=
      checkTPSTimes_state dr p t s u m b q hm hb hq hcost hempty hmax hcap 10 (le_refl _)
    have h6z : m1.TransactionCapacity = 0 := by rw [h6]; norm_num
    have hla : m1.LastActivityAt = t := by
      rcases h7 with h7 | h7
      · exact absurd h7 (by decide)
      · exact h7
    have hrest : m1.TransactionCapacity = b1.CoinDay + p.VirtualCoin ∨
        (m1.LastActivityAt = t ∧ m1.TransactionCapacity ≤ b1.CoinDay + p.VirtualCoin) := by
      rw [h5, hmax, h6z]
      exact Or.inr ⟨hla, by norm_num⟩
    obtain ⟨m2, b2, q2, g1, g2, g3, g4, g5, -, g7⟩ :=
      CheckUserTPSCapacity_at_rest dr p t (checkTPSTimes dr p t u 1 10 s) u m1 b1 q1 h1 h2 h3
        h4 hrest
    have hm2 : m2 = m1 := (g7 (by rw [hcost, h6z]; norm_num)).2
    subst hm2
    have hs11 : checkTPSTimes dr p t u 1 11 s =
        (CheckUserTPSCapacity dr p t (checkTPSTimes dr p t u 1 10 s) u 1).2 := rfl
    rw [hs11]
    obtain ⟨k1, -, -⟩ := GetCoinDay_no_pending dr p (t + p.SecondsToRecoverBandwidth)
      _ u b2 q2 g2 g3 g4
    have hmaxval : (GetCoinDay dr p (t + p.SecondsToRecoverBandwidth)
        (CheckUserTPSCapacity dr p t (checkTPSTimes dr p t u 1 10 s) u 1).2 u).2.1 +
        p.VirtualCoin = 100 := by
      rw [k1, g5, h5, hmax]
    have hR : recoveredCapacity dr p (t + p.SecondsToRecoverBandwidth) m2 100 = 100 :=
      recoveredCapacity_after_window dr p _ m2 100 hW (by rw [h6z]; norm_num)
        (by rw [hla]; ring)
    refine ⟨m2, g1, h6z, hmaxval, hR, ?_, ?_⟩
    · rw [CheckUserTPSCapacity_eq dr p _ _ u 1 m2 b2 q2 g1 g2 g3, hmaxval, hR,
        currentTxCost_one, hcost]
      rfl
    · rw [CheckUserTPSCapacity_eq dr p _ _ u 1 m2 b2 q2 g1 g2 g3, hmaxval, hR,
        currentTxCost_one, hcost]
      have hnot : ¬ ((10 : Coin) > 100) := by decide
      rw [if_neg hnot]
      refine ⟨_, get_set_meta _ _ _, ?_⟩
      show (100 : Coin) - 10 = 90
      norm_num

theorem admission_scenario_witness :
    (tpsStore.accMeta "carol" = some { TransactionCapacity := 100 } ∧
      tpsStore.bank "carol" = some { Saving := 99, CoinDay := 99 } ∧
      tpsStore.queue "carol" = some {} ∧
      0 < tpsParams.SecondsToRecoverBandwidth ∧
      tpsParams.CapacityUsagePerTransaction = 10 ∧
      ({} : PendingCoinDayQueue).PendingCoinDays = [] ∧
      (99 : Coin) + tpsParams.VirtualCoin = 100) ∧
    (∀ n : Nat, n < 10 →
      (CheckUserTPSCapacity exactDec tpsParams 5000
        (checkTPSTimes exactDec tpsParams 5000 "carol" 1 n tpsStore) "carol" 1).1 = none) ∧
    (CheckUserTPSCapacity exactDec tpsParams 5000
        (checkTPSTimes exactDec tpsParams 5000 "carol" 1 10 tpsStore) "carol" 1).1 =
      some (Error.ErrAccountTPSCapacityNotEnough "carol") ∧
    (CheckUserTPSCapacity exactDec tpsParams (5000 + 604800)
        (checkTPSTimes exactDec tpsParams 5000 "carol" 1 11 tpsStore) "carol" 1).1 = none := by
  have h := admission_scenario exactDec tpsParams 5000 tpsStore "carol"
    { TransactionCapacity := 100 } { Saving := 99, CoinDay := 99 } {} rfl rfl rfl
    (by decide) rfl rfl (by decide) rfl
  obtain ⟨h1, h2, m11, -, -, -, -, h3, -⟩ := h
  exact ⟨⟨rfl, rfl, rfl, by decide, rfl, rfl, by decide⟩, h1, h2, h3⟩

/-! ## The order of the queue -/

theorem timeSlot_idem (t : Int) : timeSlot (timeSlot t) = timeSlot t := by
  unfold timeSlot CoinDayRecordIntervalSec
  rw [Int.mul_tdiv_cancel _ (by norm_num)]

/-- Entries whose start times are those of a sublist of an ordered list are ordered. -/
theorem order_of_startTimes (l final rest : List PendingCoinDay) (lu : Int)
    (hsub : rest.Sublist l)
    (hmap : final.map (fun e => e.StartTime) = rest.map (fun e => e.StartTime))
    (hl : l.Pairwise (fun a b => a.StartTime < b.StartTime))
    (hst : ∀ e ∈ l, e.StartTime ≤ lu) :
    final.Pairwise (fun a b => a.StartTime < b.StartTime) ∧
    (∀ e ∈ final, e.StartTime ≤ lu) := by
  have key : ∀ x : List PendingCoinDay,
      x.Pairwise (fun a b => a.StartTime < b.StartTime) ↔
        (x.map (fun e => e.StartTime)).Pairwise (fun a b => a < b) :=
    fun x => List.pairwise_map.symm
  constructor
  · rw [key, hmap, ← key]
    exact hl.sublist hsub
  · intro e he
    have hmem : e.StartTime ∈ final.map (fun e => e.StartTime) :=
      List.mem_map.mpr ⟨e, he, rfl⟩
    rw [hmap] at hmem
    obtain ⟨e0, he0, heq⟩ := List.mem_map.mp hmem
    rw [← heq]
    exact hst e0 (hsub.subset he0)

/-- The entries the head loop leaves have the start and end times of a suffix of the
list, and positive coins when the list has. -/
theorem minusFromHead_shape (dr : DecRound) (p : Params) (l : List PendingCoinDay)
    (coin : Coin) (q : PendingCoinDayQueue) :
    ∃ rest : List PendingCoinDay, rest.Sublist l ∧
      (minusFromHead dr p l coin q).2.PendingCoinDays.map (fun e => e.StartTime) =
        rest.map (fun e => e.StartTime) ∧
      (minusFromHead dr p l coin q).2.PendingCoinDays.map (fun e => e.EndTime) =
        rest.map (fun e => e.EndTime) ∧
      ((∀ e ∈ l, 0 < e.Coin) →
        ∀ e ∈ (minusFromHead dr p l coin q).2.PendingCoinDays, 0 < e.Coin) := by
  obtain ⟨taken, rest, h1, h2⟩ := minusFromHead_entries dr p l coin q
  have hsub : rest.Sublist l := by
    rw [h1]
    exact List.sublist_append_right _ _
  refine ⟨rest, hsub, ?_, ?_, ?_⟩
  · rcases h2 with h2 | ⟨e, rest2, c, h3, -, h5⟩
    · rw [h2]
    · rw [h5, h3]
      simp
  · rcases h2 with h2 | ⟨e, rest2, c, h3, -, h5⟩
    · rw [h2]
    · rw [h5, h3]
      simp
  · intro hpos e he
    rcases h2 with h2 | ⟨e0, rest2, c, h3, h4, h5⟩
    · rw [h2] at he
      exact hpos e (hsub.subset he)
    · rw [h5] at he
      rcases List.mem_cons.mp he with he | he
      · rw [he]
        simp only
        linarith
      · exact hpos e (hsub.subset (by rw [h3]; exact List.mem_cons_of_mem _ he))

theorem QueueOrder_update (dr : DecRound) (p : Params) (now : Int) (b : AccountBank)
    (q : PendingCoinDayQueue) (h : QueueOrder q) (hlu : q.LastUpdatedAt ≤ timeSlot now) :
    QueueOrder (updateTXFromPendingCoinDayQueue dr p now b q).2 := by
  obtain ⟨h1, h2, h3⟩ := h
  have hsub := pendingPart_sublist (timeSlot now) q.PendingCoinDays
  unfold QueueOrder
  rw [updateTX_entries, updateTX_lastUpdatedAt]
  exact ⟨h1.sublist hsub, fun e he => h2 e (hsub.subset he),
    fun e he => le_trans (h3 e (hsub.subset he)) hlu⟩

theorem QueueOrder_minusHead (dr : DecRound) (p : Params) (coin : Coin)
    (q : PendingCoinDayQueue) (h : QueueOrder q) :
    QueueOrder (minusFromHead dr p q.PendingCoinDays coin q).2 := by
  obtain ⟨h1, h2, h3⟩ := h
  obtain ⟨rest, hsub, hmap, -, hpos⟩ := minusFromHead_shape dr p q.PendingCoinDays coin q
  obtain ⟨k1, k2⟩ := order_of_startTimes _ _ rest q.LastUpdatedAt hsub hmap h1 h3
  unfold QueueOrder
  rw [minusFromHead_lastUpdatedAt]
  exact ⟨k1, hpos h2, k2⟩

theorem QueueOrder_minusTail (dr : DecRound) (p : Params) (coin : Coin)
    (q : PendingCoinDayQueue) (h : QueueOrder q) :
    QueueOrder (minusFromTail dr p q.PendingCoinDays.reverse coin q).2 := by
  obtain ⟨h1, h2, h3⟩ := h
  obtain ⟨rest, hsub, hmap, -, hpos⟩ :=
    minusFromHead_shape dr p q.PendingCoinDays.reverse coin q
  have hsub2 : rest.reverse.Sublist q.PendingCoinDays := by
    have := List.reverse_sublist.mpr hsub
    simpa using this
  have hmap2 : (minusFromHead dr p q.PendingCoinDays.reverse coin q).2.PendingCoinDays.reverse.map
      (fun e => e.StartTime) = rest.reverse.map (fun e => e.StartTime) := by
    rw [List.map_reverse, List.map_reverse, hmap]
  obtain ⟨k1, k2⟩ := order_of_startTimes _ _ rest.reverse q.LastUpdatedAt hsub2 hmap2 h1 h3
  rw [minusFromTail_eq_head]
  unfold QueueOrder
  simp only
  rw [minusFromHead_lastUpdatedAt]
  refine ⟨k1, ?_, k2⟩
  intro e he
  exact hpos (fun x hx => h2 x (List.mem_reverse.mp hx)) e (List.mem_reverse.mp he)

theorem QueueOrder_push (p : Params) (now : Int) (c : Coin) (q : PendingCoinDayQueue)
    (h : QueueOrder q) (hlu : q.LastUpdatedAt = timeSlot now) (hc : 0 < c) :
    QueueOrder (pushPendingCoinDay q (newPendingCoinDay p now c)) := by
  obtain ⟨h1, h2, h3⟩ := h
  have hf := (pushPendingCoinDay_fields q (newPendingCoinDay p now c)).2.2
  unfold QueueOrder
  rw [hf]
  rcases List.eq_nil_or_concat q.PendingCoinDays with hnil | ⟨front, last, hcat⟩
  · rw [pushPendingCoinDay_nil q _ hnil]
    simp only
    refine ⟨List.pairwise_singleton _ _, ?_, ?_⟩
    · intro e he
      rw [List.mem_singleton.mp he]
      exact hc
    · intro e he
      rw [List.mem_singleton.mp he, hlu]
      exact le_refl _
  · rw [List.concat_eq_append] at hcat
    by_cases hs : last.StartTime = (newPendingCoinDay p now c).StartTime
    · rw [pushPendingCoinDay_merge q _ last front hcat hs]
      simp only
      have hmap : List.map (fun e : PendingCoinDay => e.StartTime)
          (front ++ [{ last with Coin := last.Coin + (newPendingCoinDay p now c).Coin }]) =
          q.PendingCoinDays.map (fun e => e.StartTime) := by
        rw [hcat]
        simp
      obtain ⟨k1, k2⟩ := order_of_startTimes q.PendingCoinDays _ q.PendingCoinDays
        q.LastUpdatedAt (List.Sublist.refl _) hmap h1 h3
      refine ⟨k1, ?_, k2⟩
      intro e he
      rcases List.mem_append.mp he with he | he
      · exact h2 e (by rw [hcat]; exact List.mem_append_left _ he)
      · rw [List.mem_singleton.mp he]
        have := h2 last (by rw [hcat]; simp)
        simp only [newPendingCoinDay]
        linarith
    · rw [pushPendingCoinDay_append q _ last front hcat hs]
      simp only
      have hlast : last.StartTime < timeSlot now := by
        have h4 := h3 last (by rw [hcat]; simp)
        rw [hlu] at h4
        exact lt_of_le_of_ne h4 hs
      refine ⟨?_, ?_, ?_⟩
      · rw [List.pairwise_append]
        refine ⟨h1, List.pairwise_singleton _ _, ?_⟩
        intro a ha x hx
        rw [List.mem_singleton.mp hx]
        simp only [newPendingCoinDay]
        rw [hcat] at ha h1
        rcases List.mem_append.mp ha with ha | ha
        · exact lt_trans (pairwise_append_singleton_lt front last h1 a ha) hlast
        · rw [List.mem_singleton.mp ha]
          exact hlast
      · intro e he
        rcases List.mem_append.mp he with he | he
        · exact h2 e he
        · rw [List.mem_singleton.mp he]
          exact hc
      · intro e he
        rcases List.mem_append.mp he with he | he
        · exact h3 e he
        · rw [List.mem_singleton.mp he, hlu]
          exact le_refl _

theorem minusFromTail_lastUpdatedAt (dr : DecRound) (p : Params) (l : List PendingCoinDay)
    (coin : Coin) (q : PendingCoinDayQueue) :
    (minusFromTail dr p l coin q).2.LastUpdatedAt = q.LastUpdatedAt := by
  rw [minusFromTail_eq_head]
  exact minusFromHead_lastUpdatedAt dr p l coin q

/-- C30: on a queue whose entries are strictly ascending in `StartTime`, have positive
`Coin` and start no later than `LastUpdatedAt` (a bucket boundary, as the recompute
leaves it), the same holds of the queue stored after `GetCoinDay`, `AddSavingCoin` of a
positive amount, `MinusSavingCoin` and `MinusSavingCoinWithFullCoinDay` executed at a
block time not earlier than `LastUpdatedAt`, whatever their outcome, and `LastUpdatedAt`
stays a bucket boundary. -/
theorem queue_order_invariant (dr : DecRound) (p : Params) (now : Int) (s : AccountStorage)
    (u : AccountKey) (c : Coin) (b : AccountBank) (q : PendingCoinDayQueue)
    (hb : s.bank u = some b) (hq : s.queue u = some q)
    (hord : QueueOrder q) (hal : timeSlot q.LastUpdatedAt = q.LastUpdatedAt)
    (hnow : q.LastUpdatedAt ≤ now) :
    (∃ q2 : PendingCoinDayQueue, (GetCoinDay dr p now s u).2.2.queue u = some q2 ∧
      QueueOrder q2 ∧ timeSlot q2.LastUpdatedAt = q2.LastUpdatedAt) ∧
    (0 < c → ∃ q2 : PendingCoinDayQueue,
      (AddSavingCoin dr p now s u c).2.queue u = some q2 ∧
      QueueOrder q2 ∧ timeSlot q2.LastUpdatedAt = q2.LastUpdatedAt) ∧
    (∃ q2 : PendingCoinDayQueue, (MinusSavingCoin dr p now s u c).2.queue u = some q2 ∧
      QueueOrder q2 ∧ timeSlot q2.LastUpdatedAt = q2.LastUpdatedAt) ∧
    (∃ q2 : PendingCoinDayQueue,
      (MinusSavingCoinWithFullCoinDay dr p now s u c).2.2.queue u = some q2 ∧
      QueueOrder q2 ∧ timeSlot q2.LastUpdatedAt = q2.LastUpdatedAt) := by
  have hlu : q.LastUpdatedAt ≤ timeSlot now := by
    rw [← hal]
    exact timeSlot_mono _ _ hnow
  have hU := QueueOrder_update dr p now b q hord hlu
  have hUlu := updateTX_lastUpdatedAt dr p now b q
  have hUal : timeSlot (updateTXFromPendingCoinDayQueue dr p now b q).2.LastUpdatedAt =
      (updateTXFromPendingCoinDayQueue dr p now b q).2.LastUpdatedAt := by
    rw [hUlu, timeSlot_idem]
  refine ⟨?_, ?_, ?_, ?_⟩
  · refine ⟨_, ?_, hU, hUal⟩
    rw [GetCoinDay_eq dr p now s u b q hb hq]
    exact get_set_queue_bank _ _ _ _
  · intro hc
    rcases AddSavingCoin_queue_cases dr p now s u c b q hq with h | h
    · exact ⟨q, h, hord, hal⟩
    · refine ⟨_, h, QueueOrder_push p now c _ hU hUlu hc, ?_⟩
      rw [(pushPendingCoinDay_fields _ _).2.2]
      exact hUal
  · rcases MinusSavingCoin_queue_cases dr p now s u c b q hq with h | h
    · exact ⟨q, h, hord, hal⟩
    · refine ⟨_, h, QueueOrder_minusTail dr p c _ hU, ?_⟩
      rw [minusFromTail_lastUpdatedAt]
      exact hUal
  · rcases MinusSavingCoinWithFullCoinDay_queue_cases dr p now s u c b q hq with h | h | ⟨c2, h⟩
    · exact ⟨q, h, hord, hal⟩
    · exact ⟨_, h, hU, hUal⟩
    · refine ⟨_, h, QueueOrder_minusHead dr p c2 _ hU, ?_⟩
      rw [minusFromHead_lastUpdatedAt]
      exact hUal

theorem queue_order_invariant_witness :
    (tieBreakStore.bank "bob" = some tieBreakBank ∧
      tieBreakStore.queue "bob" = some tieBreakQueue ∧ QueueOrder tieBreakQueue ∧
      timeSlot tieBreakQueue.LastUpdatedAt = tieBreakQueue.LastUpdatedAt ∧
      tieBreakQueue.LastUpdatedAt ≤ 302401) ∧
    (∃ q2 : PendingCoinDayQueue,
      (MinusSavingCoin exactDec sampleParams 302401 tieBreakStore "bob" 10).2.queue "bob" =
        some q2 ∧
      QueueOrder q2 ∧
      q2.PendingCoinDays = [{ StartTime := 0, EndTime := 604800, Coin := 10 }]) ∧
    (∃ q2 : PendingCoinDayQueue,
      (AddSavingCoin exactDec sampleParams 302401 tieBreakStore "bob" 10).2.queue "bob" =
        some q2 ∧
      QueueOrder q2) := by
  have hord : QueueOrder tieBreakQueue := by
    refine ⟨?_, ?_, ?_⟩
    · simp [tieBreakQueue]
    · simp [tieBreakQueue]
    · simp [tieBreakQueue]
  have hal : timeSlot tieBreakQueue.LastUpdatedAt = tieBreakQueue.LastUpdatedAt := by decide
  have hnow : tieBreakQueue.LastUpdatedAt ≤ 302401 := by decide
  obtain ⟨-, h2, h3, -⟩ :=
    queue_order_invariant exactDec sampleParams 302401 tieBreakStore "bob" 10 tieBreakBank
      tieBreakQueue rfl rfl hord hal hnow
  refine ⟨⟨rfl, rfl, hord, hal, hnow⟩, ?_, ?_⟩
  · obtain ⟨q2, k1, k2, -⟩ := h3
    obtain ⟨s2, hrun, -, hq2⟩ := MinusSavingCoin_tieBreak
    refine ⟨q2, k1, k2, ?_⟩
    rw [hrun] at k1
    simp only at k1
    rw [hq2] at k1
    rw [← Option.some.inj k1]
  · obtain ⟨q2, k1, k2, -⟩ := h2 (by decide)
    exact ⟨q2, k1, k2⟩

/-! ## The lifecycle of an entry -/

theorem lt_timeSlot_add (t : Int) : t < timeSlot t + 1200 := by
  rcases le_or_lt 0 t with h | h
  · rw [timeSlot_of_nonneg t h]
    omega
  · rw [timeSlot_neg t h]
    omega

theorem le_timeSlot_of_aligned (e now : Int) (hal : timeSlot e = e) (h : e ≤ now) :
    e ≤ timeSlot now := by
  rw [← hal]
  exact timeSlot_mono _ _ h

/-- On a list in ascending order of `EndTime` the expired head is the set of expired
entries. -/
theorem expiredPart_eq_filter (slot : Int) (l : List PendingCoinDay)
    (hsorted : l.Pairwise (fun a b => a.EndTime ≤ b.EndTime)) :
    expiredPart slot l = l.filter (fun e => decide (e.EndTime ≤ slot)) ∧
    pendingPart slot l = l.filter (fun e => decide (slot < e.EndTime)) := by
  induction l with
  | nil => exact ⟨rfl, rfl⟩
  | cons a rest ih =>
    obtain ⟨h1, h2⟩ := List.pairwise_cons.mp hsorted
    obtain ⟨ih1, ih2⟩ := ih h2
    by_cases h : a.EndTime ≤ slot
    · constructor
      · have e : expiredPart slot (a :: rest) = a :: expiredPart slot rest := by
          simp [expiredPart, List.takeWhile, h]
        rw [e, ih1]
        simp [List.filter, h]
      · have e : pendingPart slot (a :: rest) = pendingPart slot rest := by
          simp [pendingPart, List.dropWhile, h]
        rw [e, ih2]
        simp [List.filter, not_lt.mpr h]
    · have hall : ∀ x ∈ rest, slot < x.EndTime := fun x hx =>
        lt_of_lt_of_le (lt_of_not_ge h) (h1 x hx)
      constructor
      · have e : expiredPart slot (a :: rest) = [] := by
          simp [expiredPart, List.takeWhile, h]
        rw [e]
        symm
        rw [List.filter_eq_nil_iff]
        intro x hx
        rcases List.mem_cons.mp hx with hx | hx
        · rw [hx]
          simpa using h
        · simpa using hall x hx
      · have e : pendingPart slot (a :: rest) = a :: rest := by
          simp [pendingPart, List.dropWhile, h]
        rw [e]
        symm
        rw [List.filter_eq_self]
        intro x hx
        rcases List.mem_cons.mp hx with hx | hx
        · rw [hx]
          simpa using h
        · simpa using hall x hx

theorem pushPendingCoinDay_endTime (q : PendingCoinDayQueue) (new : PendingCoinDay) :
    ∀ e ∈ (pushPendingCoinDay q new).PendingCoinDays,
      (∃ e0 ∈ q.PendingCoinDays, e.EndTime = e0.EndTime) ∨ e = new := by
  intro e he
  rcases List.eq_nil_or_concat q.PendingCoinDays with hnil | ⟨front, last, hcat⟩
  · rw [pushPendingCoinDay_nil q _ hnil] at he
    exact Or.inr (List.mem_singleton.mp he)
  · rw [List.concat_eq_append] at hcat
    by_cases hs : last.StartTime = new.StartTime
    · rw [pushPendingCoinDay_merge q _ last front hcat hs] at he
      simp only at he
      left
      rcases List.mem_append.mp he with he | he
      · exact ⟨e, by rw [hcat]; exact List.mem_append_left _ he, rfl⟩
      · refine ⟨last, by rw [hcat]; simp, ?_⟩
        rw [List.mem_singleton.mp he]
    · rw [pushPendingCoinDay_append q _ last front hcat hs] at he
      simp only at he
      rcases List.mem_append.mp he with he | he
      · exact Or.inl ⟨e, he, rfl⟩
      · exact Or.inr (List.mem_singleton.mp he)

theorem minusFromHead_endTime (dr : DecRound) (p : Params) (l : List PendingCoinDay)
    (coin : Coin) (q : PendingCoinDayQueue) :
    ∀ e ∈ (minusFromHead dr p l coin q).2.PendingCoinDays,
      ∃ e0 ∈ l, e0.EndTime = e.EndTime := by
  intro e he
  obtain ⟨rest, hsub, -, hmap, -⟩ := minusFromHead_shape dr p l coin q
  have hmem : e.EndTime ∈ (minusFromHead dr p l coin q).2.PendingCoinDays.map
      (fun e => e.EndTime) := List.mem_map.mpr ⟨e, he, rfl⟩
  rw [hmap] at hmem
  obtain ⟨e0, he0, heq⟩ := List.mem_map.mp hmem
  exact ⟨e0, hsub.subset he0, heq⟩

/-- The entries left by the recompute at block time `now`, on a queue in ascending order
of `EndTime` with bucket-aligned `EndTime`s, all end after `now`. -/
theorem updateTX_all_pending (dr : DecRound) (p : Params) (now : Int) (b : AccountBank)
    (q : PendingCoinDayQueue)
    (hsorted : q.PendingCoinDays.Pairwise (fun a b => a.EndTime ≤ b.EndTime))
    (hal : ∀ e ∈ q.PendingCoinDays, timeSlot e.EndTime = e.EndTime) :
    ∀ e ∈ (updateTXFromPendingCoinDayQueue dr p now b q).2.PendingCoinDays,
      now < e.EndTime := by
  intro e he
  rw [updateTX_entries, (expiredPart_eq_filter _ _ hsorted).2] at he
  obtain ⟨hmem, hlt⟩ := List.mem_filter.mp he
  have hlt2 : timeSlot now < e.EndTime := by simpa using hlt
  by_contra hle
  have := le_timeSlot_of_aligned e.EndTime now (hal e hmem) (not_lt.mp hle)
  linarith

/-- C26, amended, for operations that reach the recompute: for an account with a bank
and a queue record, on a queue in ascending order of `EndTime` whose `EndTime`s are
whole multiples of 1200 seconds, and a recovery window of at least one bucket,
the recompute at block time `now` removes exactly the entries with
`EndTime ≤ bucket(now)`, among which is every entry with `EndTime ≤ now`, and adds their
`Coin` to `bank.CoinDay`; after `GetCoinDay`, and after a successful `AddSavingCoin`,
`MinusSavingCoin` or `MinusSavingCoinWithFullCoinDay` of a non-zero amount, every entry of
the stored queue ends after `now`. -/
theorem matured_entries_removed (dr : DecRound) (p : Params) (now : Int)
    (s : AccountStorage) (u : AccountKey) (c : Coin) (b : AccountBank)
    (q : PendingCoinDayQueue)
    (hb : s.bank u = some b) (hq : s.queue u = some q)
    (hW : 1200 ≤ p.SecondsToRecoverCoinDay)
    (hsorted : q.PendingCoinDays.Pairwise (fun a b => a.EndTime ≤ b.EndTime))
    (hal : ∀ e ∈ q.PendingCoinDays, timeSlot e.EndTime = e.EndTime)
    (hc : c ≠ 0) :
    ((updateTXFromPendingCoinDayQueue dr p now b q).1.CoinDay =
        b.CoinDay +
          coinSum (q.PendingCoinDays.filter (fun e => decide (e.EndTime ≤ timeSlot now))) ∧
      (updateTXFromPendingCoinDayQueue dr p now b q).2.PendingCoinDays =
        q.PendingCoinDays.filter (fun e => decide (timeSlot now < e.EndTime)) ∧
      (∀ e ∈ q.PendingCoinDays, e.EndTime ≤ now → e.EndTime ≤ timeSlot now)) ∧
    (∃ (b2 : AccountBank) (q2 : PendingCoinDayQueue),
      (GetCoinDay dr p now s u).2.2.bank u = some b2 ∧
      (GetCoinDay dr p now s u).2.2.queue u = some q2 ∧
      b2.CoinDay = (updateTXFromPendingCoinDayQueue dr p now b q).1.CoinDay ∧
      (∀ e ∈ q2.PendingCoinDays, now < e.EndTime)) ∧
    (s.DoesAccountExist u = true →
      ∃ (b2 : AccountBank) (q2 : PendingCoinDayQueue),
        (AddSavingCoin dr p now s u c).1 = none ∧
        (AddSavingCoin dr p now s u c).2.bank u = some b2 ∧
        (AddSavingCoin dr p now s u c).2.queue u = some q2 ∧
        b2.CoinDay = (updateTXFromPendingCoinDayQueue dr p now b q).1.CoinDay ∧
        (∀ e ∈ q2.PendingCoinDays, now < e.EndTime)) ∧
    (p.MinimumBalance ≤ b.Saving - c →
      (∃ q2 : PendingCoinDayQueue,
        (MinusSavingCoin dr p now s u c).1 = none ∧
        (MinusSavingCoin dr p now s u c).2.queue u = some q2 ∧
        (∀ e ∈ q2.PendingCoinDays, now < e.EndTime)) ∧
      (∃ q2 : PendingCoinDayQueue,
        (MinusSavingCoinWithFullCoinDay dr p now s u c).1 = none ∧
        (MinusSavingCoinWithFullCoinDay dr p now s u c).2.2.queue u = some q2 ∧
        (∀ e ∈ q2.PendingCoinDays, now < e.EndTime))) := by
  have hU := updateTX_all_pending dr p now b q hsorted hal
  obtain ⟨hf1, hf2⟩ := expiredPart_eq_filter (timeSlot now) _ hsorted
  refine ⟨⟨?_, ?_, ?_⟩, ?_, ?_, ?_⟩
  · rw [updateTX_fst, hf1]
  · rw [updateTX_entries, hf2]
  · intro e he hle
    exact le_timeSlot_of_aligned e.EndTime now (hal e he) hle
  · rw [GetCoinDay_eq dr p now s u b q hb hq]
    exact ⟨_, _, get_set_bank _ _ _, get_set_queue_bank _ _ _ _, rfl, hU⟩
  · intro hex
    rw [AddSavingCoin_eq dr p now s u c b q hex hb hq hc]
    refine ⟨_, _, rfl, get_set_bank _ _ _, get_set_queue_bank _ _ _ _, ?_, ?_⟩
    · rw [updateTX_fst]
    · intro e he
      rcases pushPendingCoinDay_endTime _ _ e he with ⟨e0, he0, heq⟩ | hnew
      · rw [heq]
        exact hU e0 he0
      · rw [hnew]
        have := lt_timeSlot_add now
        simp only [newPendingCoinDay]
        linarith
  · intro hge
    constructor
    · rw [MinusSavingCoin_eq dr p now s u c b q hb hq hge hc]
      refine ⟨_, rfl, get_set_queue_bank _ _ _ _, ?_⟩
      intro e he
      rw [minusFromTail_eq_head] at he
      simp only at he
      obtain ⟨e0, he0, heq⟩ := minusFromHead_endTime dr p _ c _ e (List.mem_reverse.mp he)
      rw [← heq]
      exact hU e0 (List.mem_reverse.mp he0)
    · rw [MinusSavingCoinWithFullCoinDay_eq dr p now s u c b q hb hq hge hc]
      split
      · exact ⟨_, rfl, get_set_queue_bank _ _ _ _, hU⟩
      · refine ⟨_, rfl, get_set_queue_bank _ _ _ _, ?_⟩
        intro e he
        obtain ⟨e0, he0, heq⟩ := minusFromHead_endTime dr p _ _ _ e he
        rw [← heq]
        exact hU e0 he0

theorem matured_entries_removed_witness :
    (sampleStore.bank "alice" = some sampleBank ∧
      sampleStore.queue "alice" = some sampleQueue ∧
      1200 ≤ sampleParams.SecondsToRecoverCoinDay ∧
      sampleQueue.PendingCoinDays.Pairwise (fun a b => a.EndTime ≤ b.EndTime) ∧
      (∀ e ∈ sampleQueue.PendingCoinDays, timeSlot e.EndTime = e.EndTime) ∧
      (7 : Coin) ≠ 0) ∧
    ∃ (b2 : AccountBank) (q2 : PendingCoinDayQueue),
      (GetCoinDay exactDec sampleParams 604805 sampleStore "alice").2.2.bank "alice" =
        some b2 ∧
      (GetCoinDay exactDec sampleParams 604805 sampleStore "alice").2.2.queue "alice" =
        some q2 ∧
      (∀ e ∈ q2.PendingCoinDays, (604805 : Int) < e.EndTime) := by
  have hsorted : sampleQueue.PendingCoinDays.Pairwise (fun a b => a.EndTime ≤ b.EndTime) := by
    simp [sampleQueue]
  have hal : ∀ e ∈ sampleQueue.PendingCoinDays, timeSlot e.EndTime = e.EndTime := by
    intro e he
    simp only [sampleQueue, List.mem_singleton] at he
    subst he
    decide
  obtain ⟨-, ⟨b2, q2, h1, h2, -, h4⟩, -⟩ :=
    matured_entries_removed exactDec sampleParams 604805 sampleStore "alice" 7 sampleBank
      sampleQueue rfl rfl (by decide) hsorted hal (by decide)
  exact ⟨⟨rfl, rfl, by decide, hsorted, hal, by decide⟩, b2, q2, h1, h2, h4⟩

/-- The statement of C26 fails for a zero amount: on `sampleStore` at the block time
604800, at which the pending entry ends, `AddSavingCoin` and `MinusSavingCoin` of 0
succeed and return the store unchanged, so the entry with `EndTime = 604800` remains in
the queue and `bank.CoinDay` stays 0. It also fails for `GetCoinDay` when the window is
not a whole number of buckets: with a window of 604801 seconds a deposit of 10 at time 0
ends at 604801, and `GetCoinDay` at the block time 604801, in the bucket 604800, leaves
it in the queue with `bank.CoinDay = 0`. -/
theorem zero_amount_keeps_matured_entry :
    AddSavingCoin exactDec sampleParams 604800 sampleStore "alice" 0 = (none, sampleStore) ∧
    MinusSavingCoin exactDec sampleParams 604800 sampleStore "alice" 0 =
      (none, sampleStore) ∧
    sampleStore.queue "alice" = some sampleQueue ∧
    sampleStore.bank "alice" = some { Saving := 10, CoinDay := 0 } ∧
    (∃ e ∈ sampleQueue.PendingCoinDays, e.EndTime ≤ 604800) ∧
    (∃ (b2 : AccountBank) (q2 : PendingCoinDayQueue),
      (GetCoinDay exactDec oddWindowParams 604801
        (AddSavingCoin exactDec oddWindowParams 0 freshStore "bob" 10).2 "bob").2.2.bank
          "bob" = some b2 ∧
      (GetCoinDay exactDec oddWindowParams 604801
        (AddSavingCoin exactDec oddWindowParams 0 freshStore "bob" 10).2 "bob").2.2.queue
          "bob" = some q2 ∧
      b2.CoinDay = 0 ∧
      q2.PendingCoinDays = [{ StartTime := 0, EndTime := 604801, Coin := 10 }] ∧
      ∃ e ∈ q2.PendingCoinDays, e.EndTime ≤ 604801) := by
  refine ⟨?_, ?_, rfl, rfl, ⟨{ StartTime := 0, EndTime := 604800, Coin := 10 }, ?_, ?_⟩, ?_⟩
  · simp [AddSavingCoin, AccountStorage.DoesAccountExist, sampleStore]
  · simp [MinusSavingCoin, AccountStorage.GetBankFromAccountKey, sampleStore, sampleParams]
  · simp [sampleQueue]
  · decide
  · have e2 : timeSlot 0 = 0 := by decide
    have e3 : timeSlot 604801 = 604800 := by decide
    refine ⟨{ Saving := 10, CoinDay := 0 },
      { LastUpdatedAt := 604800, TotalCoinDay := 10 * 604800 / 604801, TotalCoin := 10,
        PendingCoinDays := [{ StartTime := 0, EndTime := 604801, Coin := 10 }] },
      ?_, ?_, rfl, rfl, ⟨_, List.mem_singleton.mpr rfl, le_refl _⟩⟩
    · simp [GetCoinDay, AddSavingCoin, addPendingCoinDayToQueue, freshStore,
        AccountStorage.DoesAccountExist,
        AccountStorage.GetBankFromAccountKey, AccountStorage.GetPendingCoinDayQueue,
        AccountStorage.SetBankFromAccountKey, AccountStorage.SetPendingCoinDayQueue,
        oddWindowParams, sampleParams, updateTXFromPendingCoinDayQueue, removeExpired,
        pushPendingCoinDay, e2, e3]
    · simp [GetCoinDay, AddSavingCoin, addPendingCoinDayToQueue, freshStore,
        AccountStorage.DoesAccountExist,
        AccountStorage.GetBankFromAccountKey, AccountStorage.GetPendingCoinDayQueue,
        AccountStorage.SetBankFromAccountKey, AccountStorage.SetPendingCoinDayQueue,
        oddWindowParams, sampleParams, updateTXFromPendingCoinDayQueue, removeExpired,
        pushPendingCoinDay, e2, e3, Dec.Quo, Dec.Mul, NewDec, Coin.ToDec, exactDec]

/-! ## The cached total -/

theorem pushPendingCoinDay_totalCoin (q : PendingCoinDayQueue) (e : PendingCoinDay)
    (htc : q.TotalCoin = coinSum q.PendingCoinDays) :
    (pushPendingCoinDay q e).TotalCoin = coinSum (pushPendingCoinDay q e).PendingCoinDays := by
  rw [(pushPendingCoinDay_fields q e).1, pushPendingCoinDay_coinSum, htc]

theorem minusFromHead_totalCoin (dr : DecRound) (p : Params) (coin : Coin)
    (q : PendingCoinDayQueue) (htc : q.TotalCoin = coinSum q.PendingCoinDays) :
    (minusFromHead dr p q.PendingCoinDays coin q).2.TotalCoin =
      coinSum (minusFromHead dr p q.PendingCoinDays coin q).2.PendingCoinDays := by
  obtain ⟨h1, h2⟩ := minusFromHead_totals dr p q.PendingCoinDays coin q
  rw [h1, h2, htc]

theorem minusFromTail_totalCoin (dr : DecRound) (p : Params) (coin : Coin)
    (q : PendingCoinDayQueue) (htc : q.TotalCoin = coinSum q.PendingCoinDays) :
    (minusFromTail dr p q.PendingCoinDays.reverse coin q).2.TotalCoin =
      coinSum (minusFromTail dr p q.PendingCoinDays.reverse coin q).2.PendingCoinDays := by
  obtain ⟨h1, h2⟩ := minusFromHead_totals dr p q.PendingCoinDays.reverse coin q
  rw [minusFromTail_eq_head]
  simp only
  rw [coinSum_reverse, h1, h2, coinSum_reverse, htc]

/-- C31: if `TotalCoin` is the sum of the `Coin` of the pending entries, it still is after
`updateTXFromPendingCoinDayQueue`, and in the queue stored after `AddSavingCoin`,
`MinusSavingCoin` and `MinusSavingCoinWithFullCoinDay`, for every amount, block time,
rounding and outcome of the call. -/
theorem totalCoin_is_sum (dr : DecRound) (p : Params) (now : Int) (s : AccountStorage)
    (u : AccountKey) (c : Coin) (b : AccountBank) (q : PendingCoinDayQueue)
    (hq : s.queue u = some q) (htc : q.TotalCoin = coinSum q.PendingCoinDays) :
    (updateTXFromPendingCoinDayQueue dr p now b q).2.TotalCoin =
      coinSum (updateTXFromPendingCoinDayQueue dr p now b q).2.PendingCoinDays ∧
    (∃ q2 : PendingCoinDayQueue, (AddSavingCoin dr p now s u c).2.queue u = some q2 ∧
      q2.TotalCoin = coinSum q2.PendingCoinDays) ∧
    (∃ q2 : PendingCoinDayQueue, (MinusSavingCoin dr p now s u c).2.queue u = some q2 ∧
      q2.TotalCoin = coinSum q2.PendingCoinDays) ∧
    (∃ q2 : PendingCoinDayQueue,
      (MinusSavingCoinWithFullCoinDay dr p now s u c).2.2.queue u = some q2 ∧
      q2.TotalCoin = coinSum q2.PendingCoinDays) := by
  have hU := updateTX_totalCoin_eq_coinSum dr p now b q htc
  refine ⟨hU, ?_, ?_, ?_⟩
  · rcases AddSavingCoin_queue_cases dr p now s u c b q hq with h | h
    · exact ⟨q, h, htc⟩
    · exact ⟨_, h, pushPendingCoinDay_totalCoin _ _ hU⟩
  · rcases MinusSavingCoin_queue_cases dr p now s u c b q hq with h | h
    · exact ⟨q, h, htc⟩
    · exact ⟨_, h, minusFromTail_totalCoin dr p c _ hU⟩
  · rcases MinusSavingCoinWithFullCoinDay_queue_cases dr p now s u c b q hq with h | h | ⟨c2, h⟩
    · exact ⟨q, h, htc⟩
    · exact ⟨_, h, hU⟩
    · exact ⟨_, h, minusFromHead_totalCoin dr p c2 _ hU⟩

theorem totalCoin_is_sum_witness :
    (tieBreakStore.queue "bob" = some tieBreakQueue ∧
      tieBreakQueue.TotalCoin = coinSum tieBreakQueue.PendingCoinDays) ∧
    ∃ q2 : PendingCoinDayQueue,
      (MinusSavingCoin exactDec sampleParams 302401 tieBreakStore "bob" 10).2.queue "bob" =
        some q2 ∧
      q2.TotalCoin = coinSum q2.PendingCoinDays ∧ q2.TotalCoin = 10 := by
  have htc : tieBreakQueue.TotalCoin = coinSum tieBreakQueue.PendingCoinDays := by
    simp [tieBreakQueue, coinSum]
  obtain ⟨-, -, ⟨q2, h1, h2⟩, -⟩ :=
    totalCoin_is_sum exactDec sampleParams 302401 tieBreakStore "bob" 10 tieBreakBank
      tieBreakQueue rfl htc
  refine ⟨⟨rfl, htc⟩, q2, h1, h2, ?_⟩
  obtain ⟨s2, hrun, -, hq2⟩ := MinusSavingCoin_tieBreak
  rw [hrun] at h1
  simp only at h1
  rw [hq2] at h1
  rw [← Option.some.inj h1]

/-! ## The maturation step -/

/-- C35: `updateTXFromPendingCoinDayQueue` at `slot = bucket(now)` removes the longest
prefix of entries with `EndTime ≤ slot` (every removed entry has `EndTime ≤ slot`, and the
first entry left, if any, has not), adds the sum of their `Coin` to `bank.CoinDay`, and
leaves the other entries as they were, in order; when the entries are strictly ascending
in `StartTime` with `EndTime = StartTime + SecondsToRecoverCoinDay`, no entry left has
`EndTime ≤ slot`. -/
theorem maturation_step (dr : DecRound) (p : Params) (now : Int) (b : AccountBank)
    (q : PendingCoinDayQueue) :
    ∃ removed : List PendingCoinDay,
      q.PendingCoinDays =
        removed ++ (updateTXFromPendingCoinDayQueue dr p now b q).2.PendingCoinDays ∧
      (∀ e ∈ removed, e.EndTime ≤ timeSlot now) ∧
      (∀ e, (updateTXFromPendingCoinDayQueue dr p now b q).2.PendingCoinDays.head? = some e →
        timeSlot now < e.EndTime) ∧
      (updateTXFromPendingCoinDayQueue dr p now b q).1.CoinDay =
        b.CoinDay + coinSum removed ∧
      (updateTXFromPendingCoinDayQueue dr p now b q).1.Saving = b.Saving ∧
      ((∀ e ∈ q.PendingCoinDays, e.EndTime = e.StartTime + p.SecondsToRecoverCoinDay) →
        q.PendingCoinDays.Pairwise (fun a b => a.StartTime < b.StartTime) →
        ∀ e ∈ (updateTXFromPendingCoinDayQueue dr p now b q).2.PendingCoinDays,
          timeSlot now < e.EndTime) := by
  refine ⟨expiredPart (timeSlot now) q.PendingCoinDays, ?_, ?_, ?_, ?_, ?_, ?_⟩
  · rw [updateTX_entries, expired_append_pending]
  · intro e he
    have := List.mem_takeWhile_imp he
    simpa using this
  · intro e he
    rw [updateTX_entries] at he
    have := List.head?_dropWhile_not (fun e : PendingCoinDay => decide (e.EndTime ≤ timeSlot now))
      q.PendingCoinDays
    unfold pendingPart at he
    rw [he] at this
    simpa using this
  · rw [updateTX_fst]
  · rw [updateTX_fst]
  · intro hend hsorted
    rw [updateTX_entries]
    exact pendingPart_all_pending p _ _ hend hsorted

theorem maturation_step_witness :
    ((∀ e ∈ sampleQueue.PendingCoinDays,
        e.EndTime = e.StartTime + sampleParams.SecondsToRecoverCoinDay) ∧
      sampleQueue.PendingCoinDays.Pairwise (fun a b => a.StartTime < b.StartTime)) ∧
    (updateTXFromPendingCoinDayQueue exactDec sampleParams 604800 sampleBank
      sampleQueue).2.PendingCoinDays = [] ∧
    (updateTXFromPendingCoinDayQueue exactDec sampleParams 604800 sampleBank
      sampleQueue).1.CoinDay = 10 ∧
    ∀ e ∈ (updateTXFromPendingCoinDayQueue exactDec sampleParams 302400 sampleBank
      sampleQueue).2.PendingCoinDays, timeSlot 302400 < e.EndTime := by
  have hend : ∀ e ∈ sampleQueue.PendingCoinDays,
      e.EndTime = e.StartTime + sampleParams.SecondsToRecoverCoinDay := by
    simp [sampleQueue, sampleParams]
  have hsorted : sampleQueue.PendingCoinDays.Pairwise
      (fun a b => a.StartTime < b.StartTime) := by
    simp [sampleQueue]
  obtain ⟨removed, -, -, -, -, -, h6⟩ :=
    maturation_step exactDec sampleParams 302400 sampleBank sampleQueue
  refine ⟨⟨hend, hsorted⟩, ?_, ?_, h6 hend hsorted⟩
  · rw [updateTX_sample_full]
  · rw [updateTX_sample_full]

/-! ## The weight removed with a matured entry -/

theorem removedWeight_single_exact (p : Params) (lu : Int) (e : PendingCoinDay) :
    removedWeight exactDec p lu [e] =
      ((lu - e.StartTime : Int) : ℚ) / (p.SecondsToRecoverCoinDay : ℚ) * (e.Coin : ℚ) := by
  simp [removedWeight, Dec.Mul, Dec.Quo, NewDecFromRat, NewDec, Coin.ToDec, exactDec]

/-- C36, as the code has it: the recompute subtracts from `TotalCoinDay`, for the entries
it removes, the products `Mul (NewDecFromRat (LastUpdatedAt - StartTime)
SecondsToRecoverCoinDay) Coin` as they are, without clamping; with exact decimals the
weight of one entry is `(LastUpdatedAt - StartTime) / SecondsToRecoverCoinDay * Coin`,
which is the clamped value when `StartTime ≤ LastUpdatedAt ≤ StartTime +
SecondsToRecoverCoinDay`, the window is positive and `Coin` is non-negative. -/
theorem removal_weight_unclamped (dr : DecRound) (p : Params) (now : Int) (b : AccountBank)
    (q : PendingCoinDayQueue) (e : PendingCoinDay) :
    ((updateTXFromPendingCoinDayQueue dr p now b q).2.PendingCoinDays ≠ [] →
      (updateTXFromPendingCoinDayQueue dr p now b q).2.TotalCoinDay =
        q.TotalCoinDay -
          removedWeight dr p q.LastUpdatedAt (expiredPart (timeSlot now) q.PendingCoinDays) +
          Dec.Quo dr
            (Dec.Mul dr
              (Coin.ToDec
                (q.TotalCoin - coinSum (expiredPart (timeSlot now) q.PendingCoinDays)))
              (NewDec (timeSlot now - q.LastUpdatedAt)))
            (NewDec p.SecondsToRecoverCoinDay)) ∧
    removedWeight dr p q.LastUpdatedAt [e] =
      Dec.Mul dr (NewDecFromRat dr (q.LastUpdatedAt - e.StartTime) p.SecondsToRecoverCoinDay)
        (Coin.ToDec e.Coin) ∧
    removedWeight exactDec p q.LastUpdatedAt [e] =
      ((q.LastUpdatedAt - e.StartTime : Int) : ℚ) / (p.SecondsToRecoverCoinDay : ℚ) *
        (e.Coin : ℚ) ∧
    (0 < p.SecondsToRecoverCoinDay → 0 ≤ e.Coin → e.StartTime ≤ q.LastUpdatedAt →
      q.LastUpdatedAt ≤ e.StartTime + p.SecondsToRecoverCoinDay →
      removedWeight exactDec p q.LastUpdatedAt [e] = clampedWeight p q.LastUpdatedAt e) := by
  refine ⟨?_, ?_, removedWeight_single_exact p _ e, ?_⟩
  · intro hne
    rw [updateTX_entries] at hne
    rw [updateTX_totalCoinDay, if_neg hne]
  · simp [removedWeight]
  · intro hw hc h1 h2
    rw [removedWeight_single_exact]
    unfold clampedWeight
    have hwq : (0 : ℚ) < (p.SecondsToRecoverCoinDay : ℚ) := by exact_mod_cast hw
    have hcq : (0 : ℚ) ≤ (e.Coin : ℚ) := by exact_mod_cast hc
    have hr0 : (0 : ℚ) ≤
        ((q.LastUpdatedAt - e.StartTime : Int) : ℚ) / (p.SecondsToRecoverCoinDay : ℚ) := by
      apply div_nonneg _ hwq.le
      have : (0 : Int) ≤ q.LastUpdatedAt - e.StartTime := by omega
      exact_mod_cast this
    have hr1 : ((q.LastUpdatedAt - e.StartTime : Int) : ℚ) /
        (p.SecondsToRecoverCoinDay : ℚ) ≤ 1 := by
      rw [div_le_one hwq]
      have : q.LastUpdatedAt - e.StartTime ≤ p.SecondsToRecoverCoinDay := by omega
      exact_mod_cast this
    have hle := mul_le_mul_of_nonneg_right hr1 hcq
    rw [one_mul] at hle
    rw [min_eq_right hle, max_eq_right (mul_nonneg hr0 hcq)]

theorem removal_weight_unclamped_witness :
    ((0 : Int) < sampleParams.SecondsToRecoverCoinDay ∧ (0 : Coin) ≤ 10 ∧
      (0 : Int) ≤ sampleQueueHalf.LastUpdatedAt ∧
      sampleQueueHalf.LastUpdatedAt ≤ 0 + sampleParams.SecondsToRecoverCoinDay) ∧
    removedWeight exactDec sampleParams sampleQueueHalf.LastUpdatedAt
      [{ StartTime := 0, EndTime := 604800, Coin := 10 }] =
        clampedWeight sampleParams sampleQueueHalf.LastUpdatedAt
          { StartTime := 0, EndTime := 604800, Coin := 10 } := by
  refine ⟨⟨by decide, by decide, by decide, by decide⟩, ?_⟩
  exact (removal_weight_unclamped exactDec sampleParams 0 sampleBank sampleQueueHalf
    { StartTime := 0, EndTime := 604800, Coin := 10 }).2.2.2 (by decide) (by decide)
    (by decide) (by decide)

/-- The statement of C36 fails on `staleQueue`, last updated at 1209600, after the
`EndTime` 604800 of its head entry of 10 coins: the recompute at block time 1209600
removes that entry and subtracts the weight 20 from `TotalCoinDay` (7 becomes -13), while
the weight clamped to `[0, Coin]` is 10. -/
theorem removal_weight_exceeds_coin :
    removedWeight exactDec sampleParams staleQueue.LastUpdatedAt
      [{ StartTime := 0, EndTime := 604800, Coin := 10 }] = 20 ∧
    clampedWeight sampleParams staleQueue.LastUpdatedAt
      { StartTime := 0, EndTime := 604800, Coin := 10 } = 10 ∧
    staleQueue.TotalCoinDay = 7 ∧
    (updateTXFromPendingCoinDayQueue exactDec sampleParams 1209600 sampleBank
      staleQueue).2.TotalCoinDay = -13 ∧
    (updateTXFromPendingCoinDayQueue exactDec sampleParams 1209600 sampleBank
      staleQueue).2.PendingCoinDays =
        [{ StartTime := 1209600, EndTime := 1814400, Coin := 5 }] := by
  have hs : timeSlot 1209600 = 1209600 := by decide
  refine ⟨?_, ?_, rfl, ?_, ?_⟩
  · rw [removedWeight_single_exact]
    simp [staleQueue, sampleParams]
    norm_num
  · simp [clampedWeight, staleQueue, sampleParams]
    norm_num
  · simp [updateTXFromPendingCoinDayQueue, removeExpired_eq, hs, staleQueue, sampleBank,
      sampleParams, expiredPart, pendingPart, coinSum, removedWeight, List.takeWhile,
      List.dropWhile, Dec.Quo, Dec.Mul, exactDec, NewDec, NewDecFromRat, Coin.ToDec]
    norm_num
  · simp [updateTXFromPendingCoinDayQueue, removeExpired_eq, hs, staleQueue, sampleBank,
      sampleParams, expiredPart, pendingPart, coinSum, removedWeight, List.takeWhile,
      List.dropWhile]

/-! ## Opening an account -/

theorem AddSavingCoinWithFullCoinDay_eq (s : AccountStorage) (u : AccountKey) (c : Coin)
    (b : AccountBank) (hex : s.DoesAccountExist u = true) (hb : s.bank u = some b) :
    ∃ sA : AccountStorage,
      AddSavingCoinWithFullCoinDay s u c = (none, sA) ∧
      sA.bank u = some { b with Saving := b.Saving + c, CoinDay := b.CoinDay + c } ∧
      sA.queue = s.queue ∧ sA.info = s.info ∧ sA.accMeta = s.accMeta := by
  by_cases hc : c = 0
  · refine ⟨s, by simp [AddSavingCoinWithFullCoinDay, hex, hc], ?_, rfl, rfl, rfl⟩
    rw [hb, hc]
    simp
  · refine ⟨_, by
      simp only [AddSavingCoinWithFullCoinDay, hex, hc, AccountStorage.GetBankFromAccountKey,
        hb, not_true_eq_false, if_false], get_set_bank _ _ _, rfl, rfl, rfl⟩

theorem AddSavingCoin_fresh_queue (dr : DecRound) (p : Params) (now : Int)
    (s : AccountStorage) (u : AccountKey) (c : Coin) (b : AccountBank)
    (hex : s.DoesAccountExist u = true) (hb : s.bank u = some b) (hq : s.queue u = some {}) :
    ∃ (sB : AccountStorage) (q : PendingCoinDayQueue),
      AddSavingCoin dr p now s u c = (none, sB) ∧
      sB.bank u = some { b with Saving := b.Saving + c } ∧
      sB.queue u = some q ∧ sB.accMeta = s.accMeta ∧ q.TotalCoin = c ∧
      (c = 0 → q.PendingCoinDays = []) ∧
      (c ≠ 0 → q.PendingCoinDays = [newPendingCoinDay p now c]) := by
  by_cases hc : c = 0
  · refine ⟨s, {}, by simp [AddSavingCoin, hex, hc], ?_, hq, rfl, by simp [hc],
      fun _ => rfl, fun h => absurd hc h⟩
    rw [hb, hc]
    simp
  · rw [AddSavingCoin_eq dr p now s u c b {} hex hb hq hc]
    have hU : (updateTXFromPendingCoinDayQueue dr p now b {}).2.PendingCoinDays = [] := by
      rw [updateTX_entries]; rfl
    have hUtc : (updateTXFromPendingCoinDayQueue dr p now b {}).2.TotalCoin = 0 := by
      rw [updateTX_totalCoin]
      simp [pendingPart]
    refine ⟨_, _, rfl, ?_, get_set_queue_bank _ _ _ _, rfl, ?_, fun h => absurd h hc, ?_⟩
    · rw [get_set_bank]
      simp [expiredPart, coinSum]
    · rw [(pushPendingCoinDay_fields _ _).1, hUtc]
      simp [newPendingCoinDay]
    · intro _
      rw [pushPendingCoinDay_nil _ _ hU]

/-- C38: for a username without an account and every register deposit `R`, with
`L = FirstDepositFullCoinDayLimit`, `CreateAccount` succeeds and leaves the account with
`bank.Saving = R`, `bank.CoinDay = min R L`, `TransactionCapacity = min R L` and a queue
whose `TotalCoin` is `R - min R L`: no entry when `R ≤ L`, and the single entry of
`R - L` at the bucket of the block time when `L < R`; hence
`bank.Saving = bank.CoinDay + TotalCoin`. -/
theorem account_opening (dr : DecRound) (p : Params) (now : Int) (s : AccountStorage)
    (u : AccountKey) (k1 k2 k3 : Nat) (R : Coin)
    (hex : s.DoesAccountExist u = false) :
    ∃ (s2 : AccountStorage) (b : AccountBank) (q : PendingCoinDayQueue) (m : AccountMeta),
      CreateAccount dr p now s u k1 k2 k3 R = (none, s2) ∧
      s2.bank u = some b ∧ s2.queue u = some q ∧ s2.accMeta u = some m ∧
      b.Saving = R ∧ b.CoinDay = min R p.FirstDepositFullCoinDayLimit ∧
      m.TransactionCapacity = min R p.FirstDepositFullCoinDayLimit ∧
      q.TotalCoin = R - min R p.FirstDepositFullCoinDayLimit ∧
      (R ≤ p.FirstDepositFullCoinDayLimit → q.PendingCoinDays = []) ∧
      (p.FirstDepositFullCoinDayLimit < R →
        q.PendingCoinDays =
          [{ StartTime := timeSlot now
             EndTime := timeSlot now + p.SecondsToRecoverCoinDay
             Coin := R - p.FirstDepositFullCoinDayLimit }]) ∧
      b.Saving = b.CoinDay + q.TotalCoin := by
  have hfull : (if R > p.FirstDepositFullCoinDayLimit then p.FirstDepositFullCoinDayLimit
      else R) = min R p.FirstDepositFullCoinDayLimit := by
    by_cases hgt : R > p.FirstDepositFullCoinDayLimit
    · rw [if_pos hgt, min_eq_right (le_of_lt hgt)]
    · rw [if_neg hgt, min_eq_left (not_lt.mp hgt)]
  simp only [CreateAccount, hex, Bool.false_eq_true, if_false, hfull]
  generalize hs1 : ((((s.SetPendingCoinDayQueue u {}).SetBankFromAccountKey u {}).SetInfo u
      { Username := u, CreatedAt := now, ResetKey := k1, TransactionKey := k2,
        AppKey := k3 }).SetMeta u
      { LastActivityAt := now, LastReportOrUpvoteAt := now,
        TransactionCapacity := min R p.FirstDepositFullCoinDayLimit }).SetReward u {} = s1
  have hex1 : s1.DoesAccountExist u = true := by
    rw [← hs1]
    simp [AccountStorage.DoesAccountExist, AccountStorage.SetReward, AccountStorage.SetMeta,
      AccountStorage.SetInfo]
  have hb1 : s1.bank u = some {} := by
    rw [← hs1]
    simp [AccountStorage.SetReward, AccountStorage.SetMeta, AccountStorage.SetInfo,
      AccountStorage.SetBankFromAccountKey]
  have hq1 : s1.queue u = some {} := by
    rw [← hs1]
    simp [AccountStorage.SetReward, AccountStorage.SetMeta, AccountStorage.SetInfo,
      AccountStorage.SetBankFromAccountKey, AccountStorage.SetPendingCoinDayQueue]
  have hm1 : s1.accMeta u = some
      { LastActivityAt := now, LastReportOrUpvoteAt := now,
        TransactionCapacity := min R p.FirstDepositFullCoinDayLimit } := by
    rw [← hs1]
    simp [AccountStorage.SetReward, AccountStorage.SetMeta]
  obtain ⟨sA, hA, hbA, hqA, hiA, hmA⟩ :=
    AddSavingCoinWithFullCoinDay_eq s1 u (min R p.FirstDepositFullCoinDayLimit) {} hex1 hb1
  have hexA : sA.DoesAccountExist u = true := by
    unfold AccountStorage.DoesAccountExist at hex1 ⊢
    rw [hiA]
    exact hex1
  obtain ⟨sB, q, hB, hbB, hqB, hmB, htc, hnil, hone⟩ :=
    AddSavingCoin_fresh_queue dr p now sA u (R - min R p.FirstDepositFullCoinDayLimit) _
      hexA hbA (by rw [hqA]; exact hq1)
  rw [hA]
  simp only
  rw [hB]
  refine ⟨sB, _, q, _, rfl, hbB, hqB, by rw [hmB, hmA]; exact hm1, ?_, ?_, rfl, htc, ?_, ?_, ?_⟩
  · show (0 : Coin) + min R p.FirstDepositFullCoinDayLimit +
      (R - min R p.FirstDepositFullCoinDayLimit) = R
    ring
  · show (0 : Coin) + min R p.FirstDepositFullCoinDayLimit =
      min R p.FirstDepositFullCoinDayLimit
    ring
  · intro hle
    apply hnil
    rw [min_eq_left hle]
    ring
  · intro hlt
    rw [hone (by rw [min_eq_right (le_of_lt hlt)]; intro h; linarith),
      min_eq_right (le_of_lt hlt)]
    rfl
  · rw [htc]

theorem account_opening_witness :
    AccountStorage.empty.DoesAccountExist "bob" = false ∧
    ∃ (s2 : AccountStorage) (b : AccountBank) (q : PendingCoinDayQueue) (m : AccountMeta),
      CreateAccount exactDec sampleParams 3000 AccountStorage.empty "bob" 1 2 3 11 =
        (none, s2) ∧
      s2.bank "bob" = some b ∧ s2.queue "bob" = some q ∧ s2.accMeta "bob" = some m ∧
      b.Saving = 11 ∧ b.CoinDay = 1 ∧ m.TransactionCapacity = 1 ∧ q.TotalCoin = 10 ∧
      q.PendingCoinDays = [{ StartTime := 2400, EndTime := 607200, Coin := 10 }] := by
  obtain ⟨s2, b, q, m, h1, h2, h3, h4, h5, h6, h7, h8, -, h10, -⟩ :=
    account_opening exactDec sampleParams 3000 AccountStorage.empty "bob" 1 2 3 11 rfl
  have hmin : min (11 : Coin) sampleParams.FirstDepositFullCoinDayLimit = 1 := by decide
  rw [hmin] at h6 h7 h8
  refine ⟨rfl, s2, b, q, m, h1, h2, h3, h4, h5, h6, h7, ?_, ?_⟩
  · rw [h8]; decide
  · rw [h10 (by decide)]
    have hs : timeSlot 3000 = 2400 := by decide
    rw [hs]
    simp [sampleParams]

/-! ## Termination of the loops -/

theorem queue_eta (q : PendingCoinDayQueue) (l : List PendingCoinDay)
    (h : q.PendingCoinDays = l) : { q with PendingCoinDays := l } = q := by
  cases q
  simp only at h
  subst h
  rfl

theorem maturation_loop_terminates (dr : DecRound) (p : Params) (slot : Int)
    (l : List PendingCoinDay) (bank : AccountBank) (q : PendingCoinDayQueue) (fuel : Nat)
    (hq : q.PendingCoinDays = l) (hfuel : l.length + 1 ≤ fuel) :
    ∃ k : Nat, k ≤ l.length + 1 ∧
      runLoop (maturationStep dr p slot) fuel (bank, q) =
        some (removeExpired dr p slot l bank q, k) := by
  induction l generalizing bank q fuel with
  | nil =>
    obtain ⟨f, rfl⟩ : ∃ f, fuel = f + 1 := ⟨fuel - 1, by simp at hfuel; omega⟩
    refine ⟨1, by simp, ?_⟩
    simp [runLoop, maturationStep, hq, removeExpired, queue_eta q [] hq]
  | cons e rest ih =>
    obtain ⟨f, rfl⟩ : ∃ f, fuel = f + 1 := ⟨fuel - 1, by simp at hfuel; omega⟩
    have hf : rest.length + 1 ≤ f := by simp at hfuel; omega
    by_cases h : e.EndTime ≤ slot
    · obtain ⟨k, hk, hrun⟩ := ih
        { bank with CoinDay := bank.CoinDay + e.Coin }
        { q with
          TotalCoinDay := q.TotalCoinDay -
            Dec.Mul dr (NewDecFromRat dr (q.LastUpdatedAt - e.StartTime)
              p.SecondsToRecoverCoinDay) (Coin.ToDec e.Coin)
          TotalCoin := q.TotalCoin - e.Coin
          PendingCoinDays := rest } f rfl hf
      refine ⟨k + 1, by simp; omega, ?_⟩
      simp only [runLoop, maturationStep, hq, h, if_true, hrun, Option.map_some',
        removeExpired]
    · refine ⟨1, by simp, ?_⟩
      simp [runLoop, maturationStep, hq, h, removeExpired, queue_eta q (e :: rest) hq]

theorem head_loop_terminates (dr : DecRound) (p : Params)
    (l : List PendingCoinDay) (coin : Coin) (q : PendingCoinDayQueue) (fuel : Nat)
    (hq : q.PendingCoinDays = l) (hfuel : l.length + 1 ≤ fuel) :
    ∃ k : Nat, k ≤ l.length + 1 ∧
      runLoop (headStep dr p) fuel (coin, q) = some (minusFromHead dr p l coin q, k) := by
  induction l generalizing coin q fuel with
  | nil =>
    obtain ⟨f, rfl⟩ : ∃ f, fuel = f + 1 := ⟨fuel - 1, by simp at hfuel; omega⟩
    refine ⟨1, by simp, ?_⟩
    simp [runLoop, headStep, hq, minusFromHead, queue_eta q [] hq]
  | cons e rest ih =>
    obtain ⟨f, rfl⟩ : ∃ f, fuel = f + 1 := ⟨fuel - 1, by simp at hfuel; omega⟩
    have hf : rest.length + 1 ≤ f := by simp at hfuel; omega
    by_cases h : coin ≥ e.Coin
    · obtain ⟨k, hk, hrun⟩ := ih (coin - e.Coin)
        { q with
          TotalCoinDay := q.TotalCoinDay -
            Dec.Mul dr (NewDecFromRat dr (q.LastUpdatedAt - e.StartTime)
              p.SecondsToRecoverCoinDay) (Coin.ToDec e.Coin)
          TotalCoin := q.TotalCoin - e.Coin
          PendingCoinDays := rest } f rfl hf
      refine ⟨k + 1, by simp; omega, ?_⟩
      simp only [runLoop, headStep, hq, h, if_true, hrun, Option.map_some', minusFromHead]
    · refine ⟨1, by simp, ?_⟩
      simp [runLoop, headStep, hq, h, minusFromHead]

theorem tail_loop_terminates (dr : DecRound) (p : Params)
    (r : List PendingCoinDay) (coin : Coin) (q : PendingCoinDayQueue) (fuel : Nat)
    (hq : q.PendingCoinDays = r.reverse) (hfuel : r.length + 1 ≤ fuel) :
    ∃ k : Nat, k ≤ r.length + 1 ∧
      runLoop (tailStep dr p) fuel (coin, q) = some (minusFromTail dr p r coin q, k) := by
  induction r generalizing coin q fuel with
  | nil =>
    obtain ⟨f, rfl⟩ : ∃ f, fuel = f + 1 := ⟨fuel - 1, by simp at hfuel; omega⟩
    refine ⟨1, by simp, ?_⟩
    have hq2 : q.PendingCoinDays = [] := by simpa using hq
    simp [runLoop, tailStep, hq2, minusFromTail, queue_eta q [] hq2]
  | cons e rest ih =>
    obtain ⟨f, rfl⟩ : ∃ f, fuel = f + 1 := ⟨fuel - 1, by simp at hfuel; omega⟩
    have hf : rest.length + 1 ≤ f := by simp at hfuel; omega
    have hq2 : q.PendingCoinDays = rest.reverse ++ [e] := by simpa using hq
    have hlast : q.PendingCoinDays.getLast? = some e := by
      rw [hq2]; simp
    have hdrop : q.PendingCoinDays.dropLast = rest.reverse := by
      rw [hq2]; simp
    by_cases h : coin ≥ e.Coin
    · obtain ⟨k, hk, hrun⟩ := ih (coin - e.Coin)
        { q with
          TotalCoinDay := q.TotalCoinDay -
            Dec.Mul dr (NewDecFromRat dr (q.LastUpdatedAt - e.StartTime)
              p.SecondsToRecoverCoinDay) (Coin.ToDec e.Coin)
          TotalCoin := q.TotalCoin - e.Coin
          PendingCoinDays := rest.reverse } f rfl hf
      refine ⟨k + 1, by simp; omega, ?_⟩
      simp only [runLoop, tailStep, hlast, hdrop, h, if_true, hrun, Option.map_some',
        minusFromTail]
    · refine ⟨1, by simp, ?_⟩
      simp [runLoop, tailStep, hlast, hdrop, h, minusFromTail]

/-- C37: for every queue, amount and time slot, the maturation loop of
`updateTXFromPendingCoinDayQueue`, the tail loop of `MinusSavingCoin` and the head loop of
`MinusSavingCoinWithFullCoinDay`, run one iteration at a time, stop after at most
(queue length + 1) iterations, the leaving one included, for any fuel of at least that
many iterations, and in the state that the recursive definitions of the loops compute. -/
theorem loops_terminate (dr : DecRound) (p : Params) (slot : Int) (coin : Coin)
    (bank : AccountBank) (q : PendingCoinDayQueue) (fuel : Nat)
    (hfuel : q.PendingCoinDays.length + 1 ≤ fuel) :
    (∃ k : Nat, k ≤ q.PendingCoinDays.length + 1 ∧
      runLoop (maturationStep dr p slot) fuel (bank, q) =
        some (removeExpired dr p slot q.PendingCoinDays bank q, k)) ∧
    (∃ k : Nat, k ≤ q.PendingCoinDays.length + 1 ∧
      runLoop (tailStep dr p) fuel (coin, q) =
        some (minusFromTail dr p q.PendingCoinDays.reverse coin q, k)) ∧
    (∃ k : Nat, k ≤ q.PendingCoinDays.length + 1 ∧
      runLoop (headStep dr p) fuel (coin, q) =
        some (minusFromHead dr p q.PendingCoinDays coin q, k)) := by
  refine ⟨maturation_loop_terminates dr p slot _ bank q fuel rfl hfuel, ?_,
    head_loop_terminates dr p _ coin q fuel rfl hfuel⟩
  have := tail_loop_terminates dr p q.PendingCoinDays.reverse coin q fuel
    (by rw [List.reverse_reverse]) (by rw [List.length_reverse]; exact hfuel)
  rw [List.length_reverse] at this
  exact this

theorem loops_terminate_witness :
    tieBreakQueue.PendingCoinDays.length + 1 ≤ 3 ∧
    (∃ k : Nat, k ≤ 3 ∧
      runLoop (tailStep exactDec sampleParams) 3 (10, tieBreakQueue) =
        some (minusFromTail exactDec sampleParams tieBreakQueue.PendingCoinDays.reverse 10
          tieBreakQueue, k)) ∧
    (∃ k : Nat, k ≤ 3 ∧
      runLoop (headStep exactDec sampleParams) 3 (25, tieBreakQueue) =
        some (minusFromHead exactDec sampleParams tieBreakQueue.PendingCoinDays 25
          tieBreakQueue, k)) := by
  have hlen : tieBreakQueue.PendingCoinDays.length + 1 ≤ 3 := by decide
  obtain ⟨-, h2, -⟩ :=
    loops_terminate exactDec sampleParams 302400 10 tieBreakBank tieBreakQueue 3 hlen
  obtain ⟨-, -, h3⟩ :=
    loops_terminate exactDec sampleParams 302400 25 tieBreakBank tieBreakQueue 3 hlen
  exact ⟨hlen, h2, h3⟩

/-! ## The event buffer -/

theorem registerAll_check_only (regs : List Registration) (gm : GlobalManager) :
    registerAll true regs gm = gm := by
  induction regs with
  | nil => rfl
  | cons r rest ih =>
    have h : (registerEventAtTime true r.blockTime gm r.unixTime r.event).2 = gm := by
      unfold registerEventAtTime
      split <;> simp
    rw [registerAll, h, ih]

/-- C33: `registerEventAtTime` called in a check-only context with `unixTime` not earlier
than the block time returns no error and leaves the manager, the buffer
`deliverTxEventCacheList` included, as it was; after any run of check-only calls the
manager is unchanged, so `CommitEventCache` writes what it would have written without
them. -/
theorem check_only_buffers_nothing (gm : GlobalManager) (blockTime unixTime : Int)
    (event : Event) (h : blockTime ≤ unixTime) :
    registerEventAtTime true blockTime gm unixTime event = (none, gm) ∧
    (registerEventAtTime true blockTime gm unixTime event).2.deliverTxEventCacheList =
      gm.deliverTxEventCacheList ∧
    ∀ regs : List Registration,
      registerAll true regs gm = gm ∧
      CommitEventCache (registerAll true regs gm) = CommitEventCache gm := by
  have h1 : registerEventAtTime true blockTime gm unixTime event = (none, gm) := by
    unfold registerEventAtTime
    rw [if_neg (not_lt.mpr h)]
    simp
  refine ⟨h1, by rw [h1], fun regs => ?_⟩
  rw [registerAll_check_only]
  exact ⟨rfl, rfl⟩

theorem check_only_buffers_nothing_witness :
    (50 : Int) ≤ 100 ∧
    registerEventAtTime true 50
        { storage := sampleGlobalStorage,
          deliverTxEventCacheList := [{ UnixTime := 100, EventList := [3] }] } 100 7 =
      (none,
        { storage := sampleGlobalStorage,
          deliverTxEventCacheList := [{ UnixTime := 100, EventList := [3] }] }) ∧
    (registerEventAtTime false 50
        { storage := sampleGlobalStorage,
          deliverTxEventCacheList := [{ UnixTime := 100, EventList := [3] }] }
        100 7).2.deliverTxEventCacheList = [{ UnixTime := 100, EventList := [3, 7] }] :=
  ⟨by decide,
   (check_only_buffers_nothing
      { storage := sampleGlobalStorage,
        deliverTxEventCacheList := [{ UnixTime := 100, EventList := [3] }] }
      50 100 7 (by decide)).1,
   by simp [registerEventAtTime, appendToEventCache]⟩

theorem commitEventCacheLoop_cons (c : EventCache) (rest : List EventCache)
    (st : GlobalStorage) :
    commitEventCacheLoop (c :: rest) st =
      commitEventCacheLoop rest
        { timeEventList := fun t =>
            if t = c.UnixTime then
              some { Events := storedEvents st c.UnixTime ++ c.EventList }
            else st.timeEventList t } := by
  simp only [commitEventCacheLoop, GlobalStorage.GetTimeEventList,
    GlobalStorage.SetTimeEventList, storedEvents]
  cases st.timeEventList c.UnixTime <;> rfl

theorem bufferedAt_not_mem (t : Int) (cache : List EventCache)
    (h : t ∉ cache.map (fun c => c.UnixTime)) : bufferedAt t cache = [] := by
  induction cache with
  | nil => rfl
  | cons c rest ih =>
    simp only [List.map_cons, List.mem_cons, not_or] at h
    simp only [bufferedAt, ih h.2, List.append_nil]
    rw [if_neg (fun hc : c.UnixTime = t => h.1 hc.symm)]

theorem bufferedAt_append (t : Int) (l1 l2 : List EventCache) :
    bufferedAt t (l1 ++ l2) = bufferedAt t l1 ++ bufferedAt t l2 := by
  induction l1 with
  | nil => rfl
  | cons c rest ih => simp [bufferedAt, ih]

theorem commitEventCacheLoop_spec (cache : List EventCache) (st : GlobalStorage) :
    (commitEventCacheLoop cache st).1 = none ∧
    ∀ t : Int,
      (commitEventCacheLoop cache st).2.timeEventList t =
        if t ∈ cache.map (fun c => c.UnixTime) then
          some { Events := storedEvents st t ++ bufferedAt t cache }
        else st.timeEventList t := by
  induction cache generalizing st with
  | nil => exact ⟨rfl, fun t => by simp [commitEventCacheLoop]⟩
  | cons c rest ih =>
    rw [commitEventCacheLoop_cons]
    obtain ⟨h1, h2⟩ := ih
      { timeEventList := fun t =>
          if t = c.UnixTime then
            some { Events := storedEvents st c.UnixTime ++ c.EventList }
          else st.timeEventList t }
    refine ⟨h1, fun t => ?_⟩
    rw [h2 t]
    by_cases htc : t = c.UnixTime
    · subst htc
      by_cases hr : c.UnixTime ∈ rest.map (fun c => c.UnixTime)
      · simp [hr, storedEvents, bufferedAt]
      · simp [hr, bufferedAt, bufferedAt_not_mem _ _ hr]
    · have hct : ¬ c.UnixTime = t := fun h => htc h.symm
      by_cases hr : t ∈ rest.map (fun c => c.UnixTime)
      · simp [hr, htc, hct, storedEvents, bufferedAt]
      · simp [hr, htc, hct]

theorem appendToEventCache_none (unixTime : Int) (event : Event) (cache : List EventCache)
    (h : unixTime ∉ cache.map (fun c => c.UnixTime)) :
    appendToEventCache unixTime event cache = none := by
  induction cache with
  | nil => rfl
  | cons c rest ih =>
    simp only [List.map_cons, List.mem_cons, not_or] at h
    simp [appendToEventCache, h.1, ih h.2]

theorem appendToEventCache_some (unixTime : Int) (event : Event) (cache : List EventCache)
    (h : unixTime ∈ cache.map (fun c => c.UnixTime))
    (hnd : (cache.map (fun c => c.UnixTime)).Nodup) :
    ∃ l, appendToEventCache unixTime event cache = some l ∧
      l.map (fun c => c.UnixTime) = cache.map (fun c => c.UnixTime) ∧
      ∀ t : Int, bufferedAt t l =
        bufferedAt t cache ++ (if unixTime = t then [event] else []) := by
  induction cache with
  | nil => simp at h
  | cons c rest ih =>
    simp only [List.map_cons, List.nodup_cons] at hnd
    by_cases hc : unixTime = c.UnixTime
    · refine ⟨{ c with EventList := c.EventList ++ [event] } :: rest,
        by simp [appendToEventCache, hc], by simp, fun t => ?_⟩
      by_cases ht : c.UnixTime = t
      · have hr : bufferedAt t rest = [] := bufferedAt_not_mem _ _ (ht ▸ hnd.1)
        simp [bufferedAt, ht, hc, hr]
      · simp [bufferedAt, ht, hc]
    · have hmem : unixTime ∈ rest.map (fun c => c.UnixTime) := by
        simp only [List.map_cons, List.mem_cons] at h
        exact h.resolve_left hc
      obtain ⟨l, hl, hmap, hbuf⟩ := ih hmem hnd.2
      refine ⟨c :: l, by simp [appendToEventCache, hc, hl], by simp [hmap], fun t => ?_⟩
      simp [bufferedAt, hbuf t]

/-- What one deliver-time call of `registerEventAtTime` does to a buffer of distinct
times. -/
theorem registerEventAtTime_deliver (blockTime unixTime : Int) (event : Event)
    (gm : GlobalManager)
    (hnd : (gm.deliverTxEventCacheList.map (fun c => c.UnixTime)).Nodup) :
    (registerEventAtTime false blockTime gm unixTime event).2.storage = gm.storage ∧
    ((registerEventAtTime false blockTime gm unixTime
        event).2.deliverTxEventCacheList.map (fun c => c.UnixTime)).Nodup ∧
    (∀ t : Int,
      bufferedAt t
          (registerEventAtTime false blockTime gm unixTime event).2.deliverTxEventCacheList =
        bufferedAt t gm.deliverTxEventCacheList ++
          (if blockTime ≤ unixTime ∧ unixTime = t then [event] else [])) ∧
    (∀ t : Int,
      t ∈ (registerEventAtTime false blockTime gm unixTime
          event).2.deliverTxEventCacheList.map (fun c => c.UnixTime) ↔
        t ∈ gm.deliverTxEventCacheList.map (fun c => c.UnixTime) ∨
          (blockTime ≤ unixTime ∧ unixTime = t)) := by
  by_cases hlt : unixTime < blockTime
  · have hle : ¬ blockTime ≤ unixTime := not_le.mpr hlt
    have hres : registerEventAtTime false blockTime gm unixTime event =
        (some (.ErrRegisterExpiredEvent unixTime), gm) := by
      unfold registerEventAtTime
      rw [if_pos hlt]
    rw [hres]
    exact ⟨rfl, hnd, fun t => by simp [hle], fun t => by simp [hle]⟩
  · have hle : blockTime ≤ unixTime := not_lt.mp hlt
    by_cases hmem : unixTime ∈ gm.deliverTxEventCacheList.map (fun c => c.UnixTime)
    · obtain ⟨l, hl, hmap, hbuf⟩ := appendToEventCache_some unixTime event _ hmem hnd
      have hres : registerEventAtTime false blockTime gm unixTime event =
          (none, { gm with deliverTxEventCacheList := l }) := by
        unfold registerEventAtTime
        rw [if_neg hlt, hl]
        simp
      rw [hres]
      refine ⟨rfl, ?_, fun t => ?_, fun t => ?_⟩
      · show (l.map (fun c => c.UnixTime)).Nodup
        rw [hmap]; exact hnd
      · show bufferedAt t l = _
        rw [hbuf t]; simp [hle]
      · show t ∈ l.map (fun c => c.UnixTime) ↔ _
        rw [hmap]
        constructor
        · exact fun h => Or.inl h
        · rintro (h | h)
          · exact h
          · exact h.2 ▸ hmem
    · have hres : registerEventAtTime false blockTime gm unixTime event =
          (none, { gm with
            deliverTxEventCacheList := gm.deliverTxEventCacheList ++
              [{ UnixTime := unixTime, EventList := [event] }] }) := by
        unfold registerEventAtTime
        rw [if_neg hlt, appendToEventCache_none unixTime event _ hmem]
        simp
      rw [hres]
      refine ⟨rfl, ?_, fun t => ?_, fun t => ?_⟩
      · show (List.map (fun c : EventCache => c.UnixTime) (gm.deliverTxEventCacheList ++
            [{ UnixTime := unixTime, EventList := [event] }])).Nodup
        rw [List.map_append, List.nodup_append]
        refine ⟨hnd, by simp, ?_⟩
        intro a ha hb
        simp only [List.map_cons, List.map_nil, List.mem_singleton] at hb
        exact hmem (hb ▸ ha)
      · show bufferedAt t (gm.deliverTxEventCacheList ++
            [{ UnixTime := unixTime, EventList := [event] }]) = _
        rw [bufferedAt_append]
        simp [bufferedAt, hle]
      · show t ∈ List.map (fun c : EventCache => c.UnixTime)
            (gm.deliverTxEventCacheList ++
              [{ UnixTime := unixTime, EventList := [event] }]) ↔ _
        simp [hle, eq_comm]

theorem registerAll_deliver (regs : List Registration) (gm : GlobalManager)
    (hnd : (gm.deliverTxEventCacheList.map (fun c => c.UnixTime)).Nodup) :
    (registerAll false regs gm).storage = gm.storage ∧
    (∀ t : Int,
      bufferedAt t (registerAll false regs gm).deliverTxEventCacheList =
        bufferedAt t gm.deliverTxEventCacheList ++ acceptedAt t regs) ∧
    (∀ t : Int,
      t ∈ (registerAll false regs gm).deliverTxEventCacheList.map (fun c => c.UnixTime) ↔
        t ∈ gm.deliverTxEventCacheList.map (fun c => c.UnixTime) ∨
          acceptedAt t regs ≠ []) := by
  induction regs generalizing gm with
  | nil => simp [registerAll, acceptedAt]
  | cons r rest ih =>
    obtain ⟨h1, h2, h3, h4⟩ :=
      registerEventAtTime_deliver r.blockTime r.unixTime r.event gm hnd
    obtain ⟨i1, i2, i3⟩ :=
      ih (registerEventAtTime false r.blockTime gm r.unixTime r.event).2 h2
    simp only [registerAll]
    refine ⟨i1.trans h1, fun t => ?_, fun t => ?_⟩
    · rw [i2 t, h3 t, acceptedAt, List.append_assoc]
    · rw [i3 t, h4 t, acceptedAt]
      by_cases hr : r.blockTime ≤ r.unixTime ∧ r.unixTime = t
      · rw [if_pos hr]
        exact ⟨fun _ => Or.inr (by simp), fun _ => Or.inl (Or.inr hr)⟩
      · rw [if_neg hr]
        simp only [List.nil_append]
        constructor
        · rintro ((h | h) | h)
          · exact Or.inl h
          · exact absurd h hr
          · exact Or.inr h
        · rintro (h | h)
          · exact Or.inl (Or.inl h)
          · exact Or.inr h

theorem CommitEventCache_eq (gm : GlobalManager) :
    CommitEventCache gm =
      (none,
        { storage := (commitEventCacheLoop gm.deliverTxEventCacheList gm.storage).2,
          deliverTxEventCacheList := [] }) := by
  have h := (commitEventCacheLoop_spec gm.deliverTxEventCacheList gm.storage).1
  unfold CommitEventCache
  generalize commitEventCacheLoop gm.deliverTxEventCacheList gm.storage = r at h
  obtain ⟨e, st⟩ := r
  simp only at h
  subst h
  rfl

/-- C34: after any run of deliver-time calls of `registerEventAtTime` on an empty buffer,
`CommitEventCache` returns no error, empties the buffer, leaves the list stored under a
time with no accepted registration as it was, and stores under every other time the list
that was there (the empty one when absent) followed by the events registered for that
time in registration order; a second `CommitEventCache` changes nothing. -/
theorem CommitEventCache_flushes_once (st : GlobalStorage) (regs : List Registration) :
    (CommitEventCache
      (registerAll false regs { storage := st, deliverTxEventCacheList := [] })).1 = none ∧
    (CommitEventCache
      (registerAll false regs
        { storage := st, deliverTxEventCacheList := [] })).2.deliverTxEventCacheList = [] ∧
    (∀ t : Int,
      (CommitEventCache
        (registerAll false regs
          { storage := st, deliverTxEventCacheList := [] })).2.storage.timeEventList t =
        if acceptedAt t regs = [] then st.timeEventList t
        else some { Events := storedEvents st t ++ acceptedAt t regs }) ∧
    CommitEventCache
        (CommitEventCache
          (registerAll false regs { storage := st, deliverTxEventCacheList := [] })).2 =
      (none,
        (CommitEventCache
          (registerAll false regs { storage := st, deliverTxEventCacheList := [] })).2) := by
  obtain ⟨h1, h2, h3⟩ :=
    registerAll_deliver regs { storage := st, deliverTxEventCacheList := [] }
      (by simp)
  rw [CommitEventCache_eq]
  refine ⟨rfl, rfl, fun t => ?_, ?_⟩
  · show (commitEventCacheLoop _ _).2.timeEventList t = _
    rw [(commitEventCacheLoop_spec _ _).2 t, h1, h2 t]
    have hmem := h3 t
    simp only [List.map_nil, List.not_mem_nil, false_or] at hmem
    by_cases ha : acceptedAt t regs = []
    · rw [if_neg (fun h => (hmem.mp h) ha), if_pos ha]
    · rw [if_pos (hmem.mpr ha), if_neg ha]
      simp [bufferedAt]
  · rw [CommitEventCache_eq]
    rfl

theorem CommitEventCache_flushes_once_witness :
    (CommitEventCache
      (registerAll false sampleRegistrations
        { storage := sampleGlobalStorage,
          deliverTxEventCacheList := [] })).2.storage.timeEventList 100 =
      some { Events := [1, 2, 7, 9] } ∧
    (CommitEventCache
      (registerAll false sampleRegistrations
        { storage := sampleGlobalStorage,
          deliverTxEventCacheList := [] })).2.storage.timeEventList 200 =
      some { Events := [8] } ∧
    (CommitEventCache
      (registerAll false sampleRegistrations
        { storage := sampleGlobalStorage,
          deliverTxEventCacheList := [] })).2.storage.timeEventList 40 = none := by
  have h := (CommitEventCache_flushes_once sampleGlobalStorage sampleRegistrations).2.2.1
  refine ⟨(h 100).trans ?_, (h 200).trans ?_, (h 40).trans ?_⟩ <;>
    simp [acceptedAt, sampleRegistrations, storedEvents, sampleGlobalStorage]

/-! ## Signs of the stored amounts -/

theorem coinDay_set {s : AccountStorage} (h : ∀ u b, s.bank u = some b → 0 ≤ b.CoinDay)
    (u : AccountKey) (b2 : AccountBank) (q2 : PendingCoinDayQueue) (hb2 : 0 ≤ b2.CoinDay) :
    ∀ v b, ((s.SetPendingCoinDayQueue u q2).SetBankFromAccountKey u b2).bank v = some b →
      0 ≤ b.CoinDay := by
  intro v bv hv
  by_cases hvu : v = u
  · subst hvu
    rw [get_set_bank] at hv
    cases hv
    exact hb2
  · exact h v bv (by
      simpa [AccountStorage.SetBankFromAccountKey, AccountStorage.SetPendingCoinDayQueue, hvu]
        using hv)

theorem expired_coinSum_nonneg {dr : DecRound} {p : Params} {t : Int} {b : AccountBank}
    {q : PendingCoinDayQueue} (hcore : AccountCore dr p t b q) (slot : Int) :
    0 ≤ coinSum (expiredPart slot q.PendingCoinDays) :=
  coinSum_nonneg_of_entries _
    (expiredPart_nonneg _ _ (fun e he => le_of_lt (hcore.1.wf.entryOK e he).2.1))

theorem AddSavingCoin_coinDay {dr : DecRound} {p : Params} {t t2 : Int}
    {s s2 : AccountStorage} (u : AccountKey) (c : Coin)
    (h : StoreCore dr p t s) (hn : ∀ v b, s.bank v = some b → 0 ≤ b.CoinDay)
    (hrun : AddSavingCoin dr p t2 s u c = (none, s2)) :
    ∀ v b, s2.bank v = some b → 0 ≤ b.CoinDay := by
  by_cases hex : s.DoesAccountExist u = true
  · by_cases hc0 : c = 0
    · have : s2 = s := by
        simp [AddSavingCoin, hex, hc0] at hrun
        exact hrun.symm
      subst this
      exact hn
    · cases hb : s.bank u with
      | none =>
        simp [AddSavingCoin, AccountStorage.GetBankFromAccountKey, hex, hc0, hb] at hrun
      | some b =>
        obtain ⟨q, hq, hcore⟩ := h u b hb
        rw [AddSavingCoin_eq dr p t2 s u c b q hex hb hq hc0] at hrun
        have hs2 := (Prod.mk.inj hrun).2
        subst hs2
        apply coinDay_set hn
        have h1 := hn u b hb
        have h2 := expired_coinSum_nonneg hcore (timeSlot t2)
        simp only
        linarith
  · simp [AddSavingCoin, hex] at hrun

theorem AddSavingCoinWithFullCoinDay_coinDay {s s2 : AccountStorage} (u : AccountKey)
    (c : Coin) (hc : 0 ≤ c) (hn : ∀ v b, s.bank v = some b → 0 ≤ b.CoinDay)
    (hrun : AddSavingCoinWithFullCoinDay s u c = (none, s2)) :
    ∀ v b, s2.bank v = some b → 0 ≤ b.CoinDay := by
  cases hb : s.bank u with
  | none =>
    by_cases hex : s.DoesAccountExist u = true
    · by_cases hc0 : c = 0
      · have : s2 = s := by
          simp [AddSavingCoinWithFullCoinDay, hex, hc0] at hrun
          exact hrun.symm
        subst this
        exact hn
      · simp [AddSavingCoinWithFullCoinDay, AccountStorage.GetBankFromAccountKey, hex, hc0,
          hb] at hrun
    · simp [AddSavingCoinWithFullCoinDay, hex] at hrun
  | some b =>
    obtain ⟨⟨b2, hb2, -, hcd⟩, hother, -, -⟩ :=
      AddSavingCoinWithFullCoinDay_bank u c b hb hrun
    intro v bv hv
    by_cases hvu : v = u
    · subst hvu
      rw [hb2] at hv
      cases hv
      have := hn v b hb
      rw [hcd]
      linarith
    · rw [hother v hvu] at hv
      exact hn v bv hv

theorem MinusSavingCoin_coinDay {dr : DecRound} {p : Params} {t t2 : Int}
    {s s2 : AccountStorage} (u : AccountKey) (c : Coin) (hmin : 0 ≤ p.MinimumBalance)
    (h : StoreCore dr p t s) (hn : ∀ v b, s.bank v = some b → 0 ≤ b.CoinDay)
    (hrun : MinusSavingCoin dr p t2 s u c = (none, s2)) :
    ∀ v b, s2.bank v = some b → 0 ≤ b.CoinDay := by
  cases hb : s.bank u with
  | none => simp [MinusSavingCoin, AccountStorage.GetBankFromAccountKey, hb] at hrun
  | some b =>
    by_cases hge : p.MinimumBalance ≤ b.Saving - c
    · by_cases hc0 : c = 0
      · have : s2 = s := by
          simp [MinusSavingCoin, AccountStorage.GetBankFromAccountKey, hb, hc0] at hrun
          split at hrun
          · simp at hrun
          · exact (Prod.mk.inj hrun).2.symm
        subst this
        exact hn
      · obtain ⟨q, hq, hcore⟩ := h u b hb
        rw [MinusSavingCoin_eq dr p t2 s u c b q hb hq hge hc0] at hrun
        have hs2 := (Prod.mk.inj hrun).2
        subst hs2
        apply coinDay_set hn
        have h1 := hn u b hb
        have h2 := expired_coinSum_nonneg hcore (timeSlot t2)
        split <;> simp only <;> linarith
    · simp [MinusSavingCoin, AccountStorage.GetBankFromAccountKey, hb, hge] at hrun

theorem MinusSavingCoinWithFullCoinDay_coinDay {dr : DecRound} {p : Params} {t t2 : Int}
    {s s2 : AccountStorage} (u : AccountKey) (c lost : Coin)
    (h : StoreCore dr p t s) (hn : ∀ v b, s.bank v = some b → 0 ≤ b.CoinDay)
    (hrun : MinusSavingCoinWithFullCoinDay dr p t2 s u c = (none, lost, s2)) :
    ∀ v b, s2.bank v = some b → 0 ≤ b.CoinDay := by
  by_cases hc0 : c = 0
  · have : s2 = s := by
      simp [MinusSavingCoinWithFullCoinDay, hc0] at hrun
      exact hrun.2.symm
    subst this
    exact hn
  cases hb : s.bank u with
  | none =>
    simp [MinusSavingCoinWithFullCoinDay, AccountStorage.GetBankFromAccountKey, hb, hc0] at hrun
  | some b =>
    by_cases hge : p.MinimumBalance ≤ b.Saving - c
    · obtain ⟨q, hq, hcore⟩ := h u b hb
      rw [MinusSavingCoinWithFullCoinDay_eq dr p t2 s u c b q hb hq hge hc0] at hrun
      by_cases hcd : b.CoinDay + coinSum (expiredPart (timeSlot t2) q.PendingCoinDays) ≥ c
      · simp only [hcd, if_true] at hrun
        have hs2 := (Prod.mk.inj (Prod.mk.inj hrun).2).2
        subst hs2
        apply coinDay_set hn
        simp only
        linarith
      · simp only [hcd, if_false] at hrun
        have hs2 := (Prod.mk.inj (Prod.mk.inj hrun).2).2
        subst hs2
        apply coinDay_set hn
        exact le_refl _
    · simp [MinusSavingCoinWithFullCoinDay, AccountStorage.GetBankFromAccountKey, hb, hge,
        hc0] at hrun

theorem GetCoinDay_coinDay {dr : DecRound} {p : Params} {t t2 : Int} {s s2 : AccountStorage}
    (u : AccountKey) (r : Coin) (h : StoreCore dr p t s)
    (hn : ∀ v b, s.bank v = some b → 0 ≤ b.CoinDay)
    (hrun : GetCoinDay dr p t2 s u = (none, r, s2)) :
    ∀ v b, s2.bank v = some b → 0 ≤ b.CoinDay := by
  cases hb : s.bank u with
  | none => simp [GetCoinDay, AccountStorage.GetBankFromAccountKey, hb] at hrun
  | some b =>
    obtain ⟨q, hq, hcore⟩ := h u b hb
    rw [GetCoinDay_eq dr p t2 s u b q hb hq] at hrun
    have hs2 := (Prod.mk.inj (Prod.mk.inj hrun).2).2
    subst hs2
    apply coinDay_set hn
    rw [updateTX_fst]
    have h1 := hn u b hb
    have h2 := expired_coinSum_nonneg hcore (timeSlot t2)
    simp only
    linarith

theorem CreateAccount_coinDay {dr : DecRound} {p : Params} {t t2 : Int}
    {s s2 : AccountStorage} (u : AccountKey) (k1 k2 k3 : Nat) (deposit : Coin)
    (hlim : 0 ≤ p.FirstDepositFullCoinDayLimit)
    (h : StoreCore dr p t s) (ht : t ≤ t2) (hd : 0 ≤ deposit)
    (hn : ∀ v b, s.bank v = some b → 0 ≤ b.CoinDay)
    (hrun : CreateAccount dr p t2 s u k1 k2 k3 deposit = (none, s2)) :
    ∀ v b, s2.bank v = some b → 0 ≤ b.CoinDay := by
  by_cases hex : s.DoesAccountExist u = true
  · simp [CreateAccount, hex] at hrun
  · simp only [CreateAccount, hex, Bool.false_eq_true, if_false] at hrun
    generalize hfull : (if deposit > p.FirstDepositFullCoinDayLimit then
      p.FirstDepositFullCoinDayLimit else deposit) = full at hrun
    have hfull0 : 0 ≤ full := by
      rw [← hfull]
      split
      · exact hlim
      · exact hd
    generalize hs1 : ((((s.SetPendingCoinDayQueue u {}).SetBankFromAccountKey u {}).SetInfo u
        { Username := u, CreatedAt := t2, ResetKey := k1, TransactionKey := k2,
          AppKey := k3 }).SetMeta u
        { LastActivityAt := t2, LastReportOrUpvoteAt := t2,
          TransactionCapacity := full }).SetReward u {} = s1 at hrun
    have hbank1 : s1.bank = ((s.SetPendingCoinDayQueue u {}).SetBankFromAccountKey u {}).bank := by
      rw [← hs1]; rfl
    have hqueue1 : s1.queue =
        ((s.SetPendingCoinDayQueue u {}).SetBankFromAccountKey u {}).queue := by
      rw [← hs1]; rfl
    have hcore1 : StoreCore dr p t2 s1 := by
      have := StoreCore_set h ht u {} {} (AccountCore_fresh dr p t2)
      intro v b hv
      rw [hbank1] at hv
      rw [hqueue1]
      exact this v b hv
    have hn1 : ∀ v b, s1.bank v = some b → 0 ≤ b.CoinDay := by
      intro v b hv
      rw [hbank1] at hv
      exact coinDay_set hn u {} {} (le_refl _) v b hv
    cases hA : AddSavingCoinWithFullCoinDay s1 u full with
    | mk eA sA =>
      rw [hA] at hrun
      cases eA with
      | some e => simp at hrun
      | none =>
        simp only at hrun
        cases hB : AddSavingCoin dr p t2 sA u (deposit - full) with
        | mk eB sB =>
          rw [hB] at hrun
          cases eB with
          | some e => simp at hrun
          | none =>
            simp only at hrun
            have hs2 := (Prod.mk.inj hrun).2
            subst hs2
            have hcoreA := (AddSavingCoinWithFullCoinDay_step u full hcore1 (le_refl t2) hA).1
            have hnA := AddSavingCoinWithFullCoinDay_coinDay u full hfull0 hn1 hA
            exact AddSavingCoin_coinDay u (deposit - full) hcoreA hnA hB

/-- Every reachable store has non-negative `CoinDay` in every bank record. -/
theorem Reachable_coinDay_nonneg {dr : DecRound} {p : Params} {t : Int} {s : AccountStorage}
    (hw : 0 < p.SecondsToRecoverCoinDay) (hmin : 0 ≤ p.MinimumBalance)
    (hlim : 0 ≤ p.FirstDepositFullCoinDayLimit) (hr : Reachable dr p t s) :
    ∀ v b, s.bank v = some b → 0 ≤ b.CoinDay := by
  induction hr with
  | genesis t =>
    intro u b hb
    simp [AccountStorage.empty] at hb
  | createAccount t2 u k1 k2 k3 d s2 hprev ht hd hrun ih =>
    exact CreateAccount_coinDay u k1 k2 k3 d hlim (Reachable_invariant hw hmin hprev).1 ht hd
      ih hrun
  | addSavingCoin t2 u c s2 hprev ht hc hrun ih =>
    exact AddSavingCoin_coinDay u c (Reachable_invariant hw hmin hprev).1 ih hrun
  | addSavingCoinWithFullCoinDay t2 u c s2 hprev ht hc hrun ih =>
    exact AddSavingCoinWithFullCoinDay_coinDay u c hc ih hrun
  | minusSavingCoin t2 u c s2 hprev ht hc hrun ih =>
    exact MinusSavingCoin_coinDay u c hmin (Reachable_invariant hw hmin hprev).1 ih hrun
  | minusSavingCoinWithFullCoinDay t2 u c lost s2 hprev ht _ hrun ih =>
    exact MinusSavingCoinWithFullCoinDay_coinDay u c lost
      (Reachable_invariant hw hmin hprev).1 ih hrun
  | getCoinDay t2 u r s2 hprev ht hrun ih =>
    exact GetCoinDay_coinDay u r (Reachable_invariant hw hmin hprev).1 ih hrun

/-! ## A residue of the rounding -/

theorem roundHalfEven_eq_of_lt (x : ℚ) (n : Int) (h1 : (n : ℚ) - 1 / 2 < x)
    (h2 : x < (n : ℚ) + 1 / 2) : roundHalfEven x = n := by
  have hb := roundHalfEven_bounds x
  have ha : (roundHalfEven x : ℚ) < (n : ℚ) + 1 := by linarith [hb.1]
  have hc : (n : ℚ) - 1 < (roundHalfEven x : ℚ) := by linarith [hb.2]
  have ha2 : roundHalfEven x < n + 1 := by exact_mod_cast ha
  have hc2 : n - 1 < roundHalfEven x := by exact_mod_cast hc
  omega

theorem truncRat_eq (x : ℚ) (n : Int) (h1 : (n : ℚ) ≤ x) (h2 : x < (n : ℚ) + 1)
    (h0 : 0 ≤ x) : truncRat x = n := by
  unfold truncRat
  rw [if_pos h0]
  exact Int.floor_eq_iff.mpr ⟨h1, h2⟩

/-- Opening `bob` with 3 coins at time 0: one coin has its full coin day, two are pending. -/
theorem CreateAccount_three (dr : DecRound) :
    (CreateAccount dr sampleParams 0 AccountStorage.empty "bob" 1 2 3 3).1 = none ∧
    (CreateAccount dr sampleParams 0 AccountStorage.empty "bob" 1 2 3 3).2.bank "bob" =
      some { Saving := 3, CoinDay := 1 } ∧
    (CreateAccount dr sampleParams 0 AccountStorage.empty "bob" 1 2 3 3).2.queue "bob" =
      some
        { LastUpdatedAt := 0, TotalCoinDay := 0, TotalCoin := 2,
          PendingCoinDays := [{ StartTime := 0, EndTime := 604800, Coin := 2 }] } := by
  simp [CreateAccount, AccountStorage.empty, AccountStorage.DoesAccountExist, sampleParams,
    AddSavingCoinWithFullCoinDay, AddSavingCoin, addPendingCoinDayToQueue,
    AccountStorage.SetBankFromAccountKey, AccountStorage.SetPendingCoinDayQueue,
    AccountStorage.SetInfo, AccountStorage.SetMeta, AccountStorage.SetReward,
    AccountStorage.GetBankFromAccountKey, AccountStorage.GetPendingCoinDayQueue,
    updateTXFromPendingCoinDayQueue, removeExpired, pushPendingCoinDay, timeSlot,
    CoinDayRecordIntervalSec]

/-- Withdrawing the two pending coins at time 4800 leaves in `TotalCoinDay` the accrual
of the recompute minus the weight taken out with the entry. -/
theorem MinusSavingCoin_after_opening (dr : DecRound) (s : AccountStorage)
    (hb : s.bank "bob" = some { Saving := 3, CoinDay := 1 })
    (hq : s.queue "bob" = some
      { LastUpdatedAt := 0, TotalCoinDay := 0, TotalCoin := 2,
        PendingCoinDays := [{ StartTime := 0, EndTime := 604800, Coin := 2 }] }) :
    (MinusSavingCoin dr sampleParams 4800 s "bob" 2).1 = none ∧
    (MinusSavingCoin dr sampleParams 4800 s "bob" 2).2.bank "bob" =
      some { Saving := 1, CoinDay := 1 } ∧
    (MinusSavingCoin dr sampleParams 4800 s "bob" 2).2.queue "bob" =
      some
        { LastUpdatedAt := 4800
          TotalCoinDay :=
            Dec.Quo dr (Dec.Mul dr (Coin.ToDec 2) (NewDec 4800)) (NewDec 604800) -
              Dec.Mul dr (NewDecFromRat dr 4800 604800) (Coin.ToDec 2)
          TotalCoin := 0
          PendingCoinDays := [] } := by
  have hslot : timeSlot 4800 = 4800 := by decide
  simp [MinusSavingCoin, AccountStorage.GetBankFromAccountKey,
    AccountStorage.GetPendingCoinDayQueue, hb, hq, sampleParams,
    updateTXFromPendingCoinDayQueue, removeExpired, minusFromTail, hslot,
    AccountStorage.SetBankFromAccountKey, AccountStorage.SetPendingCoinDayQueue]

theorem residueStore_reachable (dr : DecRound) :
    Reachable dr sampleParams 4800 (residueStore dr) := by
  obtain ⟨h1, h2, h3⟩ := CreateAccount_three dr
  obtain ⟨h4, -, -⟩ := MinusSavingCoin_after_opening dr _ h2 h3
  have hr1 : Reachable dr sampleParams 0
      (CreateAccount dr sampleParams 0 AccountStorage.empty "bob" 1 2 3 3).2 :=
    Reachable.createAccount 0 "bob" 1 2 3 3 _ (Reachable.genesis 0) le_rfl (by decide)
      (Prod.ext h1 rfl)
  exact Reachable.minusSavingCoin 4800 "bob" 2 _ hr1 (by decide) (by decide)
    (Prod.ext h4 rfl)

theorem residueStore_queue (dr : DecRound) :
    (residueStore dr).queue "bob" =
      some
        { LastUpdatedAt := 4800
          TotalCoinDay :=
            Dec.Quo dr (Dec.Mul dr (Coin.ToDec 2) (NewDec 4800)) (NewDec 604800) -
              Dec.Mul dr (NewDecFromRat dr 4800 604800) (Coin.ToDec 2)
          TotalCoin := 0
          PendingCoinDays := [] } := by
  obtain ⟨-, h2, h3⟩ := CreateAccount_three dr
  exact (MinusSavingCoin_after_opening dr _ h2 h3).2.2

theorem sdkDec18_accrual :
    Dec.Quo (sdkDec 18) (Dec.Mul (sdkDec 18) (Coin.ToDec 2) (NewDec 4800)) (NewDec 604800) =
      15873015873015873 / 10 ^ 18 := by
  have hm : Dec.Mul (sdkDec 18) (Coin.ToDec 2) (NewDec 4800) = 9600 := by
    have := (sdkDec 18).mulRound_int 9600
    simp only [Dec.Mul, Coin.ToDec, NewDec]
    norm_num at this ⊢
    exact this
  rw [hm]
  simp only [Dec.Quo, sdkDec, NewDec]
  have ht : truncRat ((9600 : ℚ) / ((604800 : Int) : ℚ) * 10 ^ (2 * 18)) =
      15873015873015873015873015873015873 := by
    apply truncRat_eq <;> norm_num
  rw [ht]
  have hr : roundHalfEven (((15873015873015873015873015873015873 : Int) : ℚ) / 10 ^ 18) =
      15873015873015873 := by
    apply roundHalfEven_eq_of_lt <;> norm_num
  rw [hr]
  norm_num

theorem sdkDec18_removal :
    Dec.Mul (sdkDec 18) (NewDecFromRat (sdkDec 18) 4800 604800) (Coin.ToDec 2) =
      15873015873015874 / 10 ^ 18 := by
  have hq : NewDecFromRat (sdkDec 18) 4800 604800 = 7936507936507937 / 10 ^ 18 := by
    simp only [NewDecFromRat, Dec.Quo, sdkDec, NewDec]
    have ht : truncRat (((4800 : Int) : ℚ) / ((604800 : Int) : ℚ) * 10 ^ (2 * 18)) =
        7936507936507936507936507936507936 := by
      apply truncRat_eq <;> norm_num
    rw [ht]
    have hr : roundHalfEven (((7936507936507936507936507936507936 : Int) : ℚ) / 10 ^ 18) =
        7936507936507937 := by
      apply roundHalfEven_eq_of_lt <;> norm_num
    rw [hr]
    norm_num
  rw [hq]
  simp only [Dec.Mul, sdkDec, Coin.ToDec]
  have hr : roundHalfEven ((7936507936507937 : ℚ) / 10 ^ 18 * ((2 : Int) : ℚ) * 10 ^ 18) =
      15873015873015874 := by
    apply roundHalfEven_eq_of_lt <;> norm_num
  rw [hr]
  norm_num

theorem sdkDec10_accrual :
    Dec.Quo (sdkDec 10) (Dec.Mul (sdkDec 10) (Coin.ToDec 2) (NewDec 4800)) (NewDec 604800) =
      158730159 / 10 ^ 10 := by
  have hm : Dec.Mul (sdkDec 10) (Coin.ToDec 2) (NewDec 4800) = 9600 := by
    have := (sdkDec 10).mulRound_int 9600
    simp only [Dec.Mul, Coin.ToDec, NewDec]
    norm_num at this ⊢
    exact this
  rw [hm]
  simp only [Dec.Quo, sdkDec, NewDec]
  have ht : truncRat ((9600 : ℚ) / ((604800 : Int) : ℚ) * 10 ^ (2 * 10)) =
      1587301587301587301 := by
    apply truncRat_eq <;> norm_num
  rw [ht]
  have hr : roundHalfEven (((1587301587301587301 : Int) : ℚ) / 10 ^ 10) = 158730159 := by
    apply roundHalfEven_eq_of_lt <;> norm_num
  rw [hr]
  norm_num

theorem sdkDec10_removal :
    Dec.Mul (sdkDec 10) (NewDecFromRat (sdkDec 10) 4800 604800) (Coin.ToDec 2) =
      158730158 / 10 ^ 10 := by
  have hq : NewDecFromRat (sdkDec 10) 4800 604800 = 79365079 / 10 ^ 10 := by
    simp only [NewDecFromRat, Dec.Quo, sdkDec, NewDec]
    have ht : truncRat (((4800 : Int) : ℚ) / ((604800 : Int) : ℚ) * 10 ^ (2 * 10)) =
        793650793650793650 := by
      apply truncRat_eq <;> norm_num
    rw [ht]
    have hr : roundHalfEven (((793650793650793650 : Int) : ℚ) / 10 ^ 10) = 79365079 := by
      apply roundHalfEven_eq_of_lt <;> norm_num
    rw [hr]
    norm_num
  rw [hq]
  simp only [Dec.Mul, sdkDec, Coin.ToDec]
  have hr : roundHalfEven ((79365079 : ℚ) / 10 ^ 10 * ((2 : Int) : ℚ) * 10 ^ 10) =
      158730158 := by
    apply roundHalfEven_eq_of_lt <;> norm_num
  rw [hr]
  norm_num

theorem residueStore_bank (dr : DecRound) :
    (residueStore dr).bank "bob" = some { Saving := 1, CoinDay := 1 } := by
  obtain ⟨-, h2, h3⟩ := CreateAccount_three dr
  exact (MinusSavingCoin_after_opening dr _ h2 h3).2.1

/-- C32, as stated, fails under the rounding of `sdk.Dec`: `bob` opens an account with 3
coins at time 0 (one coin with full coin day, two pending) and withdraws 2 coins with
`MinusSavingCoin` at time 4800. The recompute accrues `Quo(Mul(2, 4800), 604800)`, the
loop takes out `Mul(Quo(4800, 604800), 2)`, and the queue is stored with no entry,
`TotalCoin = 0` and the difference of the two in `TotalCoinDay`: with 18 fractional digits
`-10^-18`, a negative weight, and with 10 fractional digits `10^-10`, a weight above
`TotalCoin`. Nothing clamps it. -/
theorem rounding_residue_not_clamped :
    Reachable (sdkDec 18) sampleParams 4800 (residueStore (sdkDec 18)) ∧
    (∃ q : PendingCoinDayQueue,
      (residueStore (sdkDec 18)).queue "bob" = some q ∧
      q.PendingCoinDays = [] ∧ q.TotalCoin = 0 ∧ q.TotalCoinDay = -1 / 10 ^ 18 ∧
      q.TotalCoinDay < 0) ∧
    Reachable (sdkDec 10) sampleParams 4800 (residueStore (sdkDec 10)) ∧
    (∃ q : PendingCoinDayQueue,
      (residueStore (sdkDec 10)).queue "bob" = some q ∧
      q.PendingCoinDays = [] ∧ q.TotalCoin = 0 ∧ q.TotalCoinDay = 1 / 10 ^ 10 ∧
      (q.TotalCoin : ℚ) < q.TotalCoinDay) := by
  refine ⟨residueStore_reachable _, ⟨_, residueStore_queue _, rfl, rfl, ?_, ?_⟩,
    residueStore_reachable _, ⟨_, residueStore_queue _, rfl, rfl, ?_, ?_⟩⟩
  · show Dec.Quo (sdkDec 18) _ _ - Dec.Mul (sdkDec 18) _ _ = _
    rw [sdkDec18_accrual, sdkDec18_removal]
    norm_num
  · show Dec.Quo (sdkDec 18) _ _ - Dec.Mul (sdkDec 18) _ _ < 0
    rw [sdkDec18_accrual, sdkDec18_removal]
    norm_num
  · show Dec.Quo (sdkDec 10) _ _ - Dec.Mul (sdkDec 10) _ _ = _
    rw [sdkDec10_accrual, sdkDec10_removal]
    norm_num
  · show ((0 : Coin) : ℚ) < Dec.Quo (sdkDec 10) _ _ - Dec.Mul (sdkDec 10) _ _
    rw [sdkDec10_accrual, sdkDec10_removal]
    norm_num

/-- C32, amended: in every state reachable from the empty store by `CreateAccount`,
`AddSavingCoin`, `AddSavingCoinWithFullCoinDay`, `MinusSavingCoin`,
`MinusSavingCoinWithFullCoinDay` and `GetCoinDay` (non-negative amounts, non-decreasing
block time, positive recovery window, non-negative `MinimumBalance` and
`FirstDepositFullCoinDayLimit`), whatever the decimal rounding, `bank.CoinDay` and
`TotalCoin` are non-negative and every entry has a positive `Coin`; and with exact
decimals `0 <= TotalCoinDay <= TotalCoin`. The code clamps nothing. -/
theorem reachable_amounts_nonneg (dr : DecRound) (p : Params) (t : Int)
    (s : AccountStorage) (u : AccountKey) (b : AccountBank) (q : PendingCoinDayQueue)
    (hw : 0 < p.SecondsToRecoverCoinDay) (hmin : 0 ≤ p.MinimumBalance)
    (hlim : 0 ≤ p.FirstDepositFullCoinDayLimit)
    (hr : Reachable dr p t s) (hb : s.bank u = some b) (hq : s.queue u = some q) :
    0 ≤ b.CoinDay ∧ 0 ≤ q.TotalCoin ∧ (∀ e ∈ q.PendingCoinDays, 0 < e.Coin) ∧
    (dr = exactDec → 0 ≤ q.TotalCoinDay ∧ q.TotalCoinDay ≤ (q.TotalCoin : ℚ)) := by
  obtain ⟨hcore, -⟩ := Reachable_invariant hw hmin hr
  obtain ⟨q2, hq2, hc⟩ := hcore u b hb
  rw [hq] at hq2
  cases hq2
  have hpos : ∀ e ∈ q.PendingCoinDays, 0 < e.Coin :=
    fun e he => (hc.1.wf.entryOK e he).2.1
  refine ⟨Reachable_coinDay_nonneg hw hmin hlim hr u b hb, ?_, hpos, ?_⟩
  · rw [hc.1.wf.totalCoin]
    exact coinSum_nonneg_of_entries _ (fun e he => le_of_lt (hpos e he))
  · intro hdr
    have hws : q.TotalCoinDay = weightedSum p q.LastUpdatedAt q.PendingCoinDays := hc.2 hdr
    have hbd := weightedSum_bounds p q.LastUpdatedAt q.PendingCoinDays hw hc.1.wf.entryOK
    rw [hws, hc.1.wf.totalCoin]
    exact hbd

theorem reachable_amounts_nonneg_witness :
    ∃ (b : AccountBank) (q : PendingCoinDayQueue),
      (0 < sampleParams.SecondsToRecoverCoinDay ∧ 0 ≤ sampleParams.MinimumBalance ∧
        0 ≤ sampleParams.FirstDepositFullCoinDayLimit ∧
        Reachable exactDec sampleParams 4800 (residueStore exactDec) ∧
        (residueStore exactDec).bank "bob" = some b ∧
        (residueStore exactDec).queue "bob" = some q) ∧
      b.CoinDay = 1 ∧ q.PendingCoinDays = [] ∧
      0 ≤ b.CoinDay ∧ 0 ≤ q.TotalCoin ∧ (∀ e ∈ q.PendingCoinDays, 0 < e.Coin) ∧
      (exactDec = exactDec → 0 ≤ q.TotalCoinDay ∧ q.TotalCoinDay ≤ (q.TotalCoin : ℚ)) :=
  ⟨_, _,
    ⟨by decide, by decide, by decide, residueStore_reachable exactDec,
      residueStore_bank exactDec, residueStore_queue exactDec⟩,
    rfl, rfl,
    reachable_amounts_nonneg exactDec sampleParams 4800 (residueStore exactDec) "bob" _ _
      (by decide) (by decide) (by decide) (residueStore_reachable exactDec)
      (residueStore_bank exactDec) (residueStore_queue exactDec)⟩

/-! ## Granted permissions -/


theorem int64Wrap_eq (x : Int) (h1 : -2 ^ 63 ≤ x) (h2 : x < 2 ^ 63) : int64Wrap x = x := by
  unfold int64Wrap
  rw [Int.emod_eq_of_lt (by linarith) (by linarith)]
  ring

theorem expiresAtUnix_eq (now nsec v : Int) (h0 : 0 ≤ nsec) (h1 : nsec < 10 ^ 9)
    (hv1 : -2 ^ 63 ≤ v * 10 ^ 9) (hv2 : v * 10 ^ 9 < 2 ^ 63) :
    expiresAtUnix now nsec v = now + v := by
  unfold expiresAtUnix
  rw [int64Wrap_eq _ hv1 hv2]
  norm_num at h1 ⊢
  omega

theorem lookup_shape (grantee : AccountKey) (L : List GrantPermission)
    (E1 E2 : List (AccountKey × List GrantPermission))
    (hE1 : ∀ e ∈ E1, e.1 ≠ grantee) :
    (E1 ++ (grantee, L) :: E2).lookup grantee = some L := by
  induction E1 with
  | nil => simp [List.lookup]
  | cons e rest ih =>
    have h1 : e.1 ≠ grantee := hE1 e (by simp)
    have h2 := ih (fun x hx => hE1 x (by simp [hx]))
    obtain ⟨k, v⟩ := e
    simp only [List.cons_append, List.lookup]
    have : (grantee == k) = false := by
      rw [beq_eq_false_iff_ne]
      exact fun h => h1 h.symm
    rw [this]
    exact h2

theorem map_shape (grantee : AccountKey) (L L2 : List GrantPermission)
    (E1 E2 : List (AccountKey × List GrantPermission))
    (hE1 : ∀ e ∈ E1, e.1 ≠ grantee) (hE2 : ∀ e ∈ E2, e.1 ≠ grantee) :
    (E1 ++ (grantee, L) :: E2).map (fun e => if e.1 = grantee then (grantee, L2) else e) =
      E1 ++ (grantee, L2) :: E2 := by
  have hid : ∀ E : List (AccountKey × List GrantPermission), (∀ e ∈ E, e.1 ≠ grantee) →
      E.map (fun e => if e.1 = grantee then (grantee, L2) else e) = E := by
    intro E hE
    induction E with
    | nil => rfl
    | cons e rest ih =>
      rw [List.map_cons, ih (fun x hx => hE x (by simp [hx])),
        if_neg (hE e (by simp))]
  rw [List.map_append, List.map_cons, hid E1 hE1, hid E2 hE2]
  simp

theorem allGrants_append (E1 E2 : List (AccountKey × List GrantPermission)) :
    allGrants (E1 ++ E2) = allGrants E1 ++ allGrants E2 := by
  induction E1 with
  | nil => rfl
  | cons e rest ih => simp [allGrants, ih]

theorem replaceGrant_shape (new grant : GrantPermission) (l1 l2 : List GrantPermission)
    (hl1 : ∀ x ∈ l1, x.Permission ≠ new.Permission)
    (hperm : grant.Permission = new.Permission) :
    replaceGrant new (l1 ++ grant :: l2) = some (l1 ++ new :: l2) := by
  induction l1 with
  | nil => simp [replaceGrant, hperm]
  | cons x rest ih =>
    simp [replaceGrant, hl1 x (by simp), ih (fun y hy => hl1 y (by simp [hy]))]


theorem checkGrantPubKeys_skip (now nsec : Int) (s : AccountStorage) (g : GrantStorage)
    (me : AccountKey) (signKey : Nat) (amount : Coin) (pre rest : List GrantPermission)
    (h : ∀ x ∈ pre, PassedOver now s signKey x) :
    checkGrantPubKeys now nsec s g me signKey .PreAuthorizationPermission amount
        (pre ++ rest) =
      checkGrantPubKeys now nsec s g me signKey .PreAuthorizationPermission amount rest := by
  induction pre with
  | nil => rfl
  | cons x xs ih =>
    have ih2 := ih (fun y hy => h y (by simp [hy]))
    rw [List.cons_append, checkGrantPubKeys]
    rcases h x (by simp) with hx | hx | ⟨k, hk, hne⟩
    · rw [if_pos hx]
      exact ih2
    · by_cases hexp : x.ExpiresAt < now
      · rw [if_pos hexp]
        exact ih2
      · rw [if_neg hexp, if_pos (fun hp => hx hp.symm)]
        exact ih2
    · by_cases hexp : x.ExpiresAt < now
      · rw [if_pos hexp]
        exact ih2
      · rw [if_neg hexp]
        by_cases hp : Permission.PreAuthorizationPermission ≠ x.Permission
        · rw [if_pos hp]
          exact ih2
        · rw [if_neg hp, if_pos rfl, hk]
          simp only
          rw [if_pos (fun hs => hne hs.symm)]
          exact ih2

theorem AuthorizePermission_shape (now nsec : Int) (s : AccountStorage) (g : GrantStorage)
    (me : AccountKey) (v : Int) (amt : Coin) (grant : GrantPermission)
    (E1 E2 : List (AccountKey × List GrantPermission)) (l1 l2 : List GrantPermission)
    (hex : s.DoesAccountExist grant.GrantTo = true)
    (hshape : g.grants me = E1 ++ (grant.GrantTo, l1 ++ grant :: l2) :: E2)
    (hE1 : ∀ e ∈ E1, e.1 ≠ grant.GrantTo) (hE2 : ∀ e ∈ E2, e.1 ≠ grant.GrantTo)
    (hl1 : ∀ x ∈ l1, x.Permission ≠ .PreAuthorizationPermission)
    (hperm : grant.Permission = .PreAuthorizationPermission) :
    ∃ g2 : GrantStorage,
      AuthorizePermission now nsec s g me grant.GrantTo v .PreAuthorizationPermission amt =
        (none, g2) ∧
      g2.grants me =
        E1 ++ (grant.GrantTo,
          l1 ++ { GrantTo := grant.GrantTo, Permission := .PreAuthorizationPermission,
                  CreatedAt := now, ExpiresAt := expiresAtUnix now nsec v,
                  Amount := amt } :: l2) :: E2 ∧
      ∀ m, m ≠ me → g2.grants m = g.grants m := by
  have hlook := lookup_shape grant.GrantTo (l1 ++ grant :: l2) E1 E2 hE1
  have hrep := replaceGrant_shape
    { GrantTo := grant.GrantTo, Permission := .PreAuthorizationPermission,
      CreatedAt := now, ExpiresAt := expiresAtUnix now nsec v, Amount := amt }
    grant l1 l2 hl1 hperm
  refine ⟨g.SetGrantPermissions me grant.GrantTo
    (l1 ++ { GrantTo := grant.GrantTo, Permission := .PreAuthorizationPermission,
             CreatedAt := now, ExpiresAt := expiresAtUnix now nsec v,
             Amount := amt } :: l2), ?_, ?_, ?_⟩
  · simp only [AuthorizePermission, hex, not_true_eq_false, if_false,
      GrantStorage.GetGrantPermissions, hshape, hlook, hrep]
    simp
  · simp only [GrantStorage.SetGrantPermissions, if_true, hshape, hlook, Option.isSome_some]
    exact map_shape _ _ _ E1 E2 hE1 hE2
  · intro m hm
    simp [GrantStorage.SetGrantPermissions, hm]


theorem exists_of_GetTransactionKey (s : AccountStorage) (u : AccountKey) (k : Nat)
    (h : GetTransactionKey s u = .ok k) : s.DoesAccountExist u = true := by
  unfold GetTransactionKey at h
  unfold AccountStorage.DoesAccountExist
  cases hi : s.info u with
  | none => rw [hi] at h; simp at h
  | some i => rfl

theorem CheckSigningPubKeyOwner_own_keys_fail (now nsec : Int) (s : AccountStorage)
    (g : GrantStorage) (me : AccountKey) (signKey : Nat) (a : Coin) (myInfo : AccountInfo)
    (hme : s.info me = some myInfo) (hkey0 : myInfo.TransactionKey ≠ signKey) :
    CheckSigningPubKeyOwner now nsec s g me signKey .PreAuthorizationPermission a =
      checkGrantPubKeys now nsec s g me signKey .PreAuthorizationPermission a
        (allGrants (g.grants me)) := by
  simp [CheckSigningPubKeyOwner, AccountStorage.DoesAccountExist, hme, GetTransactionKey,
    hkey0, GrantStorage.GetAllGrantPermissions]

theorem CheckSigningPubKeyOwner_preauth (now nsec : Int) (s : AccountStorage)
    (g : GrantStorage) (me : AccountKey) (signKey : Nat) (a : Coin) (myInfo : AccountInfo)
    (grant : GrantPermission) (E1 E2 : List (AccountKey × List GrantPermission))
    (l1 l2 : List GrantPermission)
    (hme : s.info me = some myInfo) (hkey0 : myInfo.TransactionKey ≠ signKey)
    (hshape : g.grants me = E1 ++ (grant.GrantTo, l1 ++ grant :: l2) :: E2)
    (hE1 : ∀ e ∈ E1, e.1 ≠ grant.GrantTo) (hE2 : ∀ e ∈ E2, e.1 ≠ grant.GrantTo)
    (hl1 : ∀ x ∈ l1, x.Permission ≠ .PreAuthorizationPermission)
    (hpre : ∀ x ∈ allGrants E1, PassedOver now s signKey x)
    (hperm : grant.Permission = .PreAuthorizationPermission)
    (hlive : now ≤ grant.ExpiresAt)
    (hgkey : GetTransactionKey s grant.GrantTo = .ok signKey) :
    (grant.Amount < a →
      CheckSigningPubKeyOwner now nsec s g me signKey .PreAuthorizationPermission a =
        (("", some (.ErrPreAuthAmountInsufficient grant.GrantTo grant.Amount a)), g)) ∧
    (a ≤ grant.Amount →
      ∃ g2 : GrantStorage,
        CheckSigningPubKeyOwner now nsec s g me signKey .PreAuthorizationPermission a =
          ((grant.GrantTo, none), g2) ∧
        g2.grants me =
          E1 ++ (grant.GrantTo,
            l1 ++ { GrantTo := grant.GrantTo, Permission := .PreAuthorizationPermission,
                    CreatedAt := now,
                    ExpiresAt := expiresAtUnix now nsec (grant.ExpiresAt - now),
                    Amount := grant.Amount - a } :: l2) :: E2 ∧
        ∀ m, m ≠ me → g2.grants m = g.grants m) := by
  have hall : allGrants (g.grants me) =
      (allGrants E1 ++ l1) ++ grant :: (l2 ++ allGrants E2) := by
    rw [hshape, allGrants_append]
    simp [allGrants]
  have hskip : ∀ x ∈ allGrants E1 ++ l1, PassedOver now s signKey x := by
    intro x hx
    rcases List.mem_append.mp hx with h | h
    · exact hpre x h
    · exact Or.inr (Or.inl (hl1 x h))
  rw [CheckSigningPubKeyOwner_own_keys_fail now nsec s g me signKey a myInfo hme hkey0, hall,
    checkGrantPubKeys_skip now nsec s g me signKey a _ _ hskip, checkGrantPubKeys,
    if_neg (not_lt.mpr hlive), if_neg (by rw [hperm]; simp), if_pos rfl, hgkey]
  simp only [not_true_eq_false, if_false]
  constructor
  · intro hlt
    rw [if_pos hlt]
  · intro hle
    rw [if_neg (not_lt.mpr hle)]
    obtain ⟨g2, hA, hg2, hother⟩ := AuthorizePermission_shape now nsec s g me
      (grant.ExpiresAt - now) (grant.Amount - a) grant E1 E2 l1 l2
      (exists_of_GetTransactionKey s _ _ hgkey) hshape hE1 hE2 hl1 hperm
    rw [hperm, hA]
    exact ⟨g2, rfl, hg2, hother⟩


theorem checkAll_budget (s : AccountStorage) (me : AccountKey) (signKey : Nat)
    (myInfo : AccountInfo) (E1 E2 : List (AccountKey × List GrantPermission))
    (l1 l2 : List GrantPermission) (grantee : AccountKey) (expiresAt : Int)
    (hme : s.info me = some myInfo) (hkey0 : myInfo.TransactionKey ≠ signKey)
    (hE1 : ∀ e ∈ E1, e.1 ≠ grantee) (hE2 : ∀ e ∈ E2, e.1 ≠ grantee)
    (hl1 : ∀ x ∈ l1, x.Permission ≠ .PreAuthorizationPermission)
    (hgkey : GetTransactionKey s grantee = .ok signKey)
    (calls : List SignedCall)
    (hcalls : ∀ c ∈ calls, c.now ≤ expiresAt ∧ 0 ≤ c.nsec ∧ c.nsec < 10 ^ 9 ∧
      (expiresAt - c.now) * 10 ^ 9 < 2 ^ 63 ∧
      ∀ x ∈ allGrants E1, PassedOver c.now s signKey x) :
    ∀ (g gEnd : GrantStorage) (created : Int) (amount : Coin),
      g.grants me =
        E1 ++ (grantee,
          l1 ++ { GrantTo := grantee, Permission := .PreAuthorizationPermission,
                  CreatedAt := created, ExpiresAt := expiresAt, Amount := amount } :: l2) ::
          E2 →
      0 ≤ amount →
      checkAll s me signKey grantee calls g = some gEnd →
      (calls.map (fun c => c.amount)).sum ≤ amount ∧
      ∃ created2 : Int,
        gEnd.grants me =
          E1 ++ (grantee,
            l1 ++ { GrantTo := grantee, Permission := .PreAuthorizationPermission,
                    CreatedAt := created2, ExpiresAt := expiresAt,
                    Amount := amount - (calls.map (fun c => c.amount)).sum } :: l2) ::
            E2 := by
  induction calls with
  | nil =>
    intro g gEnd created amount hshape hamt hrun
    simp only [checkAll, Option.some.injEq] at hrun
    subst hrun
    refine ⟨by simpa using hamt, created, ?_⟩
    rw [hshape]
    simp
  | cons c rest ih =>
    intro g gEnd created amount hshape hamt hrun
    obtain ⟨hlive, hn0, hn1, hdur, hpre⟩ := hcalls c (by simp)
    obtain ⟨hreject, haccept⟩ := CheckSigningPubKeyOwner_preauth c.now c.nsec s g me signKey
      c.amount myInfo
      { GrantTo := grantee, Permission := .PreAuthorizationPermission,
        CreatedAt := created, ExpiresAt := expiresAt, Amount := amount }
      E1 E2 l1 l2 hme hkey0 hshape hE1 hE2 hl1 hpre rfl hlive hgkey
    simp only at hreject haccept
    rw [checkAll] at hrun
    by_cases hlt : amount < c.amount
    · rw [hreject hlt] at hrun
      simp at hrun
    · obtain ⟨g2, hcheck, hg2, -⟩ := haccept (not_lt.mp hlt)
      rw [hcheck] at hrun
      simp only [if_true] at hrun
      have hexp : expiresAtUnix c.now c.nsec (expiresAt - c.now) = expiresAt := by
        rw [expiresAtUnix_eq c.now c.nsec _ hn0 hn1 (by nlinarith) hdur]
        ring
      rw [hexp] at hg2
      obtain ⟨hsum, created2, hend⟩ := ih (fun d hd => hcalls d (by simp [hd])) g2 gEnd
        c.now (amount - c.amount) hg2 (by linarith [not_lt.mp hlt]) hrun
      refine ⟨?_, created2, ?_⟩
      · simp only [List.map_cons, List.sum_cons]
        linarith
      · rw [hend]
        simp only [List.map_cons, List.sum_cons]
        congr 6
        ring


theorem AuthorizePermission_ok (now nsec : Int) (s : AccountStorage) (g : GrantStorage)
    (me grantTo : AccountKey) (v : Int) (amt : Coin)
    (hex : s.DoesAccountExist grantTo = true) :
    (AuthorizePermission now nsec s g me grantTo v .PreAuthorizationPermission amt).1 =
      none := by
  simp only [AuthorizePermission, hex, not_true_eq_false, if_false,
    GrantStorage.GetGrantPermissions]
  cases (g.grants me).lookup grantTo with
  | none => simp
  | some l =>
    simp only
    cases replaceGrant _ l <;> simp

theorem checkGrantPubKeys_sound (now nsec : Int) (s : AccountStorage) (g : GrantStorage)
    (me : AccountKey) (signKey : Nat) (permission : Permission) (amount : Coin)
    (signer : AccountKey) (g2 : GrantStorage) (l : List GrantPermission)
    (hrun : checkGrantPubKeys now nsec s g me signKey permission amount l =
      ((signer, none), g2)) :
    ∃ grant ∈ l, grant.GrantTo = signer ∧ grant.Permission = permission ∧
      now ≤ grant.ExpiresAt := by
  induction l with
  | nil => simp [checkGrantPubKeys] at hrun
  | cons x rest ih =>
    have hrest : checkGrantPubKeys now nsec s g me signKey permission amount rest =
        ((signer, none), g2) →
        ∃ grant ∈ x :: rest, grant.GrantTo = signer ∧ grant.Permission = permission ∧
          now ≤ grant.ExpiresAt := by
      intro h
      obtain ⟨gr, hmem, hgr⟩ := ih h
      exact ⟨gr, by simp [hmem], hgr⟩
    rw [checkGrantPubKeys] at hrun
    by_cases hexp : x.ExpiresAt < now
    · rw [if_pos hexp] at hrun
      exact hrest hrun
    · rw [if_neg hexp] at hrun
      by_cases hp : permission ≠ x.Permission
      · rw [if_pos hp] at hrun
        exact hrest hrun
      · rw [if_neg hp] at hrun
        have hpx : x.Permission = permission := (not_not.mp hp).symm
        have hlive : now ≤ x.ExpiresAt := not_lt.mp hexp
        by_cases hpre : permission = .PreAuthorizationPermission
        · rw [if_pos hpre] at hrun
          cases hk : GetTransactionKey s x.GrantTo with
          | error e => rw [hk] at hrun; simp at hrun
          | ok txKey =>
            rw [hk] at hrun
            simp only at hrun
            by_cases hs : ¬ signKey = txKey
            · rw [if_pos hs] at hrun
              exact hrest hrun
            · rw [if_neg hs] at hrun
              by_cases ha : amount > x.Amount
              · rw [if_pos ha] at hrun
                simp at hrun
              · rw [if_neg ha] at hrun
                have hok := AuthorizePermission_ok now nsec s g me x.GrantTo
                  (x.ExpiresAt - now) (x.Amount - amount)
                  (exists_of_GetTransactionKey s _ _ hk)
                rw [hpx, hpre] at hrun
                generalize AuthorizePermission now nsec s g me x.GrantTo
                  (x.ExpiresAt - now) .PreAuthorizationPermission (x.Amount - amount) = r
                  at hrun hok
                obtain ⟨e, gA⟩ := r
                simp only at hok
                subst hok
                simp only [Prod.mk.injEq, and_true] at hrun
                exact ⟨x, by simp, hrun.1, hpx, hlive⟩
        · rw [if_neg hpre] at hrun
          by_cases happ : permission = .AppPermission
          · rw [if_pos happ] at hrun
            cases hk : GetAppKey s x.GrantTo with
            | error e => rw [hk] at hrun; simp at hrun
            | ok appKey =>
              rw [hk] at hrun
              simp only at hrun
              by_cases hs : ¬ signKey = appKey
              · rw [if_pos hs] at hrun
                exact hrest hrun
              · rw [if_neg hs] at hrun
                simp only [Prod.mk.injEq, and_true] at hrun
                exact ⟨x, by simp, hrun.1, hpx, hlive⟩
          · rw [if_neg happ] at hrun
            exact hrest hrun

theorem CheckSigningPubKeyOwner_sound (now nsec : Int) (s : AccountStorage)
    (g : GrantStorage) (me : AccountKey) (signKey : Nat) (permission : Permission)
    (amount : Coin) (signer : AccountKey) (g2 : GrantStorage)
    (hrun : CheckSigningPubKeyOwner now nsec s g me signKey permission amount =
      ((signer, none), g2))
    (hne : signer ≠ me) :
    ∃ grant ∈ allGrants (g.grants me), grant.GrantTo = signer ∧
      grant.Permission = permission ∧ now ≤ grant.ExpiresAt := by
  unfold CheckSigningPubKeyOwner at hrun
  split at hrun
  · simp at hrun
  · split at hrun
    · split at hrun
      · simp at hrun
      · split at hrun
        · simp only [Prod.mk.injEq, and_true] at hrun
          exact absurd hrun.1.symm hne
        · simp at hrun
    · split at hrun
      · simp at hrun
      · split at hrun
        · simp only [Prod.mk.injEq, and_true] at hrun
          exact absurd hrun.1.symm hne
        · split at hrun
          · simp at hrun
          · simp only at hrun
            split at hrun
            · simp at hrun
            · simp only [Prod.mk.injEq, and_true] at hrun
              exact absurd hrun.1.symm hne
            · split at hrun
              · simp at hrun
              · simp only [GrantStorage.GetAllGrantPermissions] at hrun
                exact checkGrantPubKeys_sound now nsec s g me signKey permission amount
                  signer g2 _ hrun


theorem expiresAtUnix_sample : expiresAtUnix 0 0 3600 = 3600 := by decide

theorem preAuthGranted_grants :
    preAuthGranted.grants "user1" =
      [("user3", [{ GrantTo := "user3", Permission := .PreAuthorizationPermission,
                    CreatedAt := 0, ExpiresAt := 3600, Amount := 100 }])] := by
  simp [preAuthGranted, AuthorizePermission, grantSampleStore,
    AccountStorage.DoesAccountExist, GrantStorage.GetGrantPermissions, GrantStorage.empty,
    GrantStorage.SetGrantPermissions, insertGrantee, expiresAtUnix_sample]

theorem appGranted_grants :
    appGranted.grants "user1" =
      [("user3", [{ GrantTo := "user3", Permission := .AppPermission,
                    CreatedAt := 0, ExpiresAt := 3600, Amount := 0 }])] := by
  simp [appGranted, AuthorizePermission, grantSampleStore,
    AccountStorage.DoesAccountExist, GrantStorage.GetGrantPermissions, GrantStorage.empty,
    GrantStorage.SetGrantPermissions, insertGrantee, expiresAtUnix_sample]

theorem appGranted_at_3600 :
    (CheckSigningPubKeyOwner 3600 0 grantSampleStore appGranted "user1" 33 .AppPermission
      0).1 = ("user3", none) := by
  simp [CheckSigningPubKeyOwner, grantSampleStore, AccountStorage.DoesAccountExist,
    GetTransactionKey, GetAppKey, GrantStorage.GetAllGrantPermissions, appGranted_grants,
    allGrants, checkGrantPubKeys, expiresAtUnix_sample]

theorem appGranted_at_3601 :
    (CheckSigningPubKeyOwner 3601 0 grantSampleStore appGranted "user1" 33 .AppPermission
      0).1 = ("", some (.ErrCheckAuthenticatePubKeyOwner "user1")) := by
  simp [CheckSigningPubKeyOwner, grantSampleStore, AccountStorage.DoesAccountExist,
    GetTransactionKey, GetAppKey, GrantStorage.GetAllGrantPermissions, appGranted_grants,
    allGrants, checkGrantPubKeys, expiresAtUnix_sample]

/-- C39: `me` exists and the signing key is not its own transaction key; the grant table
of `me` holds, under the grantee, a list whose first `PreAuthorizationPermission` grant
is `grant`, not expired at `now`, and the signing key is the grantee's transaction key;
the grants stored before it are passed over by the loop. Then a call of
`CheckSigningPubKeyOwner` for `PreAuthorizationPermission` and amount `a` returns
`ErrPreAuthAmountInsufficient(grantee, Amount, a)` and leaves the table alone when
`a > Amount`; when `a <= Amount` it returns the grantee and stores the grant with
`Amount - a`, `CreatedAt = now` and the same `ExpiresAt`, in the same place, the rest of
the table unchanged. In a run of such calls that all return the grantee, the amounts sum
to at most `Amount`, and the stored amount is `Amount` minus their sum. -/
theorem preauthorization_budget (now nsec : Int) (s : AccountStorage) (g : GrantStorage)
    (me : AccountKey) (signKey : Nat) (a : Coin) (myInfo : AccountInfo)
    (grant : GrantPermission) (E1 E2 : List (AccountKey × List GrantPermission))
    (l1 l2 : List GrantPermission)
    (hme : s.info me = some myInfo) (hkey0 : myInfo.TransactionKey ≠ signKey)
    (hshape : g.grants me = E1 ++ (grant.GrantTo, l1 ++ grant :: l2) :: E2)
    (hE1 : ∀ e ∈ E1, e.1 ≠ grant.GrantTo) (hE2 : ∀ e ∈ E2, e.1 ≠ grant.GrantTo)
    (hl1 : ∀ x ∈ l1, x.Permission ≠ .PreAuthorizationPermission)
    (hpre : ∀ x ∈ allGrants E1, PassedOver now s signKey x)
    (hperm : grant.Permission = .PreAuthorizationPermission)
    (hlive : now ≤ grant.ExpiresAt)
    (hgkey : GetTransactionKey s grant.GrantTo = .ok signKey)
    (hnsec0 : 0 ≤ nsec) (hnsec1 : nsec < 10 ^ 9)
    (hdur : (grant.ExpiresAt - now) * 10 ^ 9 < 2 ^ 63) (hG : 0 ≤ grant.Amount) :
    (grant.Amount < a →
      CheckSigningPubKeyOwner now nsec s g me signKey .PreAuthorizationPermission a =
        (("", some (.ErrPreAuthAmountInsufficient grant.GrantTo grant.Amount a)), g)) ∧
    (a ≤ grant.Amount →
      ∃ g2 : GrantStorage,
        CheckSigningPubKeyOwner now nsec s g me signKey .PreAuthorizationPermission a =
          ((grant.GrantTo, none), g2) ∧
        g2.grants me =
          E1 ++ (grant.GrantTo,
            l1 ++ { grant with CreatedAt := now, Amount := grant.Amount - a } :: l2) :: E2 ∧
        ∀ m, m ≠ me → g2.grants m = g.grants m) ∧
    (∀ (calls : List SignedCall) (gEnd : GrantStorage),
      (∀ c ∈ calls, c.now ≤ grant.ExpiresAt ∧ 0 ≤ c.nsec ∧ c.nsec < 10 ^ 9 ∧
        (grant.ExpiresAt - c.now) * 10 ^ 9 < 2 ^ 63 ∧
        ∀ x ∈ allGrants E1, PassedOver c.now s signKey x) →
      checkAll s me signKey grant.GrantTo calls g = some gEnd →
      (calls.map (fun c => c.amount)).sum ≤ grant.Amount ∧
      ∃ created : Int,
        gEnd.grants me =
          E1 ++ (grant.GrantTo,
            l1 ++ { grant with
                    CreatedAt := created
                    Amount := grant.Amount - (calls.map (fun c => c.amount)).sum } :: l2) ::
            E2) := by
  obtain ⟨hreject, haccept⟩ := CheckSigningPubKeyOwner_preauth now nsec s g me signKey a
    myInfo grant E1 E2 l1 l2 hme hkey0 hshape hE1 hE2 hl1 hpre hperm hlive hgkey
  have hexp : expiresAtUnix now nsec (grant.ExpiresAt - now) = grant.ExpiresAt := by
    rw [expiresAtUnix_eq now nsec _ hnsec0 hnsec1 (by nlinarith) hdur]
    ring
  obtain ⟨grantee, perm, created0, expiresAt, amount⟩ := grant
  simp only at hperm hexp hreject haccept hshape hE1 hE2 hlive hgkey hdur hG ⊢
  subst hperm
  refine ⟨hreject, ?_, ?_⟩
  · intro hle
    obtain ⟨g2, h1, h2, h3⟩ := haccept hle
    rw [hexp] at h2
    exact ⟨g2, h1, h2, h3⟩
  · intro calls gEnd hcalls hrun
    exact checkAll_budget s me signKey myInfo E1 E2 l1 l2 grantee expiresAt hme hkey0 hE1 hE2
      hl1 hgkey calls hcalls g gEnd created0 amount hshape hG hrun

theorem grantSampleStore_user1 :
    grantSampleStore.info "user1" =
      some { Username := "user1", CreatedAt := 0, ResetKey := 11, TransactionKey := 12,
             AppKey := 13 } := by
  simp [grantSampleStore]

theorem grantSampleStore_user3_key :
    GetTransactionKey grantSampleStore "user3" = .ok 32 := by
  simp [GetTransactionKey, grantSampleStore]

theorem preauthorization_budget_witness :
    ∃ g2 : GrantStorage,
      CheckSigningPubKeyOwner 10 0 grantSampleStore preAuthGranted "user1" 32
        .PreAuthorizationPermission 10 = (("user3", none), g2) ∧
      g2.grants "user1" =
        [("user3", [{ GrantTo := "user3", Permission := .PreAuthorizationPermission,
                      CreatedAt := 10, ExpiresAt := 3600, Amount := 90 }])] ∧
      CheckSigningPubKeyOwner 20 0 grantSampleStore g2 "user1" 32
        .PreAuthorizationPermission 100 =
          (("", some (.ErrPreAuthAmountInsufficient "user3" 90 100)), g2) := by
  obtain ⟨g2, h1, h2, -⟩ :=
    (preauthorization_budget 10 0 grantSampleStore preAuthGranted "user1" 32 10
      { Username := "user1", CreatedAt := 0, ResetKey := 11, TransactionKey := 12,
        AppKey := 13 }
      { GrantTo := "user3", Permission := .PreAuthorizationPermission,
        CreatedAt := 0, ExpiresAt := 3600, Amount := 100 }
      [] [] [] [] grantSampleStore_user1 (by decide)
      (by rw [preAuthGranted_grants]; rfl) (by simp) (by simp) (by simp)
      (by simp [allGrants]) rfl (by decide) grantSampleStore_user3_key (by decide)
      (by decide) (by decide) (by decide)).2.1 (by decide)
  have h3 :=
    (preauthorization_budget 20 0 grantSampleStore g2 "user1" 32 100
      { Username := "user1", CreatedAt := 0, ResetKey := 11, TransactionKey := 12,
        AppKey := 13 }
      { GrantTo := "user3", Permission := .PreAuthorizationPermission,
        CreatedAt := 10, ExpiresAt := 3600, Amount := 90 }
      [] [] [] [] grantSampleStore_user1 (by decide)
      (by rw [h2]; rfl) (by simp) (by simp) (by simp)
      (by simp [allGrants]) rfl (by decide) grantSampleStore_user3_key (by decide)
      (by decide) (by decide) (by decide)).1 (by decide)
  exact ⟨g2, h1, by rw [h2]; rfl, h3⟩

/-- C40: if `CheckSigningPubKeyOwner` returns without error a signer other than `me`,
then among the grants stored for `me` there is one to that signer, of the permission asked
for, whose `ExpiresAt` is not earlier than the block time `now`. -/
theorem expired_grants_never_authorize (now nsec : Int) (s : AccountStorage)
    (g : GrantStorage) (me : AccountKey) (signKey : Nat) (permission : Permission)
    (amount : Coin) (signer : AccountKey) (g2 : GrantStorage)
    (hrun : CheckSigningPubKeyOwner now nsec s g me signKey permission amount =
      ((signer, none), g2))
    (hne : signer ≠ me) :
    ∃ grant ∈ allGrants (g.grants me), grant.GrantTo = signer ∧
      grant.Permission = permission ∧ now ≤ grant.ExpiresAt :=
  CheckSigningPubKeyOwner_sound now nsec s g me signKey permission amount signer g2 hrun hne

theorem expired_grants_never_authorize_witness :
    appGranted.grants "user1" =
      [("user3", [{ GrantTo := "user3", Permission := .AppPermission,
                    CreatedAt := 0, ExpiresAt := 3600, Amount := 0 }])] ∧
    (CheckSigningPubKeyOwner 3600 0 grantSampleStore appGranted "user1" 33 .AppPermission
      0).1 = ("user3", none) ∧
    (∃ grant ∈ allGrants (appGranted.grants "user1"), grant.GrantTo = "user3" ∧
      grant.Permission = .AppPermission ∧ (3600 : Int) ≤ grant.ExpiresAt) ∧
    (CheckSigningPubKeyOwner 3601 0 grantSampleStore appGranted "user1" 33 .AppPermission
      0).1 = ("", some (.ErrCheckAuthenticatePubKeyOwner "user1")) :=
  ⟨appGranted_grants, appGranted_at_3600,
    expired_grants_never_authorize 3600 0 grantSampleStore appGranted "user1" 33
      .AppPermission 0 "user3" _ (Prod.ext appGranted_at_3600 rfl) (by decide),
    appGranted_at_3601⟩

/-! ## Rounding of the returned coin and of the stored weight -/

theorem roundHalfEven_half (n : Int) :
    roundHalfEven ((n : ℚ) + 1 / 2) = if n % 2 = 0 then n else n + 1 := by
  have hf : ⌊(n : ℚ) + 1 / 2⌋ = n := by
    rw [Int.floor_eq_iff]
    constructor <;> norm_num
  unfold roundHalfEven
  rw [hf]
  have h1 : ¬ ((n : ℚ) + 1 / 2 - (n : ℚ) < 1 / 2) := by norm_num
  have h2 : ¬ ((1 : ℚ) / 2 < (n : ℚ) + 1 / 2 - (n : ℚ)) := by norm_num
  rw [if_neg h1, if_neg h2]

/-- The statement of C1 fails at a tie: after deposits of 1 at time 0 and of 1 at time
302400 on the fresh account `bob`, with exact decimals, `GetCoinDay` at 604800 holds
`bank.CoinDay = 1` and `TotalCoinDay = 1/2` and returns `1 + DecToCoin (1/2) = 1`, while
the full-history sum is `3/2` and `DecToCoin (3/2) = 2`. -/
theorem GetCoinDay_not_rounded_sum :
    (GetCoinDay exactDec sampleParams 604800
      (runDeposits exactDec sampleParams "bob" freshStore [(0, 1), (302400, 1)]) "bob").2.1 =
      1 ∧
    naiveCoinDay sampleParams 604800 [(0, 1), (302400, 1)] = 3 / 2 ∧
    DecToCoin (naiveCoinDay sampleParams 604800 [(0, 1), (302400, 1)]) = 2 := by
  have e0 : timeSlot 0 = 0 := by decide
  have e1 : timeSlot 302400 = 302400 := by decide
  have e2 : timeSlot 604800 = 604800 := by decide
  have hn : naiveCoinDay sampleParams 604800 [(0, 1), (302400, 1)] = 3 / 2 := by
    simp only [naiveCoinDay, List.map_cons, List.map_nil, List.sum_cons, List.sum_nil, e0, e1,
      e2, sampleParams]
    norm_num
  have hm : naiveMatured sampleParams 604800 [(0, 1), (302400, 1)] = 1 := by
    simp only [naiveMatured, List.map_cons, List.map_nil, List.sum_cons, List.sum_nil, e0, e1,
      e2, sampleParams]
    norm_num
  have hpos : ∀ d ∈ [((0 : Int), (1 : Coin)), (302400, 1)], 0 < d.2 := by
    intro d hd
    simp only [List.mem_cons, List.mem_singleton, List.not_mem_nil, or_false] at hd
    rcases hd with h | h <;> subst h <;> decide
  have hnow : ∀ d ∈ [((0 : Int), (1 : Coin)), (302400, 1)], d.1 ≤ 604800 := by
    intro d hd
    simp only [List.mem_cons, List.mem_singleton, List.not_mem_nil, or_false] at hd
    rcases hd with h | h <;> subst h <;> decide
  obtain ⟨b2, q2, s2, h1, -, -, h4, h5⟩ :=
    GetCoinDay_naive_core sampleParams "bob" 604800 freshStore {} {} [(0, 1), (302400, 1)]
      (by decide) rfl rfl rfl rfl rfl hpos (by simp) hnow
  rw [hn] at h4
  rw [hm] at h5
  have hT : q2.TotalCoinDay = 1 / 2 := by
    rw [h5] at h4
    push_cast at h4
    linarith
  refine ⟨?_, hn, ?_⟩
  · rw [h1]
    simp only
    rw [h5, hT]
    have : DecToCoin (1 / 2) = 0 := by
      have h := roundHalfEven_half 0
      simp only [Int.cast_zero, zero_add] at h
      unfold DecToCoin
      rw [h]
      decide
    rw [this]
    rfl
  · rw [hn]
    have h := roundHalfEven_half 1
    have he : ((1 : Int) : ℚ) + 1 / 2 = 3 / 2 := by norm_num
    rw [he] at h
    unfold DecToCoin
    rw [h]
    decide

/-- The statement of C4 fails off the bucket grid: a deposit of 10000 at `t0 = -1` enters
the bucket 0 (Go division truncates toward zero), and at `t0 + window = 604799`, in the
bucket 603600, it is not matured: `GetCoinDay` returns 9980. With a window of 604801
seconds a deposit of 10000000 at time 0 ends at 604801, after the bucket 604800 of
`t0 + window`, and `GetCoinDay` returns 9999983. -/
theorem linear_accrual_off_bucket :
    (GetCoinDay exactDec sampleParams (-1 + sampleParams.SecondsToRecoverCoinDay)
      (AddSavingCoin exactDec sampleParams (-1) freshStore "bob" 10000).2 "bob").2.1 = 9980 ∧
    (GetCoinDay exactDec oddWindowParams (0 + oddWindowParams.SecondsToRecoverCoinDay)
      (AddSavingCoin exactDec oddWindowParams 0 freshStore "bob" 10000000).2 "bob").2.1 =
      9999983 := by
  have e0 : timeSlot (-1) = 0 := by decide
  have e1 : timeSlot 604799 = 603600 := by decide
  have e2 : timeSlot 0 = 0 := by decide
  have e3 : timeSlot 604801 = 604800 := by decide
  constructor
  · simp [GetCoinDay, AddSavingCoin, addPendingCoinDayToQueue, freshStore,
      AccountStorage.DoesAccountExist,
      AccountStorage.GetBankFromAccountKey, AccountStorage.GetPendingCoinDayQueue,
      AccountStorage.SetBankFromAccountKey, AccountStorage.SetPendingCoinDayQueue,
      sampleParams, updateTXFromPendingCoinDayQueue, removeExpired, pushPendingCoinDay,
      e0, e1, Dec.Quo, Dec.Mul, NewDec, Coin.ToDec, exactDec]
    unfold DecToCoin
    apply roundHalfEven_eq_of_lt <;> norm_num
  · simp [GetCoinDay, AddSavingCoin, addPendingCoinDayToQueue, freshStore,
      AccountStorage.DoesAccountExist,
      AccountStorage.GetBankFromAccountKey, AccountStorage.GetPendingCoinDayQueue,
      AccountStorage.SetBankFromAccountKey, AccountStorage.SetPendingCoinDayQueue,
      oddWindowParams, sampleParams, updateTXFromPendingCoinDayQueue, removeExpired,
      pushPendingCoinDay, e2, e3, Dec.Quo, Dec.Mul, NewDec, Coin.ToDec, exactDec]
    unfold DecToCoin
    apply roundHalfEven_eq_of_lt <;> norm_num

/-! ## A weight above the principal -/

theorem CreateAccount_drift (dr : DecRound) :
    (CreateAccount dr sampleParams 0 AccountStorage.empty "bob" 1 2 3
      900000000000000000003).1 = none ∧
    (CreateAccount dr sampleParams 0 AccountStorage.empty "bob" 1 2 3
      900000000000000000003).2.bank "bob" =
      some { Saving := 900000000000000000003, CoinDay := 1 } ∧
    (CreateAccount dr sampleParams 0 AccountStorage.empty "bob" 1 2 3
      900000000000000000003).2.queue "bob" =
      some
        { LastUpdatedAt := 0, TotalCoinDay := 0, TotalCoin := 900000000000000000002,
          PendingCoinDays :=
            [{ StartTime := 0, EndTime := 604800, Coin := 900000000000000000002 }] } := by
  simp [CreateAccount, AccountStorage.empty, AccountStorage.DoesAccountExist, sampleParams,
    AddSavingCoinWithFullCoinDay, AddSavingCoin, addPendingCoinDayToQueue,
    AccountStorage.SetBankFromAccountKey, AccountStorage.SetPendingCoinDayQueue,
    AccountStorage.SetInfo, AccountStorage.SetMeta, AccountStorage.SetReward,
    AccountStorage.GetBankFromAccountKey, AccountStorage.GetPendingCoinDayQueue,
    updateTXFromPendingCoinDayQueue, removeExpired, pushPendingCoinDay, timeSlot,
    CoinDayRecordIntervalSec]

theorem MinusSavingCoin_drift (dr : DecRound) (s : AccountStorage)
    (hb : s.bank "bob" = some { Saving := 900000000000000000003, CoinDay := 1 })
    (hq : s.queue "bob" = some
      { LastUpdatedAt := 0, TotalCoinDay := 0, TotalCoin := 900000000000000000002,
        PendingCoinDays :=
          [{ StartTime := 0, EndTime := 604800, Coin := 900000000000000000002 }] }) :
    (MinusSavingCoin dr sampleParams 42000 s "bob" 900000000000000000000).1 = none ∧
    (MinusSavingCoin dr sampleParams 42000 s "bob" 900000000000000000000).2.bank "bob" =
      some { Saving := 3, CoinDay := 1 } ∧
    (MinusSavingCoin dr sampleParams 42000 s "bob" 900000000000000000000).2.queue "bob" =
      some
        { LastUpdatedAt := 42000
          TotalCoinDay :=
            Dec.Quo dr (Dec.Mul dr (Coin.ToDec 900000000000000000002) (NewDec 42000))
                (NewDec 604800) -
              Dec.Mul dr (NewDecFromRat dr 42000 604800)
                (Coin.ToDec 900000000000000000000)
          TotalCoin := 2
          PendingCoinDays := [{ StartTime := 0, EndTime := 604800, Coin := 2 }] } := by
  have hslot : timeSlot 42000 = 42000 := by decide
  simp [MinusSavingCoin, AccountStorage.GetBankFromAccountKey,
    AccountStorage.GetPendingCoinDayQueue, hb, hq, sampleParams,
    updateTXFromPendingCoinDayQueue, removeExpired, minusFromTail, hslot,
    AccountStorage.SetBankFromAccountKey, AccountStorage.SetPendingCoinDayQueue]

theorem GetCoinDay_drift_reads (dr : DecRound) (s : AccountStorage) (X : Dec)
    (hb : s.bank "bob" = some { Saving := 3, CoinDay := 1 })
    (hq : s.queue "bob" = some
      { LastUpdatedAt := 42000, TotalCoinDay := X, TotalCoin := 2,
        PendingCoinDays := [{ StartTime := 0, EndTime := 604800, Coin := 2 }] }) :
    (GetCoinDay dr sampleParams 42000 s "bob").2.1 = 1 + DecToCoin X ∧
    (GetCoinDay dr sampleParams 604800 s "bob").2.1 = 3 := by
  have hslot : timeSlot 42000 = 42000 := by decide
  have hslot2 : timeSlot 604800 = 604800 := by decide
  have hm := dr.mulRound_int 0
  have hq0 := dr.quoRound_int 0
  simp only [Int.cast_zero] at hm hq0
  constructor
  · simp [GetCoinDay, AccountStorage.GetBankFromAccountKey,
      AccountStorage.GetPendingCoinDayQueue, hb, hq, sampleParams,
      updateTXFromPendingCoinDayQueue, removeExpired, hslot, Dec.Quo, Dec.Mul, NewDec, hm,
      hq0]
  · simp [GetCoinDay, AccountStorage.GetBankFromAccountKey,
      AccountStorage.GetPendingCoinDayQueue, hb, hq, sampleParams,
      updateTXFromPendingCoinDayQueue, removeExpired, hslot2, DecToCoin, roundHalfEven]

theorem sdkDec10_drift :
    Dec.Quo (sdkDec 10) (Dec.Mul (sdkDec 10) (Coin.ToDec 900000000000000000002)
        (NewDec 42000)) (NewDec 604800) -
      Dec.Mul (sdkDec 10) (NewDecFromRat (sdkDec 10) 42000 604800)
        (Coin.ToDec 900000000000000000000) =
      400000000001388888889 / 10 ^ 10 := by
  have hm : Dec.Mul (sdkDec 10) (Coin.ToDec 900000000000000000002) (NewDec 42000) =
      37800000000000000000084000 := by
    have := (sdkDec 10).mulRound_int 37800000000000000000084000
    simp only [Dec.Mul, Coin.ToDec, NewDec]
    norm_num at this ⊢
    exact this
  have ha : Dec.Quo (sdkDec 10) 37800000000000000000084000 (NewDec 604800) =
      625000000000000000001388888889 / 10 ^ 10 := by
    simp only [Dec.Quo, sdkDec, NewDec]
    have ht : truncRat ((37800000000000000000084000 : ℚ) / ((604800 : Int) : ℚ) *
        10 ^ (2 * 10)) = 6250000000000000000013888888888888888888 := by
      apply truncRat_eq <;> norm_num
    rw [ht]
    have hr : roundHalfEven (((6250000000000000000013888888888888888888 : Int) : ℚ) /
        10 ^ 10) = 625000000000000000001388888889 := by
      apply roundHalfEven_eq_of_lt <;> norm_num
    rw [hr]
    norm_num
  have hq : NewDecFromRat (sdkDec 10) 42000 604800 = 694444444 / 10 ^ 10 := by
    simp only [NewDecFromRat, Dec.Quo, sdkDec, NewDec]
    have ht : truncRat (((42000 : Int) : ℚ) / ((604800 : Int) : ℚ) * 10 ^ (2 * 10)) =
        6944444444444444444 := by
      apply truncRat_eq <;> norm_num
    rw [ht]
    have hr : roundHalfEven (((6944444444444444444 : Int) : ℚ) / 10 ^ 10) = 694444444 := by
      apply roundHalfEven_eq_of_lt <;> norm_num
    rw [hr]
    norm_num
  have hr : Dec.Mul (sdkDec 10) (694444444 / 10 ^ 10) (Coin.ToDec 900000000000000000000) =
      62499999960000000000 := by
    simp only [Dec.Mul, sdkDec, Coin.ToDec]
    have hr : roundHalfEven ((694444444 : ℚ) / 10 ^ 10 *
        ((900000000000000000000 : Int) : ℚ) * 10 ^ 10) =
        624999999600000000000000000000 := by
      apply roundHalfEven_eq_of_lt <;> norm_num
    rw [hr]
    norm_num
  rw [hm, ha, hq, hr]
  norm_num

theorem sdkDec18_drift :
    Dec.Quo (sdkDec 18) (Dec.Mul (sdkDec 18) (Coin.ToDec 900000000000000000002)
        (NewDec 42000)) (NewDec 604800) -
      Dec.Mul (sdkDec 18) (NewDecFromRat (sdkDec 18) 42000 604800)
        (Coin.ToDec 900000000000000000000) =
      400138888888888888889 / 10 ^ 18 := by
  have hm : Dec.Mul (sdkDec 18) (Coin.ToDec 900000000000000000002) (NewDec 42000) =
      37800000000000000000084000 := by
    have := (sdkDec 18).mulRound_int 37800000000000000000084000
    simp only [Dec.Mul, Coin.ToDec, NewDec]
    norm_num at this ⊢
    exact this
  have ha : Dec.Quo (sdkDec 18) 37800000000000000000084000 (NewDec 604800) =
      62500000000000000000138888888888888889 / 10 ^ 18 := by
    simp only [Dec.Quo, sdkDec, NewDec]
    have ht : truncRat ((37800000000000000000084000 : ℚ) / ((604800 : Int) : ℚ) *
        10 ^ (2 * 18)) = 62500000000000000000138888888888888888888888888888888888 := by
      apply truncRat_eq <;> norm_num
    rw [ht]
    have hr : roundHalfEven (((62500000000000000000138888888888888888888888888888888888 : Int) : ℚ) /
        10 ^ 18) = 62500000000000000000138888888888888889 := by
      apply roundHalfEven_eq_of_lt <;> norm_num
    rw [hr]
    norm_num
  have hq : NewDecFromRat (sdkDec 18) 42000 604800 = 69444444444444444 / 10 ^ 18 := by
    simp only [NewDecFromRat, Dec.Quo, sdkDec, NewDec]
    have ht : truncRat (((42000 : Int) : ℚ) / ((604800 : Int) : ℚ) * 10 ^ (2 * 18)) =
        69444444444444444444444444444444444 := by
      apply truncRat_eq <;> norm_num
    rw [ht]
    have hr : roundHalfEven (((69444444444444444444444444444444444 : Int) : ℚ) / 10 ^ 18) = 69444444444444444 := by
      apply roundHalfEven_eq_of_lt <;> norm_num
    rw [hr]
    norm_num
  have hr : Dec.Mul (sdkDec 18) (69444444444444444 / 10 ^ 18) (Coin.ToDec 900000000000000000000) =
      62499999999999999600 := by
    simp only [Dec.Mul, sdkDec, Coin.ToDec]
    have hr : roundHalfEven ((69444444444444444 : ℚ) / 10 ^ 18 *
        ((900000000000000000000 : Int) : ℚ) * 10 ^ 18) =
        62499999999999999600000000000000000000 := by
      apply roundHalfEven_eq_of_lt <;> norm_num
    rw [hr]
    norm_num
  rw [hm, ha, hq, hr]
  norm_num


theorem DecToCoin_drift10 :
    DecToCoin (400000000001388888889 / 10 ^ 10) = 40000000000 := by
  unfold DecToCoin
  apply roundHalfEven_eq_of_lt <;> norm_num

theorem DecToCoin_drift18 :
    DecToCoin (400138888888888888889 / 10 ^ 18) = 400 := by
  unfold DecToCoin
  apply roundHalfEven_eq_of_lt <;> norm_num

theorem driftStore_reachable (dr : DecRound) :
    Reachable dr sampleParams 42000 (driftStore dr) := by
  obtain ⟨h1, h2, h3⟩ := CreateAccount_drift dr
  obtain ⟨h4, -, -⟩ := MinusSavingCoin_drift dr _ h2 h3
  have hr1 : Reachable dr sampleParams 0
      (CreateAccount dr sampleParams 0 AccountStorage.empty "bob" 1 2 3
        900000000000000000003).2 :=
    Reachable.createAccount 0 "bob" 1 2 3 900000000000000000003 _ (Reachable.genesis 0)
      le_rfl (by decide) (Prod.ext h1 rfl)
  exact Reachable.minusSavingCoin 42000 "bob" 900000000000000000000 _ hr1 (by decide)
    (by decide) (Prod.ext h4 rfl)

theorem driftStore_bank (dr : DecRound) :
    (driftStore dr).bank "bob" = some { Saving := 3, CoinDay := 1 } := by
  obtain ⟨-, h2, h3⟩ := CreateAccount_drift dr
  exact (MinusSavingCoin_drift dr _ h2 h3).2.1

theorem driftStore_queue (dr : DecRound) :
    (driftStore dr).queue "bob" =
      some
        { LastUpdatedAt := 42000
          TotalCoinDay :=
            Dec.Quo dr (Dec.Mul dr (Coin.ToDec 900000000000000000002) (NewDec 42000))
                (NewDec 604800) -
              Dec.Mul dr (NewDecFromRat dr 42000 604800)
                (Coin.ToDec 900000000000000000000)
          TotalCoin := 2
          PendingCoinDays := [{ StartTime := 0, EndTime := 604800, Coin := 2 }] } := by
  obtain ⟨-, h2, h3⟩ := CreateAccount_drift dr
  exact (MinusSavingCoin_drift dr _ h2 h3).2.2

theorem driftStore_reads10 :
    (GetCoinDay (sdkDec 10) sampleParams 42000 (driftStore (sdkDec 10)) "bob").2.1 =
      40000000001 ∧
    (GetCoinDay (sdkDec 10) sampleParams 604800 (driftStore (sdkDec 10)) "bob").2.1 = 3 := by
  obtain ⟨h1, h2⟩ := GetCoinDay_drift_reads (sdkDec 10) (driftStore (sdkDec 10)) _
    (driftStore_bank _) (driftStore_queue _)
  rw [sdkDec10_drift, DecToCoin_drift10] at h1
  exact ⟨h1, h2⟩

theorem driftStore_reads18 :
    (GetCoinDay (sdkDec 18) sampleParams 42000 (driftStore (sdkDec 18)) "bob").2.1 = 401 ∧
    (GetCoinDay (sdkDec 18) sampleParams 604800 (driftStore (sdkDec 18)) "bob").2.1 = 3 := by
  obtain ⟨h1, h2⟩ := GetCoinDay_drift_reads (sdkDec 18) (driftStore (sdkDec 18)) _
    (driftStore_bank _) (driftStore_queue _)
  rw [sdkDec18_drift, DecToCoin_drift18] at h1
  exact ⟨h1, h2⟩

/-- The statement of C5 fails under the rounding of `sdk.Dec`: in the reachable state
`driftStore`, last updated at 42000, with one pending entry of 2 coins ending at 604800,
`GetCoinDay` at 42000 returns 40000000001 with 10 fractional digits and 401 with 18,
and at the later time 604800, when the entry matures, it returns 3. -/
theorem GetCoinDay_drops_under_rounding :
    Reachable (sdkDec 10) sampleParams 42000 (driftStore (sdkDec 10)) ∧
    (∃ q : PendingCoinDayQueue, (driftStore (sdkDec 10)).queue "bob" = some q ∧
      q.LastUpdatedAt = 42000 ∧
      q.PendingCoinDays = [{ StartTime := 0, EndTime := 604800, Coin := 2 }]) ∧
    (GetCoinDay (sdkDec 10) sampleParams 42000 (driftStore (sdkDec 10)) "bob").2.1 =
      40000000001 ∧
    (GetCoinDay (sdkDec 10) sampleParams 604800 (driftStore (sdkDec 10)) "bob").2.1 = 3 ∧
    Reachable (sdkDec 18) sampleParams 42000 (driftStore (sdkDec 18)) ∧
    (∃ q : PendingCoinDayQueue, (driftStore (sdkDec 18)).queue "bob" = some q ∧
      q.LastUpdatedAt = 42000 ∧
      q.PendingCoinDays = [{ StartTime := 0, EndTime := 604800, Coin := 2 }]) ∧
    (GetCoinDay (sdkDec 18) sampleParams 42000 (driftStore (sdkDec 18)) "bob").2.1 = 401 ∧
    (GetCoinDay (sdkDec 18) sampleParams 604800 (driftStore (sdkDec 18)) "bob").2.1 = 3 :=
  ⟨driftStore_reachable _, ⟨_, driftStore_queue _, rfl, rfl⟩, driftStore_reads10.1,
    driftStore_reads10.2, driftStore_reachable _, ⟨_, driftStore_queue _, rfl, rfl⟩,
    driftStore_reads18.1, driftStore_reads18.2⟩

/-- The statement of C8 fails under the rounding of `sdk.Dec`: in the reachable state
`driftStore` the bank record of `bob` has `Saving = 3` and `CoinDay = 1`, and `GetCoinDay`
at the block time 42000 of the state returns 40000000001 with 10 fractional digits and
401 with 18: the accrual `Quo(Mul(TotalCoin, dt), W)` is rounded once, the weight taken
out by the withdrawal is `Mul(Quo(dt, W), coin)` with the ratio rounded down first. -/
theorem GetCoinDay_exceeds_saving_under_rounding :
    Reachable (sdkDec 10) sampleParams 42000 (driftStore (sdkDec 10)) ∧
    (driftStore (sdkDec 10)).bank "bob" = some { Saving := 3, CoinDay := 1 } ∧
    (GetCoinDay (sdkDec 10) sampleParams 42000 (driftStore (sdkDec 10)) "bob").2.1 =
      40000000001 ∧
    Reachable (sdkDec 18) sampleParams 42000 (driftStore (sdkDec 18)) ∧
    (driftStore (sdkDec 18)).bank "bob" = some { Saving := 3, CoinDay := 1 } ∧
    (GetCoinDay (sdkDec 18) sampleParams 42000 (driftStore (sdkDec 18)) "bob").2.1 = 401 :=
  ⟨driftStore_reachable _, driftStore_bank _, driftStore_reads10.1, driftStore_reachable _,
    driftStore_bank _, driftStore_reads18.1⟩

end Lino
